import Mathlib

/-!
# engine2: the rectangle search tree and the simulation driver

A shallow embedding of `RectSearchTree<N, Rep>` and of its iterators
(`engine2/impl/rect_search_tree.h`) and of the driver `Space<N, ObjectTypes...>`
(`engine2/space.h`), and the properties that the design document states about
them.

Conventions of the embedding

* `int64_t` coordinates are integers (`Int`); signed overflow is undefined in
  C++, so the embedding describes the executions that stay inside the range.
* An owning pointer `std::unique_ptr<RectSearchTree>` is a value of
  `RectSearchTree`, the null pointer being the constructor `null`.
* A raw pointer `RectSearchTree*` to a node of a tree is the path that leads to
  the node from the root the operation was invoked on.
* `std::list<Rep>` is a list of cells, each with the address of its list node;
  a `std::list<Rep>::iterator` is the address of the cell it points to, or
  `none` when it is past the end.
* Loops that the C++ runs until a condition holds take a fuel argument; the
  result is `none` when the fuel runs out or when the C++ behaviour is
  undefined (a dangling pointer, a stale list iterator, a dereference past
  the end of an entry list).
* A `double` time is an exact number of microseconds (`Int`); the conversion
  of a time in milliseconds to `int64_t` truncates toward zero, as in C++.
  The rounding of `double` arithmetic is not modelled: the product of a time
  with 1000 is exact here, as it is in the source for a whole number of
  seconds.
* A `Motion*` and a `Space::Iterator` are the address of the record in the
  list `motions_`.
* The physics objects, the collision-time function and the user objects are
  not among the sources; the driver is embedded for any such collaborators,
  and the calls across that boundary are listed in the field `observed`.
-/

namespace Engine2

/-! ## Boxes (`engine2/rect.h`, declarations used by the tree) -/

/-- Axis-aligned box `Rect<int64_t, N>`: an origin vector `pos` and a size
vector `size`. -/
structure Rect (N : Nat) where
  pos : Fin N → Int
  size : Fin N → Int

namespace Rect

variable {N : Nat}

/-- Modelled from the spec: `Rect::Contains(const Rect&)` of `engine2/rect.h`,
which is not among the sources. Containment: on every axis the extent of
`other` lies inside the extent of `r`. -/
def Contains (r other : Rect N) : Prop :=
  ∀ i : Fin N, r.pos i ≤ other.pos i ∧ other.pos i + other.size i ≤ r.pos i + r.size i

/-- Modelled from the spec: `Rect::Overlaps` of `engine2/rect.h`, which is not
among the sources. Overlap is an intersection of positive measure: on every
axis the two extents share an interval of positive length. -/
def Overlaps (r other : Rect N) : Prop :=
  ∀ i : Fin N, max (r.pos i) (other.pos i) < min (r.pos i + r.size i) (other.pos i + other.size i)

/-- Modelled from the spec: `Rect::Touches` of `engine2/rect.h`, which is not
among the sources. Touch is a boundary-adjacent intersection of zero measure:
the two boxes meet on every axis, and on some axis they share a single
coordinate only. -/
def Touches (r other : Rect N) : Prop :=
  (∀ i : Fin N, max (r.pos i) (other.pos i) ≤ min (r.pos i + r.size i) (other.pos i + other.size i)) ∧
  ∃ i : Fin N, max (r.pos i) (other.pos i) = min (r.pos i + r.size i) (other.pos i + other.size i)

instance (r other : Rect N) : Decidable (r.Contains other) :=
  inferInstanceAs (Decidable (∀ _ : Fin N, _))

instance (r other : Rect N) : Decidable (r.Overlaps other) :=
  inferInstanceAs (Decidable (∀ _ : Fin N, _))

instance (r other : Rect N) : Decidable (r.Touches other) :=
  inferInstanceAs (Decidable ((∀ _ : Fin N, _) ∧ ∃ _ : Fin N, _))

/-- The loop `for (int i = 0; i < N; ++i) ++rect_copy.size[i];` of `Find`. -/
def grow (r : Rect N) : Rect N :=
  { pos := r.pos, size := fun i => r.size i + 1 }

end Rect

/-! ## `std::list<Rep>` with stable iterators -/

/-- The address the allocator hands out for a new list node: one that no cell
of the list uses (any such address behaves alike; the embedding takes one above
all of them). -/
def freshAddr {Rep : Type} : List (Nat × Rep) → Nat
  | [] => 0
  | c :: l => max (c.1 + 1) (freshAddr l)

/-- Cells after `std::list::insert(pos, obj)`: the new cell goes right before
the cell `pos` points to, at the back when `pos` is past the end. -/
def insertCells {Rep : Type} (c : Nat × Rep) : List (Nat × Rep) → Option Nat → List (Nat × Rep)
  | l, none => l ++ [c]
  | [], some _ => [c]
  | x :: rest, some a => if x.1 = a then c :: x :: rest else x :: insertCells c rest (some a)

/-- The iterator `++it` for an iterator `it` at the cell with address `a`: the
address of the following cell, `some none` when `it` was at the last cell, and
`none` when no cell has address `a` (a stale iterator). -/
def nextCell {Rep : Type} : List (Nat × Rep) → Nat → Option (Option Nat)
  | [], _ => none
  | x :: rest, a => if x.1 = a then some (rest.head?.map Prod.fst) else nextCell rest a

theorem lt_freshAddr {Rep : Type} (l : List (Nat × Rep)) : ∀ c ∈ l, c.1 < freshAddr l := by
  induction l with
  | nil => simp
  | cons x rest ih =>
    intro c hc
    rcases List.mem_cons.1 hc with h | h
    · subst h; simp [freshAddr]
    · have := ih c h
      simp only [freshAddr]; omega

theorem insertCells_perm {Rep : Type} (c : Nat × Rep) (l : List (Nat × Rep)) (pos : Option Nat) :
    (insertCells c l pos).Perm (c :: l) := by
  induction l with
  | nil => cases pos <;> simp [insertCells]
  | cons x rest ih =>
    cases pos with
    | none => simpa [insertCells] using (@List.perm_append_comm _ (x :: rest) [c])
    | some a =>
      by_cases h : x.1 = a
      · simp [insertCells, h]
      · simp only [insertCells, h, if_false]
        exact (List.Perm.cons x ih).trans (List.Perm.swap c x rest)

theorem insertCells_nodup {Rep : Type} (l : List (Nat × Rep)) (pos : Option Nat) (obj : Rep)
    (h : (l.map Prod.fst).Nodup) :
    ((insertCells (freshAddr l, obj) l pos).map Prod.fst).Nodup := by
  refine ((insertCells_perm (freshAddr l, obj) l pos).map Prod.fst).nodup_iff.2 ?_
  simp only [List.map_cons, List.nodup_cons]
  refine ⟨?_, h⟩
  intro hmem
  obtain ⟨c, hc, hfst⟩ := List.mem_map.1 hmem
  have := lt_freshAddr l c hc
  omega

/-- The container `std::list<Rep>`: its cells in order, each with the address
of its list node; the addresses of the cells of one list are distinct. -/
structure StdList (Rep : Type) where
  cells : List (Nat × Rep)
  distinct : (cells.map Prod.fst).Nodup

namespace StdList

variable {Rep : Type}

/-- The empty list a node is constructed with. -/
def nil : StdList Rep := ⟨[], List.nodup_nil⟩

/-- The payloads of the list, in order. -/
def values (l : StdList Rep) : List Rep := l.cells.map Prod.snd

/-- The test `reps_.empty()`. -/
def empty (l : StdList Rep) : Bool := l.cells.isEmpty

/-- The iterator `reps_.begin()`; it is `reps_.end()`, that is `none`, on an
empty list. -/
def begin (l : StdList Rep) : Option Nat := l.cells.head?.map Prod.fst

/-- Dereference `*it` of a list iterator: the payload of the cell it points to;
`none` for the past-the-end iterator and for a stale one, which the C++
leaves undefined. -/
def deref (l : StdList Rep) (it : Option Nat) : Option Rep :=
  it.bind fun a => l.cells.lookup a

/-- Whether `it` points to a cell of the list. -/
def pointsInside (l : StdList Rep) (it : Option Nat) : Bool :=
  match it with
  | none => false
  | some a => (l.cells.map Prod.fst).contains a

/-- The call `reps_.insert(pos, obj)`: the list with the new cell and the
iterator to it; `none` when `pos` is a stale iterator. -/
def insert (l : StdList Rep) (pos : Option Nat) (obj : Rep) : Option (StdList Rep × Option Nat) :=
  if pos = none ∨ l.pointsInside pos then
    some (⟨insertCells (freshAddr l.cells, obj) l.cells pos, insertCells_nodup l.cells pos obj l.distinct⟩,
      some (freshAddr l.cells))
  else none

/-- The call `reps_.erase(it)`: the list without the cell `it` points to;
`none` when `it` is past the end or stale. -/
def erase (l : StdList Rep) (it : Option Nat) : Option (StdList Rep) :=
  match it with
  | none => none
  | some a =>
    if l.pointsInside (some a) then
      some ⟨l.cells.eraseP (fun c => c.1 == a),
        l.distinct.sublist ((List.eraseP_sublist l.cells).map Prod.fst)⟩
    else none

end StdList

/-! ## The tree -/

/-- Which of the two owned children, `child_a_` or `child_b_`. -/
inductive Side where
  | a
  | b
  deriving DecidableEq, Repr

/-- A `RectSearchTree*` into a tree: the sides to take from the root. -/
abbrev NodePtr := List Side

/-- A `std::unique_ptr<RectSearchTree<N, Rep>>`: `null`, or a node with its
domain `rect_`, its two owned children and its entries `reps_`. -/
inductive RectSearchTree (N : Nat) (Rep : Type) where
  | null : RectSearchTree N Rep
  | node (rect_ : Rect N) (child_a_ child_b_ : RectSearchTree N Rep) (reps_ : StdList Rep) :
      RectSearchTree N Rep

namespace RectSearchTree

variable {N : Nat} {Rep : Type}

/-- The test `!ptr` on a pointer to a tree. -/
def isNull : RectSearchTree N Rep → Bool
  | null => true
  | node _ _ _ _ => false

/-- The member `reps_` of a node (no entries behind a null pointer). -/
def reps : RectSearchTree N Rep → StdList Rep
  | null => StdList.nil
  | node _ _ _ reps_ => reps_

/-- The member `rect_` of a node, `GetRect()`. -/
def GetRect : RectSearchTree N Rep → Option (Rect N)
  | null => none
  | node rect_ _ _ _ => some rect_

/-- The pointer `child_a_.get()` or `child_b_.get()` of a node. -/
def child : RectSearchTree N Rep → Side → RectSearchTree N Rep
  | null, _ => null
  | node _ child_a_ _ _, Side.a => child_a_
  | node _ _ child_b_ _, Side.b => child_b_

/-- The node a pointer designates: follow the path from the root; `null` when
the path leaves the tree. -/
def nodeAt : RectSearchTree N Rep → NodePtr → RectSearchTree N Rep
  | t, [] => t
  | t, s :: p => nodeAt (t.child s) p

/-- The tree after the entry list of the node at `p` has been replaced. -/
def setReps : RectSearchTree N Rep → NodePtr → StdList Rep → RectSearchTree N Rep
  | null, _, _ => null
  | node rect_ child_a_ child_b_ _, [], l => node rect_ child_a_ child_b_ l
  | node rect_ child_a_ child_b_ reps_, Side.a :: p, l => node rect_ (setReps child_a_ p l) child_b_ reps_
  | node rect_ child_a_ child_b_ reps_, Side.b :: p, l => node rect_ child_a_ (setReps child_b_ p l) reps_

/-- The payloads stored in the node at `p`, in order. -/
def entriesAt (t : RectSearchTree N Rep) (p : NodePtr) : List Rep :=
  (t.nodeAt p).reps.values

/-- Number of nodes of a tree. -/
def size : RectSearchTree N Rep → Nat
  | null => 0
  | node _ child_a_ child_b_ _ => 1 + child_a_.size + child_b_.size

/-- All payloads stored in the tree, node by node. -/
def allEntries : RectSearchTree N Rep → List Rep
  | null => []
  | node _ child_a_ child_b_ reps_ => reps_.values ++ child_a_.allEntries ++ child_b_.allEntries

/-- The loop of `Create` that finds the index and the length of the longest
dimension of a size vector, starting from index 0 and length 0. -/
def longestDimension (size : Fin N → Int) : Nat × Int :=
  (List.finRange N).foldl (fun acc i => if size i > acc.2 then (i.val, size i) else acc) (0, 0)

/-- The function `Create(rect, tree_depth)`. The depth is a natural number:
the C++ takes an `int` and does not terminate normally on a negative one. -/
def Create (rect : Rect N) : Nat → RectSearchTree N Rep
  | 0 => null
  | tree_depth + 1 =>
    let longest_dimension := (longestDimension rect.size).1
    let longest_dimension_length := (longestDimension rect.size).2
    let half_longest_length := longest_dimension_length.tdiv 2
    let child_size_1 : Fin N → Int := fun i =>
      if i.val = longest_dimension then half_longest_length else rect.size i
    let child_size_2 : Fin N → Int := fun i =>
      if i.val = longest_dimension then longest_dimension_length - half_longest_length else rect.size i
    let child_pos_2 : Fin N → Int := fun i =>
      if i.val = longest_dimension then rect.pos i + half_longest_length else rect.pos i
    node rect (Create ⟨rect.pos, child_size_1⟩ tree_depth) (Create ⟨child_pos_2, child_size_2⟩ tree_depth)
      StdList.nil

/-- The function `FindInternal(rect)`, called on the node `this`; the result
is the pointer relative to `this`, `none` for `nullptr`. -/
def FindInternal : RectSearchTree N Rep → Rect N → Option NodePtr
  | null, _ => none
  | node rect_ child_a_ child_b_ _, rect =>
    if ¬ rect_.Contains rect then none
    else if !child_a_.isNull && !child_b_.isNull then
      match FindInternal child_a_ rect with
      | some result => some (Side.a :: result)
      | none =>
        match FindInternal child_b_ rect with
        | some result => some (Side.b :: result)
        | none => some []
    else some []

/-! ## Iterators -/

/-- The class `RectSearchTree::Iterator`: the queue of pending nodes, whose
front is the current node, and the cursor into the entries of the current
node. -/
structure Iterator where
  node_queue_ : List NodePtr
  list_iterator_ : Option Nat

namespace Iterator

/-- The default-constructed iterator `Iterator()`, which `end()` returns. -/
def default : Iterator := ⟨[], none⟩

/-- The base filter `Iterator::ShouldIncludeSubtree`: every subtree is
included, a null pointer is not. -/
def ShouldIncludeSubtree (subtree : RectSearchTree N Rep) : Bool :=
  !subtree.isNull

/-- The constructor `Iterator(start_node)`. The filter it calls is the one of
`Iterator` itself, also while a `NearIterator` is being constructed. -/
def atNode (root : RectSearchTree N Rep) (start_node : NodePtr) : Iterator :=
  if ShouldIncludeSubtree (root.nodeAt start_node) then
    ⟨[start_node], (root.nodeAt start_node).reps.begin⟩
  else default

/-- The accessor `Subtree()`, the front of the queue. -/
def Subtree (it : Iterator) : Option NodePtr := it.node_queue_.head?

/-- The conversion `operator bool`. -/
def toBool (it : Iterator) : Bool := !it.node_queue_.isEmpty

/-- The comparison `operator==`. -/
def eq (it other : Iterator) : Bool :=
  if it.node_queue_.isEmpty && other.node_queue_.isEmpty then true
  else if it.node_queue_.isEmpty != other.node_queue_.isEmpty then false
  else it.node_queue_.head? == other.node_queue_.head? && it.list_iterator_ == other.list_iterator_

/-- The dereference `operator*`, that is `*list_iterator_`, the cursor being one
into the entries of the current node; `none` when the cursor points to no
entry (past the end, stale, or no current node), which the C++ leaves
undefined. -/
def deref (root : RectSearchTree N Rep) (it : Iterator) : Option Rep :=
  match it.node_queue_ with
  | [] => none
  | current :: _ => (root.nodeAt current).reps.deref it.list_iterator_

/-- The loop of `Iterator::Advance`, entered with the flag `in_same_node`;
`should` is the virtual `ShouldIncludeSubtree` of the iterator. -/
def AdvanceLoop (should : RectSearchTree N Rep → Bool) (root : RectSearchTree N Rep) :
    Nat → Bool → Iterator → Option Iterator
  | 0, _, _ => none
  | fuel + 1, in_same_node, it =>
    match it.node_queue_ with
    | [] => some it
    | current :: rest =>
      match root.nodeAt current with
      | null => none
      | node _ child_a_ child_b_ reps_ =>
        let stepped : Option (Bool × Option Nat) :=
          if in_same_node then
            match it.list_iterator_ with
            | none => some (false, none)
            | some a => (nextCell reps_.cells a).map fun following => (following.isSome, following)
          else some (false, it.list_iterator_)
        match stepped with
        | none => none
        | some (true, cursor) => some ⟨current :: rest, cursor⟩
        | some (false, cursor) =>
          let queue_a := if should child_a_ then (current :: rest) ++ [current ++ [Side.a]] else current :: rest
          let queue_b := if should child_b_ then queue_a ++ [current ++ [Side.b]] else queue_a
          let queue := queue_b.tail
          match queue with
          | [] => some ⟨[], cursor⟩
          | front :: _ =>
            if !(root.nodeAt front).reps.empty then some ⟨queue, (root.nodeAt front).reps.begin⟩
            else AdvanceLoop should root fuel false ⟨queue, cursor⟩

/-- The method `Iterator::Advance()`, that is `operator++`. -/
def Advance (should : RectSearchTree N Rep → Bool) (root : RectSearchTree N Rep) (fuel : Nat)
    (it : Iterator) : Option Iterator :=
  AdvanceLoop should root fuel true it

/-- The loop `for (it = begin; it != end(); ++it) visit(*it)` a range-based
`for` runs: the list of what each step sees, the current node and the
dereferenced cursor. -/
def traverse (should : RectSearchTree N Rep → Bool) (root : RectSearchTree N Rep) :
    Nat → Iterator → Option (List (NodePtr × Option Rep))
  | 0, _ => none
  | fuel + 1, it =>
    if it.eq default then some []
    else
      match it.Subtree, Advance should root fuel it with
      | some current, some following =>
        (traverse should root fuel following).map fun out => (current, it.deref root) :: out
      | _, _ => none

end Iterator

/-- The class `NearIterator`: an `Iterator` with the query box `rect_`. -/
structure NearIterator (N : Nat) extends Iterator where
  rect_ : Rect N

namespace NearIterator

/-- The override `NearIterator::ShouldIncludeSubtree`: only subtrees whose
domain touches or overlaps `rect_`. -/
def ShouldIncludeSubtree (rect_ : Rect N) : RectSearchTree N Rep → Bool
  | null => false
  | node subtree_rect _ _ _ => decide (rect_.Overlaps subtree_rect) || decide (rect_.Touches subtree_rect)

/-- The constructor `NearIterator(start_node, rect)`: the base constructor
`Iterator(start_node)`, then `rect_(rect)`. -/
def atNode (root : RectSearchTree N Rep) (start_node : NodePtr) (rect : Rect N) : NearIterator N :=
  { toIterator := Iterator.atNode root start_node, rect_ := rect }

/-- The `operator++` of `NearIterator`: `Iterator::Advance()` with the
overriding filter. -/
def Advance (root : RectSearchTree N Rep) (fuel : Nat) (it : NearIterator N) : Option (NearIterator N) :=
  (Iterator.Advance (ShouldIncludeSubtree it.rect_) root fuel it.toIterator).map
    fun following => { toIterator := following, rect_ := it.rect_ }

end NearIterator

/-- The member `begin()`: `Iterator(this)`. -/
def begin (root : RectSearchTree N Rep) : Iterator := Iterator.atNode root []

/-- The member `Near(rect).begin()`: `NearIterator(tree, rect)`. -/
def nearBegin (root : RectSearchTree N Rep) (rect : Rect N) : NearIterator N :=
  NearIterator.atNode root [] rect

/-- What `for (Rep x : tree)` sees, step by step. -/
def fullTraversal (root : RectSearchTree N Rep) (fuel : Nat) : Option (List (NodePtr × Option Rep)) :=
  Iterator.traverse Iterator.ShouldIncludeSubtree root fuel root.begin

/-- What `for (Rep x : tree.Near(rect))` sees, step by step. -/
def nearTraversal (root : RectSearchTree N Rep) (rect : Rect N) (fuel : Nat) :
    Option (List (NodePtr × Option Rep)) :=
  Iterator.traverse (NearIterator.ShouldIncludeSubtree rect) root fuel (root.nearBegin rect).toIterator

/-! ## Find, Insert, Remove -/

/-- The method `Find(rect)`. -/
def Find (root : RectSearchTree N Rep) (rect : Rect N) : Iterator :=
  let rect_copy := rect.grow
  match FindInternal root rect_copy with
  | none => Iterator.atNode root []
  | some subtree => Iterator.atNode root subtree

/-- The method `Iterator::InsertBefore(obj)`: the tree after the insertion and
the returned iterator; `none` when the iterator has no current node or its
cursor is stale. -/
def InsertBefore (root : RectSearchTree N Rep) (it : Iterator) (obj : Rep) :
    Option (RectSearchTree N Rep × Iterator) :=
  match it.node_queue_ with
  | [] => none
  | subtree :: _ =>
    match root.nodeAt subtree with
    | null => none
    | node _ _ _ reps_ =>
      match reps_.insert it.list_iterator_ obj with
      | none => none
      | some (inserted, cursor) =>
        some (root.setReps subtree inserted, { Iterator.atNode root subtree with list_iterator_ := cursor })

/-- The overload `Insert(Iterator&&, Rep)`. -/
def InsertAt (root : RectSearchTree N Rep) (iterator : Iterator) (obj : Rep) :
    Option (RectSearchTree N Rep × Iterator) :=
  InsertBefore root iterator obj

/-- The overload `Insert(const Rect&, Rep)`. -/
def Insert (root : RectSearchTree N Rep) (rect : Rect N) (obj : Rep) :
    Option (RectSearchTree N Rep × Iterator) :=
  InsertAt root (Find root rect) obj

/-- The method `Iterator::Erase()`: the tree after the erasure; `none` when
the iterator designates no entry. -/
def Erase (root : RectSearchTree N Rep) (it : Iterator) : Option (RectSearchTree N Rep) :=
  match it.node_queue_ with
  | [] => none
  | subtree :: _ =>
    match root.nodeAt subtree with
    | null => none
    | node _ _ _ reps_ => (reps_.erase it.list_iterator_).map (root.setReps subtree)

/-- The method `Remove(Iterator&&)`. -/
def Remove (root : RectSearchTree N Rep) (iterator : Iterator) : Option (RectSearchTree N Rep) :=
  Erase root iterator

/-- Modelled from the spec: `RectSearchTree::Move(Iterator&&, const Rect&)`,
which `Space::Motion::UpdateEnclosingRect` calls and the header does not
define. The spec: relocation is "conceptually remove-then-reinsert using
new_box", provided as a single operation, and "returns a new handle". -/
def Move (root : RectSearchTree N Rep) (iterator : Iterator) (rect : Rect N) :
    Option (RectSearchTree N Rep × Iterator) :=
  match iterator.deref root, Remove root iterator with
  | some obj, some removed => Insert removed rect obj
  | _, _ => none

/-- A sequence of `Insert(rect, obj)` calls, in order. -/
def insertAll : RectSearchTree N Rep → List (Rect N × Rep) → Option (RectSearchTree N Rep)
  | root, [] => some root
  | root, (rect, obj) :: calls =>
    match Insert root rect obj with
    | none => none
    | some (inserted, _) => insertAll inserted calls

/-- The shape every tree of the class has, the constructor being private and
`Create` the only function that builds nodes: a node has both children or
none. -/
def Paired : RectSearchTree N Rep → Prop
  | null => True
  | node _ child_a_ child_b_ _ => child_a_.isNull = child_b_.isNull ∧ Paired child_a_ ∧ Paired child_b_

/-- A valid handle: it has a current node and its cursor points to one of the
entries of that node. -/
def Iterator.designates (root : RectSearchTree N Rep) (it : Iterator) : Bool :=
  match it.node_queue_ with
  | [] => false
  | current :: _ => (root.nodeAt current).reps.pointsInside it.list_iterator_

/-- The entries of the nodes that a traversal with the filter `should` enters
at and below a node `t` designated by `p`, each with the pointer to its node. -/
def visited (should : RectSearchTree N Rep → Bool) : RectSearchTree N Rep → NodePtr → List (NodePtr × Rep)
  | null, _ => []
  | node _ child_a_ child_b_ reps_, p =>
    reps_.values.map (fun v => (p, v)) ++
      ((if should child_a_ then visited should child_a_ (p ++ [Side.a]) else []) ++
        (if should child_b_ then visited should child_b_ (p ++ [Side.b]) else []))

/-- The pointers `Advance` pushes when it leaves the node at `current`. -/
def childrenOf (should : RectSearchTree N Rep → Bool) (root : RectSearchTree N Rep) (current : NodePtr) :
    List NodePtr :=
  (if should ((root.nodeAt current).child Side.a) then [current ++ [Side.a]] else []) ++
    (if should ((root.nodeAt current).child Side.b) then [current ++ [Side.b]] else [])

/-- The entries still to come from the nodes of a queue and from what they
lead to. -/
def pending (should : RectSearchTree N Rep → Bool) (root : RectSearchTree N Rep) :
    List NodePtr → List (NodePtr × Rep)
  | [] => []
  | p :: queue => visited should (root.nodeAt p) p ++ pending should root queue

/-- Number of nodes at and below the nodes of a queue. -/
def weight (root : RectSearchTree N Rep) : List NodePtr → Nat
  | [] => 0
  | p :: queue => (root.nodeAt p).size + weight root queue

/-- What `Advance` does once it has left the current node: the children pushed,
the node popped, it settles on the next node that has entries. -/
def afterNode (should : RectSearchTree N Rep → Bool) (root : RectSearchTree N Rep) (fuel : Nat)
    (current : NodePtr) (rest : List NodePtr) (cursor : Option Nat) : Option Iterator :=
  match rest ++ childrenOf should root current with
  | [] => some ⟨[], cursor⟩
  | front :: queue =>
    if !(root.nodeAt front).reps.empty then some ⟨front :: queue, (root.nodeAt front).reps.begin⟩
    else Iterator.AdvanceLoop should root fuel false ⟨front :: queue, cursor⟩

/-- A traversal state at the head of the loop: every queued pointer designates
a node, and the cursor points to an entry of the current node. -/
def Settled (root : RectSearchTree N Rep) (it : Iterator) : Prop :=
  (∀ p ∈ it.node_queue_, (root.nodeAt p).isNull = false) ∧
  (it.node_queue_ = [] ∨ it.designates root = true)

/-- The cells of a list from the one with address `a` on. -/
def cellsFrom (a : Nat) : List (Nat × Rep) → List (Nat × Rep)
  | [] => []
  | c :: cells => if c.1 = a then c :: cells else cellsFrom a cells

/-- What a traversal in a settled state has still to yield. -/
def remaining (should : RectSearchTree N Rep → Bool) (root : RectSearchTree N Rep) (it : Iterator) :
    List (NodePtr × Rep) :=
  match it.node_queue_, it.list_iterator_ with
  | current :: rest, some a =>
    (cellsFrom a (root.nodeAt current).reps.cells).map (fun c => (current, c.2)) ++
      pending should root (rest ++ childrenOf should root current)
  | _, _ => []

/-- The containment invariant as the design document states it, for a tree
whose payloads record the box they were inserted with: the domain of the node
that holds an entry contains the box of the entry expanded by one unit of size
per dimension. -/
def ContainmentInvariant {P : Type} (tree : RectSearchTree N (Rect N × P)) : Prop :=
  ∀ p r a b reps_, tree.nodeAt p = node r a b reps_ → ∀ e ∈ reps_.values,
    r.Contains ⟨e.1.pos, fun i => e.1.size i + 1⟩

/-- A single node over `[0, 8)` holding the payloads 5 and 6, in cells 1 and 0. -/
def twoEntries : RectSearchTree 1 Nat :=
  node ⟨fun _ => 0, fun _ => 8⟩ null null ⟨[(1, 5), (0, 6)], by decide⟩

/-- The entries a traversal yields: the dereferences that are entries. -/
def yielded (out : List (NodePtr × Option Rep)) : List Rep :=
  out.filterMap Prod.snd

/-- The values a range-for loop over a traversal runs its body on, one per
step, in order: the loop dereferences the iterator at every step, so there are
such values only when every step stands on an entry. A step past the end of an
entry list has no value (the behaviour of the dereference is undefined). -/
def dereferenced : List (NodePtr × Option Rep) → Option (List Rep)
  | [] => some []
  | (_, none) :: _ => none
  | (_, some rep) :: out => (dereferenced out).map fun reps => rep :: reps

end RectSearchTree

/-! ## The simulation driver (`engine2/space.h`) -/

/-- A `double` number of seconds. The embedding keeps times exact, as whole
numbers of microseconds; the rounding of floating-point arithmetic is not
modelled. -/
abbrev Time := Int

/-- The conversion of `t * 1000` to `int64_t`: the whole milliseconds of `t`,
truncated toward zero. The product is taken exactly. The `double` product of
the source agrees with it when it is exact, as it is for a whole number of
seconds, and when the exact product is not a whole number; for a time such as
1.001 s, whose `double` product 1000.9999999999999 falls short of the whole
number 1001, the source stores 1000 and the embedding 1001. -/
def toMillis (t : Time) : Int := t.tdiv 1000

/-- The quotient `ms / 1000.`: a whole number of milliseconds as a time. -/
def ofMillis (ms : Int) : Time := ms * 1000

/-- Modelled from the spec: the external collaborators of the driver, which are
not among the sources (`engine2/physics_object.h`, the free function
`GetCollisionTime`, the user object types). `Phys` is the physical state of an
object and `Obj` the user object; the fields are the operations the driver
calls: the current footprint, the footprint after a time delta, the in-place
time advance, `physics->rect.pos[dimension]`, `physics->velocity[dimension]`,
the 1-D elastic response, the earliest collision time with its axis (negative
when there is none), and the collision notification, which answers with the
handles it passes to `Space::Remove`. -/
structure Collaborators (N : Nat) (Phys Obj : Type) where
  GetRect : Phys → Rect N
  GetRectAfterTime : Phys → Time → Rect N
  Update : Phys → Time → Phys
  position : Phys → Nat → Int
  velocity : Phys → Nat → Int
  ElasticCollision1D : Phys → Phys → Nat → Phys × Phys
  GetCollisionTime : Phys → Time → Phys → Time → Time × Nat
  OnCollideWith : Obj → Obj → Time → List Nat

/-- A call across the boundary of the driver, as an observer of a run sees it:
a call the driver makes to a collaborator (for `GetCollisionTime`, with the
time and axis it returned), or a `Remove` call the driver receives. Records
are named by their address. -/
inductive Call where
  | Update (record : Nat) (dt : Time)
  | OnCollideWith (self other : Nat) (time : Time)
  | ElasticCollision1D (a b : Nat) (dimension : Nat)
  | GetCollisionTime (a b : Nat) (time : Time) (dimension : Nat)
  | Remove (iterator : Nat)
  deriving DecidableEq, Repr

theorem map_fst_setCell {Rep : Type} (a : Nat) (v : Rep) (cells : List (Nat × Rep)) :
    (cells.map fun c => (c.1, if c.1 = a then v else c.2)).map Prod.fst = cells.map Prod.fst := by
  rw [List.map_map]; rfl

/-- The assignment `*it = v` through a list iterator: the cell with address
`a` gets the value `v`. -/
def StdList.set {Rep : Type} (l : StdList Rep) (a : Nat) (v : Rep) : StdList Rep :=
  ⟨l.cells.map fun c => (c.1, if c.1 = a then v else c.2), by
    rw [map_fst_setCell]; exact l.distinct⟩

/-- The struct `Space::Motion`; the physical state `*physics` is kept in the
record. -/
structure Motion (N : Nat) (Phys Obj : Type) where
  object : Obj
  physics : Phys
  enclosing_rect : Rect (N + 1)
  tree_iterator : RectSearchTree.Iterator
  marked_for_removal : Bool

/-- The struct `Space::Collision`; `motion_a` and `motion_b` are the addresses
of the two records. -/
structure Collision where
  motion_a : Nat
  motion_b : Nat
  time : Time
  dimension : Nat
  deriving DecidableEq, Repr

/-- The class `Space<N, ObjectTypes...>`. The field `observed` is not a member:
it lists the calls observed so far, oldest first. -/
structure Space (N : Nat) (Phys Obj : Type) where
  motions_ : StdList (Motion N Phys Obj)
  tree_ : RectSearchTree (N + 1) Nat
  advance_time_call_depth_ : Int
  time_seconds_ : Time
  observed : List Call

/-- The queue `CollisionQueue`, a `std::priority_queue` ordered by
`operator>` on the time: kept in ascending time, the top first. -/
abbrev CollisionQueue := List Collision

namespace CollisionQueue

/-- The call `queue->push(collision)`. The standard leaves the order of
elements of equal time open; the new element goes behind them, so that, as
with the heap algorithms, a push changes the top only when the new element is
strictly earlier. -/
def push : CollisionQueue → Collision → CollisionQueue
  | [], collision => [collision]
  | x :: queue, collision =>
    if collision.time < x.time then collision :: x :: queue else x :: push queue collision

/-- The call `queue.pop()`. -/
def pop (queue : CollisionQueue) : CollisionQueue := queue.tail

/-- The call `queue.top()`. -/
def top (queue : CollisionQueue) : Option Collision := queue.head?

end CollisionQueue

namespace Motion

variable {N : Nat} {Phys Obj : Type}

/-- The method `Motion::Time()`: `enclosing_rect.pos[N] / 1000.`. -/
def Time (m : Motion N Phys Obj) : Engine2.Time :=
  ofMillis (m.enclosing_rect.pos (Fin.last N))

/-- The box `UpdateEnclosingRect(tree, start_time, finish_time)` computes
before it relocates the record: on the space axes the hull of `GetRect()` and
of `GetRectAfterTime(finish_time)`, on the time axis `start_time * 1000` and
`(finish_time - start_time) * 1000`. -/
def sweptRect (c : Collaborators N Phys Obj) (physics : Phys) (start_time finish_time : Engine2.Time) :
    Rect (N + 1) :=
  let start_rect := c.GetRect physics
  let finish_rect := c.GetRectAfterTime physics finish_time
  { pos := fun j =>
      if h : j.val < N then min (start_rect.pos ⟨j.val, h⟩) (finish_rect.pos ⟨j.val, h⟩)
      else toMillis start_time
    size := fun j =>
      if h : j.val < N then
        max (start_rect.pos ⟨j.val, h⟩ + start_rect.size ⟨j.val, h⟩)
            (finish_rect.pos ⟨j.val, h⟩ + finish_rect.size ⟨j.val, h⟩) -
          min (start_rect.pos ⟨j.val, h⟩) (finish_rect.pos ⟨j.val, h⟩)
      else toMillis (finish_time - start_time) }

/-- The method `Motion::UpdateEnclosingRect(tree, start_time, finish_time)`:
the record and the tree after it. -/
def UpdateEnclosingRect (c : Collaborators N Phys Obj) (tree : RectSearchTree (N + 1) Nat)
    (m : Motion N Phys Obj) (start_time finish_time : Engine2.Time) :
    Option (Motion N Phys Obj × RectSearchTree (N + 1) Nat) :=
  let enclosing_rect := sweptRect c m.physics start_time finish_time
  match RectSearchTree.Move tree m.tree_iterator enclosing_rect with
  | none => none
  | some (moved, tree_iterator) =>
    some ({ m with enclosing_rect := enclosing_rect, tree_iterator := tree_iterator }, moved)

end Motion

namespace Collision

variable {N : Nat} {Phys Obj : Type}

/-- The method `Collision::IsValid()`, `a` and `b` being the records
`*motion_a` and `*motion_b`. -/
def IsValid (c : Collaborators N Phys Obj) (a b : Motion N Phys Obj) (collision : Collision) : Bool :=
  if ¬ (c.GetRectAfterTime a.physics (collision.time - a.Time)).Touches
      (c.GetRectAfterTime b.physics (collision.time - b.Time)) then false
  else if c.position a.physics collision.dimension < c.position b.physics collision.dimension then
    decide (c.velocity a.physics collision.dimension > c.velocity b.physics collision.dimension)
  else
    decide (c.velocity b.physics collision.dimension > c.velocity a.physics collision.dimension)

end Collision

namespace Space

variable {N : Nat} {Phys Obj : Type}

/-- The constructor `Space(rect)`: the index spans `rect` and the time range
`[0, 1'000'000)` and has depth `N * 2`. -/
def create (rect : Rect N) : Space N Phys Obj :=
  let rect_with_time : Rect (N + 1) :=
    { pos := fun j => if h : j.val < N then rect.pos ⟨j.val, h⟩ else 0
      size := fun j => if h : j.val < N then rect.size ⟨j.val, h⟩ else 1000000 }
  { motions_ := StdList.nil
    tree_ := RectSearchTree.Create rect_with_time (N * 2)
    advance_time_call_depth_ := 0
    time_seconds_ := 0
    observed := [] }

/-- The record `*motion` behind a `Motion*` or a `Space::Iterator`; `none` when
the pointer dangles. -/
def motion (s : Space N Phys Obj) (address : Nat) : Option (Motion N Phys Obj) :=
  s.motions_.deref (some address)

/-- The space after an assignment to the record at `address`. -/
def setMotion (s : Space N Phys Obj) (address : Nat) (m : Motion N Phys Obj) : Space N Phys Obj :=
  { s with motions_ := s.motions_.set address m }

/-- The space after one more observed call. -/
def observe (s : Space N Phys Obj) (call : Call) : Space N Phys Obj :=
  { s with observed := s.observed ++ [call] }

/-- The method `Add(object)`: the new record goes to the front of the list
with a zero box and is inserted into the index under its address; the result is
the space and the returned `Iterator`. -/
def Add (s : Space N Phys Obj) (object : Obj) (physics : Phys) : Option (Space N Phys Obj × Nat) :=
  let address := freshAddr s.motions_.cells
  let enclosing_rect : Rect (N + 1) := { pos := fun _ => 0, size := fun _ => 0 }
  match RectSearchTree.Insert s.tree_ enclosing_rect address with
  | none => none
  | some (tree, tree_iterator) =>
    let m : Motion N Phys Obj :=
      { object := object, physics := physics, enclosing_rect := enclosing_rect,
        tree_iterator := tree_iterator, marked_for_removal := false }
    match s.motions_.insert s.motions_.begin m with
    | none => none
    | some (motions, _) => some ({ s with motions_ := motions, tree_ := tree }, address)

/-- The method `RemoveInternal(iterator)`: the index entry of the record is
erased, then the record; the result is the space and the iterator that
`motions_.erase` returns. -/
def RemoveInternal (s : Space N Phys Obj) (iterator : Nat) : Option (Space N Phys Obj × Option Nat) :=
  match s.motion iterator with
  | none => none
  | some m =>
    match RectSearchTree.Erase s.tree_ m.tree_iterator with
    | none => none
    | some tree =>
      match nextCell s.motions_.cells iterator, s.motions_.erase (some iterator) with
      | some following, some motions => some ({ s with tree_ := tree, motions_ := motions }, following)
      | _, _ => none

/-- The method `Remove(iterator)`. -/
def Remove (s : Space N Phys Obj) (iterator : Nat) : Option (Space N Phys Obj) :=
  if s.advance_time_call_depth_ > 0 then
    match s.motion iterator with
    | none => none
    | some m =>
      some ((s.setMotion iterator { m with marked_for_removal := true }).observe (Call.Remove iterator))
  else
    (s.RemoveInternal iterator).map fun removed => removed.1.observe (Call.Remove iterator)

/-- The entries the loop `for (Motion* motion_b : tree_->Near(rect))` runs its
body on, in order: the loop dereferences the iterator at every step. The
result is `none` when a step stands past the end of an entry list, which is
the first step on a root without entries: the loop body would run on the value
of an undefined dereference. -/
def nearEntries (tree : RectSearchTree (N + 1) Nat) (rect : Rect (N + 1)) : Option (List Nat) :=
  (tree.nearTraversal rect (tree.allEntries.length + tree.size + 3)).bind RectSearchTree.dereferenced

/-- The body of the loop of `FindCollisions`, run on the candidates in order. -/
def findLoop (c : Collaborators N Phys Obj) (motion_a : Nat) (a : Motion N Phys Obj) :
    List Nat → CollisionQueue → Space N Phys Obj → Option (CollisionQueue × Space N Phys Obj)
  | [], queue, s => some (queue, s)
  | motion_b :: candidates, queue, s =>
    if motion_a = motion_b then findLoop c motion_a a candidates queue s
    else
      match s.motion motion_b with
      | none => none
      | some b =>
        let found := c.GetCollisionTime a.physics a.Time b.physics b.Time
        let seen := s.observe (Call.GetCollisionTime motion_a motion_b found.1 found.2)
        if found.1 < 0 then findLoop c motion_a a candidates queue seen
        else
          findLoop c motion_a a candidates
            (queue.push { motion_a := motion_a, motion_b := motion_b, time := found.1, dimension := found.2 })
            seen

/-- The method `FindCollisions(queue, motion_a)`. -/
def FindCollisions (c : Collaborators N Phys Obj) (s : Space N Phys Obj) (queue : CollisionQueue)
    (motion_a : Nat) : Option (CollisionQueue × Space N Phys Obj) :=
  match s.motion motion_a with
  | none => none
  | some a =>
    match nearEntries s.tree_ a.enclosing_rect with
    | none => none
    | some candidates => findLoop c motion_a a candidates queue s

/-- The call `motion.UpdateEnclosingRect(tree_.get(), start_time, finish_time)`
on the record at `address`. -/
def updateEnclosingRect (c : Collaborators N Phys Obj) (s : Space N Phys Obj) (address : Nat)
    (start_time finish_time : Time) : Option (Space N Phys Obj) :=
  match s.motion address with
  | none => none
  | some m =>
    match m.UpdateEnclosingRect c s.tree_ start_time finish_time with
    | none => none
    | some (updated, tree) => some ({ s with tree_ := tree }.setMotion address updated)

/-- The call `physics->Update(dt)` on the record at `address`. -/
def updatePhysics (c : Collaborators N Phys Obj) (s : Space N Phys Obj) (address : Nat) (dt : Time) :
    Option (Space N Phys Obj) :=
  match s.motion address with
  | none => none
  | some m => some ((s.setMotion address { m with physics := c.Update m.physics dt }).observe (Call.Update address dt))

/-- The call `motion.UpdatePositionToTime(time)` on the record at `address`. -/
def updatePositionToTime (c : Collaborators N Phys Obj) (s : Space N Phys Obj) (address : Nat)
    (time : Time) : Option (Space N Phys Obj) :=
  match s.motion address with
  | none => none
  | some m => s.updatePhysics c address (time - m.Time)

/-- The `Remove` calls a notification makes, in order. -/
def removeAll : Space N Phys Obj → List Nat → Option (Space N Phys Obj)
  | s, [] => some s
  | s, iterator :: iterators =>
    match s.Remove iterator with
    | none => none
    | some removed => removeAll removed iterators

/-- The call `object_a->OnCollideWith(*object_b, time)` for the records at
`self` and `other`, with the `Remove` calls it makes. -/
def notify (c : Collaborators N Phys Obj) (s : Space N Phys Obj) (self other : Nat) (time : Time) :
    Option (Space N Phys Obj) :=
  match s.motion self, s.motion other with
  | some a, some b =>
    (s.observe (Call.OnCollideWith self other time)).removeAll (c.OnCollideWith a.object b.object time)
  | _, _ => none

/-- The call `ElasticCollision1D(motion_a->physics, motion_b->physics, dimension)`. -/
def elasticCollision (c : Collaborators N Phys Obj) (s : Space N Phys Obj) (motion_a motion_b : Nat)
    (dimension : Nat) : Option (Space N Phys Obj) :=
  match s.motion motion_a, s.motion motion_b with
  | some a, some b =>
    let after := c.ElasticCollision1D a.physics b.physics dimension
    match (s.setMotion motion_a { a with physics := after.1 }).motion motion_b with
    | none => none
    | some b1 =>
      some (((s.setMotion motion_a { a with physics := after.1 }).setMotion motion_b
        { b1 with physics := after.2 }).observe (Call.ElasticCollision1D motion_a motion_b dimension))
  | _, _ => none

/-- The body of the loop of `AdvanceTime` for a valid collision, up to the
`queue.pop()` that ends it: the positions, the two notifications, the response
and the swept boxes, then the two searches for new collisions. -/
def resolve (c : Collaborators N Phys Obj) (new_time_seconds : Time) (collision : Collision)
    (queue : CollisionQueue) (s : Space N Phys Obj) : Option (CollisionQueue × Space N Phys Obj) :=
  match s.updatePositionToTime c collision.motion_a collision.time with
  | none => none
  | some s1 =>
  match s1.updatePositionToTime c collision.motion_b collision.time with
  | none => none
  | some s2 =>
  match s2.notify c collision.motion_a collision.motion_b collision.time with
  | none => none
  | some s3 =>
  match s3.notify c collision.motion_b collision.motion_a collision.time with
  | none => none
  | some s4 =>
  match s4.elasticCollision c collision.motion_a collision.motion_b collision.dimension with
  | none => none
  | some s5 =>
  match s5.updateEnclosingRect c collision.motion_a collision.time new_time_seconds with
  | none => none
  | some s6 =>
  match s6.updateEnclosingRect c collision.motion_b collision.time new_time_seconds with
  | none => none
  | some s7 =>
  match FindCollisions c s7 queue collision.motion_a with
  | none => none
  | some (queue1, s8) => FindCollisions c s8 queue1 collision.motion_b

/-- The loop `while (!queue.empty())` of `AdvanceTime`. -/
def resolveLoop (c : Collaborators N Phys Obj) (new_time_seconds : Time) :
    Nat → CollisionQueue → Space N Phys Obj → Option (Space N Phys Obj)
  | 0, _, _ => none
  | _ + 1, [], s => some s
  | fuel + 1, collision :: rest, s =>
    match s.motion collision.motion_a, s.motion collision.motion_b with
    | some a, some b =>
      if !collision.IsValid c a b then resolveLoop c new_time_seconds fuel (CollisionQueue.pop (collision :: rest)) s
      else
        match resolve c new_time_seconds collision (collision :: rest) s with
        | none => none
        | some (queue, resolved) => resolveLoop c new_time_seconds fuel queue.pop resolved
    | _, _ => none

/-- The first loop of `AdvanceTime`, over the records in list order: a record
flagged for removal is removed, any other gets its swept box for the step. -/
def predict (c : Collaborators N Phys Obj) (new_time_seconds : Time) :
    List Nat → Space N Phys Obj → Option (Space N Phys Obj)
  | [], s => some s
  | address :: addresses, s =>
    match s.motion address with
    | none => none
    | some m =>
      if m.marked_for_removal then
        match s.RemoveInternal address with
        | none => none
        | some (removed, _) => predict c new_time_seconds addresses removed
      else
        match s.updateEnclosingRect c address s.time_seconds_ new_time_seconds with
        | none => none
        | some updated => predict c new_time_seconds addresses updated

/-- The loop `for (Motion& motion : motions_) FindCollisions(&queue, &motion)`. -/
def seed (c : Collaborators N Phys Obj) :
    List Nat → CollisionQueue → Space N Phys Obj → Option (CollisionQueue × Space N Phys Obj)
  | [], queue, s => some (queue, s)
  | address :: addresses, queue, s =>
    match FindCollisions c s queue address with
    | none => none
    | some (found, seen) => seed c addresses found seen

/-- The loop that handles the removals requested during the step: every
flagged record is removed. -/
def flush : List Nat → Space N Phys Obj → Option (Space N Phys Obj)
  | [], s => some s
  | address :: addresses, s =>
    match s.motion address with
    | none => none
    | some m =>
      if m.marked_for_removal then
        match s.RemoveInternal address with
        | none => none
        | some (removed, _) => flush addresses removed
      else flush addresses s

/-- The last loop of `AdvanceTime`:
`motion.physics->Update(new_time_seconds - motion.Time())` for every record. -/
def commit (c : Collaborators N Phys Obj) (new_time_seconds : Time) :
    List Nat → Space N Phys Obj → Option (Space N Phys Obj)
  | [], s => some s
  | address :: addresses, s =>
    match s.updatePositionToTime c address new_time_seconds with
    | none => none
    | some updated => commit c new_time_seconds addresses updated

/-- The addresses of the records of `motions_`, in list order. -/
def addresses (s : Space N Phys Obj) : List Nat := s.motions_.cells.map Prod.fst

/-- Whether the record at `address` is flagged for removal. -/
def flagged (s : Space N Phys Obj) (address : Nat) : Bool :=
  match s.motion address with
  | some m => m.marked_for_removal
  | none => false

/-- The index and the records agree: the index handle of every record
designates an entry whose payload is the address of the record, and the index
holds one entry per record and no other. -/
def Consistent (s : Space N Phys Obj) : Prop :=
  (∀ address m, s.motion address = some m → m.tree_iterator.deref s.tree_ = some address) ∧
  s.tree_.allEntries.Perm s.addresses

/-- The space `after` comes from `before` by steps that keep every record in
place and make the calls `calls`: the same records in the same order, the same
call depth and current time, the index still agreeing with the records, the
calls added to the observed ones, and a record flagged exactly when it was
flagged before or `Remove` was called on it. -/
structure Evolves (calls : List Call) (before after : Space N Phys Obj) : Prop where
  addresses : after.addresses = before.addresses
  depth : after.advance_time_call_depth_ = before.advance_time_call_depth_
  time : after.time_seconds_ = before.time_seconds_
  consistent : before.Consistent → after.Consistent
  observed : after.observed = before.observed ++ calls
  flagged : ∀ address, after.flagged address = (before.flagged address || decide (Call.Remove address ∈ calls))

/-- The collision events `FindCollisions` pushes for the calls `calls` it is
observed to make: one for every answer of `GetCollisionTime` that is not
negative, in order. -/
def pushedEvents : List Call → List Collision
  | [] => []
  | Call.GetCollisionTime a b time dimension :: calls =>
    if time < 0 then pushedEvents calls
    else { motion_a := a, motion_b := b, time := time, dimension := dimension } :: pushedEvents calls
  | _ :: calls => pushedEvents calls

/-- The queue after the events `events` are pushed in order. -/
def pushAll (queue : CollisionQueue) (events : List Collision) : CollisionQueue :=
  events.foldl CollisionQueue.push queue

/-- The method `AdvanceTime(new_time_seconds)`. -/
def AdvanceTime (c : Collaborators N Phys Obj) (fuel : Nat) (new_time_seconds : Time)
    (s : Space N Phys Obj) : Option (Space N Phys Obj) :=
  let entered := { s with advance_time_call_depth_ := s.advance_time_call_depth_ + 1 }
  match predict c new_time_seconds entered.addresses entered with
  | none => none
  | some predicted =>
  match seed c predicted.addresses [] predicted with
  | none => none
  | some (queue, seeded) =>
  match resolveLoop c new_time_seconds fuel queue seeded with
  | none => none
  | some resolved =>
  let timed := { resolved with time_seconds_ := new_time_seconds }
  match flush timed.addresses timed with
  | none => none
  | some flushed =>
  match commit c new_time_seconds flushed.addresses flushed with
  | none => none
  | some committed =>
    some { committed with advance_time_call_depth_ := committed.advance_time_call_depth_ - 1 }

end Space

/-! ## Sample scenes -/

/-- A sample physical state: a body on a line, with its position, its length
and its velocity in units per second. -/
structure Body where
  pos : Int
  size : Int
  vel : Int
  deriving DecidableEq, Repr

/-- The position of a sample body after the time `dt`. -/
def Body.after (b : Body) (dt : Time) : Int := b.pos + (b.vel * dt).tdiv 1000000

/-- The time at which two sample bodies, given at the times `ta` and `tb`, come
into contact; negative when they do not approach each other. -/
def Body.collisionTime (a : Body) (ta : Time) (b : Body) (tb : Time) : Time × Nat :=
  if a.pos + a.size ≤ b.pos ∧ a.vel > b.vel then
    (((b.pos - a.pos - a.size) * 1000000 + a.vel * ta - b.vel * tb).tdiv (a.vel - b.vel), 0)
  else if b.pos + b.size ≤ a.pos ∧ b.vel > a.vel then
    (((a.pos - b.pos - b.size) * 1000000 + b.vel * tb - a.vel * ta).tdiv (b.vel - a.vel), 0)
  else (-1, 0)

/-- Sample collaborators: bodies of equal mass on a line, which exchange their
velocities when they collide; the objects are numbers and `onCollide` lists the
handles a notification removes. -/
def line (onCollide : Nat → Nat → Time → List Nat) : Collaborators 1 Body Nat where
  GetRect b := ⟨fun _ => b.pos, fun _ => b.size⟩
  GetRectAfterTime b dt := ⟨fun _ => b.after dt, fun _ => b.size⟩
  Update b dt := { b with pos := b.after dt }
  position b _ := b.pos
  velocity b _ := b.vel
  ElasticCollision1D a b _ := ({ a with vel := b.vel }, { b with vel := a.vel })
  GetCollisionTime := Body.collisionTime
  OnCollideWith := onCollide

/-- The space after `Add`, the same space when `Add` fails. -/
def Space.withBody {N : Nat} {Phys Obj : Type} (s : Space N Phys Obj) (object : Obj) (physics : Phys) :
    Space N Phys Obj :=
  match s.Add object physics with
  | some (added, _) => added
  | none => s

/-- A sample scene on the line `[0, 100)`: the body 0 rests at 50, the body 1
starts at 0 and moves toward it at 10 units per second. The object of a body
is its number, which is also the address of its record. -/
def twoBodies : Space 1 Body Nat :=
  ((Space.create ⟨fun _ => 0, fun _ => 100⟩).withBody 0 ⟨50, 10, 0⟩).withBody 1 ⟨0, 10, 10⟩

/-- A sample scene on the line `[0, 100)` with the single body 0, which starts
at 90, at the upper edge of the line, and moves at 4000 units per second; the
root of the index holds its record during a step, since its swept box passes
the edge. -/
def oneBody : Space 1 Body Nat :=
  (Space.create ⟨fun _ => 0, fun _ => 100⟩).withBody 0 ⟨90, 10, 4000⟩

/-- A sample scene on the line `[0, 100)`: the body 0 rests at 90, at the
upper edge of the line, and the body 1, which starts at 80 and is 10 long,
moves toward it at 10 units per second, so that the two are in contact at the
time 0. The root of the index holds the record of the body 0 during a step. -/
def touching : Space 1 Body Nat :=
  ((Space.create ⟨fun _ => 0, fun _ => 100⟩).withBody 0 ⟨90, 10, 0⟩).withBody 1 ⟨80, 10, 10⟩

/-- A sample scene on the line `[0, 100)`: the body 0 rests at 90, at the
upper edge of the line, and the body 1 starts at 0 and moves toward it at 10
units per second, so that they come into contact at 8 s. The root of the index
holds the record of the body 0 during a step. -/
def approaching : Space 1 Body Nat :=
  ((Space.create ⟨fun _ => 0, fun _ => 100⟩).withBody 0 ⟨90, 10, 0⟩).withBody 1 ⟨0, 10, 10⟩

/-- A sample scene on the line `[0, 100)`: the bodies 0 and 1 rest at 80 and
at 50, and the body 2 starts at 0 and moves toward them at 10 units per
second. -/
def threeBodies : Space 1 Body Nat :=
  (((Space.create ⟨fun _ => 0, fun _ => 100⟩).withBody 0 ⟨80, 10, 0⟩).withBody 1 ⟨50, 10, 0⟩).withBody 2
    ⟨0, 10, 10⟩

/-- A sample scene on the line `[0, 100)`: the body 0 starts at 90, at the
upper edge of the line, and moves away at 10 units per second from the body 1,
which rests at 0. The root of the index holds the record of the body 0 during
a step. -/
def parting : Space 1 Body Nat :=
  ((Space.create ⟨fun _ => 0, fun _ => 100⟩).withBody 0 ⟨90, 10, 10⟩).withBody 1 ⟨0, 10, 0⟩

/-- A record of a sample body whose swept box starts at the time 0. -/
def Body.record (object : Nat) (physics : Body) : Motion 1 Body Nat :=
  { object := object, physics := physics, enclosing_rect := ⟨fun _ => 0, fun _ => 0⟩,
    tree_iterator := RectSearchTree.Iterator.default, marked_for_removal := false }

/-- The physical states of the records, in list order. -/
def Space.physicsList {N : Nat} {Phys Obj : Type} (s : Space N Phys Obj) : List (Nat × Phys) :=
  s.motions_.cells.map fun c => (c.1, c.2.physics)

/-! ## Observed calls -/

/-- The times of the collision notifications among the calls, in order. -/
def notifiedTimes : List Call → List Time
  | [] => []
  | Call.OnCollideWith _ _ time :: calls => time :: notifiedTimes calls
  | _ :: calls => notifiedTimes calls

/-- The time of the latest notification after the calls `calls`, `latest`
being the time of the latest one before them, if there is one. -/
def latestNotified : Option Time → List Call → Option Time
  | latest, [] => latest
  | _, Call.OnCollideWith _ _ time :: calls => latestNotified (some time) calls
  | latest, _ :: calls => latestNotified latest calls

/-- Whether every answer of `GetCollisionTime` among the calls `calls` is
negative or a time not earlier than the latest notification before it;
`latest` is the time of the latest notification before `calls`, if there is
one. -/
def reseededLater : Option Time → List Call → Bool
  | _, [] => true
  | _, Call.OnCollideWith _ _ time :: calls => reseededLater (some time) calls
  | latest, Call.GetCollisionTime _ _ time _ :: calls =>
    (decide (time < 0) || match latest with
      | none => true
      | some notified => decide (notified ≤ time)) && reseededLater latest calls
  | latest, _ :: calls => reseededLater latest calls

/-- Sample collaborators whose collision-time function goes back in time. The
state of a body is its position and the number of responses applied to it;
the bodies are 1 long and do not move; a body at the position `x` has the
velocity `-x` until the second response and 0 after it; the collision-time
function reports 5 s for a body without a response, 3 s after one response and
no contact after two. -/
def staged : Collaborators 1 (Int × Nat) Nat where
  GetRect p := ⟨fun _ => p.1, fun _ => 1⟩
  GetRectAfterTime p _ := ⟨fun _ => p.1, fun _ => 1⟩
  Update p _ := p
  position p _ := p.1
  velocity p _ := if p.2 < 2 then -p.1 else 0
  ElasticCollision1D a b _ := ((a.1, a.2 + 1), (b.1, b.2 + 1))
  GetCollisionTime a _ _ _ :=
    (match a.2 with
      | 0 => 5000000
      | 1 => 3000000
      | _ => -1, 0)
  OnCollideWith _ _ _ := []

/-- A sample scene for `staged` on the line `[0, 100)`: the body 0 at the
position 99, at the upper edge of the line, and the body 1 at the position 98,
in contact. The root of the index holds the record of the body 0 during a
step. -/
def stagedScene : Space 1 (Int × Nat) Nat :=
  ((Space.create ⟨fun _ => 0, fun _ => 100⟩).withBody 0 (99, 0)).withBody 1 (98, 0)

/-! ## Spaces up to the removal flags -/

/-- The record with the flag `marked_for_removal` cleared. -/
def Motion.unflagged {N : Nat} {Phys Obj : Type} (m : Motion N Phys Obj) : Motion N Phys Obj :=
  { m with marked_for_removal := false }

theorem map_fst_mapCells {Rep : Type} (f : Rep → Rep) (cells : List (Nat × Rep)) :
    (cells.map fun c => (c.1, f c.2)).map Prod.fst = cells.map Prod.fst := by
  rw [List.map_map]; rfl

/-- The space with the flag of every record cleared: what is left of a space
when the flags are not looked at. -/
def Space.unflagged {N : Nat} {Phys Obj : Type} (s : Space N Phys Obj) : Space N Phys Obj :=
  { s with motions_ := ⟨s.motions_.cells.map fun c => (c.1, c.2.unflagged), by
      rw [map_fst_mapCells]; exact s.motions_.distinct⟩ }

/-- The result of a call that returns a queue and a space, with the flags of
the space cleared. -/
def Space.unflaggedResult {N : Nat} {Phys Obj : Type} (r : CollisionQueue × Space N Phys Obj) :
    CollisionQueue × Space N Phys Obj :=
  (r.1, r.2.unflagged)

/-- The sample scene of three bodies inside a step, with the call depth 1. -/
def threeBodiesInStep : Space 1 Body Nat :=
  { threeBodies with advance_time_call_depth_ := 1 }

/-- The sample scene of three bodies inside a step, after `Remove` was called
on the body 1. -/
def threeBodiesFlagged : Space 1 Body Nat :=
  match threeBodiesInStep.Remove 1 with
  | some removed => removed
  | none => threeBodiesInStep

/-! ## What a step reads of a record -/

/-- What the seed and resolve phases read of the record at `address`: its
object, its physical state and its swept box. -/
def Space.bodyAt {N : Nat} {Phys Obj : Type} (s : Space N Phys Obj) (address : Nat) :
    Option (Obj × Phys × Rect (N + 1)) :=
  (s.motion address).map fun m => (m.object, m.physics, m.enclosing_rect)

/-- The index handle of the record at `address` is in the node that `Find`
gives for the swept box of the record. -/
def Space.LocatedAt {N : Nat} {Phys Obj : Type} (s : Space N Phys Obj) (address : Nat) : Prop :=
  ∃ m, s.motion address = some m ∧
    m.tree_iterator.node_queue_ = [(RectSearchTree.FindInternal s.tree_ m.enclosing_rect.grow).getD []]

/-- Whether a call is a collision notification or an elastic response. -/
def Call.isResolution : Call → Bool
  | Call.OnCollideWith _ _ _ => true
  | Call.ElasticCollision1D _ _ _ => true
  | _ => false

/-! ## The points of a box and the nodes a traversal enters -/

/-- The integer points of a box: on every axis the half-open extent from
`pos` to `pos + size`. -/
def Rect.HasPoint {N : Nat} (r : Rect N) (x : Fin N → Int) : Prop :=
  ∀ i : Fin N, r.pos i ≤ x i ∧ x i < r.pos i + r.size i

/-- Whether a traversal with the filter `should` that starts at the node `t`
enters the node at `p` below it: the queue of `Iterator` gets the start node
from the constructor, and a child from `Advance` when the traversal leaves its
parent and the filter accepts the child. -/
def RectSearchTree.entersFrom {N : Nat} {Rep : Type} (should : RectSearchTree N Rep → Bool) :
    RectSearchTree N Rep → NodePtr → Bool
  | t, [] => !t.isNull
  | t, side :: p => !t.isNull && (should (t.child side) && entersFrom should (t.child side) p)

/-! ## Calls between two steps -/

/-- A call that changes the set of records: `Add(object)`, the object having
the physical state `physics`, or `Remove(iterator)`. -/
inductive Op (Phys Obj : Type) where
  | Add (object : Obj) (physics : Phys)
  | Remove (iterator : Nat)

/-- The space after a sequence of `Add` and `Remove` calls, in order; `none`
when one of them has no defined result. -/
def Space.run {N : Nat} {Phys Obj : Type} :
    Space N Phys Obj → List (Op Phys Obj) → Option (Space N Phys Obj)
  | s, [] => some s
  | s, Op.Add object physics :: ops =>
    match s.Add object physics with
    | none => none
    | some (added, _) => run added ops
  | s, Op.Remove iterator :: ops =>
    match s.Remove iterator with
    | none => none
    | some removed => run removed ops

/-- A sample physical state in the plane: a unit square with the position of
its corner and its velocity in units per second. -/
structure Square where
  x : Int
  y : Int
  vx : Int
  vy : Int
  deriving DecidableEq, Repr

/-- Sample collaborators in the plane: unit squares of equal mass, which
exchange their velocities along the axis of a collision. The collision-time
function is not used with them and reports no contact. -/
def plane : Collaborators 2 Square Nat where
  GetRect b := ⟨fun i => if i.val = 0 then b.x else b.y, fun _ => 1⟩
  GetRectAfterTime b dt :=
    ⟨fun i => if i.val = 0 then b.x + (b.vx * dt).tdiv 1000000 else b.y + (b.vy * dt).tdiv 1000000,
      fun _ => 1⟩
  Update b dt := { b with x := b.x + (b.vx * dt).tdiv 1000000, y := b.y + (b.vy * dt).tdiv 1000000 }
  position b k := if k = 0 then b.x else b.y
  velocity b k := if k = 0 then b.vx else b.vy
  ElasticCollision1D a b k :=
    if k = 0 then ({ a with vx := b.vx }, { b with vx := a.vx })
    else ({ a with vy := b.vy }, { b with vy := a.vy })
  GetCollisionTime _ _ _ _ := (-1, 0)
  OnCollideWith _ _ _ := []

/-- A record of a sample square whose swept box starts at the time 0. -/
def Square.record (object : Nat) (physics : Square) : Motion 2 Square Nat :=
  { object := object, physics := physics, enclosing_rect := ⟨fun _ => 0, fun _ => 0⟩,
    tree_iterator := RectSearchTree.Iterator.default, marked_for_removal := false }

/-! ## The loop of a step, one iteration at a time -/

/-- The queue and the space with which `AdvanceTime` reaches its loop
`while (!queue.empty())`: the call depth incremented, the first loop over the
records and the loop that seeds the queue. -/
def Space.enterLoop {N : Nat} {Phys Obj : Type} (c : Collaborators N Phys Obj)
    (new_time_seconds : Time) (s : Space N Phys Obj) : Option (CollisionQueue × Space N Phys Obj) :=
  let entered := { s with advance_time_call_depth_ := s.advance_time_call_depth_ + 1 }
  match Space.predict c new_time_seconds entered.addresses entered with
  | none => none
  | some predicted => Space.seed c predicted.addresses [] predicted

/-- One iteration of the loop `while (!queue.empty())` of `AdvanceTime`: the
event `queue.top()` is popped at once when `IsValid()` fails; otherwise it is
resolved and then `queue.pop()` is called. The result is the queue and the
space after the iteration; `none` on an empty queue, with which the loop has
no iteration. -/
def Space.resolveStep {N : Nat} {Phys Obj : Type} (c : Collaborators N Phys Obj)
    (new_time_seconds : Time) :
    CollisionQueue → Space N Phys Obj → Option (CollisionQueue × Space N Phys Obj)
  | [], _ => none
  | collision :: rest, s =>
    match s.motion collision.motion_a, s.motion collision.motion_b with
    | some a, some b =>
      if !collision.IsValid c a b then some (CollisionQueue.pop (collision :: rest), s)
      else
        match Space.resolve c new_time_seconds collision (collision :: rest) s with
        | none => none
        | some (queue, resolved) => some (queue.pop, resolved)
    | _, _ => none

namespace RectSearchTree

variable {N : Nat} {Rep : Type}

/-! ## Properties -/

theorem nodeAt_null (p : NodePtr) : (null : RectSearchTree N Rep).nodeAt p = null := by
  induction p with
  | nil => rfl
  | cons s p ih => simpa [nodeAt, child] using ih

theorem nodeAt_append (t : RectSearchTree N Rep) (p q : NodePtr) :
    t.nodeAt (p ++ q) = (t.nodeAt p).nodeAt q := by
  induction p generalizing t with
  | nil => rfl
  | cons s p ih => simp [nodeAt, ih]

theorem nodeAt_snoc (t : RectSearchTree N Rep) (p : NodePtr) (s : Side) :
    t.nodeAt (p ++ [s]) = (t.nodeAt p).child s := by
  rw [nodeAt_append]; rfl

/-! ### Create -/

theorem Create_succ_eq (rect : Rect N) (d : Nat) :
    ∃ a b : Rect N, (Create rect (d + 1) : RectSearchTree N Rep) =
      node rect (Create a d) (Create b d) StdList.nil :=
  ⟨_, _, rfl⟩

theorem Create_isNull (rect : Rect N) (d : Nat) :
    (Create rect d : RectSearchTree N Rep).isNull = decide (d = 0) := by
  cases d <;> simp [Create, isNull]

theorem Create_size (rect : Rect N) (d : Nat) :
    (Create rect d : RectSearchTree N Rep).size + 1 = 2 ^ d := by
  induction d generalizing rect with
  | zero => simp [Create, size]
  | succ d ih =>
    obtain ⟨a, b, h⟩ := @Create_succ_eq N Rep rect d
    have ha := ih a
    have hb := ih b
    rw [h, size, pow_succ]
    omega

theorem Create_nodeAt (rect : Rect N) (d : Nat) (p : NodePtr) :
    ∃ r : Rect N, (Create rect d : RectSearchTree N Rep).nodeAt p = Create r (d - p.length) := by
  induction p generalizing rect d with
  | nil => exact ⟨rect, rfl⟩
  | cons s p ih =>
    cases d with
    | zero => exact ⟨rect, by simp [Create, nodeAt_null]⟩
    | succ d =>
      obtain ⟨a, b, h⟩ := @Create_succ_eq N Rep rect d
      cases s with
      | a =>
        obtain ⟨r, hr⟩ := ih a d
        exact ⟨r, by rw [h]; simpa [nodeAt, child] using hr⟩
      | b =>
        obtain ⟨r, hr⟩ := ih b d
        exact ⟨r, by rw [h]; simpa [nodeAt, child] using hr⟩

theorem Create_Paired (rect : Rect N) (d : Nat) : (Create rect d : RectSearchTree N Rep).Paired := by
  induction d generalizing rect with
  | zero => exact True.intro
  | succ d ih =>
    obtain ⟨a, b, h⟩ := @Create_succ_eq N Rep rect d
    rw [h]
    exact ⟨by rw [Create_isNull, Create_isNull], ih a, ih b⟩

/-- C6: for every domain box and every depth `d ≥ 1`, `Create(box, d)` has the
root domain `box` and is a complete binary tree with `d` levels: it has
`2^d - 1` nodes, every node above the last level has both children, and every
node on the last level has none. -/
theorem Create_complete (rect : Rect N) (d : Nat) (hd : 1 ≤ d) :
    (Create rect d : RectSearchTree N Rep).GetRect = some rect ∧
    (Create rect d : RectSearchTree N Rep).size = 2 ^ d - 1 ∧
    (∀ p : NodePtr, p.length + 1 < d →
      ∃ r a b reps, (Create rect d : RectSearchTree N Rep).nodeAt p = node r a b reps ∧
        a.isNull = false ∧ b.isNull = false) ∧
    (∀ p : NodePtr, p.length + 1 = d →
      ∃ r reps, (Create rect d : RectSearchTree N Rep).nodeAt p = node r null null reps) := by
  refine ⟨?_, ?_, ?_, ?_⟩
  · obtain ⟨k, rfl⟩ : ∃ k, d = k + 1 := ⟨d - 1, by omega⟩
    rfl
  · have := @Create_size N Rep rect d
    omega
  · intro p hp
    obtain ⟨r, hr⟩ := @Create_nodeAt N Rep rect d p
    obtain ⟨k, hk⟩ : ∃ k, d - p.length = k + 1 + 1 := ⟨d - p.length - 2, by omega⟩
    rw [hk] at hr
    obtain ⟨a, b, h⟩ := @Create_succ_eq N Rep r (k + 1)
    exact ⟨r, _, _, _, hr.trans h, by simp [Create_isNull], by simp [Create_isNull]⟩
  · intro p hp
    obtain ⟨r, hr⟩ := @Create_nodeAt N Rep rect d p
    have hk : d - p.length = 0 + 1 := by omega
    rw [hk] at hr
    exact ⟨r, _, hr.trans rfl⟩

/-- Witness of C6 at depth 2 over a 1-dimensional box. -/
theorem Create_complete_witness :
    (Create (⟨fun _ => 0, fun _ => 8⟩ : Rect 1) 2 : RectSearchTree 1 Nat).size = 2 ^ 2 - 1 :=
  (@Create_complete 1 Nat ⟨fun _ => 0, fun _ => 8⟩ 2 (by decide)).2.1

/-! ### Find -/

theorem FindInternal_eq_none (r : Rect N) (a b : RectSearchTree N Rep) (reps_ : StdList Rep)
    (rect : Rect N) : FindInternal (node r a b reps_) rect = none ↔ ¬ r.Contains rect := by
  unfold FindInternal
  by_cases h : r.Contains rect
  · simp only [h, not_true_eq_false, if_false, iff_false]
    split
    · split
      · simp
      · split <;> simp
    · simp
  · simp [h]

theorem FindInternal_some (t : RectSearchTree N Rep) (rect : Rect N) (p : NodePtr)
    (h : FindInternal t rect = some p) :
    (t.nodeAt p).isNull = false ∧
    ∀ k, k ≤ p.length → ∃ rk, (t.nodeAt (p.take k)).GetRect = some rk ∧ rk.Contains rect := by
  induction t generalizing p with
  | null => simp [FindInternal] at h
  | node r a b reps_ iha ihb =>
    have hc : r.Contains rect := by
      by_contra hc
      rw [(FindInternal_eq_none r a b reps_ rect).2 hc] at h
      cases h
    have root_ok : ∀ q : NodePtr, ∃ rk, ((node r a b reps_).nodeAt (q.take 0)).GetRect = some rk ∧
        rk.Contains rect := fun q => ⟨r, by simp [nodeAt, GetRect], hc⟩
    have here : p = [] → ((node r a b reps_).nodeAt p).isNull = false ∧
        ∀ k, k ≤ p.length → ∃ rk, ((node r a b reps_).nodeAt (p.take k)).GetRect = some rk ∧
          rk.Contains rect := by
      rintro rfl
      refine ⟨rfl, fun k hk => ?_⟩
      have : k = 0 := by simpa using hk
      subst this
      exact root_ok []
    have below : ∀ (s : Side) (c : RectSearchTree N Rep) (q : NodePtr), (node r a b reps_).child s = c →
        ((c.nodeAt q).isNull = false ∧
          ∀ k, k ≤ q.length → ∃ rk, (c.nodeAt (q.take k)).GetRect = some rk ∧ rk.Contains rect) →
        p = s :: q → ((node r a b reps_).nodeAt p).isNull = false ∧
        ∀ k, k ≤ p.length → ∃ rk, ((node r a b reps_).nodeAt (p.take k)).GetRect = some rk ∧
          rk.Contains rect := by
      rintro s c q hcs ⟨h1, h2⟩ rfl
      refine ⟨by simpa [nodeAt, hcs] using h1, fun k hk => ?_⟩
      cases k with
      | zero => exact root_ok _
      | succ k =>
        have := h2 k (by simpa using hk)
        simpa [nodeAt, hcs] using this
    unfold FindInternal at h
    simp only [hc, not_true_eq_false, if_false] at h
    split at h
    · split at h
      · rename_i result hres
        exact below Side.a a result rfl (iha result hres) (Option.some.inj h).symm
      · split at h
        · rename_i result hres
          exact below Side.b b result rfl (ihb result hres) (Option.some.inj h).symm
        · exact here (Option.some.inj h).symm
    · exact here (Option.some.inj h).symm

theorem FindInternal_no_child (t : RectSearchTree N Rep) (rect : Rect N) (p : NodePtr)
    (hp : t.Paired) (h : FindInternal t rect = some p) :
    ∀ s rc, ((t.nodeAt p).child s).GetRect = some rc → ¬ rc.Contains rect := by
  induction t generalizing p with
  | null => simp [FindInternal] at h
  | node r a b reps_ iha ihb =>
    obtain ⟨hab, hpa, hpb⟩ := hp
    have hc : r.Contains rect := by
      by_contra hc
      rw [(FindInternal_eq_none r a b reps_ rect).2 hc] at h
      cases h
    have none_of : ∀ c : RectSearchTree N Rep, FindInternal c rect = none →
        ∀ rc, c.GetRect = some rc → ¬ rc.Contains rect := by
      intro c hnone rc hrc
      cases c with
      | null => simp [GetRect] at hrc
      | node r1 a1 b1 reps1 =>
        simp only [GetRect, Option.some.injEq] at hrc
        subst hrc
        exact (FindInternal_eq_none r1 a1 b1 reps1 rect).1 hnone
    unfold FindInternal at h
    simp only [hc, not_true_eq_false, if_false] at h
    split at h
    · split at h
      · rename_i result hres
        obtain rfl := (Option.some.inj h).symm
        simpa [nodeAt, child] using iha result hpa hres
      · rename_i hnone_a
        split at h
        · rename_i result hres
          obtain rfl := (Option.some.inj h).symm
          simpa [nodeAt, child] using ihb result hpb hres
        · rename_i hnone_b
          obtain rfl := (Option.some.inj h).symm
          intro s rc hrc
          cases s with
          | a => exact none_of a hnone_a rc (by simpa [nodeAt, child] using hrc)
          | b => exact none_of b hnone_b rc (by simpa [nodeAt, child] using hrc)
    · rename_i hnot
      obtain rfl := (Option.some.inj h).symm
      have hboth : a.isNull = true ∧ b.isNull = true := by
        cases ha : a.isNull <;> cases hb : b.isNull <;> simp_all
      intro s rc hrc
      cases s with
      | a =>
        cases a with
        | null => simp [nodeAt, child, GetRect] at hrc
        | node _ _ _ _ => simp [isNull] at hboth
      | b =>
        cases b with
        | null => simp [nodeAt, child, GetRect] at hrc
        | node _ _ _ _ => simp [isNull] at hboth

theorem atNode_of_node (root : RectSearchTree N Rep) (p : NodePtr) (h : (root.nodeAt p).isNull = false) :
    Iterator.atNode root p = ⟨[p], (root.nodeAt p).reps.begin⟩ := by
  simp [Iterator.atNode, Iterator.ShouldIncludeSubtree, h]

theorem Find_eq (root : RectSearchTree N Rep) (rect : Rect N) (h : root.isNull = false) :
    ∃ p, Find root rect = ⟨[p], (root.nodeAt p).reps.begin⟩ ∧ (root.nodeAt p).isNull = false ∧
      (FindInternal root rect.grow = some p ∨ (FindInternal root rect.grow = none ∧ p = [])) := by
  cases hf : FindInternal root rect.grow with
  | none =>
    refine ⟨[], ?_, h, Or.inr ⟨rfl, rfl⟩⟩
    simp only [Find, hf]
    exact atNode_of_node root [] h
  | some p =>
    have hp := (FindInternal_some root rect.grow p hf).1
    refine ⟨p, ?_, hp, Or.inl rfl⟩
    simp only [Find, hf]
    exact atNode_of_node root p hp

/-- C4: for every tree and every box whose expansion by one unit of size per
dimension is contained in the domain of the root, `Find(box)` returns a handle
at the start of the entries of a node whose domain contains the expanded box,
as does the domain of every node on the path from the root to it, while no
child of the node has a domain that contains the expanded box. -/
theorem Find_smallest_containing (r : Rect N) (a b : RectSearchTree N Rep) (reps_ : StdList Rep)
    (box : Rect N) (hshape : (node r a b reps_).Paired)
    (hbox : r.Contains ⟨box.pos, fun i => box.size i + 1⟩) :
    ∃ p found_rect found_a found_b found_reps,
      (node r a b reps_).nodeAt p = node found_rect found_a found_b found_reps ∧
      Find (node r a b reps_) box = ⟨[p], found_reps.begin⟩ ∧
      found_rect.Contains ⟨box.pos, fun i => box.size i + 1⟩ ∧
      (∀ k, k ≤ p.length →
        ∃ rk, ((node r a b reps_).nodeAt (p.take k)).GetRect = some rk ∧
          rk.Contains ⟨box.pos, fun i => box.size i + 1⟩) ∧
      (∀ rc, found_a.GetRect = some rc → ¬ rc.Contains ⟨box.pos, fun i => box.size i + 1⟩) ∧
      (∀ rc, found_b.GetRect = some rc → ¬ rc.Contains ⟨box.pos, fun i => box.size i + 1⟩) := by
  have hbox : r.Contains box.grow := hbox
  show ∃ p found_rect found_a found_b found_reps,
      (node r a b reps_).nodeAt p = node found_rect found_a found_b found_reps ∧
      Find (node r a b reps_) box = ⟨[p], found_reps.begin⟩ ∧
      found_rect.Contains box.grow ∧
      (∀ k, k ≤ p.length →
        ∃ rk, ((node r a b reps_).nodeAt (p.take k)).GetRect = some rk ∧ rk.Contains box.grow) ∧
      (∀ rc, found_a.GetRect = some rc → ¬ rc.Contains box.grow) ∧
      (∀ rc, found_b.GetRect = some rc → ¬ rc.Contains box.grow)
  obtain ⟨p, hfind, hnode, hint⟩ := Find_eq (node r a b reps_) box rfl
  have hsome : FindInternal (node r a b reps_) box.grow = some p := by
    rcases hint with h | ⟨h, _⟩
    · exact h
    · exact absurd hbox ((FindInternal_eq_none r a b reps_ box.grow).1 h)
  obtain ⟨_, hpath⟩ := FindInternal_some _ _ _ hsome
  have hchild := FindInternal_no_child _ _ _ hshape hsome
  cases hn : (node r a b reps_).nodeAt p with
  | null => rw [hn] at hnode; cases hnode
  | node fr fa fb freps =>
    refine ⟨p, fr, fa, fb, freps, hn, ?_, ?_, hpath, ?_, ?_⟩
    · rw [hfind, hn]; rfl
    · obtain ⟨rk, hrk, hck⟩ := hpath p.length le_rfl
      rw [List.take_length, hn] at hrk
      cases hrk
      exact hck
    · intro rc hrc
      exact hchild Side.a rc (by rw [hn]; exact hrc)
    · intro rc hrc
      exact hchild Side.b rc (by rw [hn]; exact hrc)

/-- C5: for every tree and every box whose one-unit expansion is not contained
in the domain of the root, `Find(box)` returns a handle on the root node
itself, at the start of its entries, and the handle is not exhausted. -/
theorem Find_root_fallback (r : Rect N) (a b : RectSearchTree N Rep) (reps_ : StdList Rep)
    (box : Rect N) (hbox : ¬ r.Contains ⟨box.pos, fun i => box.size i + 1⟩) :
    Find (node r a b reps_) box = ⟨[[]], reps_.begin⟩ ∧
    (Find (node r a b reps_) box).Subtree = some [] ∧
    (Find (node r a b reps_) box).toBool = true := by
  have hbox : ¬ r.Contains box.grow := hbox
  have h : Find (node r a b reps_) box = ⟨[[]], reps_.begin⟩ := by
    unfold Find
    simp only [(FindInternal_eq_none r a b reps_ box.grow).2 hbox]
    exact atNode_of_node _ [] rfl
  rw [h]
  exact ⟨rfl, rfl, rfl⟩

/-! ### Replacing the entries of one node -/

theorem setReps_isNull (t : RectSearchTree N Rep) (p : NodePtr) (l : StdList Rep) :
    (t.setReps p l).isNull = t.isNull := by
  cases t with
  | null => rfl
  | node r a b reps_ =>
    cases p with
    | nil => rfl
    | cons s p => cases s <;> rfl

theorem setReps_GetRect (t : RectSearchTree N Rep) (p : NodePtr) (l : StdList Rep) :
    (t.setReps p l).GetRect = t.GetRect := by
  cases t with
  | null => rfl
  | node r a b reps_ =>
    cases p with
    | nil => rfl
    | cons s p => cases s <;> rfl

theorem setReps_child (r : Rect N) (a b : RectSearchTree N Rep) (reps_ : StdList Rep) (s : Side)
    (p : NodePtr) (l : StdList Rep) :
    ((node r a b reps_).setReps (s :: p) l).child s = ((node r a b reps_).child s).setReps p l := by
  cases s <;> rfl

theorem setReps_child_ne (r : Rect N) (a b : RectSearchTree N Rep) (reps_ : StdList Rep) (s s1 : Side)
    (p : NodePtr) (l : StdList Rep) (h : s1 ≠ s) :
    ((node r a b reps_).setReps (s :: p) l).child s1 = (node r a b reps_).child s1 := by
  cases s <;> cases s1 <;> first | rfl | exact absurd rfl h

theorem setReps_reps_cons (r : Rect N) (a b : RectSearchTree N Rep) (reps_ : StdList Rep) (s : Side)
    (p : NodePtr) (l : StdList Rep) :
    ((node r a b reps_).setReps (s :: p) l).reps = reps_ := by
  cases s <;> rfl

theorem nodeAt_setReps_isNull (t : RectSearchTree N Rep) (p q : NodePtr) (l : StdList Rep) :
    ((t.setReps p l).nodeAt q).isNull = (t.nodeAt q).isNull := by
  induction q generalizing t p with
  | nil => exact setReps_isNull t p l
  | cons s1 q ih =>
    cases t with
    | null => rfl
    | node r a b reps_ =>
      cases p with
      | nil => cases s1 <;> rfl
      | cons s p =>
        simp only [nodeAt]
        by_cases h : s1 = s
        · subst h; rw [setReps_child]; exact ih _ _
        · rw [setReps_child_ne _ _ _ _ _ _ _ _ h]

theorem nodeAt_setReps_GetRect (t : RectSearchTree N Rep) (p q : NodePtr) (l : StdList Rep) :
    ((t.setReps p l).nodeAt q).GetRect = (t.nodeAt q).GetRect := by
  induction q generalizing t p with
  | nil => exact setReps_GetRect t p l
  | cons s1 q ih =>
    cases t with
    | null => rfl
    | node r a b reps_ =>
      cases p with
      | nil => cases s1 <;> rfl
      | cons s p =>
        simp only [nodeAt]
        by_cases h : s1 = s
        · subst h; rw [setReps_child]; exact ih _ _
        · rw [setReps_child_ne _ _ _ _ _ _ _ _ h]

theorem nodeAt_setReps_reps (t : RectSearchTree N Rep) (p q : NodePtr) (l : StdList Rep) :
    ((t.setReps p l).nodeAt q).reps =
      if q = p ∧ (t.nodeAt p).isNull = false then l else (t.nodeAt q).reps := by
  induction q generalizing t p with
  | nil =>
    cases t with
    | null => simp [setReps, nodeAt, nodeAt_null, isNull]
    | node r a b reps_ =>
      cases p with
      | nil => simp [setReps, nodeAt, reps, isNull]
      | cons s p =>
        have hne : ¬ (([] : NodePtr) = s :: p) := by simp
        simp only [nodeAt, hne, false_and, if_false]
        rw [setReps_reps_cons]; rfl
  | cons s1 q ih =>
    cases t with
    | null => simp [setReps, nodeAt_null, isNull]
    | node r a b reps_ =>
      cases p with
      | nil =>
        have hne : ¬ (s1 :: q = ([] : NodePtr)) := by simp
        simp only [hne, false_and, if_false]
        cases s1 <;> rfl
      | cons s p =>
        simp only [nodeAt]
        by_cases h : s1 = s
        · subst h
          rw [setReps_child, ih]
          simp
        · rw [setReps_child_ne _ _ _ _ _ _ _ _ h]
          simp [h]

theorem FindInternal_setReps (t : RectSearchTree N Rep) (p : NodePtr) (l : StdList Rep) (rect : Rect N) :
    FindInternal (t.setReps p l) rect = FindInternal t rect := by
  induction t generalizing p with
  | null => rfl
  | node r a b reps_ iha ihb =>
    cases p with
    | nil => simp [setReps, FindInternal]
    | cons s p =>
      cases s with
      | a => simp [setReps, FindInternal, iha, setReps_isNull]
      | b => simp [setReps, FindInternal, ihb, setReps_isNull]

theorem setReps_setReps (t : RectSearchTree N Rep) (p : NodePtr) (l l1 : StdList Rep) :
    (t.setReps p l).setReps p l1 = t.setReps p l1 := by
  induction t generalizing p with
  | null => rfl
  | node r a b reps_ iha ihb =>
    cases p with
    | nil => rfl
    | cons s p =>
      cases s with
      | a => simp [setReps, iha]
      | b => simp [setReps, ihb]

theorem setReps_self (t : RectSearchTree N Rep) (p : NodePtr) :
    t.setReps p (t.nodeAt p).reps = t := by
  induction t generalizing p with
  | null => rfl
  | node r a b reps_ iha ihb =>
    cases p with
    | nil => rfl
    | cons s p =>
      cases s with
      | a => simp [setReps, nodeAt, child, iha]
      | b => simp [setReps, nodeAt, child, ihb]

theorem setReps_Paired (t : RectSearchTree N Rep) (p : NodePtr) (l : StdList Rep) (h : t.Paired) :
    (t.setReps p l).Paired := by
  induction t generalizing p with
  | null => exact True.intro
  | node r a b reps_ iha ihb =>
    obtain ⟨hab, ha, hb⟩ := h
    cases p with
    | nil => exact ⟨hab, ha, hb⟩
    | cons s p =>
      cases s with
      | a => exact ⟨by rw [setReps_isNull]; exact hab, iha p ha, hb⟩
      | b => exact ⟨by rw [setReps_isNull]; exact hab, ha, ihb p hb⟩

theorem allEntries_setReps (t : RectSearchTree N Rep) (p : NodePtr) (h : (t.nodeAt p).isNull = false) :
    ∃ others : List Rep, ∀ l : StdList Rep, ((t.setReps p l).allEntries).Perm (l.values ++ others) := by
  induction t generalizing p with
  | null => simp [nodeAt_null, isNull] at h
  | node r a b reps_ iha ihb =>
    cases p with
    | nil => exact ⟨a.allEntries ++ b.allEntries, fun l => by simp [setReps, allEntries]⟩
    | cons s p =>
      cases s with
      | a =>
        obtain ⟨others, ho⟩ := iha p (by simpa [nodeAt, child] using h)
        refine ⟨reps_.values ++ others ++ b.allEntries, fun l => ?_⟩
        simp only [setReps, allEntries]
        have h1 := ((ho l).append_left reps_.values).append_right b.allEntries
        refine h1.trans ?_
        simp only [List.append_assoc]
        exact List.perm_append_comm_assoc _ _ _
      | b =>
        obtain ⟨others, ho⟩ := ihb p (by simpa [nodeAt, child] using h)
        refine ⟨reps_.values ++ a.allEntries ++ others, fun l => ?_⟩
        simp only [setReps, allEntries]
        have h1 := (ho l).append_left (reps_.values ++ a.allEntries)
        refine h1.trans ?_
        simp only [List.append_assoc]
        exact (List.Perm.append_left _ (List.perm_append_comm_assoc _ _ _)).trans
          (List.perm_append_comm_assoc _ _ _)

/-! ### Insert and Remove -/

theorem StdList.ext_cells {l1 l2 : StdList Rep} (h : l1.cells = l2.cells) : l1 = l2 := by
  cases l1; cases l2; cases h; rfl

theorem insertCells_begin (c : Nat × Rep) (l : List (Nat × Rep)) :
    insertCells c l (l.head?.map Prod.fst) = c :: l := by
  cases l with
  | nil => rfl
  | cons x rest => simp [insertCells]

theorem StdList.insert_begin (l : StdList Rep) (obj : Rep) :
    ∃ inserted : StdList Rep, l.insert l.begin obj = some (inserted, some (freshAddr l.cells)) ∧
      inserted.cells = (freshAddr l.cells, obj) :: l.cells := by
  have hvalid : l.begin = none ∨ l.pointsInside l.begin = true := by
    cases hc : l.cells with
    | nil => left; simp [StdList.begin, hc]
    | cons x rest => right; simp [StdList.begin, StdList.pointsInside, hc]
  refine ⟨⟨(freshAddr l.cells, obj) :: l.cells, ?_⟩, ?_, rfl⟩
  · have := insertCells_nodup l.cells l.begin obj l.distinct
    rwa [StdList.begin, insertCells_begin] at this
  · simp only [StdList.insert, hvalid, if_true]
    congr 2
    exact StdList.ext_cells (insertCells_begin _ _)

theorem StdList.erase_spec (l : StdList Rep) (a : Nat) (h : l.pointsInside (some a) = true) :
    ∃ front v back erased, l.cells = front ++ (a, v) :: back ∧ l.deref (some a) = some v ∧
      l.erase (some a) = some erased ∧ erased.cells = front ++ back := by
  have key : ∀ cells : List (Nat × Rep), a ∈ cells.map Prod.fst →
      ∃ front v back, cells = front ++ (a, v) :: back ∧ cells.lookup a = some v ∧
        cells.eraseP (fun c => c.1 == a) = front ++ back := by
    intro cells
    induction cells with
    | nil => simp
    | cons x rest ih =>
      intro hmem
      by_cases hx : x.1 = a
      · refine ⟨[], x.2, rest, ?_, ?_, ?_⟩
        · subst hx; rfl
        · obtain ⟨x1, x2⟩ := x
          cases hx
          simp [List.lookup]
        · simp [List.eraseP_cons, hx]
      · have hmem1 : a ∈ rest.map Prod.fst := by
          rcases List.mem_cons.1 hmem with h1 | h1
          · exact absurd h1.symm hx
          · exact h1
        obtain ⟨front, v, back, h1, h2, h3⟩ := ih hmem1
        refine ⟨x :: front, v, back, by rw [h1]; rfl, ?_, ?_⟩
        · obtain ⟨x1, x2⟩ := x
          have hne : (a == x1) = false := by simpa using fun h => hx h.symm
          simp [List.lookup, hne, h2]
        · simp [List.eraseP_cons, hx, h3]
  have hmem : a ∈ l.cells.map Prod.fst := by
    simpa [StdList.pointsInside] using h
  obtain ⟨front, v, back, h1, h2, h3⟩ := key l.cells hmem
  refine ⟨front, v, back, ⟨front ++ back, ?_⟩, h1, ?_, ?_, rfl⟩
  · rw [← h3]
    exact l.distinct.sublist ((List.eraseP_sublist l.cells).map Prod.fst)
  · simpa [StdList.deref] using h2
  · simp only [StdList.erase, h, if_true]
    congr 1
    exact StdList.ext_cells h3

theorem Insert_eq (root : RectSearchTree N Rep) (box : Rect N) (obj : Rep) (h : root.isNull = false) :
    ∃ (p : NodePtr) (inserted : StdList Rep),
      Find root box = ⟨[p], (root.nodeAt p).reps.begin⟩ ∧ (root.nodeAt p).isNull = false ∧
      (FindInternal root box.grow = some p ∨ (FindInternal root box.grow = none ∧ p = [])) ∧
      inserted.cells = (freshAddr (root.nodeAt p).reps.cells, obj) :: (root.nodeAt p).reps.cells ∧
      Insert root box obj =
        some (root.setReps p inserted, ⟨[p], some (freshAddr (root.nodeAt p).reps.cells)⟩) := by
  obtain ⟨p, hfind, hnode, hint⟩ := Find_eq root box h
  obtain ⟨inserted, hins, hcells⟩ := StdList.insert_begin (root.nodeAt p).reps obj
  refine ⟨p, inserted, hfind, hnode, hint, hcells, ?_⟩
  simp only [Insert, InsertAt, InsertBefore, hfind]
  cases hn : root.nodeAt p with
  | null => rw [hn] at hnode; cases hnode
  | node r a b reps_ =>
    rw [hn] at hins
    simp only [reps] at hins
    simp only [reps, hins]
    rw [atNode_of_node root p hnode]

/-- C8: `Insert(box, payload)` adds the payload as the first entry of the node
that `Find(box)` selects: the entries of that node become the payload followed
by its previous entries in their previous order, the entries of every other
node are unchanged, and the returned handle designates that node and
dereferences to the payload. -/
theorem Insert_front (root : RectSearchTree N Rep) (box : Rect N) (obj : Rep)
    (h : root.isNull = false) :
    ∃ p inserted handle,
      (Find root box).Subtree = some p ∧
      Insert root box obj = some (inserted, handle) ∧
      inserted.entriesAt p = obj :: root.entriesAt p ∧
      (∀ q, q ≠ p → inserted.entriesAt q = root.entriesAt q) ∧
      handle.Subtree = some p ∧
      handle.deref inserted = some obj := by
  obtain ⟨p, l, hfind, hnode, _, hcells, hins⟩ := Insert_eq root box obj h
  refine ⟨p, _, _, by rw [hfind]; rfl, hins, ?_, ?_, rfl, ?_⟩
  · simp [entriesAt, nodeAt_setReps_reps, hnode, StdList.values, hcells]
  · intro q hq
    simp [entriesAt, nodeAt_setReps_reps, hq]
  · simp [Iterator.deref, nodeAt_setReps_reps, hnode, StdList.deref, hcells, List.lookup]

theorem Erase_eq (root : RectSearchTree N Rep) (p : NodePtr) (rest : List NodePtr) (cursor : Option Nat)
    (h : (root.nodeAt p).isNull = false) :
    Erase root ⟨p :: rest, cursor⟩ = ((root.nodeAt p).reps.erase cursor).map (root.setReps p) := by
  simp only [Erase]
  cases hn : root.nodeAt p with
  | null => rw [hn] at h; cases h
  | node r a b reps_ => rfl

theorem Insert_isNull (root inserted : RectSearchTree N Rep) (box : Rect N) (obj : Rep)
    (handle : Iterator) (h : Insert root box obj = some (inserted, handle)) : root.isNull = false := by
  cases root with
  | null => simp [Insert, InsertAt, InsertBefore, Find, FindInternal, Iterator.atNode,
      Iterator.ShouldIncludeSubtree, nodeAt, isNull, Iterator.default] at h
  | node r a b reps_ => rfl

theorem Remove_Insert (root inserted : RectSearchTree N Rep) (box : Rect N) (obj : Rep)
    (handle : Iterator) (h : Insert root box obj = some (inserted, handle)) :
    Remove inserted handle = some root := by
  obtain ⟨p, l, _, hnode, _, hcells, hins⟩ := Insert_eq root box obj (Insert_isNull _ _ _ _ _ h)
  rw [hins] at h
  obtain ⟨rfl, rfl⟩ := Prod.mk.inj (Option.some.inj h)
  have hnode1 : ((root.setReps p l).nodeAt p).isNull = false := by
    rw [nodeAt_setReps_isNull]; exact hnode
  rw [Remove, Erase_eq _ _ _ _ hnode1, nodeAt_setReps_reps]
  simp only [hnode, and_self, if_true]
  have herase : l.erase (some (freshAddr (root.nodeAt p).reps.cells)) = some (root.nodeAt p).reps := by
    have hin : l.pointsInside (some (freshAddr (root.nodeAt p).reps.cells)) = true := by
      simp [StdList.pointsInside, hcells]
    simp only [StdList.erase, hin, if_true]
    congr 1
    apply StdList.ext_cells
    simp [hcells, List.eraseP_cons]
  rw [herase]
  simp [setReps_setReps, setReps_self]

theorem designates_iff (root : RectSearchTree N Rep) (it : Iterator) (h : it.designates root = true) :
    ∃ p rest a, it = ⟨p :: rest, some a⟩ ∧ (root.nodeAt p).isNull = false ∧
      (root.nodeAt p).reps.pointsInside (some a) = true := by
  obtain ⟨queue, cursor⟩ := it
  cases queue with
  | nil => simp [Iterator.designates] at h
  | cons p rest =>
    cases cursor with
    | none => simp [Iterator.designates, StdList.pointsInside] at h
    | some a =>
      refine ⟨p, rest, a, rfl, ?_, by simpa [Iterator.designates] using h⟩
      cases hn : root.nodeAt p with
      | null => simp [Iterator.designates, hn, reps, StdList.pointsInside, StdList.nil] at h
      | node r a b reps_ => rfl

/-- C9: for every tree and every valid handle, `Remove(handle)` deletes exactly
the entry the handle designates: the entry list of its node loses that one
cell, the remaining entries keeping their order, and the entries of every
other node are unchanged; and `Remove` applied to the handle that
`Insert(box, payload)` returned gives back the tree as it was before the
insert. -/
theorem Remove_exact (root : RectSearchTree N Rep) (handle : Iterator)
    (hvalid : handle.designates root = true) :
    (∃ p a front v back removed,
      handle.Subtree = some p ∧ handle.list_iterator_ = some a ∧
      (root.nodeAt p).reps.cells = front ++ (a, v) :: back ∧
      handle.deref root = some v ∧
      Remove root handle = some removed ∧
      (removed.nodeAt p).reps.cells = front ++ back ∧
      (∀ q, q ≠ p → removed.entriesAt q = root.entriesAt q)) ∧
    (∀ box obj inserted fresh_handle, Insert root box obj = some (inserted, fresh_handle) →
      Remove inserted fresh_handle = some root) := by
  refine ⟨?_, fun box obj inserted fresh_handle h => Remove_Insert root inserted box obj fresh_handle h⟩
  obtain ⟨p, rest, a, rfl, hnode, hin⟩ := designates_iff root handle hvalid
  obtain ⟨front, v, back, erased, hcells, hderef, herase, hecells⟩ :=
    StdList.erase_spec (root.nodeAt p).reps a hin
  refine ⟨p, a, front, v, back, root.setReps p erased, rfl, rfl, hcells, hderef, ?_, ?_, ?_⟩
  · rw [Remove, Erase_eq _ _ _ _ hnode, herase]; rfl
  · simp [nodeAt_setReps_reps, hnode, hecells]
  · intro q hq
    simp [entriesAt, nodeAt_setReps_reps, hq]

theorem allEntries_setReps_cons (t : RectSearchTree N Rep) (p : NodePtr) (l : StdList Rep) (x : Rep)
    (h : (t.nodeAt p).isNull = false) (hl : l.values.Perm (x :: (t.nodeAt p).reps.values)) :
    ((t.setReps p l).allEntries).Perm (x :: t.allEntries) := by
  obtain ⟨others, ho⟩ := allEntries_setReps t p h
  have h1 := ho l
  have h2 := ho (t.nodeAt p).reps
  rw [setReps_self] at h2
  refine h1.trans ?_
  refine (hl.append_right others).trans ?_
  exact (List.Perm.cons x h2.symm)

theorem Find_queue_setReps (root : RectSearchTree N Rep) (p : NodePtr) (l : StdList Rep) (box : Rect N) :
    (Find (root.setReps p l) box).node_queue_ = (Find root box).node_queue_ := by
  have key : ∀ q : NodePtr, (Iterator.atNode (root.setReps p l) q).node_queue_ =
      (Iterator.atNode root q).node_queue_ := by
    intro q
    simp only [Iterator.atNode, Iterator.ShouldIncludeSubtree, nodeAt_setReps_isNull]
    split <;> rfl
  simp only [Find, FindInternal_setReps]
  split <;> exact key _

/-- C10: relocating a valid handle that designates the payload `obj` to a box
returns a handle that designates `obj` in the node `Find` selects for the box;
the payloads stored in the tree are the same multiset as before; and a
subsequent `Remove` of the returned handle removes that entry and no other,
leaving the tree that removing the original entry would have left. (The
relocation is the remove-then-reinsert the design document describes.) -/
theorem Move_preserves (root : RectSearchTree N Rep) (handle : Iterator) (box : Rect N)
    (hvalid : handle.designates root = true) :
    ∃ obj removed moved moved_handle p,
      handle.deref root = some obj ∧
      Remove root handle = some removed ∧
      Move root handle box = some (moved, moved_handle) ∧
      (Find root box).Subtree = some p ∧
      moved_handle.Subtree = some p ∧
      moved_handle.deref moved = some obj ∧
      moved_handle.designates moved = true ∧
      moved.entriesAt p = obj :: removed.entriesAt p ∧
      (∀ q, q ≠ p → moved.entriesAt q = removed.entriesAt q) ∧
      moved.allEntries.Perm root.allEntries ∧
      Remove moved moved_handle = some removed := by
  obtain ⟨p0, rest, a, rfl, hnode, hin⟩ := designates_iff root handle hvalid
  obtain ⟨front, v, back, erased, hcells, hderef, herase, hecells⟩ :=
    StdList.erase_spec (root.nodeAt p0).reps a hin
  have hremove : Remove root ⟨p0 :: rest, some a⟩ = some (root.setReps p0 erased) := by
    rw [Remove, Erase_eq _ _ _ _ hnode, herase]; rfl
  have hnull : (root.setReps p0 erased).isNull = false := by
    rw [setReps_isNull]
    cases root with
    | null => simp [nodeAt_null, isNull] at hnode
    | node _ _ _ _ => rfl
  obtain ⟨p, l, hfind, hnode1, _, hlcells, hins⟩ := Insert_eq (root.setReps p0 erased) box v hnull
  have hmove : Move root ⟨p0 :: rest, some a⟩ box = Insert (root.setReps p0 erased) box v := by
    have hd : Iterator.deref root ⟨p0 :: rest, some a⟩ = some v := hderef
    simp only [Move, hd, hremove]
  have hqueue : (Find root box).Subtree = some p := by
    have := Find_queue_setReps root p0 erased box
    rw [hfind] at this
    simp [Iterator.Subtree, ← this]
  refine ⟨v, _, _, _, p, hderef, hremove, hmove.trans hins, hqueue, rfl, ?_, ?_, ?_, ?_, ?_, ?_⟩
  · simp [Iterator.deref, nodeAt_setReps_reps, hnode1, StdList.deref, hlcells, List.lookup]
  · simp [Iterator.designates, nodeAt_setReps_reps, hnode1, StdList.pointsInside, hlcells]
  · simp [entriesAt, nodeAt_setReps_reps, hnode1, StdList.values, hlcells]
  · intro q hq
    simp only [entriesAt]
    rw [nodeAt_setReps_reps _ p q l]
    simp [hq]
  · have h1 : ((root.setReps p0 erased).setReps p l).allEntries.Perm (v :: (root.setReps p0 erased).allEntries) :=
      allEntries_setReps_cons _ p l v hnode1 (by simp [StdList.values, hlcells])
    have hnode0 : ((root.setReps p0 erased).nodeAt p0).isNull = false := by
      rw [nodeAt_setReps_isNull]; exact hnode
    have h2 := allEntries_setReps_cons (root.setReps p0 erased) p0 (root.nodeAt p0).reps v hnode0
      (by
        rw [nodeAt_setReps_reps]
        simp only [hnode, and_self, if_true, StdList.values, hcells, hecells]
        simp only [List.map_append, List.map_cons]
        exact List.perm_middle)
    rw [setReps_setReps, setReps_self] at h2
    exact h1.trans h2.symm
  · exact Remove_Insert _ _ box v _ hins

/-! ### Traversal -/

theorem AdvanceLoop_leave (should : RectSearchTree N Rep → Bool) (root : RectSearchTree N Rep)
    (fuel : Nat) (current : NodePtr) (rest : List NodePtr) (cursor : Option Nat)
    (h : (root.nodeAt current).isNull = false) :
    Iterator.AdvanceLoop should root (fuel + 1) false ⟨current :: rest, cursor⟩ =
      afterNode should root fuel current rest cursor := by
  cases hn : root.nodeAt current with
  | null => rw [hn] at h; cases h
  | node r a b reps_ =>
    simp only [Iterator.AdvanceLoop, hn, afterNode, childrenOf, child]
    cases should a <;> cases should b <;> simp <;> split <;> first | rfl | (rename_i heq; rw [heq])

theorem AdvanceLoop_end (should : RectSearchTree N Rep → Bool) (root : RectSearchTree N Rep)
    (fuel : Nat) (current : NodePtr) (rest : List NodePtr)
    (h : (root.nodeAt current).isNull = false) :
    Iterator.AdvanceLoop should root (fuel + 1) true ⟨current :: rest, none⟩ =
      afterNode should root fuel current rest none := by
  cases hn : root.nodeAt current with
  | null => rw [hn] at h; cases h
  | node r a b reps_ =>
    simp only [Iterator.AdvanceLoop, hn, afterNode, childrenOf, child]
    cases should a <;> cases should b <;> simp <;> split <;> first | rfl | (rename_i heq; rw [heq])

theorem AdvanceLoop_last (should : RectSearchTree N Rep → Bool) (root : RectSearchTree N Rep)
    (fuel : Nat) (current : NodePtr) (rest : List NodePtr) (a : Nat)
    (h : (root.nodeAt current).isNull = false)
    (hnext : nextCell (root.nodeAt current).reps.cells a = some none) :
    Iterator.AdvanceLoop should root (fuel + 1) true ⟨current :: rest, some a⟩ =
      afterNode should root fuel current rest none := by
  cases hn : root.nodeAt current with
  | null => rw [hn] at h; cases h
  | node r ca cb reps_ =>
    rw [hn] at hnext
    simp only [reps] at hnext
    simp only [Iterator.AdvanceLoop, hn, afterNode, childrenOf, child, hnext]
    cases should ca <;> cases should cb <;> simp <;> split <;> first | rfl | (rename_i heq; rw [heq])

theorem AdvanceLoop_next (should : RectSearchTree N Rep → Bool) (root : RectSearchTree N Rep)
    (fuel : Nat) (current : NodePtr) (rest : List NodePtr) (a a1 : Nat)
    (h : (root.nodeAt current).isNull = false)
    (hnext : nextCell (root.nodeAt current).reps.cells a = some (some a1)) :
    Iterator.AdvanceLoop should root (fuel + 1) true ⟨current :: rest, some a⟩ =
      some ⟨current :: rest, some a1⟩ := by
  cases hn : root.nodeAt current with
  | null => rw [hn] at h; cases h
  | node r ca cb reps_ =>
    rw [hn] at hnext
    simp only [reps] at hnext
    simp [Iterator.AdvanceLoop, hn, hnext]

theorem size_pos (t : RectSearchTree N Rep) (h : t.isNull = false) : 1 ≤ t.size := by
  cases t with
  | null => cases h
  | node r a b reps_ => simp only [size]; omega

theorem weight_append (root : RectSearchTree N Rep) (q1 q2 : List NodePtr) :
    weight root (q1 ++ q2) = weight root q1 + weight root q2 := by
  induction q1 with
  | nil => simp [weight]
  | cons p q1 ih =>
    rw [List.cons_append]
    simp only [weight]
    rw [ih]; omega

theorem pending_append (should : RectSearchTree N Rep → Bool) (root : RectSearchTree N Rep)
    (q1 q2 : List NodePtr) :
    pending should root (q1 ++ q2) = pending should root q1 ++ pending should root q2 := by
  induction q1 with
  | nil => simp [pending]
  | cons p q1 ih =>
    rw [List.cons_append]
    simp only [pending]
    rw [ih, List.append_assoc]

theorem childrenOf_isNull (should : RectSearchTree N Rep → Bool) (root : RectSearchTree N Rep)
    (hshould : ∀ t, should t = true → t.isNull = false) (current : NodePtr) :
    ∀ p ∈ childrenOf should root current, (root.nodeAt p).isNull = false := by
  intro p hp
  simp only [childrenOf, List.mem_append] at hp
  rcases hp with hp | hp
  · split at hp
    · rename_i hs
      simp only [List.mem_singleton] at hp
      subst hp
      rw [nodeAt_snoc]; exact hshould _ hs
    · simp at hp
  · split at hp
    · rename_i hs
      simp only [List.mem_singleton] at hp
      subst hp
      rw [nodeAt_snoc]; exact hshould _ hs
    · simp at hp

theorem weight_childrenOf (should : RectSearchTree N Rep → Bool) (root : RectSearchTree N Rep)
    (current : NodePtr) (h : (root.nodeAt current).isNull = false) :
    weight root (childrenOf should root current) + 1 ≤ (root.nodeAt current).size := by
  rw [childrenOf, weight_append]
  have ha : weight root (if should ((root.nodeAt current).child Side.a) then [current ++ [Side.a]] else [])
      ≤ ((root.nodeAt current).child Side.a).size := by
    split
    · simp [weight, nodeAt_snoc]
    · simp [weight]
  have hb : weight root (if should ((root.nodeAt current).child Side.b) then [current ++ [Side.b]] else [])
      ≤ ((root.nodeAt current).child Side.b).size := by
    split
    · simp [weight, nodeAt_snoc]
    · simp [weight]
  cases hn : root.nodeAt current with
  | null => rw [hn] at h; cases h
  | node r a b reps_ =>
    rw [hn] at ha hb
    simp only [child] at ha hb ⊢
    simp only [size]
    omega

theorem visited_eq (should : RectSearchTree N Rep → Bool) (root : RectSearchTree N Rep)
    (current : NodePtr) (h : (root.nodeAt current).isNull = false) :
    visited should (root.nodeAt current) current =
      (root.nodeAt current).reps.values.map (fun v => (current, v)) ++
        pending should root (childrenOf should root current) := by
  have hchild : ∀ s, root.nodeAt (current ++ [s]) = (root.nodeAt current).child s :=
    fun s => nodeAt_snoc root current s
  rw [childrenOf, pending_append]
  cases hn : root.nodeAt current with
  | null => rw [hn] at h; cases h
  | node r a b reps_ =>
    rw [hn] at hchild
    have hca := hchild Side.a
    have hcb := hchild Side.b
    simp only [child] at hca hcb
    simp only [visited, reps, child]
    congr 2
    · split <;> simp [pending, hca]
    · split <;> simp [pending, hcb]

theorem afterNode_settles (should : RectSearchTree N Rep → Bool) (root : RectSearchTree N Rep)
    (hshould : ∀ t, should t = true → t.isNull = false) :
    ∀ (fuel : Nat) (current : NodePtr) (rest : List NodePtr) (cursor : Option Nat),
      (root.nodeAt current).isNull = false →
      (∀ p ∈ rest, (root.nodeAt p).isNull = false) →
      weight root (current :: rest) ≤ fuel + 1 →
      ∃ it : Iterator, afterNode should root fuel current rest cursor = some it ∧
        (∀ p ∈ it.node_queue_, (root.nodeAt p).isNull = false) ∧
        (it.node_queue_ = [] ∨ ∃ front queue, it.node_queue_ = front :: queue ∧
          (root.nodeAt front).reps.empty = false ∧ it.list_iterator_ = (root.nodeAt front).reps.begin) ∧
        (pending should root it.node_queue_).Perm
          (pending should root (rest ++ childrenOf should root current)) ∧
        weight root it.node_queue_ < weight root (current :: rest) := by
  intro fuel
  induction fuel with
  | zero =>
    intro current rest cursor hcur hrest hfuel
    have hw := weight_childrenOf should root current hcur
    have hsz := size_pos _ hcur
    have hq : rest ++ childrenOf should root current = [] := by
      cases hq : rest ++ childrenOf should root current with
      | nil => rfl
      | cons front queue =>
        exfalso
        have hfront : (root.nodeAt front).isNull = false := by
          have hmem : front ∈ rest ++ childrenOf should root current := by rw [hq]; simp
          rcases List.mem_append.1 hmem with h | h
          · exact hrest _ h
          · exact childrenOf_isNull should root hshould current _ h
        have h1 := size_pos _ hfront
        have h2 : weight root (rest ++ childrenOf should root current) =
            weight root (front :: queue) := by rw [hq]
        rw [weight_append] at h2
        simp only [weight] at h2 hfuel
        omega
    refine ⟨⟨[], cursor⟩, ?_, by simp, Or.inl rfl, ?_, ?_⟩
    · simp only [afterNode, hq]
    · rw [hq]
    · simp only [weight]; omega
  | succ fuel ih =>
    intro current rest cursor hcur hrest hfuel
    have hw := weight_childrenOf should root current hcur
    have hsz := size_pos _ hcur
    cases hq : rest ++ childrenOf should root current with
    | nil =>
      refine ⟨⟨[], cursor⟩, ?_, by simp, Or.inl rfl, ?_, ?_⟩
      · simp only [afterNode, hq]
      · exact List.Perm.refl _
      · simp only [weight]; omega
    | cons front queue =>
      have hall : ∀ p ∈ front :: queue, (root.nodeAt p).isNull = false := by
        intro p hp
        rw [← hq] at hp
        rcases List.mem_append.1 hp with h | h
        · exact hrest _ h
        · exact childrenOf_isNull should root hshould current _ h
      have hweight : weight root (front :: queue) < weight root (current :: rest) := by
        have h2 : weight root (rest ++ childrenOf should root current) =
            weight root (front :: queue) := by rw [hq]
        rw [weight_append] at h2
        simp only [weight] at h2 ⊢
        omega
      cases hempty : (root.nodeAt front).reps.empty with
      | false =>
        refine ⟨⟨front :: queue, (root.nodeAt front).reps.begin⟩, ?_, hall, Or.inr ⟨_, _, rfl, hempty, rfl⟩,
          List.Perm.refl _, hweight⟩
        simp [afterNode, hq, hempty]
      | true =>
        have hfront := hall front (by simp)
        have hqueue : ∀ p ∈ queue, (root.nodeAt p).isNull = false :=
          fun p hp => hall p (List.mem_cons_of_mem _ hp)
        obtain ⟨it, hit, hnn, hsettled, hperm, hlt⟩ :=
          ih front queue cursor hfront hqueue (by omega)
        refine ⟨it, ?_, hnn, hsettled, ?_, by omega⟩
        · simp only [afterNode, hq, hempty]
          rw [← hit]
          exact AdvanceLoop_leave should root fuel front queue cursor hfront
        · refine hperm.trans ?_
          rw [pending_append]
          simp only [pending]
          rw [visited_eq should root front hfront]
          have hvals : (root.nodeAt front).reps.values = [] := by
            simp only [StdList.empty, List.isEmpty_iff] at hempty
            simp [StdList.values, hempty]
          simp only [hvals, List.map_nil, List.nil_append]
          exact List.perm_append_comm

theorem cellsFrom_spec (a : Nat) (cells : List (Nat × Rep)) (hmem : a ∈ cells.map Prod.fst)
    (hnodup : (cells.map Prod.fst).Nodup) :
    ∃ v back, cellsFrom a cells = (a, v) :: back ∧ cells.lookup a = some v ∧
      nextCell cells a = some (back.head?.map Prod.fst) ∧
      (∀ c ∈ back, c ∈ cells) ∧
      (∀ a1 v1 back1, back = (a1, v1) :: back1 → cellsFrom a1 cells = back) := by
  induction cells with
  | nil => simp at hmem
  | cons x rest ih =>
    obtain ⟨x1, x2⟩ := x
    simp only [List.map_cons, List.nodup_cons] at hnodup
    obtain ⟨hx, hrest⟩ := hnodup
    by_cases hxa : x1 = a
    · subst hxa
      refine ⟨x2, rest, by simp [cellsFrom], by simp [List.lookup], by simp [nextCell],
        fun c hc => List.mem_cons_of_mem _ hc, ?_⟩
      intro a1 v1 back1 hback
      have hne : ¬ x1 = a1 := by
        rintro rfl
        exact hx (List.mem_map.2 ⟨(x1, v1), by rw [hback]; simp, rfl⟩)
      simp [cellsFrom, hne, hback]
    · have hmem1 : a ∈ rest.map Prod.fst := by
        rcases List.mem_cons.1 hmem with h | h
        · exact absurd h.symm hxa
        · exact h
      obtain ⟨v, back, h1, h2, h3, h4, h5⟩ := ih hmem1 hrest
      have hbeq : (a == x1) = false := by simpa using fun h => hxa h.symm
      refine ⟨v, back, by simp [cellsFrom, hxa, h1], by simp [List.lookup, hbeq, h2],
        by simp [nextCell, hxa, h3], fun c hc => List.mem_cons_of_mem _ (h4 c hc), ?_⟩
      intro a1 v1 back1 hback
      have hne : ¬ x1 = a1 := by
        rintro rfl
        exact hx (List.mem_map.2 ⟨(x1, v1), h4 _ (by rw [hback]; simp), rfl⟩)
      simp only [cellsFrom, hne, if_false]
      exact h5 a1 v1 back1 hback

theorem settled_at_begin (root : RectSearchTree N Rep)
    (front : NodePtr) (queue : List NodePtr)
    (hempty : (root.nodeAt front).reps.empty = false) :
    Settled root ⟨front :: queue, (root.nodeAt front).reps.begin⟩ ↔
      (∀ p ∈ front :: queue, (root.nodeAt p).isNull = false) := by
  constructor
  · intro h; exact h.1
  · intro h
    refine ⟨h, Or.inr ?_⟩
    simp only [Iterator.designates, StdList.begin, StdList.pointsInside]
    simp only [StdList.empty] at hempty
    cases hc : (root.nodeAt front).reps.cells with
    | nil => simp [hc] at hempty
    | cons x rest => simp

theorem remaining_begin_perm (should : RectSearchTree N Rep → Bool) (root : RectSearchTree N Rep)
    (front : NodePtr) (queue : List NodePtr) (hfront : (root.nodeAt front).isNull = false)
    (hempty : (root.nodeAt front).reps.empty = false) :
    (remaining should root ⟨front :: queue, (root.nodeAt front).reps.begin⟩).Perm
      (pending should root (front :: queue)) := by
  simp only [StdList.empty] at hempty
  cases hc : (root.nodeAt front).reps.cells with
  | nil => simp [hc] at hempty
  | cons x rest =>
    have hb : (root.nodeAt front).reps.begin = some x.1 := by simp [StdList.begin, hc]
    simp only [remaining, hb, pending]
    rw [visited_eq should root front hfront, pending_append, hc]
    simp only [cellsFrom, if_true, StdList.values, hc, List.map_map, List.append_assoc]
    refine List.Perm.append_left _ ?_
    exact List.perm_append_comm

theorem traverse_settled (should : RectSearchTree N Rep → Bool) (root : RectSearchTree N Rep)
    (hshould : ∀ t, should t = true → t.isNull = false) :
    ∀ (fuel : Nat) (it : Iterator), Settled root it →
      (remaining should root it).length + weight root it.node_queue_ + 1 ≤ fuel →
      ∃ out, Iterator.traverse should root fuel it = some out ∧
        out.Perm ((remaining should root it).map fun e => (e.1, some e.2)) := by
  intro fuel
  induction fuel with
  | zero => intro it _ h; omega
  | succ fuel ih =>
    intro it hsettled hfuel
    obtain ⟨queue, cursor⟩ := it
    cases queue with
    | nil =>
      refine ⟨[], ?_, ?_⟩
      · simp [Iterator.traverse, Iterator.eq, Iterator.default]
      · simp [remaining]
    | cons current rest =>
      obtain ⟨hall, hdes⟩ := hsettled
      have hdes : Iterator.designates root ⟨current :: rest, cursor⟩ = true := by
        rcases hdes with h | h
        · cases h
        · exact h
      obtain ⟨p, rest1, a, hit, hcur, hin⟩ := designates_iff root _ hdes
      obtain ⟨rfl, rfl⟩ : (current = p ∧ rest = rest1) := by
        have := congrArg Iterator.node_queue_ hit
        simpa using this
      obtain rfl : cursor = some a := congrArg Iterator.list_iterator_ hit
      have hrest : ∀ q ∈ rest, (root.nodeAt q).isNull = false :=
        fun q hq => hall q (List.mem_cons_of_mem _ hq)
      have hmem : a ∈ (root.nodeAt current).reps.cells.map Prod.fst := by
        simpa [StdList.pointsInside] using hin
      obtain ⟨v, back, hfrom, hlookup, hnext, _, hback⟩ :=
        cellsFrom_spec a (root.nodeAt current).reps.cells hmem (root.nodeAt current).reps.distinct
      have hrem : remaining should root ⟨current :: rest, some a⟩ =
          (current, v) :: (back.map (fun c => (current, c.2)) ++
            pending should root (rest ++ childrenOf should root current)) := by
        simp [remaining, hfrom]
      have hsz := size_pos _ hcur
      rw [hrem] at hfuel ⊢
      simp only [List.length_cons, weight] at hfuel
      have hderef : Iterator.deref root ⟨current :: rest, some a⟩ = some v := by
        simpa [Iterator.deref, StdList.deref] using hlookup
      have hne : Iterator.eq ⟨current :: rest, some a⟩ Iterator.default = false := by
        simp [Iterator.eq, Iterator.default]
      obtain ⟨f, rfl⟩ : ∃ f, fuel = f + 1 := ⟨fuel - 1, by omega⟩
      have step : ∀ following : Iterator,
          Iterator.Advance should root (f + 1) ⟨current :: rest, some a⟩ = some following →
          Settled root following →
          (remaining should root following).Perm (back.map (fun c => (current, c.2)) ++
            pending should root (rest ++ childrenOf should root current)) →
          weight root following.node_queue_ ≤ weight root (current :: rest) →
          ∃ out, Iterator.traverse should root (f + 1 + 1) ⟨current :: rest, some a⟩ = some out ∧
            out.Perm (((current, v) :: (back.map (fun c => (current, c.2)) ++
              pending should root (rest ++ childrenOf should root current))).map
                fun e => (e.1, some e.2)) := by
        intro following hadv hset hperm hweight
        have hlen := hperm.length_eq
        simp only [weight] at hweight
        obtain ⟨out, hout, houtperm⟩ := ih following hset (by omega)
        refine ⟨(current, some v) :: out, ?_, ?_⟩
        · rw [Iterator.traverse]
          simp only [hne, Bool.false_eq_true, if_false, Iterator.Subtree, List.head?_cons, hadv, hout,
            hderef, Option.map_some']
        · simp only [List.map_cons]
          exact List.Perm.cons _ (houtperm.trans (hperm.map _))
      cases back with
      | nil =>
        simp only [List.head?_nil, Option.map_none'] at hnext
        have hadv : Iterator.Advance should root (f + 1) ⟨current :: rest, some a⟩ =
            afterNode should root f current rest none :=
          AdvanceLoop_last should root f current rest a hcur hnext
        obtain ⟨following, hfol, hnn, hshape, hperm, hlt⟩ :=
          afterNode_settles should root hshould f current rest none hcur hrest
            (by simp only [weight]; simp only [List.length_append, List.length_map, List.length_nil] at hfuel; omega)
        refine step following (hadv.trans hfol) ?_ ?_ (by omega)
        · rcases hshape with h | ⟨front, queue, hq, hempty, hcursor⟩
          · exact ⟨hnn, Or.inl h⟩
          · obtain ⟨fq, fc⟩ := following
            simp only at hq hcursor
            subst hq hcursor
            exact (settled_at_begin root front queue hempty).2 hnn
        · rcases hshape with h | ⟨front, queue, hq, hempty, hcursor⟩
          · obtain ⟨fq, fc⟩ := following
            simp only at h
            subst h
            simp only [pending] at hperm
            simp only [List.map_nil, List.nil_append]
            have : remaining should root ⟨[], fc⟩ = [] := by simp [remaining]
            rw [this]
            exact hperm
          · obtain ⟨fq, fc⟩ := following
            simp only at hq hcursor
            subst hq hcursor
            simp only [List.map_nil, List.nil_append]
            exact (remaining_begin_perm should root front queue (hnn front (by simp)) hempty).trans hperm
      | cons c1 back1 =>
        obtain ⟨a1, v1⟩ := c1
        simp only [List.head?_cons, Option.map_some'] at hnext
        have hadv : Iterator.Advance should root (f + 1) ⟨current :: rest, some a⟩ =
            some ⟨current :: rest, some a1⟩ :=
          AdvanceLoop_next should root f current rest a a1 hcur hnext
        have hfrom1 := hback a1 v1 back1 rfl
        have hmem1 : a1 ∈ (root.nodeAt current).reps.cells.map Prod.fst := by
          have : (a1, v1) ∈ cellsFrom a (root.nodeAt current).reps.cells := by rw [hfrom]; simp
          have hsub : ∀ (cells : List (Nat × Rep)) (c : Nat × Rep), c ∈ cellsFrom a cells → c ∈ cells := by
            intro cells
            induction cells with
            | nil => intro c hc; simp [cellsFrom] at hc
            | cons x xs ihx =>
              intro c hc
              simp only [cellsFrom] at hc
              split at hc
              · exact hc
              · exact List.mem_cons_of_mem _ (ihx c hc)
          exact List.mem_map.2 ⟨(a1, v1), hsub _ _ this, rfl⟩
        refine step _ hadv ⟨hall, Or.inr ?_⟩ ?_ le_rfl
        · simpa [Iterator.designates, StdList.pointsInside] using hmem1
        · simp [remaining, hfrom1]

theorem traverse_begin (should : RectSearchTree N Rep → Bool) (root : RectSearchTree N Rep)
    (hshould : ∀ t, should t = true → t.isNull = false) (hroot : root.isNull = false) :
    ∀ fuel, (visited should root []).length + root.size + 3 ≤ fuel →
      ∃ out, Iterator.traverse should root fuel (Iterator.atNode root []) = some out ∧
        out.Perm ((if root.reps.empty then [(([] : NodePtr), (none : Option Rep))] else []) ++
          (visited should root []).map fun e => (e.1, some e.2)) := by
  intro fuel hfuel
  have hat : Iterator.atNode root [] = ⟨[[]], root.reps.begin⟩ := atNode_of_node root [] hroot
  have hvis := visited_eq should root [] hroot
  simp only [nodeAt] at hvis
  rw [hat]
  cases hempty : root.reps.empty with
  | false =>
    have hset : Settled root ⟨[[]], root.reps.begin⟩ :=
      (settled_at_begin root [] [] hempty).2 (by simpa [nodeAt] using hroot)
    have hperm := remaining_begin_perm should root [] [] hroot hempty
    simp only [nodeAt, pending, List.append_nil] at hperm
    obtain ⟨out, hout, houtperm⟩ := traverse_settled should root hshould fuel _ hset
      (by have := hperm.length_eq; simp only [weight, nodeAt]; omega)
    refine ⟨out, hout, ?_⟩
    simp only [Bool.false_eq_true, if_false, List.nil_append]
    exact houtperm.trans (hperm.map _)
  | true =>
    have hcells : root.reps.cells = [] := by
      simpa [StdList.empty, List.isEmpty_iff] using hempty
    have hbegin : root.reps.begin = none := by simp [StdList.begin, hcells]
    have hvals : root.reps.values = [] := by simp [StdList.values, hcells]
    rw [hvals] at hvis
    simp only [List.map_nil, List.nil_append] at hvis
    rw [hbegin]
    obtain ⟨f, rfl⟩ : ∃ f, fuel = f + 1 + 1 := ⟨fuel - 2, by omega⟩
    have hsz := size_pos _ hroot
    obtain ⟨following, hfol, hnn, hshape, hperm, hlt⟩ :=
      afterNode_settles should root hshould f [] [] none hroot (by simp)
        (by simp only [weight, nodeAt]; omega)
    simp only [List.nil_append, weight, nodeAt, Nat.add_zero] at hperm hlt
    have hadv : Iterator.Advance should root (f + 1) ⟨[[]], none⟩ = some following :=
      (AdvanceLoop_end should root f [] [] hroot).trans hfol
    have hset : Settled root following ∧
        (remaining should root following).Perm (pending should root following.node_queue_) := by
      rcases hshape with h | ⟨front, queue, hq, hne, hcursor⟩
      · refine ⟨⟨hnn, Or.inl h⟩, ?_⟩
        obtain ⟨fq, fc⟩ := following
        simp only at h
        subst h
        simp [remaining, pending]
      · obtain ⟨fq, fc⟩ := following
        simp only at hq hcursor
        subst hq hcursor
        exact ⟨(settled_at_begin root front queue hne).2 hnn,
          remaining_begin_perm should root front queue (hnn front (by simp)) hne⟩
    have hlen := (hset.2.trans hperm).length_eq
    rw [← hvis] at hlen
    obtain ⟨out, hout, houtperm⟩ := traverse_settled should root hshould (f + 1) following hset.1
      (by omega)
    refine ⟨([], none) :: out, ?_, ?_⟩
    · rw [Iterator.traverse]
      have hne : Iterator.eq ⟨[[]], none⟩ Iterator.default = false := by
        simp [Iterator.eq, Iterator.default]
      simp only [hne, Bool.false_eq_true, if_false, Iterator.Subtree, List.head?_cons, hadv, hout,
        Option.map_some']
      simp [Iterator.deref, StdList.deref]
    · simp only [if_true, List.singleton_append]
      refine List.Perm.cons _ (houtperm.trans ?_)
      rw [hvis]
      exact (hset.2.trans hperm).map _

theorem visited_mem (should : RectSearchTree N Rep → Bool) :
    ∀ (p : NodePtr) (t : RectSearchTree N Rep) (base : NodePtr) (v : Rep),
      (∀ k, k < p.length → should (t.nodeAt (p.take (k + 1))) = true) →
      v ∈ (t.nodeAt p).reps.values → (base ++ p, v) ∈ visited should t base := by
  intro p
  induction p with
  | nil =>
    intro t base v _ hv
    cases t with
    | null => simp [nodeAt, reps, StdList.values, StdList.nil] at hv
    | node r a b reps_ =>
      simp only [nodeAt, reps] at hv
      simp only [visited, List.append_nil, List.mem_append, List.mem_map]
      exact Or.inl ⟨v, hv, rfl⟩
  | cons s p ih =>
    intro t base v hpath hv
    cases t with
    | null => simp [nodeAt_null, reps, StdList.values, StdList.nil] at hv
    | node r a b reps_ =>
      have hfirst := hpath 0 (by simp)
      have hnext : ∀ k, k < p.length →
          should (((node r a b reps_).child s).nodeAt (p.take (k + 1))) = true := by
        intro k hk
        have := hpath (k + 1) (by simpa using hk)
        simpa [nodeAt] using this
      have hrec := ih ((node r a b reps_).child s) (base ++ [s]) v hnext (by simpa [nodeAt] using hv)
      simp only [List.append_assoc, List.singleton_append] at hrec
      simp only [List.take_succ_cons, List.take_zero, nodeAt] at hfirst
      simp only [visited, List.mem_append]
      cases s with
      | a =>
        simp only [child] at hfirst hrec
        exact Or.inr (Or.inl (by simpa [hfirst] using hrec))
      | b =>
        simp only [child] at hfirst hrec
        exact Or.inr (Or.inr (by simpa [hfirst] using hrec))

theorem visited_all (t : RectSearchTree N Rep) (p : NodePtr) :
    (visited Iterator.ShouldIncludeSubtree t p).map Prod.snd = t.allEntries := by
  induction t generalizing p with
  | null => rfl
  | node r a b reps_ iha ihb =>
    have hside : ∀ (c : RectSearchTree N Rep) (q : NodePtr),
        (visited Iterator.ShouldIncludeSubtree c q).map Prod.snd = c.allEntries →
        ((if Iterator.ShouldIncludeSubtree c = true then visited Iterator.ShouldIncludeSubtree c q
          else []).map Prod.snd) = c.allEntries := by
      intro c q hc
      cases c with
      | null => simp [Iterator.ShouldIncludeSubtree, isNull, allEntries]
      | node _ _ _ _ => simpa [Iterator.ShouldIncludeSubtree, isNull] using hc
    simp only [visited, allEntries, List.map_append, List.map_map, List.append_assoc]
    rw [hside a _ (iha _), hside b _ (ihb _)]
    congr 1
    simp [Function.comp_def]

theorem fullTraversal_spec (root : RectSearchTree N Rep) (hroot : root.isNull = false) :
    ∀ fuel, root.allEntries.length + root.size + 3 ≤ fuel →
      ∃ out, root.fullTraversal fuel = some out ∧
        (out.map Prod.snd).Perm
          ((if root.reps.empty then [none] else []) ++ root.allEntries.map some) := by
  intro fuel hfuel
  have hlen : (visited Iterator.ShouldIncludeSubtree root []).length = root.allEntries.length := by
    rw [← visited_all root [], List.length_map]
  obtain ⟨out, hout, hperm⟩ := traverse_begin Iterator.ShouldIncludeSubtree root
    (fun t ht => by simpa [Iterator.ShouldIncludeSubtree] using ht) hroot fuel (by omega)
  refine ⟨out, hout, ?_⟩
  have := hperm.map Prod.snd
  rw [← visited_all root []]
  refine this.trans ?_
  simp only [List.map_append, List.map_map]
  refine List.Perm.append ?_ (List.Perm.of_eq rfl)
  split <;> simp

/-! ### Near queries -/

theorem Rect.near_iff (A D : Rect N) :
    (A.Overlaps D ∨ A.Touches D) ↔
      ∀ i : Fin N, max (A.pos i) (D.pos i) ≤ min (A.pos i + A.size i) (D.pos i + D.size i) := by
  constructor
  · rintro (h | h)
    · exact fun i => le_of_lt (h i)
    · exact h.1
  · intro h
    by_cases hall : ∀ i : Fin N, max (A.pos i) (D.pos i) < min (A.pos i + A.size i) (D.pos i + D.size i)
    · exact Or.inl hall
    · right
      push_neg at hall
      obtain ⟨i, hi⟩ := hall
      exact ⟨h, i, le_antisymm (h i) hi⟩

theorem Rect.near_of_contains (A B D : Rect N) (h : A.Overlaps B ∨ A.Touches B)
    (hD : D.Contains B.grow) : A.Overlaps D ∨ A.Touches D := by
  rw [Rect.near_iff] at h ⊢
  intro i
  have h1 := h i
  have h2 := hD i
  simp only [Rect.grow] at h2
  simp only [max_le_iff, le_min_iff] at h1 ⊢
  omega

theorem near_should_iff (rect : Rect N) (t : RectSearchTree N Rep) :
    NearIterator.ShouldIncludeSubtree rect t = true ↔
      ∃ r, t.GetRect = some r ∧ (rect.Overlaps r ∨ rect.Touches r) := by
  cases t with
  | null => simp [NearIterator.ShouldIncludeSubtree, GetRect]
  | node r a b reps_ => simp [NearIterator.ShouldIncludeSubtree, GetRect]

theorem Find_Subtree (root : RectSearchTree N Rep) (box : Rect N) (h : root.isNull = false) :
    (Find root box).Subtree = some ((FindInternal root box.grow).getD []) := by
  obtain ⟨p, hfind, _, hint⟩ := Find_eq root box h
  rw [hfind]
  rcases hint with h1 | ⟨h1, rfl⟩ <;> simp [Iterator.Subtree, h1]

theorem insertAll_spec (calls : List (Rect N × Rep)) :
    ∀ root : RectSearchTree N Rep, root.isNull = false →
      ∃ tree, insertAll root calls = some tree ∧ tree.isNull = false ∧
        (∀ rect, FindInternal tree rect = FindInternal root rect) ∧
        (∀ q, (tree.nodeAt q).GetRect = (root.nodeAt q).GetRect) ∧
        (∀ q v, v ∈ tree.entriesAt q ↔
          (v ∈ root.entriesAt q ∨ ∃ box, (box, v) ∈ calls ∧ (FindInternal root box.grow).getD [] = q)) := by
  induction calls with
  | nil =>
    intro root hroot
    exact ⟨root, rfl, hroot, fun _ => rfl, fun _ => rfl, fun q v => by simp⟩
  | cons call calls ih =>
    intro root hroot
    obtain ⟨rect, obj⟩ := call
    obtain ⟨p, l, _, hnode, hint, hcells, hins⟩ := Insert_eq root rect obj hroot
    have hp : (FindInternal root rect.grow).getD [] = p := by
      rcases hint with h1 | ⟨h1, rfl⟩ <;> simp [h1]
    have hnull : (root.setReps p l).isNull = false := by rw [setReps_isNull]; exact hroot
    obtain ⟨tree, htree, hnn, hfind, hrect, hent⟩ := ih (root.setReps p l) hnull
    refine ⟨tree, ?_, hnn, ?_, ?_, ?_⟩
    · simp only [insertAll, hins]
      exact htree
    · intro r
      rw [hfind, FindInternal_setReps]
    · intro q
      rw [hrect, nodeAt_setReps_GetRect]
    · intro q v
      rw [hent]
      simp only [FindInternal_setReps, entriesAt, nodeAt_setReps_reps, List.mem_cons, Prod.mk.injEq]
      by_cases hq : q = p
      · subst hq
        simp only [hnode, and_self, if_true, StdList.values, hcells, List.map_cons, List.mem_cons]
        constructor
        · rintro ((h | h) | ⟨box, h1, h2⟩)
          · exact Or.inr ⟨rect, Or.inl ⟨rfl, h⟩, hp⟩
          · exact Or.inl h
          · exact Or.inr ⟨box, Or.inr h1, h2⟩
        · rintro (h | ⟨box, (⟨h0, h1⟩ | h1), h2⟩)
          · exact Or.inl (Or.inr h)
          · exact Or.inl (Or.inl h1)
          · exact Or.inr ⟨box, h1, h2⟩
      · simp only [hq, false_and, if_false]
        constructor
        · rintro (h | ⟨box, h1, h2⟩)
          · exact Or.inl h
          · exact Or.inr ⟨box, Or.inr h1, h2⟩
        · rintro (h | ⟨box, (⟨h0, h1⟩ | h1), h2⟩)
          · exact Or.inl h
          · subst h0
            exact absurd (h2.symm.trans hp) hq
          · exact Or.inr ⟨box, h1, h2⟩

/-- C2: in a tree built by `Create` and filled by `Insert` calls, when a box
`A` overlaps or touches the box `B` that a payload was inserted with, the near
traversal seeded with `A` visits the node that holds the entry and yields the
payload. It holds for every seed box `A`, so in particular for the box of
another stored entry. -/
theorem Near_sound (domain : Rect N) (depth : Nat) (calls : List (Rect N × Rep)) (A B : Rect N)
    (payload : Rep) (hdepth : 1 ≤ depth) (hB : (B, payload) ∈ calls)
    (hAB : A.Overlaps B ∨ A.Touches B) :
    ∃ tree p, insertAll (Create domain depth) calls = some tree ∧
      (Find tree B).Subtree = some p ∧ payload ∈ tree.entriesAt p ∧
      ∃ bound, ∀ fuel, bound ≤ fuel →
        ∃ out, tree.nearTraversal A fuel = some out ∧ (p, some payload) ∈ out := by
  have hroot : (Create domain depth : RectSearchTree N Rep).isNull = false := by
    rw [Create_isNull]; simp; omega
  obtain ⟨tree, htree, hnn, hfind, _, hent⟩ := insertAll_spec calls (Create domain depth) hroot
  refine ⟨tree, (FindInternal tree B.grow).getD [], htree, Find_Subtree tree B hnn, ?_, ?_⟩
  · rw [hent]
    exact Or.inr ⟨B, hB, by rw [hfind]⟩
  · have hentry : payload ∈ (tree.nodeAt ((FindInternal tree B.grow).getD [])).reps.values := by
      have : payload ∈ tree.entriesAt ((FindInternal tree B.grow).getD []) := by
        rw [hent]
        exact Or.inr ⟨B, hB, by rw [hfind]⟩
      exact this
    have hpath : ∀ k, k < ((FindInternal tree B.grow).getD []).length →
        NearIterator.ShouldIncludeSubtree A
          (tree.nodeAt (((FindInternal tree B.grow).getD []).take (k + 1))) = true := by
      intro k hk
      cases hf : FindInternal tree B.grow with
      | none => simp [hf] at hk
      | some p =>
        simp only [hf, Option.getD_some] at hk ⊢
        obtain ⟨rk, hrk, hck⟩ := (FindInternal_some tree B.grow p hf).2 (k + 1) (by omega)
        exact (near_should_iff A _).2 ⟨rk, hrk, Rect.near_of_contains A B rk hAB hck⟩
    have hmem := visited_mem (NearIterator.ShouldIncludeSubtree A) _ tree [] payload hpath hentry
    simp only [List.nil_append] at hmem
    refine ⟨(visited (NearIterator.ShouldIncludeSubtree A) tree []).length + tree.size + 3, ?_⟩
    intro fuel hfuel
    obtain ⟨out, hout, hperm⟩ := traverse_begin (NearIterator.ShouldIncludeSubtree A) tree
      (fun t ht => by
        obtain ⟨r, hr, _⟩ := (near_should_iff A t).1 ht
        cases t with
        | null => simp [GetRect] at hr
        | node _ _ _ _ => rfl) hnn fuel hfuel
    refine ⟨out, hout, hperm.symm.subset ?_⟩
    exact List.mem_append_right _ (List.mem_map.2 ⟨_, hmem, rfl⟩)

theorem Create_entriesAt (rect : Rect N) (d : Nat) (p : NodePtr) :
    (Create rect d : RectSearchTree N Rep).entriesAt p = [] := by
  obtain ⟨r, hr⟩ := @Create_nodeAt N Rep rect d p
  rw [entriesAt, hr]
  cases d - p.length <;> rfl

/-- C3, as stated, fails: an entry inserted with a box that lies outside the
domain of the root is held by the root, whose domain does not contain the
expanded box. -/
theorem containment_fails_outside_root :
    ∃ tree : RectSearchTree 1 (Rect 1 × Nat),
      insertAll (Create ⟨fun _ => 0, fun _ => 4⟩ 1)
        [((⟨fun _ => 5, fun _ => 1⟩ : Rect 1), ((⟨fun _ => 5, fun _ => 1⟩ : Rect 1), 7))] = some tree ∧
      ¬ ContainmentInvariant tree := by
  refine ⟨_, rfl, ?_⟩
  intro h
  have := h [] _ _ _ _ rfl ((⟨fun _ => 5, fun _ => 1⟩ : Rect 1), 7) (List.mem_singleton.2 rfl)
  revert this
  decide

/-- C3, amended: after any sequence of `Insert` operations on a tree built by
`Create`, for every stored entry whose box, expanded by one unit of size per
dimension, is contained in the domain of the root, the domain of the node that
holds the entry contains the expanded box; an entry whose expanded box is not
contained in the domain of the root is held by the root. -/
theorem containment_within_root {P : Type} (domain : Rect N) (depth : Nat)
    (calls : List (Rect N × P)) (hdepth : 1 ≤ depth) :
    ∃ tree, insertAll (Create domain depth) (calls.map fun c => (c.1, c)) = some tree ∧
      ∀ p r a b reps_, tree.nodeAt p = node r a b reps_ → ∀ e ∈ reps_.values,
        (domain.Contains ⟨e.1.pos, fun i => e.1.size i + 1⟩ →
          r.Contains ⟨e.1.pos, fun i => e.1.size i + 1⟩) ∧
        (¬ domain.Contains ⟨e.1.pos, fun i => e.1.size i + 1⟩ → p = []) := by
  show ∃ tree, insertAll (Create domain depth) (calls.map fun c => (c.1, c)) = some tree ∧
      ∀ p r a b reps_, tree.nodeAt p = node r a b reps_ → ∀ e ∈ reps_.values,
        (domain.Contains e.1.grow → r.Contains e.1.grow) ∧
        (¬ domain.Contains e.1.grow → p = [])
  have hroot : (Create domain depth : RectSearchTree N (Rect N × P)).isNull = false := by
    rw [Create_isNull]; simp; omega
  obtain ⟨tree, htree, _, _, hrect, hent⟩ :=
    insertAll_spec (calls.map fun c => (c.1, c)) (Create domain depth) hroot
  refine ⟨tree, htree, ?_⟩
  intro p r a b reps_ hnode e he
  have hmem : e ∈ tree.entriesAt p := by rw [entriesAt, hnode]; exact he
  rw [hent, Create_entriesAt] at hmem
  obtain ⟨box, hbox, hp⟩ : ∃ box, (box, e) ∈ calls.map (fun c => (c.1, c)) ∧
      (FindInternal (Create domain depth : RectSearchTree N (Rect N × P)) box.grow).getD [] = p := by
    simpa using hmem
  obtain rfl : box = e.1 := by
    obtain ⟨c, _, hc⟩ := List.mem_map.1 hbox
    obtain ⟨h1, h2⟩ := Prod.mk.inj hc
    rw [← h1, h2]
  obtain ⟨k, rfl⟩ : ∃ k, depth = k + 1 := ⟨depth - 1, by omega⟩
  obtain ⟨ra, rb, hcreate⟩ := @Create_succ_eq N (Rect N × P) domain k
  constructor
  · intro hdom
    cases hf : FindInternal (Create domain (k + 1) : RectSearchTree N (Rect N × P)) e.1.grow with
    | none =>
      rw [hcreate] at hf
      exact absurd hdom ((FindInternal_eq_none _ _ _ _ _).1 hf)
    | some q =>
      rw [hf] at hp
      simp only [Option.getD_some] at hp
      subst hp
      obtain ⟨rk, hrk, hck⟩ := (FindInternal_some _ _ _ hf).2 q.length le_rfl
      rw [List.take_length, ← hrect, hnode] at hrk
      cases hrk
      exact hck
  · intro hdom
    rw [hcreate, (FindInternal_eq_none _ _ _ _ _).2 hdom] at hp
    exact hp.symm

/-- C1 does not hold of the code: on a tree whose root holds no entry, the
traversal from `begin()` first stops on the root with the cursor past the end
of its empty entry list, so the first dereference is not an entry; the entry
stored in a child follows. Here the tree of depth 2 over `[0, 8)` holds the
single payload 7, in child A. -/
theorem traversal_of_empty_root :
    ∃ tree : RectSearchTree 1 Nat,
      insertAll (Create ⟨fun _ => 0, fun _ => 8⟩ 2) [((⟨fun _ => 1, fun _ => 1⟩ : Rect 1), 7)] = some tree ∧
      tree.allEntries = [7] ∧
      ∀ fuel, 4 ≤ fuel → tree.fullTraversal fuel = some [([], none), ([Side.a], some 7)] := by
  refine ⟨_, rfl, rfl, ?_⟩
  intro fuel hfuel
  obtain ⟨k, rfl⟩ : ∃ k, fuel = k + 4 := ⟨fuel - 4, by omega⟩
  rfl

/-- C7, as stated, fails: `Create(box, 0)` is the null pointer, not a node
with domain `box`, no children and no entries. -/
theorem Create_zero_not_node :
    (Create (⟨fun _ => 0, fun _ => 8⟩ : Rect 1) 0 : RectSearchTree 1 Nat) ≠
      node ⟨fun _ => 0, fun _ => 8⟩ null null StdList.nil := by
  intro h
  cases h

/-- C7, amended: `Create(box, 0)` returns the null pointer; the single unsplit
node with domain `box`, no children and an empty entry list is `Create(box, 1)`,
on which insert and traversal operate: an insert stores the payload in that
node and returns a handle to it, and the full traversal then yields it. -/
theorem Create_zero_one (rect box : Rect N) (obj : Rep) :
    (Create rect 0 : RectSearchTree N Rep) = null ∧
    (Create rect 1 : RectSearchTree N Rep) = node rect null null StdList.nil ∧
    ∃ inserted handle, Insert (Create rect 1) box obj = some (inserted, handle) ∧
      inserted.allEntries = [obj] ∧ handle.deref inserted = some obj ∧
      ∀ fuel, 2 ≤ fuel → inserted.fullTraversal fuel = some [([], some obj)] := by
  refine ⟨rfl, rfl, ?_⟩
  have hfind : Find (node rect null null StdList.nil : RectSearchTree N Rep) box = ⟨[[]], none⟩ := by
    by_cases h : rect.Contains box.grow <;>
      simp [Find, FindInternal, h, isNull, Iterator.atNode, Iterator.ShouldIncludeSubtree, nodeAt, reps,
        StdList.begin, StdList.nil]
  have hcreate : (Create rect 1 : RectSearchTree N Rep) = node rect null null StdList.nil := rfl
  have hins : Insert (node rect null null StdList.nil : RectSearchTree N Rep) box obj =
      some (node rect null null ⟨[(0, obj)], by simp⟩, ⟨[[]], some 0⟩) := by
    simp only [Insert, InsertAt, InsertBefore, hfind, nodeAt, StdList.insert]
    simp only [true_or, if_true]
    rfl
  rw [hcreate, hins]
  refine ⟨_, _, rfl, rfl, rfl, ?_⟩
  intro fuel hfuel
  obtain ⟨k, rfl⟩ : ∃ k, fuel = k + 2 := ⟨fuel - 2, by omega⟩
  rfl

/-! ### Witnesses -/

/-- Witness of C2: two touching boxes in a tree of depth 3 over `[0, 16)`. -/
theorem Near_sound_witness :
    ∃ tree p, insertAll (Create (⟨fun _ => 0, fun _ => 16⟩ : Rect 1) 3)
        [((⟨fun _ => 1, fun _ => 2⟩ : Rect 1), 10), ((⟨fun _ => 3, fun _ => 4⟩ : Rect 1), 20)] = some tree ∧
      (Find tree (⟨fun _ => 3, fun _ => 4⟩ : Rect 1)).Subtree = some p ∧ 20 ∈ tree.entriesAt p ∧
      ∃ bound, ∀ fuel, bound ≤ fuel →
        ∃ out, tree.nearTraversal (⟨fun _ => 1, fun _ => 2⟩ : Rect 1) fuel = some out ∧
          (p, some 20) ∈ out :=
  Near_sound (⟨fun _ => 0, fun _ => 16⟩ : Rect 1) 3
    [((⟨fun _ => 1, fun _ => 2⟩ : Rect 1), 10), ((⟨fun _ => 3, fun _ => 4⟩ : Rect 1), 20)]
    ⟨fun _ => 1, fun _ => 2⟩ ⟨fun _ => 3, fun _ => 4⟩ 20 (by decide) (by simp) (Or.inr (by decide))

/-- Witness of C3 (amended): in the tree of depth 2 over `[0, 8)` the box
`[3, 4)`, whose expansion `[3, 5)` is contained in the root and in neither
child, and the box `[30, 34)` outside the root are both held by the root,
while the box `[1, 2)`, whose expansion is `[1, 3)`, is held by child A. -/
theorem containment_within_root_witness :
    ∃ tree, insertAll (Create (⟨fun _ => 0, fun _ => 8⟩ : Rect 1) 2)
        ([((⟨fun _ => 3, fun _ => 1⟩ : Rect 1), 10), ((⟨fun _ => 30, fun _ => 4⟩ : Rect 1), 20),
          ((⟨fun _ => 1, fun _ => 1⟩ : Rect 1), 30)].map fun c => (c.1, c)) = some tree ∧
      (tree.entriesAt []).map (fun e => e.2) = [20, 10] ∧
      (tree.entriesAt [Side.a]).map (fun e => e.2) = [30] ∧
      (⟨fun _ => 0, fun _ => 8⟩ : Rect 1).Contains ⟨fun _ => 3, fun _ => 2⟩ ∧
      ¬ (⟨fun _ => 0, fun _ => 4⟩ : Rect 1).Contains ⟨fun _ => 3, fun _ => 2⟩ ∧
      ∀ p r a b reps_, tree.nodeAt p = node r a b reps_ → ∀ e ∈ reps_.values,
        ((⟨fun _ => 0, fun _ => 8⟩ : Rect 1).Contains ⟨e.1.pos, fun i => e.1.size i + 1⟩ →
          r.Contains ⟨e.1.pos, fun i => e.1.size i + 1⟩) ∧
        (¬ (⟨fun _ => 0, fun _ => 8⟩ : Rect 1).Contains ⟨e.1.pos, fun i => e.1.size i + 1⟩ →
          p = []) := by
  obtain ⟨tree, htree, h⟩ := containment_within_root (⟨fun _ => 0, fun _ => 8⟩ : Rect 1) 2
    [((⟨fun _ => 3, fun _ => 1⟩ : Rect 1), 10), ((⟨fun _ => 30, fun _ => 4⟩ : Rect 1), 20),
      ((⟨fun _ => 1, fun _ => 1⟩ : Rect 1), 30)] (by decide)
  have hroot : (insertAll (Create (⟨fun _ => 0, fun _ => 8⟩ : Rect 1) 2)
      ([((⟨fun _ => 3, fun _ => 1⟩ : Rect 1), 10), ((⟨fun _ => 30, fun _ => 4⟩ : Rect 1), 20),
        ((⟨fun _ => 1, fun _ => 1⟩ : Rect 1), 30)].map fun c => (c.1, c))).map
      (fun t => ((t.entriesAt []).map (fun e => e.2), (t.entriesAt [Side.a]).map (fun e => e.2))) =
        some ([20, 10], [30]) := by decide
  rw [htree] at hroot
  simp only [Option.map_some', Option.some.injEq, Prod.mk.injEq] at hroot
  exact ⟨tree, htree, hroot.1, hroot.2, by decide, by decide, h⟩

/-- Witness of C4: in the tree of depth 2 over `[0, 8)`, the box `[3, 4)` has
the expansion `[3, 5)`, which the root contains and neither child `[0, 4)` nor
child `[4, 8)` does; `Find` returns the root. -/
theorem Find_smallest_containing_witness :
    (⟨fun _ => 0, fun _ => 8⟩ : Rect 1).Contains ⟨fun _ => 3, fun _ => 2⟩ ∧
    (Find (node ⟨fun _ => 0, fun _ => 8⟩ (Create ⟨fun _ => 0, fun _ => 4⟩ 1) (Create ⟨fun _ => 4, fun _ => 4⟩ 1)
      StdList.nil : RectSearchTree 1 Nat) ⟨fun _ => 3, fun _ => 1⟩).Subtree = some [] ∧
    ∃ p found_rect found_a found_b found_reps,
      (node ⟨fun _ => 0, fun _ => 8⟩ (Create ⟨fun _ => 0, fun _ => 4⟩ 1) (Create ⟨fun _ => 4, fun _ => 4⟩ 1)
        StdList.nil : RectSearchTree 1 Nat).nodeAt p = node found_rect found_a found_b found_reps ∧
      Find (node ⟨fun _ => 0, fun _ => 8⟩ (Create ⟨fun _ => 0, fun _ => 4⟩ 1) (Create ⟨fun _ => 4, fun _ => 4⟩ 1)
        StdList.nil : RectSearchTree 1 Nat) ⟨fun _ => 3, fun _ => 1⟩ = ⟨[p], found_reps.begin⟩ ∧
      found_rect.Contains ⟨fun _ => 3, fun _ => 2⟩ ∧
      (∀ k, k ≤ p.length →
        ∃ rk, ((node ⟨fun _ => 0, fun _ => 8⟩ (Create ⟨fun _ => 0, fun _ => 4⟩ 1)
          (Create ⟨fun _ => 4, fun _ => 4⟩ 1) StdList.nil : RectSearchTree 1 Nat).nodeAt (p.take k)).GetRect =
            some rk ∧ rk.Contains ⟨fun _ => 3, fun _ => 2⟩) ∧
      (∀ rc, found_a.GetRect = some rc → ¬ rc.Contains ⟨fun _ => 3, fun _ => 2⟩) ∧
      (∀ rc, found_b.GetRect = some rc → ¬ rc.Contains ⟨fun _ => 3, fun _ => 2⟩) :=
  ⟨by decide, by decide,
    Find_smallest_containing ⟨fun _ => 0, fun _ => 8⟩ (Create ⟨fun _ => 0, fun _ => 4⟩ 1)
      (Create ⟨fun _ => 4, fun _ => 4⟩ 1) StdList.nil ⟨fun _ => 3, fun _ => 1⟩
      (by simp [Paired, Create, isNull]) (by decide)⟩

/-- Witness of C5: in the tree of depth 2 over `[0, 8)`, the box `[7, 8)` lies
in the root and in child B, but its expansion `[7, 9)` is not contained in the
root; `Find` returns the root. -/
theorem Find_root_fallback_witness :
    ¬ (⟨fun _ => 0, fun _ => 8⟩ : Rect 1).Contains ⟨fun _ => 7, fun _ => 2⟩ ∧
    (⟨fun _ => 4, fun _ => 4⟩ : Rect 1).Contains ⟨fun _ => 7, fun _ => 1⟩ ∧
    Find (node ⟨fun _ => 0, fun _ => 8⟩ (Create ⟨fun _ => 0, fun _ => 4⟩ 1) (Create ⟨fun _ => 4, fun _ => 4⟩ 1)
      StdList.nil : RectSearchTree 1 Nat) ⟨fun _ => 7, fun _ => 1⟩ =
        ⟨[[]], (StdList.nil : StdList Nat).begin⟩ ∧
    (Find (node ⟨fun _ => 0, fun _ => 8⟩ (Create ⟨fun _ => 0, fun _ => 4⟩ 1) (Create ⟨fun _ => 4, fun _ => 4⟩ 1)
      StdList.nil : RectSearchTree 1 Nat) ⟨fun _ => 7, fun _ => 1⟩).Subtree = some [] ∧
    (Find (node ⟨fun _ => 0, fun _ => 8⟩ (Create ⟨fun _ => 0, fun _ => 4⟩ 1) (Create ⟨fun _ => 4, fun _ => 4⟩ 1)
      StdList.nil : RectSearchTree 1 Nat) ⟨fun _ => 7, fun _ => 1⟩).toBool = true :=
  ⟨by decide, by decide,
    Find_root_fallback ⟨fun _ => 0, fun _ => 8⟩ (Create ⟨fun _ => 0, fun _ => 4⟩ 1)
      (Create ⟨fun _ => 4, fun _ => 4⟩ 1) StdList.nil ⟨fun _ => 7, fun _ => 1⟩ (by decide)⟩

/-- Witness of C8: an insert into a tree of depth 2. -/
theorem Insert_front_witness :
    ∃ p inserted handle,
      (Find (Create ⟨fun _ => 0, fun _ => 8⟩ 2 : RectSearchTree 1 Nat) ⟨fun _ => 5, fun _ => 1⟩).Subtree = some p ∧
      Insert (Create ⟨fun _ => 0, fun _ => 8⟩ 2 : RectSearchTree 1 Nat) ⟨fun _ => 5, fun _ => 1⟩ 7 =
        some (inserted, handle) ∧
      inserted.entriesAt p = 7 :: (Create ⟨fun _ => 0, fun _ => 8⟩ 2 : RectSearchTree 1 Nat).entriesAt p ∧
      (∀ q, q ≠ p → inserted.entriesAt q =
        (Create ⟨fun _ => 0, fun _ => 8⟩ 2 : RectSearchTree 1 Nat).entriesAt q) ∧
      handle.Subtree = some p ∧ handle.deref inserted = some 7 :=
  Insert_front (Create ⟨fun _ => 0, fun _ => 8⟩ 2) ⟨fun _ => 5, fun _ => 1⟩ 7 rfl

/-- Witness of C9: removing the second entry of a node. -/
theorem Remove_exact_witness :
    Iterator.designates twoEntries ⟨[[]], some 0⟩ = true ∧
    Remove twoEntries ⟨[[]], some 0⟩ =
      some (node ⟨fun _ => 0, fun _ => 8⟩ null null ⟨[(1, 5)], by decide⟩) ∧
    ∀ box obj inserted fresh_handle, Insert twoEntries box obj = some (inserted, fresh_handle) →
      Remove inserted fresh_handle = some twoEntries :=
  ⟨rfl, rfl, (Remove_exact twoEntries ⟨[[]], some 0⟩ rfl).2⟩

/-- Witness of C10: relocating the second entry of a node. -/
theorem Move_preserves_witness :
    Iterator.designates twoEntries ⟨[[]], some 0⟩ = true ∧
    ∃ obj removed moved moved_handle p,
      Iterator.deref twoEntries ⟨[[]], some 0⟩ = some obj ∧
      Remove twoEntries ⟨[[]], some 0⟩ = some removed ∧
      Move twoEntries ⟨[[]], some 0⟩ ⟨fun _ => 2, fun _ => 1⟩ = some (moved, moved_handle) ∧
      (Find twoEntries ⟨fun _ => 2, fun _ => 1⟩).Subtree = some p ∧
      moved_handle.Subtree = some p ∧
      moved_handle.deref moved = some obj ∧
      moved_handle.designates moved = true ∧
      moved.entriesAt p = obj :: removed.entriesAt p ∧
      (∀ q, q ≠ p → moved.entriesAt q = removed.entriesAt q) ∧
      moved.allEntries.Perm twoEntries.allEntries ∧
      Remove moved moved_handle = some removed :=
  ⟨rfl, Move_preserves twoEntries ⟨[[]], some 0⟩ ⟨fun _ => 2, fun _ => 1⟩ rfl⟩

/-! ### Depth of the index and what traversals return -/

theorem yielded_map_some (l : List (NodePtr × Rep)) :
    yielded (l.map fun e => (e.1, some e.2)) = l.map Prod.snd := by
  induction l with
  | nil => rfl
  | cons x l ih =>
    simp only [yielded, List.map_cons, List.filterMap_cons] at ih ⊢
    rw [ih]

theorem visited_sublist (should : RectSearchTree N Rep → Bool)
    (hshould : ∀ t, should t = true → t.isNull = false) (t : RectSearchTree N Rep) (p : NodePtr) :
    (visited should t p).Sublist (visited Iterator.ShouldIncludeSubtree t p) := by
  induction t generalizing p with
  | null => exact List.Sublist.refl _
  | node r a b reps_ iha ihb =>
    have hside : ∀ (c : RectSearchTree N Rep) (q : NodePtr),
        (visited should c q).Sublist (visited Iterator.ShouldIncludeSubtree c q) →
        (if should c = true then visited should c q else []).Sublist
          (if Iterator.ShouldIncludeSubtree c = true then visited Iterator.ShouldIncludeSubtree c q
            else []) := by
      intro c q hc
      cases hs : should c with
      | false => simp
      | true =>
        have hn : Iterator.ShouldIncludeSubtree c = true := by
          simp [Iterator.ShouldIncludeSubtree, hshould c hs]
        simpa [hn] using hc
    simp only [visited]
    exact (List.Sublist.refl _).append ((hside a _ (iha _)).append (hside b _ (ihb _)))

theorem visited_length_le (should : RectSearchTree N Rep → Bool)
    (hshould : ∀ t, should t = true → t.isNull = false) (t : RectSearchTree N Rep) :
    (visited should t []).length ≤ t.allEntries.length := by
  have h := (visited_sublist should hshould t []).length_le
  rwa [← visited_all t [], List.length_map]

theorem yielded_traverse_begin (should : RectSearchTree N Rep → Bool) (root : RectSearchTree N Rep)
    (hshould : ∀ t, should t = true → t.isNull = false) (hroot : root.isNull = false) :
    ∀ fuel, root.allEntries.length + root.size + 3 ≤ fuel →
      ∃ out, Iterator.traverse should root fuel (Iterator.atNode root []) = some out ∧
        (yielded out).Perm ((visited should root []).map Prod.snd) := by
  intro fuel hfuel
  have hlen := visited_length_le should hshould root
  obtain ⟨out, hout, hperm⟩ := traverse_begin should root hshould hroot fuel (by omega)
  refine ⟨out, hout, ?_⟩
  have h := hperm.filterMap Prod.snd
  refine h.trans ?_
  rw [List.filterMap_append]
  have h1 : List.filterMap Prod.snd
      (if root.reps.empty = true then [(([] : NodePtr), (none : Option Rep))] else []) = [] := by
    split <;> rfl
  rw [h1, List.nil_append]
  exact List.Perm.of_eq (yielded_map_some _)

theorem near_should_isNull (A : Rect N) (t : RectSearchTree N Rep)
    (h : NearIterator.ShouldIncludeSubtree A t = true) : t.isNull = false := by
  cases t with
  | null => simp [NearIterator.ShouldIncludeSubtree] at h
  | node _ _ _ _ => rfl

theorem dereferenced_of_entries (out : List (NodePtr × Option Rep)) (h : ∀ e ∈ out, e.2 ≠ none) :
    dereferenced out = some (yielded out) := by
  induction out with
  | nil => rfl
  | cons x out ih =>
    obtain ⟨p, v⟩ := x
    cases v with
    | none => exact absurd rfl (h (p, none) (List.mem_cons_self _ _))
    | some rep =>
      simp only [dereferenced, ih fun e he => h e (List.mem_cons_of_mem _ he), Option.map_some']
      rfl

theorem dereferenced_of_past_end (out : List (NodePtr × Option Rep)) (p : NodePtr)
    (h : (p, none) ∈ out) : dereferenced out = none := by
  induction out with
  | nil => cases h
  | cons x out ih =>
    obtain ⟨q, v⟩ := x
    cases v with
    | none => rfl
    | some rep =>
      rcases List.mem_cons.1 h with h1 | h1
      · cases h1
      · simp only [dereferenced, ih h1, Option.map_none']

/-- A traversal from the root of a tree whose root holds an entry stands on an
entry at every step. -/
theorem dereferenced_traverse_begin (should : RectSearchTree N Rep → Bool) (root : RectSearchTree N Rep)
    (hshould : ∀ t, should t = true → t.isNull = false) (hroot : root.isNull = false)
    (hne : root.reps.empty = false) :
    ∀ fuel, root.allEntries.length + root.size + 3 ≤ fuel →
      ∃ out, Iterator.traverse should root fuel (Iterator.atNode root []) = some out ∧
        dereferenced out = some (yielded out) ∧
        (yielded out).Perm ((visited should root []).map Prod.snd) := by
  intro fuel hfuel
  have hlen := visited_length_le should hshould root
  obtain ⟨out, hout, hperm⟩ := traverse_begin should root hshould hroot fuel (by omega)
  obtain ⟨out1, hout1, hperm1⟩ := yielded_traverse_begin should root hshould hroot fuel hfuel
  obtain rfl : out = out1 := Option.some.inj (hout.symm.trans hout1)
  refine ⟨out, hout, dereferenced_of_entries out ?_, hperm1⟩
  intro e he
  have hmem := hperm.subset he
  rw [hne] at hmem
  simp only [Bool.false_eq_true, if_false, List.nil_append, List.mem_map] at hmem
  obtain ⟨x, _, hx⟩ := hmem
  rw [← hx]
  exact Option.some_ne_none _

/-- A traversal from the root of a tree whose root holds no entry starts with a
step past the end of the empty entry list of the root. -/
theorem dereferenced_empty_root (should : RectSearchTree N Rep → Bool) (root : RectSearchTree N Rep)
    (hshould : ∀ t, should t = true → t.isNull = false) (hroot : root.isNull = false)
    (hempty : root.reps.empty = true) :
    ∀ fuel, root.allEntries.length + root.size + 3 ≤ fuel →
      ∃ out, Iterator.traverse should root fuel (Iterator.atNode root []) = some out ∧
        dereferenced out = none := by
  intro fuel hfuel
  have hlen := visited_length_le should hshould root
  obtain ⟨out, hout, hperm⟩ := traverse_begin should root hshould hroot fuel (by omega)
  refine ⟨out, hout, dereferenced_of_past_end out [] (hperm.symm.subset ?_)⟩
  rw [hempty]
  exact List.mem_append_left _ (List.mem_singleton.2 rfl)

end RectSearchTree

namespace RectSearchTree

variable {N : Nat} {Rep : Type}

/-! ### Handles under changes elsewhere in the tree -/

theorem lookup_lt_fresh (a : Nat) (v : Rep) (cells : List (Nat × Rep))
    (h : cells.lookup a = some v) : a < freshAddr cells := by
  induction cells with
  | nil => simp at h
  | cons x rest ih =>
    obtain ⟨x1, x2⟩ := x
    by_cases hx : a = x1
    · subst hx; simp [freshAddr]
    · have hbeq : (a == x1) = false := by simpa using hx
      simp only [List.lookup, hbeq] at h
      have := ih h
      simp only [freshAddr]; omega

theorem deref_eq_some (root : RectSearchTree N Rep) (it : Iterator) (v : Rep)
    (h : it.deref root = some v) :
    ∃ p rest c, it = ⟨p :: rest, some c⟩ ∧ (root.nodeAt p).reps.cells.lookup c = some v ∧
      (root.nodeAt p).isNull = false ∧ it.designates root = true := by
  obtain ⟨queue, cursor⟩ := it
  cases queue with
  | nil => simp [Iterator.deref] at h
  | cons p rest =>
    cases cursor with
    | none => simp [Iterator.deref, StdList.deref] at h
    | some c =>
      have hl : (root.nodeAt p).reps.cells.lookup c = some v := by
        simpa [Iterator.deref, StdList.deref] using h
      have hmem : c ∈ (root.nodeAt p).reps.cells.map Prod.fst := by
        clear h
        generalize (root.nodeAt p).reps.cells = cells at hl
        induction cells with
        | nil => simp at hl
        | cons x xs ih =>
          obtain ⟨x1, x2⟩ := x
          by_cases hx : c = x1
          · subst hx; simp
          · have hbeq : (c == x1) = false := by simpa using hx
            simp only [List.lookup, hbeq] at hl
            exact List.mem_cons_of_mem _ (ih hl)
      refine ⟨p, rest, c, rfl, hl, ?_, ?_⟩
      · cases hn : root.nodeAt p with
        | null => rw [hn] at hmem; simp [reps, StdList.nil] at hmem
        | node _ _ _ _ => rfl
      · simpa [Iterator.designates, StdList.pointsInside] using hmem

theorem lookup_eraseP_ne (a b : Nat) (cells : List (Nat × Rep)) (h : b ≠ a) :
    (cells.eraseP fun c => c.1 == a).lookup b = cells.lookup b := by
  induction cells with
  | nil => rfl
  | cons x rest ih =>
    obtain ⟨x1, x2⟩ := x
    by_cases hxa : x1 = a
    · subst hxa
      have herase : List.eraseP (fun c => c.1 == x1) ((x1, x2) :: rest) = rest := by
        simp [List.eraseP_cons]
      have hbeq : (b == x1) = false := by simpa using h
      rw [herase]
      simp [List.lookup, hbeq]
    · have herase : List.eraseP (fun c => c.1 == a) ((x1, x2) :: rest) =
          (x1, x2) :: List.eraseP (fun c => c.1 == a) rest := by
        simp [List.eraseP_cons, hxa]
      rw [herase]
      simp only [List.lookup_cons, ih]

theorem Remove_handles (root : RectSearchTree N Rep) (handle : Iterator) (v : Rep)
    (h : handle.deref root = some v) :
    ∃ removed, Remove root handle = some removed ∧
      root.allEntries.Perm (v :: removed.allEntries) ∧
      removed.isNull = root.isNull ∧
      (∀ rect, FindInternal removed rect = FindInternal root rect) ∧
      ∀ (other : Iterator) (w : Rep), other.deref root = some w → w ≠ v →
        other.deref removed = some w := by
  obtain ⟨p, rest, c, rfl, hl, hnode, hdes⟩ := deref_eq_some root handle v h
  have hin : (root.nodeAt p).reps.pointsInside (some c) = true := by
    simpa [Iterator.designates] using hdes
  obtain ⟨front, v1, back, erased, hcells, hderef, herase, hecells⟩ :=
    StdList.erase_spec (root.nodeAt p).reps c hin
  have hv : v1 = v := by
    have : (root.nodeAt p).reps.cells.lookup c = some v1 := by
      simpa [StdList.deref] using hderef
    rw [hl] at this
    exact (Option.some.inj this).symm
  subst hv
  have herased : erased.cells = (root.nodeAt p).reps.cells.eraseP fun x => x.1 == c := by
    simp only [StdList.erase, hin, if_true, Option.some.injEq] at herase
    rw [← herase]
  refine ⟨root.setReps p erased, ?_, ?_, setReps_isNull _ _ _, fun r => FindInternal_setReps _ _ _ r, ?_⟩
  · rw [Remove, Erase_eq _ _ _ _ hnode, herase]; rfl
  · have hnode0 : ((root.setReps p erased).nodeAt p).isNull = false := by
      rw [nodeAt_setReps_isNull]; exact hnode
    have h2 := allEntries_setReps_cons (root.setReps p erased) p (root.nodeAt p).reps v1 hnode0
      (by
        rw [nodeAt_setReps_reps]
        simp only [hnode, and_self, if_true, StdList.values, hcells, hecells]
        simp only [List.map_append, List.map_cons]
        exact List.perm_middle)
    rw [setReps_setReps, setReps_self] at h2
    exact h2
  · intro other w ho hw
    obtain ⟨p1, rest1, c1, rfl, hl1, _, _⟩ := deref_eq_some root other w ho
    simp only [Iterator.deref, StdList.deref, Option.some_bind, nodeAt_setReps_reps]
    by_cases hp : p1 = p
    · subst hp
      simp only [hnode, and_self, if_true, herased]
      have hc : c1 ≠ c := by
        rintro rfl
        rw [hl] at hl1
        exact hw (Option.some.inj hl1).symm
      rw [lookup_eraseP_ne c c1 _ hc]
      exact hl1
    · simp only [hp, false_and, if_false]
      exact hl1

theorem Insert_handles (root inserted : RectSearchTree N Rep) (rect : Rect N) (obj : Rep)
    (handle : Iterator) (h : Insert root rect obj = some (inserted, handle)) :
    handle.deref inserted = some obj ∧
      inserted.allEntries.Perm (obj :: root.allEntries) ∧
      inserted.isNull = root.isNull ∧
      (∀ r, FindInternal inserted r = FindInternal root r) ∧
      ∀ (other : Iterator) (w : Rep), other.deref root = some w → other.deref inserted = some w := by
  obtain ⟨p, l, _, hnode, _, hcells, hins⟩ := Insert_eq root rect obj (Insert_isNull _ _ _ _ _ h)
  rw [hins] at h
  obtain ⟨rfl, rfl⟩ := Prod.mk.inj (Option.some.inj h)
  refine ⟨?_, ?_, setReps_isNull _ _ _, fun r => FindInternal_setReps _ _ _ r, ?_⟩
  · simp [Iterator.deref, nodeAt_setReps_reps, hnode, StdList.deref, hcells, List.lookup]
  · exact allEntries_setReps_cons root p l obj hnode (by simp [StdList.values, hcells])
  · intro other w ho
    obtain ⟨p1, rest1, c1, rfl, hl1, _, _⟩ := deref_eq_some root other w ho
    simp only [Iterator.deref, StdList.deref, Option.some_bind, nodeAt_setReps_reps]
    by_cases hp : p1 = p
    · subst hp
      simp only [hnode, and_self, if_true, hcells]
      have hlt := lookup_lt_fresh c1 w _ hl1
      have hbeq : (c1 == freshAddr (root.nodeAt p1).reps.cells) = false := by
        simpa using (Nat.ne_of_lt hlt)
      simp only [List.lookup_cons, hbeq]
      exact hl1
    · simp only [hp, false_and, if_false]
      exact hl1

theorem Move_handles (root : RectSearchTree N Rep) (handle : Iterator) (rect : Rect N) (v : Rep)
    (h : handle.deref root = some v) (hroot : root.isNull = false) :
    ∃ moved moved_handle, Move root handle rect = some (moved, moved_handle) ∧
      moved_handle.deref moved = some v ∧
      moved.allEntries.Perm root.allEntries ∧
      moved.isNull = false ∧
      ∀ (other : Iterator) (w : Rep), other.deref root = some w → w ≠ v →
        other.deref moved = some w := by
  obtain ⟨removed, hrem, hperm, hnull, _, hothers⟩ := Remove_handles root handle v h
  have hnull1 : removed.isNull = false := by rw [hnull]; exact hroot
  obtain ⟨p, l, _, _, _, _, hins⟩ := Insert_eq removed rect v hnull1
  obtain ⟨h1, h2, h3, _, h5⟩ := Insert_handles removed _ rect v _ hins
  refine ⟨_, _, ?_, h1, ?_, ?_, ?_⟩
  · simp only [Move, h, hrem]
    exact hins
  · exact h2.trans hperm.symm
  · rw [h3]; exact hnull1
  · intro other w ho hw
    exact h5 other w (hothers other w ho hw)

end RectSearchTree

/-! ## Properties of the driver -/

/-! ### Lists of records -/

theorem lookup_mem_fst {Rep : Type} (a : Nat) (v : Rep) (cells : List (Nat × Rep))
    (h : cells.lookup a = some v) : a ∈ cells.map Prod.fst := by
  induction cells with
  | nil => simp at h
  | cons x rest ih =>
    obtain ⟨x1, x2⟩ := x
    by_cases hx : a = x1
    · subst hx; simp
    · have hbeq : (a == x1) = false := by simpa using hx
      simp only [List.lookup, hbeq] at h
      exact List.mem_cons_of_mem _ (ih h)

theorem lookup_of_mem_fst {Rep : Type} (a : Nat) (cells : List (Nat × Rep))
    (h : a ∈ cells.map Prod.fst) : ∃ v, cells.lookup a = some v := by
  induction cells with
  | nil => simp at h
  | cons x rest ih =>
    obtain ⟨x1, x2⟩ := x
    by_cases hx : a = x1
    · subst hx; exact ⟨x2, by simp [List.lookup]⟩
    · have hbeq : (a == x1) = false := by simpa using hx
      have hmem : a ∈ rest.map Prod.fst := by
        rcases List.mem_cons.1 h with h1 | h1
        · exact absurd h1 hx
        · exact h1
      obtain ⟨v, hv⟩ := ih hmem
      exact ⟨v, by simp [List.lookup, hbeq, hv]⟩

theorem lookup_setCell {Rep : Type} (a b : Nat) (v : Rep) (cells : List (Nat × Rep)) :
    (cells.map fun c => (c.1, if c.1 = a then v else c.2)).lookup b =
      if b = a then (cells.lookup a).map (fun _ => v) else cells.lookup b := by
  induction cells with
  | nil => simp
  | cons x rest ih =>
    obtain ⟨x1, x2⟩ := x
    simp only [List.map_cons, List.lookup_cons]
    rw [ih]
    by_cases hb : b = x1
    · subst hb
      by_cases hba : b = a
      · subst hba; simp
      · have hbeq : (a == b) = false := by simpa using fun h => hba h.symm
        simp [hba]
    · have hbeq : (b == x1) = false := by simpa using hb
      simp only [hbeq]
      by_cases hba : b = a
      · subst hba
        simp [hbeq]
      · simp [hba]

theorem lookup_eraseP {Rep : Type} (a b : Nat) (cells : List (Nat × Rep))
    (hnodup : (cells.map Prod.fst).Nodup) :
    (cells.eraseP fun c => c.1 == a).lookup b = if b = a then none else cells.lookup b := by
  induction cells with
  | nil => simp
  | cons x rest ih =>
    obtain ⟨x1, x2⟩ := x
    simp only [List.map_cons, List.nodup_cons] at hnodup
    obtain ⟨hx, hrest⟩ := hnodup
    by_cases hxa : x1 = a
    · subst hxa
      have herase : List.eraseP (fun c => c.1 == x1) ((x1, x2) :: rest) = rest := by
        simp [List.eraseP_cons]
      rw [herase]
      by_cases hb : b = x1
      · subst hb
        simp only [if_true]
        cases hl : rest.lookup b with
        | none => rfl
        | some v => exact absurd (lookup_mem_fst b v rest hl) hx
      · have hbeq : (b == x1) = false := by simpa using hb
        simp [List.lookup, hbeq, hb]
    · have herase : List.eraseP (fun c => c.1 == a) ((x1, x2) :: rest) =
          (x1, x2) :: List.eraseP (fun c => c.1 == a) rest := by
        simp [List.eraseP_cons, hxa]
      rw [herase]
      by_cases hb : b = x1
      · subst hb
        simp [List.lookup, hxa]
      · have hbeq2 : (b == x1) = false := by simpa using hb
        simp only [List.lookup, hbeq2]
        exact ih hrest

theorem map_fst_eraseP {Rep : Type} (a : Nat) (cells : List (Nat × Rep))
    (hnodup : (cells.map Prod.fst).Nodup) :
    (cells.eraseP fun c => c.1 == a).map Prod.fst = (cells.map Prod.fst).filter fun b => decide (b ≠ a) := by
  induction cells with
  | nil => rfl
  | cons x rest ih =>
    obtain ⟨x1, x2⟩ := x
    simp only [List.map_cons, List.nodup_cons] at hnodup
    obtain ⟨hx, hrest⟩ := hnodup
    by_cases hxa : x1 = a
    · subst hxa
      have herase : List.eraseP (fun c => c.1 == x1) ((x1, x2) :: rest) = rest := by
        simp [List.eraseP_cons]
      rw [herase]
      have hfilter : List.filter (fun b => decide (b ≠ x1)) (List.map Prod.fst rest) =
          List.map Prod.fst rest := by
        rw [List.filter_eq_self]
        intro b hb
        have : b ≠ x1 := fun h => hx (h ▸ hb)
        simpa using this
      rw [List.map_cons, List.filter_cons_of_neg (by simp), hfilter]
    · have herase : List.eraseP (fun c => c.1 == a) ((x1, x2) :: rest) =
          (x1, x2) :: List.eraseP (fun c => c.1 == a) rest := by
        simp [List.eraseP_cons, hxa]
      rw [herase]
      simp only [List.map_cons]
      rw [List.filter_cons_of_pos (by simpa using hxa), ih hrest]

namespace Space

variable {N : Nat} {Phys Obj : Type}

theorem motion_mem {s : Space N Phys Obj} {address : Nat} {m : Motion N Phys Obj}
    (h : s.motion address = some m) : address ∈ s.addresses := by
  simp only [motion, StdList.deref, Option.some_bind] at h
  exact lookup_mem_fst _ _ _ h

theorem motion_of_mem {s : Space N Phys Obj} {address : Nat} (h : address ∈ s.addresses) :
    ∃ m, s.motion address = some m := by
  obtain ⟨m, hm⟩ := lookup_of_mem_fst address s.motions_.cells h
  exact ⟨m, by simpa [motion, StdList.deref] using hm⟩

theorem motion_setMotion (s : Space N Phys Obj) (a b : Nat) (m : Motion N Phys Obj) :
    (s.setMotion a m).motion b = if b = a then (s.motion a).map (fun _ => m) else s.motion b := by
  simp only [motion, setMotion, StdList.deref, StdList.set, Option.some_bind]
  exact lookup_setCell a b m s.motions_.cells

theorem addresses_setMotion (s : Space N Phys Obj) (a : Nat) (m : Motion N Phys Obj) :
    (s.setMotion a m).addresses = s.addresses := by
  simp only [addresses, setMotion, StdList.set]
  exact map_fst_setCell a m s.motions_.cells

end Space

namespace Space

variable {N : Nat} {Phys Obj : Type}

/-! ### Steps that keep the records in place -/

theorem Evolves.refl (s : Space N Phys Obj) : Evolves [] s s :=
  ⟨rfl, rfl, rfl, id, by simp, by simp⟩

theorem Evolves.trans {s1 s2 s3 : Space N Phys Obj} {calls1 calls2 : List Call}
    (h12 : Evolves calls1 s1 s2) (h23 : Evolves calls2 s2 s3) : Evolves (calls1 ++ calls2) s1 s3 := by
  refine ⟨h23.addresses.trans h12.addresses, h23.depth.trans h12.depth, h23.time.trans h12.time,
    fun h => h23.consistent (h12.consistent h), ?_, ?_⟩
  · rw [h23.observed, h12.observed, List.append_assoc]
  · intro a
    rw [h23.flagged, h12.flagged]
    simp only [List.mem_append, Bool.decide_or, Bool.or_assoc]

theorem Evolves.cast {s1 s2 : Space N Phys Obj} {calls1 calls2 : List Call}
    (h : Evolves calls1 s1 s2) (heq : calls1 = calls2) : Evolves calls2 s1 s2 := heq ▸ h

theorem flagged_setMotion (s : Space N Phys Obj) (a b : Nat) (m m1 : Motion N Phys Obj)
    (h : s.motion a = some m) :
    (s.setMotion a m1).flagged b = if b = a then m1.marked_for_removal else s.flagged b := by
  simp only [flagged, motion_setMotion]
  by_cases hb : b = a
  · subst hb; simp [h]
  · simp [hb]

theorem Consistent_setMotion (s : Space N Phys Obj) (a : Nat) (m m1 : Motion N Phys Obj)
    (h : s.motion a = some m) (hiter : m1.tree_iterator = m.tree_iterator) (hc : s.Consistent) :
    (s.setMotion a m1).Consistent := by
  obtain ⟨hc1, hc2⟩ := hc
  refine ⟨?_, by rw [addresses_setMotion]; exact hc2⟩
  intro b mb hb
  rw [motion_setMotion] at hb
  by_cases hba : b = a
  · subst hba
    simp only [if_true, h, Option.map_some', Option.some.injEq] at hb
    subst hb
    rw [hiter]
    exact hc1 b m h
  · simp only [hba, if_false] at hb
    exact hc1 b mb hb

theorem Evolves.setMotion (s : Space N Phys Obj) (a : Nat) (m m1 : Motion N Phys Obj)
    (h : s.motion a = some m) (hflag : m1.marked_for_removal = m.marked_for_removal)
    (hiter : m1.tree_iterator = m.tree_iterator) : Evolves [] s (s.setMotion a m1) := by
  refine ⟨addresses_setMotion s a m1, rfl, rfl, Consistent_setMotion s a m m1 h hiter,
    (List.append_nil _).symm, ?_⟩
  intro b
  rw [flagged_setMotion s a b m m1 h]
  by_cases hba : b = a
  · subst hba
    have hb : s.flagged b = m.marked_for_removal := by unfold Space.flagged; rw [h]
    simp [hb, hflag]
  · simp [hba]

theorem Evolves.observe (s : Space N Phys Obj) (call : Call) (h : ∀ a, call ≠ Call.Remove a) :
    Evolves [call] s (s.observe call) := by
  refine ⟨rfl, rfl, rfl, id, rfl, ?_⟩
  intro a
  have hne : ¬ Call.Remove a = call := fun e => h a e.symm
  have hsame : (s.observe call).flagged a = s.flagged a := rfl
  rw [hsame]
  simp [hne]

theorem updatePhysics_evolves (c : Collaborators N Phys Obj) (s s1 : Space N Phys Obj) (a : Nat)
    (dt : Time) (h : s.updatePhysics c a dt = some s1) : Evolves [Call.Update a dt] s s1 := by
  simp only [updatePhysics] at h
  cases hm : s.motion a with
  | none => rw [hm] at h; cases h
  | some m =>
    rw [hm] at h
    simp only [Option.some.injEq] at h
    subst h
    exact (Evolves.setMotion s a m { m with physics := c.Update m.physics dt } hm rfl rfl).trans
      (Evolves.observe _ _ (by intro b; simp))

theorem updatePositionToTime_evolves (c : Collaborators N Phys Obj) (s s1 : Space N Phys Obj) (a : Nat)
    (time : Time) (h : s.updatePositionToTime c a time = some s1) :
    ∃ m, s.motion a = some m ∧ Evolves [Call.Update a (time - m.Time)] s s1 := by
  simp only [updatePositionToTime] at h
  cases hm : s.motion a with
  | none => rw [hm] at h; cases h
  | some m =>
    rw [hm] at h
    exact ⟨m, rfl, updatePhysics_evolves c s s1 a _ h⟩

theorem elasticCollision_evolves (c : Collaborators N Phys Obj) (s s1 : Space N Phys Obj) (a b : Nat)
    (dimension : Nat) (h : s.elasticCollision c a b dimension = some s1) :
    Evolves [Call.ElasticCollision1D a b dimension] s s1 := by
  simp only [elasticCollision] at h
  cases hma : s.motion a with
  | none => rw [hma] at h; cases h
  | some ma =>
    cases hmb : s.motion b with
    | none => rw [hma, hmb] at h; cases h
    | some mb =>
      rw [hma, hmb] at h
      simp only at h
      cases hb1 : (s.setMotion a { ma with physics := (c.ElasticCollision1D ma.physics mb.physics dimension).1 }).motion b with
      | none => rw [hb1] at h; cases h
      | some b1 =>
        rw [hb1] at h
        simp only [Option.some.injEq] at h
        subst h
        exact ((Evolves.setMotion s a ma
            { ma with physics := (c.ElasticCollision1D ma.physics mb.physics dimension).1 } hma rfl rfl).trans
          (Evolves.setMotion _ b b1
            { b1 with physics := (c.ElasticCollision1D ma.physics mb.physics dimension).2 } hb1 rfl rfl)).trans
          (Evolves.observe _ _ (by intro x; simp))

theorem Remove_deferred (s : Space N Phys Obj) (a : Nat) (m : Motion N Phys Obj)
    (hm : s.motion a = some m) (hdepth : 0 < s.advance_time_call_depth_) :
    s.Remove a = some ((s.setMotion a { m with marked_for_removal := true }).observe (Call.Remove a)) := by
  simp [Remove, hdepth, hm]

theorem Remove_evolves (s s1 : Space N Phys Obj) (a : Nat)
    (hdepth : 0 < s.advance_time_call_depth_) (h : s.Remove a = some s1) :
    Evolves [Call.Remove a] s s1 := by
  cases hm : s.motion a with
  | none => simp [Remove, hdepth, hm] at h
  | some m =>
    rw [Remove_deferred s a m hm hdepth, Option.some.injEq] at h
    subst h
    refine ⟨addresses_setMotion s a _, rfl, rfl, ?_, rfl, ?_⟩
    · exact fun hc => Consistent_setMotion s a m { m with marked_for_removal := true } hm rfl hc
    · intro b
      have : (Space.observe (s.setMotion a { m with marked_for_removal := true }) (Call.Remove a)).flagged b =
          (s.setMotion a { m with marked_for_removal := true }).flagged b := rfl
      rw [this, flagged_setMotion s a b m _ hm]
      by_cases hba : b = a
      · subst hba; simp
      · have hne : ¬ a = b := fun e => hba e.symm
        simp [hba, hne]

theorem removeAll_evolves (iterators : List Nat) :
    ∀ s s1 : Space N Phys Obj, 0 < s.advance_time_call_depth_ → s.removeAll iterators = some s1 →
      Evolves (iterators.map Call.Remove) s s1 := by
  induction iterators with
  | nil =>
    intro s s1 _ h
    simp only [removeAll, Option.some.injEq] at h
    subst h
    exact Evolves.refl s
  | cons a rest ih =>
    intro s s1 hdepth h
    simp only [removeAll] at h
    cases hr : s.Remove a with
    | none => rw [hr] at h; cases h
    | some s2 =>
      rw [hr] at h
      have h1 := Remove_evolves s s2 a hdepth hr
      exact h1.trans (ih s2 s1 (by rw [h1.depth]; exact hdepth) h)

theorem notify_evolves (c : Collaborators N Phys Obj) (s s1 : Space N Phys Obj) (self other : Nat)
    (time : Time) (hdepth : 0 < s.advance_time_call_depth_) (h : s.notify c self other time = some s1) :
    ∃ a b, s.motion self = some a ∧ s.motion other = some b ∧
      Evolves (Call.OnCollideWith self other time :: (c.OnCollideWith a.object b.object time).map Call.Remove)
        s s1 := by
  simp only [notify] at h
  cases hma : s.motion self with
  | none => rw [hma] at h; cases h
  | some ma =>
    cases hmb : s.motion other with
    | none => rw [hma, hmb] at h; cases h
    | some mb =>
      rw [hma, hmb] at h
      exact ⟨ma, mb, rfl, rfl,
        (Evolves.observe s _ (by intro x; simp)).trans (removeAll_evolves _ _ _ hdepth h)⟩

end Space

namespace RectSearchTree

variable {N : Nat} {Rep : Type}

theorem deref_isNull (root : RectSearchTree N Rep) (it : Iterator) (v : Rep)
    (h : it.deref root = some v) : root.isNull = false := by
  obtain ⟨p, rest, c, _, _, hnode, _⟩ := deref_eq_some root it v h
  cases root with
  | null => rw [nodeAt_null] at hnode; exact absurd hnode (by simp [isNull])
  | node _ _ _ _ => rfl

end RectSearchTree

theorem nextCell_of_mem {Rep : Type} (a : Nat) (cells : List (Nat × Rep))
    (h : a ∈ cells.map Prod.fst) : ∃ following, nextCell cells a = some following := by
  induction cells with
  | nil => simp at h
  | cons x rest ih =>
    by_cases hx : x.1 = a
    · exact ⟨rest.head?.map Prod.fst, by simp only [nextCell, hx, if_true]⟩
    · have hmem : a ∈ rest.map Prod.fst := by
        rcases List.mem_cons.1 h with h1 | h1
        · exact absurd h1.symm hx
        · exact h1
      obtain ⟨f, hf⟩ := ih hmem
      exact ⟨f, by simp only [nextCell, hx, if_false, hf]⟩

theorem perm_cons_filter_ne (a : Nat) (l : List Nat) (hnodup : l.Nodup) (h : a ∈ l) :
    l.Perm (a :: l.filter fun b => decide (b ≠ a)) := by
  have h1 := List.perm_cons_erase h
  rw [hnodup.erase_eq_filter] at h1
  have h2 : (l.filter fun b => b != a) = l.filter fun b => decide (b ≠ a) := by
    congr 1; funext b; by_cases hb : b = a <;> simp [hb]
  rw [← h2]
  exact h1

namespace Space
variable {N : Nat} {Phys Obj : Type}

/-! ### Removal of a record -/

theorem addresses_nodup (s : Space N Phys Obj) : s.addresses.Nodup := s.motions_.distinct

theorem RemoveInternal_spec (s : Space N Phys Obj) (a : Nat) (m : Motion N Phys Obj)
    (hm : s.motion a = some m) (hiter : m.tree_iterator.deref s.tree_ = some a) :
    ∃ removed following tree, s.RemoveInternal a = some (removed, following) ∧
      RectSearchTree.Remove s.tree_ m.tree_iterator = some tree ∧ removed.tree_ = tree ∧
      removed.addresses = s.addresses.filter (fun b => decide (b ≠ a)) ∧
      (∀ b, removed.motion b = if b = a then none else s.motion b) ∧
      s.tree_.allEntries.Perm (a :: removed.tree_.allEntries) ∧
      (∀ (other : RectSearchTree.Iterator) (w : Nat), other.deref s.tree_ = some w → w ≠ a →
        other.deref removed.tree_ = some w) ∧
      removed.observed = s.observed ∧
      removed.advance_time_call_depth_ = s.advance_time_call_depth_ ∧
      removed.time_seconds_ = s.time_seconds_ ∧
      (s.Consistent → removed.Consistent) := by
  obtain ⟨tree, hrem, hperm, _, _, hothers⟩ := RectSearchTree.Remove_handles s.tree_ m.tree_iterator a hiter
  have hmem : a ∈ s.motions_.cells.map Prod.fst := motion_mem hm
  obtain ⟨following, hnext⟩ := nextCell_of_mem a s.motions_.cells hmem
  have hinside : s.motions_.pointsInside (some a) = true := by
    simpa [StdList.pointsInside] using hmem
  have herase : s.motions_.erase (some a) = some ⟨s.motions_.cells.eraseP (fun c => c.1 == a),
      s.motions_.distinct.sublist ((List.eraseP_sublist s.motions_.cells).map Prod.fst)⟩ := by
    simp only [StdList.erase, hinside, if_true]
  have haddr : (s.motions_.cells.eraseP fun c => c.1 == a).map Prod.fst =
      s.addresses.filter (fun b => decide (b ≠ a)) := map_fst_eraseP a _ s.motions_.distinct
  have hmotion : ∀ b, (s.motions_.cells.eraseP fun c => c.1 == a).lookup b =
      if b = a then none else s.motion b := by
    intro b
    rw [lookup_eraseP a b _ s.motions_.distinct]
    simp [motion, StdList.deref]
  refine ⟨{ s with tree_ := tree, motions_ := ⟨s.motions_.cells.eraseP (fun c => c.1 == a),
      s.motions_.distinct.sublist ((List.eraseP_sublist s.motions_.cells).map Prod.fst)⟩ },
    following, tree, ?_, hrem, rfl, haddr, ?_, hperm, hothers, rfl, rfl, rfl, ?_⟩
  · simp only [RemoveInternal, hm]
    have hrem1 : RectSearchTree.Erase s.tree_ m.tree_iterator = some tree := hrem
    rw [hrem1]
    simp only [hnext, herase]
  · intro b
    simpa [motion, StdList.deref] using hmotion b
  · rintro ⟨hc1, hc2⟩
    refine ⟨?_, ?_⟩
    · intro b mb hb
      have hb1 : (s.motions_.cells.eraseP fun c => c.1 == a).lookup b = some mb := by
        simpa [motion, StdList.deref] using hb
      rw [hmotion b] at hb1
      by_cases hba : b = a
      · simp [hba] at hb1
      · simp only [hba, if_false] at hb1
        exact hothers _ b (hc1 b mb hb1) hba
    · show tree.allEntries.Perm ((s.motions_.cells.eraseP fun c => c.1 == a).map Prod.fst)
      rw [haddr]
      have h1 := (hperm.symm.trans hc2).trans (perm_cons_filter_ne a s.addresses (addresses_nodup s) hmem)
      exact h1.cons_inv

/-! ### The swept box of a record -/

theorem updateEnclosingRect_spec (c : Collaborators N Phys Obj) (s : Space N Phys Obj) (a : Nat)
    (m : Motion N Phys Obj) (start_time finish_time : Time)
    (hm : s.motion a = some m) (hiter : m.tree_iterator.deref s.tree_ = some a) :
    ∃ updated moved_handle, s.updateEnclosingRect c a start_time finish_time = some updated ∧
      updated.motion a = some { m with
        enclosing_rect := Motion.sweptRect c m.physics start_time finish_time,
        tree_iterator := moved_handle } ∧
      (∀ b, b ≠ a → updated.motion b = s.motion b) ∧
      moved_handle.deref updated.tree_ = some a ∧
      updated.tree_.allEntries.Perm s.tree_.allEntries ∧
      (∀ (other : RectSearchTree.Iterator) (w : Nat), other.deref s.tree_ = some w → w ≠ a →
        other.deref updated.tree_ = some w) := by
  obtain ⟨moved, moved_handle, hmove, hderef, hperm, _, hothers⟩ :=
    RectSearchTree.Move_handles s.tree_ m.tree_iterator
      (Motion.sweptRect c m.physics start_time finish_time) a hiter
      (RectSearchTree.deref_isNull _ _ _ hiter)
  have hm1 : ({ s with tree_ := moved } : Space N Phys Obj).motion a = some m := hm
  refine ⟨({ s with tree_ := moved } : Space N Phys Obj).setMotion a { m with
      enclosing_rect := Motion.sweptRect c m.physics start_time finish_time,
      tree_iterator := moved_handle }, moved_handle, ?_, ?_, ?_, hderef, hperm, hothers⟩
  · simp only [updateEnclosingRect, hm, Motion.UpdateEnclosingRect, hmove]
  · rw [motion_setMotion, if_pos rfl, hm1]; rfl
  · intro b hb
    rw [motion_setMotion, if_neg hb]; rfl

theorem updateEnclosingRect_evolves (c : Collaborators N Phys Obj) (s s1 : Space N Phys Obj) (a : Nat)
    (start_time finish_time : Time) (hc : s.Consistent)
    (h : s.updateEnclosingRect c a start_time finish_time = some s1) : Evolves [] s s1 := by
  cases hm : s.motion a with
  | none => simp [updateEnclosingRect, hm] at h
  | some m =>
    obtain ⟨updated, moved_handle, hupd, hma, hmb, hderef, hperm, hothers⟩ :=
      updateEnclosingRect_spec c s a m start_time finish_time hm (hc.1 a m hm)
    rw [hupd, Option.some.injEq] at h
    subst h
    have haddr : updated.addresses = s.addresses := by
      simp only [updateEnclosingRect, hm, Motion.UpdateEnclosingRect] at hupd
      split at hupd
      · cases hupd
      · rw [Option.some.injEq] at hupd
        subst hupd
        exact addresses_setMotion _ _ _
    have hrest : updated.advance_time_call_depth_ = s.advance_time_call_depth_ ∧
        updated.time_seconds_ = s.time_seconds_ ∧ updated.observed = s.observed := by
      simp only [updateEnclosingRect, hm, Motion.UpdateEnclosingRect] at hupd
      split at hupd
      · cases hupd
      · rw [Option.some.injEq] at hupd
        subst hupd
        exact ⟨rfl, rfl, rfl⟩
    refine ⟨haddr, hrest.1, hrest.2.1, ?_, by rw [hrest.2.2, List.append_nil], ?_⟩
    · intro _
      refine ⟨?_, by rw [haddr]; exact hperm.trans hc.2⟩
      intro b mb hb
      by_cases hba : b = a
      · subst hba
        rw [hma, Option.some.injEq] at hb
        subst hb
        exact hderef
      · rw [hmb b hba] at hb
        exact hothers _ b (hc.1 b mb hb) hba
    · intro b
      simp only [List.not_mem_nil, decide_False, Bool.or_false]
      by_cases hba : b = a
      · subst hba
        simp only [Space.flagged, hma, hm]
      · simp only [Space.flagged, hmb b hba]

end Space

namespace Space

variable {N : Nat} {Phys Obj : Type}

/-! ### The search for collisions -/

theorem pushedEvents_append (calls1 calls2 : List Call) :
    pushedEvents (calls1 ++ calls2) = pushedEvents calls1 ++ pushedEvents calls2 := by
  induction calls1 with
  | nil => rfl
  | cons call rest ih =>
    cases call with
    | GetCollisionTime a b time dimension =>
      rw [List.cons_append]
      simp only [pushedEvents]
      rw [ih]
      split <;> simp
    | _ =>
      rw [List.cons_append]
      simp only [pushedEvents]
      exact ih

theorem pushAll_append (queue : CollisionQueue) (events1 events2 : List Collision) :
    pushAll queue (events1 ++ events2) = pushAll (pushAll queue events1) events2 := by
  simp only [pushAll, List.foldl_append]

theorem observe_motion (s : Space N Phys Obj) (call : Call) (b : Nat) :
    (s.observe call).motion b = s.motion b := rfl

theorem findLoop_spec (c : Collaborators N Phys Obj) (motion_a : Nat) (a : Motion N Phys Obj)
    (candidates : List Nat) :
    ∀ (queue queue1 : CollisionQueue) (s s1 : Space N Phys Obj),
      findLoop c motion_a a candidates queue s = some (queue1, s1) →
      ∃ calls, Evolves calls s s1 ∧ s1.motions_ = s.motions_ ∧ s1.tree_ = s.tree_ ∧
        (∀ call ∈ calls, ∃ b time dimension, call = Call.GetCollisionTime motion_a b time dimension) ∧
        queue1 = pushAll queue (pushedEvents calls) := by
  induction candidates with
  | nil =>
    intro queue queue1 s s1 h
    simp only [findLoop, Option.some.injEq, Prod.mk.injEq] at h
    obtain ⟨rfl, rfl⟩ := h
    exact ⟨[], Evolves.refl s, rfl, rfl, by simp, rfl⟩
  | cons motion_b rest ih =>
    intro queue queue1 s s1 h
    simp only [findLoop] at h
    by_cases hab : motion_a = motion_b
    · rw [if_pos hab] at h
      exact ih queue queue1 s s1 h
    · rw [if_neg hab] at h
      cases hmb : s.motion motion_b with
      | none => rw [hmb] at h; cases h
      | some b =>
        rw [hmb] at h
        simp only at h
        have hobs := Evolves.observe s
          (Call.GetCollisionTime motion_a motion_b (c.GetCollisionTime a.physics a.Time b.physics b.Time).1
            (c.GetCollisionTime a.physics a.Time b.physics b.Time).2) (by intro x; simp)
        by_cases hneg : (c.GetCollisionTime a.physics a.Time b.physics b.Time).1 < 0
        · rw [if_pos hneg] at h
          obtain ⟨calls, hev, hm, ht, hcalls, hq⟩ := ih _ _ _ _ h
          refine ⟨_ :: calls, hobs.trans hev, hm, ht, ?_, ?_⟩
          · intro call hcall
            rcases List.mem_cons.1 hcall with h1 | h1
            · exact ⟨_, _, _, h1⟩
            · exact hcalls call h1
          · simp only [pushedEvents, if_pos hneg]; exact hq
        · rw [if_neg hneg] at h
          obtain ⟨calls, hev, hm, ht, hcalls, hq⟩ := ih _ _ _ _ h
          refine ⟨_ :: calls, hobs.trans hev, hm, ht, ?_, ?_⟩
          · intro call hcall
            rcases List.mem_cons.1 hcall with h1 | h1
            · exact ⟨_, _, _, h1⟩
            · exact hcalls call h1
          · simp only [pushedEvents, if_neg hneg, pushAll, List.foldl_cons]; exact hq

theorem FindCollisions_spec (c : Collaborators N Phys Obj) (s s1 : Space N Phys Obj)
    (queue queue1 : CollisionQueue) (motion_a : Nat)
    (h : FindCollisions c s queue motion_a = some (queue1, s1)) :
    ∃ calls, Evolves calls s s1 ∧ s1.motions_ = s.motions_ ∧ s1.tree_ = s.tree_ ∧
      (∀ call ∈ calls, ∃ b time dimension, call = Call.GetCollisionTime motion_a b time dimension) ∧
      queue1 = pushAll queue (pushedEvents calls) := by
  simp only [FindCollisions] at h
  cases hm : s.motion motion_a with
  | none => rw [hm] at h; cases h
  | some a =>
    rw [hm] at h
    simp only at h
    cases hn : nearEntries s.tree_ a.enclosing_rect with
    | none => rw [hn] at h; cases h
    | some candidates =>
      rw [hn] at h
      exact findLoop_spec c motion_a a candidates _ _ _ _ h

theorem seed_spec (c : Collaborators N Phys Obj) (addresses : List Nat) :
    ∀ (queue queue1 : CollisionQueue) (s s1 : Space N Phys Obj),
      seed c addresses queue s = some (queue1, s1) →
      ∃ calls, Evolves calls s s1 ∧ s1.motions_ = s.motions_ ∧ s1.tree_ = s.tree_ ∧
        (∀ call ∈ calls, ∃ a b time dimension, call = Call.GetCollisionTime a b time dimension) ∧
        queue1 = pushAll queue (pushedEvents calls) := by
  induction addresses with
  | nil =>
    intro queue queue1 s s1 h
    simp only [seed, Option.some.injEq, Prod.mk.injEq] at h
    obtain ⟨rfl, rfl⟩ := h
    exact ⟨[], Evolves.refl s, rfl, rfl, by simp, rfl⟩
  | cons a rest ih =>
    intro queue queue1 s s1 h
    simp only [seed] at h
    cases hf : FindCollisions c s queue a with
    | none => rw [hf] at h; cases h
    | some found =>
      obtain ⟨found_queue, seen⟩ := found
      rw [hf] at h
      obtain ⟨calls1, hev1, hm1, ht1, hcalls1, hq1⟩ := FindCollisions_spec c s seen queue found_queue a hf
      obtain ⟨calls2, hev2, hm2, ht2, hcalls2, hq2⟩ := ih _ _ _ _ h
      refine ⟨calls1 ++ calls2, hev1.trans hev2, hm2.trans hm1, ht2.trans ht1, ?_, ?_⟩
      · intro call hcall
        rcases List.mem_append.1 hcall with h1 | h1
        · exact ⟨a, hcalls1 call h1⟩
        · exact hcalls2 call h1
      · rw [pushedEvents_append, pushAll_append, ← hq1]; exact hq2

end Space

namespace Space

variable {N : Nat} {Phys Obj : Type}

/-! ### The resolution of a collision -/

theorem resolve_spec (c : Collaborators N Phys Obj) (new_time_seconds : Time) (collision : Collision)
    (queue queue1 : CollisionQueue) (s resolved : Space N Phys Obj) (hc : s.Consistent)
    (hdepth : 0 < s.advance_time_call_depth_)
    (h : resolve c new_time_seconds collision queue s = some (queue1, resolved)) :
    ∃ (dt_a dt_b : Time) (removed_a removed_b : List Nat) (finds : List Call),
      Evolves ([Call.Update collision.motion_a dt_a, Call.Update collision.motion_b dt_b,
          Call.OnCollideWith collision.motion_a collision.motion_b collision.time] ++
        removed_a.map Call.Remove ++
        [Call.OnCollideWith collision.motion_b collision.motion_a collision.time] ++
        removed_b.map Call.Remove ++
        [Call.ElasticCollision1D collision.motion_a collision.motion_b collision.dimension] ++ finds)
        s resolved ∧
      (∀ call ∈ finds, ∃ a b time dimension, call = Call.GetCollisionTime a b time dimension) ∧
      queue1 = pushAll queue (pushedEvents finds) := by
  simp only [resolve] at h
  cases h1 : s.updatePositionToTime c collision.motion_a collision.time with
  | none => rw [h1] at h; cases h
  | some s1 =>
  rw [h1] at h; simp only at h
  obtain ⟨ma, _, e1⟩ := updatePositionToTime_evolves c _ _ _ _ h1
  cases h2 : s1.updatePositionToTime c collision.motion_b collision.time with
  | none => rw [h2] at h; cases h
  | some s2 =>
  rw [h2] at h; simp only at h
  obtain ⟨mb, _, e2⟩ := updatePositionToTime_evolves c _ _ _ _ h2
  have e12 := e1.trans e2
  cases h3 : s2.notify c collision.motion_a collision.motion_b collision.time with
  | none => rw [h3] at h; cases h
  | some s3 =>
  rw [h3] at h; simp only at h
  obtain ⟨a3, b3, _, _, e3⟩ := notify_evolves c _ _ _ _ _ (by rw [e12.depth]; exact hdepth) h3
  have e13 := e12.trans e3
  cases h4 : s3.notify c collision.motion_b collision.motion_a collision.time with
  | none => rw [h4] at h; cases h
  | some s4 =>
  rw [h4] at h; simp only at h
  obtain ⟨a4, b4, _, _, e4⟩ := notify_evolves c _ _ _ _ _ (by rw [e13.depth]; exact hdepth) h4
  have e14 := e13.trans e4
  cases h5 : s4.elasticCollision c collision.motion_a collision.motion_b collision.dimension with
  | none => rw [h5] at h; cases h
  | some s5 =>
  rw [h5] at h; simp only at h
  have e15 := e14.trans (elasticCollision_evolves c _ _ _ _ _ h5)
  cases h6 : s5.updateEnclosingRect c collision.motion_a collision.time new_time_seconds with
  | none => rw [h6] at h; cases h
  | some s6 =>
  rw [h6] at h; simp only at h
  have e16 := e15.trans (updateEnclosingRect_evolves c _ _ _ _ _ (e15.consistent hc) h6)
  cases h7 : s6.updateEnclosingRect c collision.motion_b collision.time new_time_seconds with
  | none => rw [h7] at h; cases h
  | some s7 =>
  rw [h7] at h; simp only at h
  have e17 := e16.trans (updateEnclosingRect_evolves c _ _ _ _ _ (e16.consistent hc) h7)
  cases h8 : FindCollisions c s7 queue collision.motion_a with
  | none => rw [h8] at h; cases h
  | some found =>
  obtain ⟨queue8, s8⟩ := found
  rw [h8] at h; simp only at h
  obtain ⟨calls8, e8, _, _, hcalls8, hq8⟩ := FindCollisions_spec c _ _ _ _ _ h8
  obtain ⟨calls9, e9, _, _, hcalls9, hq9⟩ := FindCollisions_spec c _ _ _ _ _ h
  refine ⟨collision.time - ma.Time, collision.time - mb.Time,
    c.OnCollideWith a3.object b3.object collision.time,
    c.OnCollideWith a4.object b4.object collision.time, calls8 ++ calls9,
    ((e17.trans e8).trans e9).cast (by simp), ?_, ?_⟩
  · intro call hcall
    rcases List.mem_append.1 hcall with hm | hm
    · exact ⟨_, hcalls8 call hm⟩
    · exact ⟨_, hcalls9 call hm⟩
  · rw [pushedEvents_append, pushAll_append, ← hq8]; exact hq9

theorem resolveLoop_evolves (c : Collaborators N Phys Obj) (new_time_seconds : Time) (fuel : Nat) :
    ∀ (queue : CollisionQueue) (s s1 : Space N Phys Obj), s.Consistent →
      0 < s.advance_time_call_depth_ → resolveLoop c new_time_seconds fuel queue s = some s1 →
      ∃ calls, Evolves calls s s1 := by
  induction fuel with
  | zero => intro queue s s1 _ _ h; simp [resolveLoop] at h
  | succ fuel ih =>
    intro queue s s1 hc hdepth h
    cases queue with
    | nil =>
      simp only [resolveLoop, Option.some.injEq] at h
      subst h
      exact ⟨[], Evolves.refl s⟩
    | cons collision rest =>
      simp only [resolveLoop] at h
      cases hma : s.motion collision.motion_a with
      | none => rw [hma] at h; cases h
      | some a =>
        cases hmb : s.motion collision.motion_b with
        | none => rw [hma, hmb] at h; cases h
        | some b =>
          rw [hma, hmb] at h
          simp only at h
          by_cases hvalid : collision.IsValid c a b = true
          · simp only [hvalid, Bool.not_true, Bool.false_eq_true, if_false] at h
            cases hr : resolve c new_time_seconds collision (collision :: rest) s with
            | none => rw [hr] at h; cases h
            | some resolved =>
              obtain ⟨queue1, s2⟩ := resolved
              rw [hr] at h
              obtain ⟨_, _, _, _, _, e, _, _⟩ := resolve_spec c _ _ _ _ _ _ hc hdepth hr
              obtain ⟨calls, e2⟩ := ih _ _ _ (e.consistent hc) (by rw [e.depth]; exact hdepth) h
              exact ⟨_, e.trans e2⟩
          · simp only [hvalid, Bool.not_false, if_true] at h
            exact ih _ _ _ hc hdepth h

/-! ### The loops over the records -/

theorem commit_evolves (c : Collaborators N Phys Obj) (new_time_seconds : Time) (addresses : List Nat) :
    ∀ s s1 : Space N Phys Obj, commit c new_time_seconds addresses s = some s1 →
      ∃ calls, Evolves calls s s1 ∧ ∀ call ∈ calls, ∃ a dt, call = Call.Update a dt := by
  induction addresses with
  | nil =>
    intro s s1 h
    simp only [commit, Option.some.injEq] at h
    subst h
    exact ⟨[], Evolves.refl s, by simp⟩
  | cons a rest ih =>
    intro s s1 h
    simp only [commit] at h
    cases hu : s.updatePositionToTime c a new_time_seconds with
    | none => rw [hu] at h; cases h
    | some s2 =>
      rw [hu] at h
      obtain ⟨m, _, e1⟩ := updatePositionToTime_evolves c _ _ _ _ hu
      obtain ⟨calls, e2, hcalls⟩ := ih _ _ h
      refine ⟨_, e1.trans e2, ?_⟩
      intro call hcall
      rcases List.mem_append.1 hcall with hm | hm
      · exact ⟨a, _, List.mem_singleton.1 hm⟩
      · exact hcalls call hm

theorem flagged_of_motion {s : Space N Phys Obj} {a : Nat} {m : Motion N Phys Obj}
    (h : s.motion a = some m) : s.flagged a = m.marked_for_removal := by
  unfold Space.flagged; rw [h]

theorem flagged_of_not_mem {s : Space N Phys Obj} {a : Nat} (h : a ∉ s.addresses) :
    s.flagged a = false := by
  cases hm : s.motion a with
  | none => unfold Space.flagged; rw [hm]
  | some m => exact absurd (motion_mem hm) h

theorem flush_spec (addresses : List Nat) :
    ∀ s s1 : Space N Phys Obj, s.Consistent → flush addresses s = some s1 →
      s1.Consistent ∧
      s1.addresses = s.addresses.filter (fun b => !(decide (b ∈ addresses) && s.flagged b)) ∧
      (∀ b, s1.motion b = if (decide (b ∈ addresses) && s.flagged b) = true then none else s.motion b) ∧
      s1.observed = s.observed ∧ s1.advance_time_call_depth_ = s.advance_time_call_depth_ ∧
      s1.time_seconds_ = s.time_seconds_ := by
  induction addresses with
  | nil =>
    intro s s1 hc h
    simp only [flush, Option.some.injEq] at h
    subst h
    refine ⟨hc, ?_, by simp, rfl, rfl, rfl⟩
    simp
  | cons a rest ih =>
    intro s s1 hc h
    simp only [flush] at h
    cases hm : s.motion a with
    | none => rw [hm] at h; cases h
    | some m =>
      rw [hm] at h
      simp only at h
      have hfa : s.flagged a = m.marked_for_removal := flagged_of_motion hm
      by_cases hflag : m.marked_for_removal = true
      · rw [if_pos hflag] at h
        obtain ⟨removed, following, tree, hrem, _, _, haddr, hmotion, _, _, hobs, hd, ht, hcons⟩ :=
          RemoveInternal_spec s a m hm (hc.1 a m hm)
        rw [hrem] at h
        simp only at h
        obtain ⟨h1, h2, h3, h4, h5, h6⟩ := ih _ _ (hcons hc) h
        have hflagged : ∀ b, b ≠ a → removed.flagged b = s.flagged b := by
          intro b hb
          unfold Space.flagged
          rw [hmotion b, if_neg hb]
        refine ⟨h1, ?_, ?_, h4.trans hobs, h5.trans hd, h6.trans ht⟩
        · rw [h2, haddr, List.filter_filter]
          apply List.filter_congr
          intro b _
          by_cases hb : b = a
          · subst hb; simp [hfa, hflag]
          · simp [hb, hflagged b hb]
        · intro b
          rw [h3 b, hmotion b]
          by_cases hb : b = a
          · subst hb; simp [hfa, hflag]
          · simp [hb, hflagged b hb]
      · rw [if_neg hflag] at h
        have hflag1 : m.marked_for_removal = false := by simpa using hflag
        obtain ⟨h1, h2, h3, h4, h5, h6⟩ := ih _ _ hc h
        refine ⟨h1, ?_, ?_, h4, h5, h6⟩
        · rw [h2]
          apply List.filter_congr
          intro b _
          by_cases hb : b = a
          · subst hb; simp [hfa, hflag1]
          · simp [hb]
        · intro b
          rw [h3 b]
          by_cases hb : b = a
          · subst hb; simp [hfa, hflag1]
          · simp [hb]

end Space

namespace Space

variable {N : Nat} {Phys Obj : Type}

theorem predict_spec (c : Collaborators N Phys Obj) (new_time_seconds : Time) (addresses : List Nat) :
    ∀ s s1 : Space N Phys Obj, s.Consistent → predict c new_time_seconds addresses s = some s1 →
      s1.Consistent ∧
      s1.addresses = s.addresses.filter (fun b => !(decide (b ∈ addresses) && s.flagged b)) ∧
      (∀ b m1, s1.motion b = some m1 → ∃ m, s.motion b = some m ∧ m1.object = m.object ∧
        m1.physics = m.physics ∧ m1.marked_for_removal = m.marked_for_removal ∧
        (b ∈ addresses →
          m1.enclosing_rect = Motion.sweptRect c m.physics s.time_seconds_ new_time_seconds) ∧
        (b ∉ addresses → m1.enclosing_rect = m.enclosing_rect)) ∧
      s1.observed = s.observed ∧ s1.advance_time_call_depth_ = s.advance_time_call_depth_ ∧
      s1.time_seconds_ = s.time_seconds_ := by
  induction addresses with
  | nil =>
    intro s s1 hc h
    simp only [predict, Option.some.injEq] at h
    subst h
    refine ⟨hc, by simp, ?_, rfl, rfl, rfl⟩
    intro b m1 hb
    exact ⟨m1, hb, rfl, rfl, rfl, by simp, fun _ => rfl⟩
  | cons a rest ih =>
    intro s s1 hc h
    simp only [predict] at h
    cases hm : s.motion a with
    | none => rw [hm] at h; cases h
    | some m =>
      rw [hm] at h
      simp only at h
      have hfa : s.flagged a = m.marked_for_removal := flagged_of_motion hm
      by_cases hflag : m.marked_for_removal = true
      · rw [if_pos hflag] at h
        obtain ⟨removed, following, tree, hrem, _, _, haddr, hmotion, _, _, hobs, hd, ht, hcons⟩ :=
          RemoveInternal_spec s a m hm (hc.1 a m hm)
        rw [hrem] at h
        simp only at h
        obtain ⟨h1, h2, h3, h4, h5, h6⟩ := ih _ _ (hcons hc) h
        have hflagged : ∀ b, b ≠ a → removed.flagged b = s.flagged b := by
          intro b hb
          unfold Space.flagged
          rw [hmotion b, if_neg hb]
        refine ⟨h1, ?_, ?_, h4.trans hobs, h5.trans hd, h6.trans ht⟩
        · rw [h2, haddr, List.filter_filter]
          apply List.filter_congr
          intro b _
          by_cases hb : b = a
          · subst hb; simp [hfa, hflag]
          · simp [hb, hflagged b hb]
        · intro b m1 hb
          obtain ⟨m0, hm0, ho, hp, hf, hin, hout⟩ := h3 b m1 hb
          rw [hmotion b] at hm0
          by_cases hba : b = a
          · simp [hba] at hm0
          · rw [if_neg hba] at hm0
            refine ⟨m0, hm0, ho, hp, hf, ?_, ?_⟩
            · intro hmem
              rw [← ht]
              exact hin ((List.mem_cons.1 hmem).resolve_left hba)
            · intro hmem
              exact hout fun hr => hmem (List.mem_cons_of_mem _ hr)
      · rw [if_neg hflag] at h
        have hflag1 : m.marked_for_removal = false := by simpa using hflag
        cases hu : s.updateEnclosingRect c a s.time_seconds_ new_time_seconds with
        | none => rw [hu] at h; cases h
        | some updated =>
          rw [hu] at h
          simp only at h
          have e := updateEnclosingRect_evolves c s updated a _ _ hc hu
          obtain ⟨updated1, moved_handle, hupd, hma, hmb, _, _, _⟩ :=
            updateEnclosingRect_spec c s a m s.time_seconds_ new_time_seconds hm (hc.1 a m hm)
          rw [hu, Option.some.injEq] at hupd
          subst hupd
          obtain ⟨h1, h2, h3, h4, h5, h6⟩ := ih _ _ (e.consistent hc) h
          have hflagged : ∀ b, updated.flagged b = s.flagged b := by
            intro b; rw [e.flagged]; simp
          refine ⟨h1, ?_, ?_, ?_, h5.trans e.depth, h6.trans e.time⟩
          · rw [h2, e.addresses]
            apply List.filter_congr
            intro b _
            by_cases hb : b = a
            · subst hb; simp [hflagged, hfa, hflag1]
            · simp [hb, hflagged]
          · intro b m1 hb
            obtain ⟨m0, hm0, ho, hp, hf, hin, hout⟩ := h3 b m1 hb
            by_cases hba : b = a
            · subst hba
              rw [hma, Option.some.injEq] at hm0
              subst hm0
              refine ⟨m, hm, ho, hp, hf, ?_, ?_⟩
              · intro _
                by_cases hr : b ∈ rest
                · rw [hin hr, e.time]
                · rw [hout hr]
              · intro hmem
                exact absurd (List.mem_cons_self _ _) hmem
            · rw [hmb b hba] at hm0
              refine ⟨m0, hm0, ho, hp, hf, ?_, ?_⟩
              · intro hmem
                rw [← e.time]
                exact hin ((List.mem_cons.1 hmem).resolve_left hba)
              · intro hmem
                exact hout fun hr => hmem (List.mem_cons_of_mem _ hr)
          · rw [h4, e.observed, List.append_nil]

end Space

namespace RectSearchTree

variable {N : Nat} {Rep : Type}

theorem Create_allEntries (rect : Rect N) (d : Nat) :
    (Create rect d : RectSearchTree N Rep).allEntries = [] := by
  induction d generalizing rect with
  | zero => rfl
  | succ d ih =>
    obtain ⟨a, b, h⟩ := @Create_succ_eq N Rep rect d
    rw [h, allEntries, ih a, ih b]
    rfl

end RectSearchTree

namespace Space

variable {N : Nat} {Phys Obj : Type}

/-! ### The records and the index agree -/

theorem Consistent_create (rect : Rect N) : (create rect : Space N Phys Obj).Consistent := by
  refine ⟨?_, ?_⟩
  · intro a m h
    simp [motion, create, StdList.deref, StdList.nil] at h
  · simp only [create, RectSearchTree.Create_allEntries]
    exact List.Perm.refl _

theorem Add_spec (s : Space N Phys Obj) (object : Obj) (physics : Phys)
    (hroot : s.tree_.isNull = false) :
    ∃ added tree handle, s.Add object physics = some (added, freshAddr s.motions_.cells) ∧
      RectSearchTree.Insert s.tree_ { pos := fun _ => 0, size := fun _ => 0 } (freshAddr s.motions_.cells) =
        some (tree, handle) ∧
      added.tree_ = tree ∧
      added.motions_.cells = (freshAddr s.motions_.cells,
        { object := object, physics := physics, enclosing_rect := { pos := fun _ => 0, size := fun _ => 0 },
          tree_iterator := handle, marked_for_removal := false }) :: s.motions_.cells ∧
      added.advance_time_call_depth_ = s.advance_time_call_depth_ ∧
      added.time_seconds_ = s.time_seconds_ ∧ added.observed = s.observed ∧
      (s.Consistent → added.Consistent) := by
  obtain ⟨p, l, _, _, _, _, hins⟩ := RectSearchTree.Insert_eq s.tree_
    ({ pos := fun _ => 0, size := fun _ => 0 } : Rect (N + 1)) (freshAddr s.motions_.cells) hroot
  obtain ⟨hderef, hperm, _, _, hothers⟩ := RectSearchTree.Insert_handles _ _ _ _ _ hins
  obtain ⟨inserted, hlist, hcells⟩ := RectSearchTree.StdList.insert_begin s.motions_
    (Motion.mk object physics ⟨fun _ => 0, fun _ => 0⟩
      ⟨[p], some (freshAddr (s.tree_.nodeAt p).reps.cells)⟩ false)
  refine ⟨{ s with motions_ := inserted, tree_ := s.tree_.setReps p l }, _, _, ?_, hins, rfl, hcells,
    rfl, rfl, rfl, ?_⟩
  · simp only [Add, hins, hlist]
  · rintro ⟨hc1, hc2⟩
    refine ⟨?_, ?_⟩
    · intro b mb hb
      have hb1 : inserted.cells.lookup b = some mb := by
        simpa [motion, StdList.deref] using hb
      rw [hcells] at hb1
      by_cases hba : b = freshAddr s.motions_.cells
      · subst hba
        simp only [List.lookup_cons, beq_self_eq_true, Option.some.injEq] at hb1
        subst hb1
        exact hderef
      · have hbeq : (b == freshAddr s.motions_.cells) = false := by simpa using hba
        simp only [List.lookup_cons, hbeq] at hb1
        exact hothers _ b (hc1 b mb (by simpa [motion, StdList.deref] using hb1))
    · show (s.tree_.setReps p l).allEntries.Perm (inserted.cells.map Prod.fst)
      rw [hcells, List.map_cons]
      exact hperm.trans (List.Perm.cons _ hc2)

theorem Consistent_withBody (s : Space N Phys Obj) (object : Obj) (physics : Phys)
    (hc : s.Consistent) : (s.withBody object physics).Consistent := by
  unfold withBody
  cases hadd : s.Add object physics with
  | none => exact hc
  | some r =>
    obtain ⟨added, a⟩ := r
    have hroot : s.tree_.isNull = false := by
      simp only [Add] at hadd
      cases hins : RectSearchTree.Insert s.tree_ { pos := fun _ => 0, size := fun _ => 0 }
          (freshAddr s.motions_.cells) with
      | none => rw [hins] at hadd; cases hadd
      | some r => exact RectSearchTree.Insert_isNull _ _ _ _ _ hins
    obtain ⟨added1, _, _, hadd1, _, _, _, _, _, _, hcons⟩ := Add_spec s object physics hroot
    rw [hadd, Option.some.injEq, Prod.mk.injEq] at hadd1
    show added.Consistent
    rw [hadd1.1]
    exact hcons hc

end Space

theorem twoBodies_Consistent : twoBodies.Consistent :=
  Space.Consistent_withBody _ _ _ (Space.Consistent_withBody _ _ _ (Space.Consistent_create _))

namespace Space

variable {N : Nat} {Phys Obj : Type}

/-! ### Remove and the removals of a step -/

/-- C12: `Remove(h)` on a record whose index handle designates its own entry.
With the call depth at 0 the record and its index entry are deleted at once:
the list of records loses that record and no other, the index is the result of
`RectSearchTree::Remove` on the handle of the record and loses that entry and
no other, every other record is unchanged and every other handle still
designates its payload. With the call depth above 0 only the flag of the
record is set: the index and the list of records are unchanged. -/
theorem Remove_now_or_deferred (s : Space N Phys Obj) (iterator : Nat) (m : Motion N Phys Obj)
    (hm : s.motion iterator = some m) (hiter : m.tree_iterator.deref s.tree_ = some iterator) :
    (s.advance_time_call_depth_ = 0 →
      ∃ removed tree, s.Remove iterator = some removed ∧
        RectSearchTree.Remove s.tree_ m.tree_iterator = some tree ∧ removed.tree_ = tree ∧
        removed.addresses = s.addresses.filter (fun b => decide (b ≠ iterator)) ∧
        (∀ b, removed.motion b = if b = iterator then none else s.motion b) ∧
        s.tree_.allEntries.Perm (iterator :: removed.tree_.allEntries) ∧
        (∀ (other : RectSearchTree.Iterator) (w : Nat), other.deref s.tree_ = some w → w ≠ iterator →
          other.deref removed.tree_ = some w)) ∧
    (0 < s.advance_time_call_depth_ →
      ∃ removed, s.Remove iterator = some removed ∧ removed.tree_ = s.tree_ ∧
        removed.addresses = s.addresses ∧
        removed.motion iterator = some { m with marked_for_removal := true } ∧
        ∀ b, b ≠ iterator → removed.motion b = s.motion b) := by
  constructor
  · intro hdepth
    obtain ⟨removed, following, tree, hrem, htree, h1, h2, h3, h4, h5, _⟩ :=
      RemoveInternal_spec s iterator m hm hiter
    refine ⟨removed.observe (Call.Remove iterator), tree, ?_, htree, h1, h2, h3, h4, h5⟩
    simp only [Remove, hdepth, lt_irrefl, if_false, hrem, Option.map_some']
  · intro hdepth
    refine ⟨_, Remove_deferred s iterator m hm hdepth, rfl, addresses_setMotion s iterator _, ?_, ?_⟩
    · show (s.setMotion iterator _).motion iterator = _
      rw [motion_setMotion, if_pos rfl, hm]; rfl
    · intro b hb
      show (s.setMotion iterator _).motion b = _
      rw [motion_setMotion, if_neg hb]

/-- C13: when `AdvanceTime` returns, the records left are the records that
were not flagged before the call and on which `Remove` was not called during
it, in their order; the index holds the entries of those records and no
other; and no record is flagged. -/
theorem AdvanceTime_flushes (c : Collaborators N Phys Obj) (fuel : Nat) (new_time_seconds : Time)
    (s advanced : Space N Phys Obj) (hc : s.Consistent) (hdepth : 0 ≤ s.advance_time_call_depth_)
    (h : AdvanceTime c fuel new_time_seconds s = some advanced) :
    ∃ calls, advanced.observed = s.observed ++ calls ∧
      advanced.addresses =
        s.addresses.filter (fun a => !(s.flagged a || decide (Call.Remove a ∈ calls))) ∧
      advanced.tree_.allEntries.Perm advanced.addresses ∧
      ∀ a, advanced.flagged a = false := by
  simp only [AdvanceTime] at h
  have hc0 : ({ s with advance_time_call_depth_ := s.advance_time_call_depth_ + 1 } :
      Space N Phys Obj).Consistent := hc
  cases hp : predict c new_time_seconds s.addresses
      { s with advance_time_call_depth_ := s.advance_time_call_depth_ + 1 } with
  | none =>
    have hp1 : predict c new_time_seconds
        ({ s with advance_time_call_depth_ := s.advance_time_call_depth_ + 1 } : Space N Phys Obj).addresses
        { s with advance_time_call_depth_ := s.advance_time_call_depth_ + 1 } = none := hp
    rw [hp1] at h; cases h
  | some predicted =>
  have hp1 : predict c new_time_seconds
      ({ s with advance_time_call_depth_ := s.advance_time_call_depth_ + 1 } : Space N Phys Obj).addresses
      { s with advance_time_call_depth_ := s.advance_time_call_depth_ + 1 } = some predicted := hp
  rw [hp1] at h; simp only at h
  obtain ⟨pc, paddr, pmotion, pobs, pdepth, _⟩ := predict_spec c new_time_seconds _ _ _ hc0 hp
  have paddr : predicted.addresses =
      s.addresses.filter (fun b => !(decide (b ∈ s.addresses) && s.flagged b)) := paddr
  have pmotion : ∀ b m1, predicted.motion b = some m1 → ∃ m, s.motion b = some m ∧
      m1.marked_for_removal = m.marked_for_removal := by
    intro b m1 hb
    obtain ⟨m, hm, _, _, hfl, _⟩ := pmotion b m1 hb
    exact ⟨m, hm, hfl⟩
  have pobs : predicted.observed = s.observed := pobs
  have pdepth : predicted.advance_time_call_depth_ = s.advance_time_call_depth_ + 1 := pdepth
  cases hs : seed c predicted.addresses [] predicted with
  | none => rw [hs] at h; cases h
  | some seeded_pair =>
  obtain ⟨queue, seeded⟩ := seeded_pair
  rw [hs] at h; simp only at h
  obtain ⟨calls1, e1, _, _, hcalls1, _⟩ := seed_spec c _ _ _ _ _ hs
  cases hr : resolveLoop c new_time_seconds fuel queue seeded with
  | none => rw [hr] at h; cases h
  | some resolved =>
  rw [hr] at h; simp only at h
  have hd1 : 0 < seeded.advance_time_call_depth_ := by
    rw [e1.depth, pdepth]; omega
  obtain ⟨calls2, e2⟩ := resolveLoop_evolves c new_time_seconds fuel _ _ _ (e1.consistent pc) hd1 hr
  have e12 := e1.trans e2
  have hct : ({ resolved with time_seconds_ := new_time_seconds } : Space N Phys Obj).Consistent :=
    e12.consistent pc
  cases hf : flush resolved.addresses { resolved with time_seconds_ := new_time_seconds } with
  | none =>
    have hf1 : flush ({ resolved with time_seconds_ := new_time_seconds } : Space N Phys Obj).addresses
        { resolved with time_seconds_ := new_time_seconds } = none := hf
    rw [hf1] at h; cases h
  | some flushed =>
  have hf1 : flush ({ resolved with time_seconds_ := new_time_seconds } : Space N Phys Obj).addresses
      { resolved with time_seconds_ := new_time_seconds } = some flushed := hf
  rw [hf1] at h; simp only at h
  obtain ⟨fc, faddr, fmotion, fobs, _, _⟩ := flush_spec _ _ _ hct hf
  have faddr : flushed.addresses =
      resolved.addresses.filter (fun b => !(decide (b ∈ resolved.addresses) && resolved.flagged b)) := faddr
  have fmotion : ∀ b, flushed.motion b =
      if (decide (b ∈ resolved.addresses) && resolved.flagged b) = true then none else resolved.motion b :=
    fmotion
  have fobs : flushed.observed = resolved.observed := fobs
  cases hcm : commit c new_time_seconds flushed.addresses flushed with
  | none => rw [hcm] at h; cases h
  | some committed =>
  rw [hcm] at h
  simp only [Option.some.injEq] at h
  subst h
  obtain ⟨calls3, e3, hcalls3⟩ := commit_evolves c new_time_seconds _ _ _ hcm
  have hno1 : ∀ a, Call.Remove a ∉ calls1 := by
    intro a ha
    obtain ⟨_, _, _, _, heq⟩ := hcalls1 _ ha
    cases heq
  have hno3 : ∀ a, Call.Remove a ∉ calls3 := by
    intro a ha
    obtain ⟨_, _, heq⟩ := hcalls3 _ ha
    cases heq
  have hpflag : ∀ a, a ∈ predicted.addresses → predicted.flagged a = false := by
    intro a ha
    obtain ⟨m1, hm1⟩ := motion_of_mem ha
    rw [paddr] at ha
    obtain ⟨hmem, hkeep⟩ := List.mem_filter.1 ha
    obtain ⟨m, hm, hfl⟩ := pmotion a m1 hm1
    rw [flagged_of_motion hm1, hfl, ← flagged_of_motion hm]
    simpa [hmem] using hkeep
  have hrflag : ∀ a, resolved.flagged a = (predicted.flagged a || decide (Call.Remove a ∈ calls2)) := by
    intro a
    rw [e12.flagged]
    simp [hno1 a]
  have hfin : flushed.addresses =
      s.addresses.filter (fun a => !(s.flagged a || decide (Call.Remove a ∈ calls2))) := by
    rw [faddr, e12.addresses, paddr, List.filter_filter]
    apply List.filter_congr
    intro a ha
    by_cases hsf : s.flagged a = true
    · simp [ha, hsf]
    · have hsf1 : s.flagged a = false := by simpa using hsf
      have hin : a ∈ predicted.addresses := by
        rw [paddr]
        exact List.mem_filter.2 ⟨ha, by simp [hsf1]⟩
      have hin1 := hin
      rw [paddr] at hin1
      simp [ha, hsf1, hin1, hrflag a, hpflag a hin]
  refine ⟨calls1 ++ calls2 ++ calls3, ?_, ?_, ?_, ?_⟩
  · show committed.observed = _
    rw [e3.observed, fobs, e12.observed, pobs, List.append_assoc]
  · show committed.addresses = _
    rw [e3.addresses, hfin]
    apply List.filter_congr
    intro a _
    simp [hno1 a, hno3 a]
  · exact (e3.consistent fc).2
  · intro a
    show committed.flagged a = false
    rw [e3.flagged]
    simp only [hno3 a, decide_False, Bool.or_false]
    by_cases hmem : a ∈ flushed.addresses
    · have hmem1 := hmem
      rw [faddr] at hmem1
      obtain ⟨hmemr, hkeep⟩ := List.mem_filter.1 hmem1
      have hfl : resolved.flagged a = false := by simpa [hmemr] using hkeep
      have hmotion := fmotion a
      rw [hfl] at hmotion
      simp only [Bool.and_false, Bool.false_eq_true, if_false] at hmotion
      unfold Space.flagged at hfl ⊢
      rw [hmotion]
      exact hfl
    · exact flagged_of_not_mem hmem

end Space

/-- Witness of C12: the moving body of the sample scene is removed, outside a
step and, with the call depth set to 1, inside one. -/
theorem Remove_now_or_deferred_witness :
    ∃ m, twoBodies.motion 1 = some m ∧ m.tree_iterator.deref twoBodies.tree_ = some 1 ∧
      (∃ removed tree, twoBodies.Remove 1 = some removed ∧
        RectSearchTree.Remove twoBodies.tree_ m.tree_iterator = some tree ∧ removed.tree_ = tree ∧
        removed.addresses = [0] ∧
        (∀ b, removed.motion b = if b = 1 then none else twoBodies.motion b) ∧
        twoBodies.tree_.allEntries.Perm (1 :: removed.tree_.allEntries) ∧
        (∀ (other : RectSearchTree.Iterator) (w : Nat), other.deref twoBodies.tree_ = some w → w ≠ 1 →
          other.deref removed.tree_ = some w)) ∧
      ∃ flagged, Space.Remove { twoBodies with advance_time_call_depth_ := 1 } 1 = some flagged ∧
        flagged.tree_ = twoBodies.tree_ ∧ flagged.addresses = [1, 0] ∧
        flagged.motion 1 = some { m with marked_for_removal := true } ∧
        ∀ b, b ≠ 1 → flagged.motion b = twoBodies.motion b := by
  obtain ⟨m, hm⟩ := Space.motion_of_mem (show 1 ∈ twoBodies.addresses by decide)
  have hiter := twoBodies_Consistent.1 1 m hm
  exact ⟨m, hm, hiter, (Space.Remove_now_or_deferred twoBodies 1 m hm hiter).1 rfl,
    (Space.Remove_now_or_deferred { twoBodies with advance_time_call_depth_ := 1 } 1 m hm hiter).2
      (by decide)⟩

/-- Witness of C13: a step of the sample scene to 10 s in which the resting
body removes itself when it is told of the collision. -/
theorem AdvanceTime_flushes_witness :
    ∃ advanced, twoBodies.Consistent ∧ 0 ≤ twoBodies.advance_time_call_depth_ ∧
      Space.AdvanceTime (line fun self _ _ => if self = 0 then [0] else []) 10 10000000 twoBodies =
        some advanced ∧
      ∃ calls, advanced.observed = twoBodies.observed ++ calls ∧
        advanced.addresses =
          twoBodies.addresses.filter (fun a => !(twoBodies.flagged a || decide (Call.Remove a ∈ calls))) ∧
        advanced.tree_.allEntries.Perm advanced.addresses ∧
        ∀ a, advanced.flagged a = false := by
  obtain ⟨advanced, h⟩ := Option.isSome_iff_exists.1
    (show (Space.AdvanceTime (line fun self _ _ => if self = 0 then [0] else []) 10 10000000
      twoBodies).isSome = true by decide)
  exact ⟨advanced, twoBodies_Consistent, by decide, h,
    Space.AdvanceTime_flushes _ _ _ _ _ twoBodies_Consistent (by decide) h⟩

/-! ### The time of a record, the swept box and the validity of an event -/

/-- C18, the code on the failing input: the sample body at the edge of the line
is stepped to 0.0005 s, which takes it from 90 to 92, and then to 1 s. The
second step advances it by 1 s, the target time minus the start time 0.0005 s
truncated to whole milliseconds, and not by 0.9995 s: it ends at 4092 and not
at 4090, having moved for 1.0005 s in all. In both steps the root of the index
holds the record, so that the searches of the steps find an entry there. -/
theorem commit_from_truncated_time :
    (Space.AdvanceTime (line fun _ _ _ => []) 10 500 oneBody).map
        (fun s => (s.observed, s.physicsList, s.time_seconds_, s.tree_.reps.values)) =
      some ([Call.Update 0 500], [(0, ⟨92, 10, 4000⟩)], 500, [0]) ∧
    ((Space.AdvanceTime (line fun _ _ _ => []) 10 500 oneBody).bind
        (Space.AdvanceTime (line fun _ _ _ => []) 10 1000000)).map
      (fun s => (s.observed, s.physicsList, s.time_seconds_, s.tree_.reps.values)) =
      some ([Call.Update 0 500, Call.Update 0 1000000], [(0, ⟨4092, 10, 4000⟩)], 1000000, [0]) ∧
    toMillis 500 = 0 ∧
    (line fun _ _ _ => []).Update ⟨92, 10, 4000⟩ (1000000 - 500) = (⟨4090, 10, 4000⟩ : Body) := by
  refine ⟨by decide, by decide, by decide, ?_⟩
  decide

/-- C19, the code on the failing input: the swept box of the sample body at 0,
10 long and moving at 10 units per second, for the step from 1 s to 2 s. The
box is 30 long, the hull of the footprint and of the footprint after 2 s, where
the hull with the footprint after the 1 s of the step is 20 long; the time
axis has the origin 1000 and the extent 1000. -/
theorem sweptRect_of_later_step :
    (Motion.sweptRect (line fun _ _ _ => []) ⟨0, 10, 10⟩ 1000000 2000000).pos 0 = 0 ∧
    (Motion.sweptRect (line fun _ _ _ => []) ⟨0, 10, 10⟩ 1000000 2000000).size 0 = 30 ∧
    ((line fun _ _ _ => []).GetRectAfterTime ⟨0, 10, 10⟩ 2000000).pos 0 = 20 ∧
    ((line fun _ _ _ => []).GetRectAfterTime ⟨0, 10, 10⟩ (2000000 - 1000000)).pos 0 = 10 ∧
    (Motion.sweptRect (line fun _ _ _ => []) ⟨0, 10, 10⟩ 1000000 2000000).pos 1 = 1000 ∧
    (Motion.sweptRect (line fun _ _ _ => []) ⟨0, 10, 10⟩ 1000000 2000000).size 1 = 1000 := by
  decide

/-- C20, as stated, fails: the footprints of two sample bodies overlap at the
time of the event and the body with the smaller position is the faster one,
and the event is not valid. -/
theorem IsValid_rejects_overlap :
    ((line fun _ _ _ => []).GetRectAfterTime ⟨0, 10, 10⟩ (0 - (Body.record 1 ⟨0, 10, 10⟩).Time)).Overlaps
      ((line fun _ _ _ => []).GetRectAfterTime ⟨5, 10, 0⟩ (0 - (Body.record 0 ⟨5, 10, 0⟩).Time)) ∧
    (line fun _ _ _ => []).position ⟨0, 10, 10⟩ 0 < (line fun _ _ _ => []).position ⟨5, 10, 0⟩ 0 ∧
    (line fun _ _ _ => []).velocity ⟨0, 10, 10⟩ 0 > (line fun _ _ _ => []).velocity ⟨5, 10, 0⟩ 0 ∧
    Collision.IsValid (line fun _ _ _ => []) (Body.record 1 ⟨0, 10, 10⟩) (Body.record 0 ⟨5, 10, 0⟩)
      ⟨1, 0, 0, 0⟩ = false := by
  decide

/-- C20 (amended): a popped event is valid exactly when the footprints of the
two bodies at the time of the event touch and, along the axis of the event,
either `motion_a` has the smaller position and the greater velocity, or it has
not the smaller position and `motion_b` has the greater velocity; an event
that is not valid is popped and nothing else changes. -/
theorem IsValid_revalidation {N : Nat} {Phys Obj : Type} (c : Collaborators N Phys Obj)
    (new_time_seconds : Time) (fuel : Nat) (collision : Collision) (rest : CollisionQueue)
    (s : Space N Phys Obj) (a b : Motion N Phys Obj)
    (ha : s.motion collision.motion_a = some a) (hb : s.motion collision.motion_b = some b) :
    (collision.IsValid c a b = true ↔
      (c.GetRectAfterTime a.physics (collision.time - a.Time)).Touches
        (c.GetRectAfterTime b.physics (collision.time - b.Time)) ∧
      ((c.position a.physics collision.dimension < c.position b.physics collision.dimension ∧
          c.velocity a.physics collision.dimension > c.velocity b.physics collision.dimension) ∨
        (c.position b.physics collision.dimension ≤ c.position a.physics collision.dimension ∧
          c.velocity b.physics collision.dimension > c.velocity a.physics collision.dimension))) ∧
    (collision.IsValid c a b = false →
      Space.resolveLoop c new_time_seconds (fuel + 1) (collision :: rest) s =
        Space.resolveLoop c new_time_seconds fuel rest s) := by
  constructor
  · unfold Collision.IsValid
    by_cases htouch : (c.GetRectAfterTime a.physics (collision.time - a.Time)).Touches
        (c.GetRectAfterTime b.physics (collision.time - b.Time))
    · by_cases hpos : c.position a.physics collision.dimension < c.position b.physics collision.dimension
      · have hnle : ¬ c.position b.physics collision.dimension ≤ c.position a.physics collision.dimension :=
          not_le.2 hpos
        simp [htouch, hpos, hnle]
      · have hle : c.position b.physics collision.dimension ≤ c.position a.physics collision.dimension :=
          not_lt.1 hpos
        simp [htouch, hpos, hle]
    · simp [htouch]
  · intro hinvalid
    simp only [Space.resolveLoop, ha, hb, hinvalid, Bool.not_false, if_true, CollisionQueue.pop,
      List.tail_cons]

/-- Witness of C20 (amended): the event of the two sample bodies at 4 s. -/
theorem IsValid_revalidation_witness :
    ∃ a b, twoBodies.motion 1 = some a ∧ twoBodies.motion 0 = some b ∧
      (Collision.IsValid (line fun _ _ _ => []) a b ⟨1, 0, 4000000, 0⟩ = true ↔
        ((line fun _ _ _ => []).GetRectAfterTime a.physics (4000000 - a.Time)).Touches
          ((line fun _ _ _ => []).GetRectAfterTime b.physics (4000000 - b.Time)) ∧
        (((line fun _ _ _ => []).position a.physics 0 < (line fun _ _ _ => []).position b.physics 0 ∧
            (line fun _ _ _ => []).velocity a.physics 0 > (line fun _ _ _ => []).velocity b.physics 0) ∨
          ((line fun _ _ _ => []).position b.physics 0 ≤ (line fun _ _ _ => []).position a.physics 0 ∧
            (line fun _ _ _ => []).velocity b.physics 0 > (line fun _ _ _ => []).velocity a.physics 0))) ∧
      (Collision.IsValid (line fun _ _ _ => []) a b ⟨1, 0, 4000000, 0⟩ = false →
        Space.resolveLoop (line fun _ _ _ => []) 10000000 (3 + 1) [⟨1, 0, 4000000, 0⟩] twoBodies =
          Space.resolveLoop (line fun _ _ _ => []) 10000000 3 [] twoBodies) := by
  obtain ⟨a, ha⟩ := Space.motion_of_mem (show 1 ∈ twoBodies.addresses by decide)
  obtain ⟨b, hb⟩ := Space.motion_of_mem (show 0 ∈ twoBodies.addresses by decide)
  exact ⟨a, b, ha, hb,
    IsValid_revalidation (line fun _ _ _ => []) 10000000 3 ⟨1, 0, 4000000, 0⟩ [] twoBodies a b ha hb⟩

/-! ### Removal requested during a step -/

/-- C14, as stated, fails: in the sample scene of three bodies the body 1
removes itself when it is told of its collision with the body 2 at 4 s; its
collision with the body 0 at 6 s is enqueued and resolved afterwards in the
same call, and the body 0 leaves with the velocity of the removed body. -/
theorem removed_body_collides :
    (Space.AdvanceTime (line fun self _ _ => if self = 1 then [1] else []) 20 10000000 threeBodies).map
      (fun s => (s.observed, s.physicsList)) =
      some ([Call.GetCollisionTime 2 0 7000000 0, Call.GetCollisionTime 2 1 4000000 0,
        Call.GetCollisionTime 1 2 4000000 0, Call.GetCollisionTime 1 0 (-1) 0,
        Call.GetCollisionTime 0 2 7000000 0, Call.GetCollisionTime 0 1 (-1) 0,
        Call.Update 2 4000000, Call.Update 1 4000000,
        Call.OnCollideWith 2 1 4000000, Call.OnCollideWith 1 2 4000000, Call.Remove 1,
        Call.ElasticCollision1D 2 1 0,
        Call.GetCollisionTime 2 1 (-1) 0, Call.GetCollisionTime 2 0 (-1) 0,
        Call.GetCollisionTime 1 2 (-1) 0, Call.GetCollisionTime 1 0 6000000 0,
        Call.Update 1 2000000, Call.Update 0 6000000,
        Call.OnCollideWith 1 0 6000000, Call.Remove 1, Call.OnCollideWith 0 1 6000000,
        Call.ElasticCollision1D 1 0 0,
        Call.GetCollisionTime 1 0 (-1) 0, Call.GetCollisionTime 1 2 (-1) 0,
        Call.GetCollisionTime 0 1 (-1) 0, Call.GetCollisionTime 0 2 (-1) 0,
        Call.Update 2 6000000, Call.Update 0 4000000],
        [(2, ⟨40, 10, 0⟩), (0, ⟨120, 10, 10⟩)]) := by
  decide

/-! ### A step to the current time -/

/-- C17, as stated, fails. A step to the time 0 of the scene of two bodies
that are in contact at the time 0, one closing in on the other: the contact is
an event with the time 0, which is valid, and both bodies are told of the
collision and exchange their velocities. And a step to the time 0 of the scene
of a body that approaches a body at rest, with the contact at 8 s: the event
is resolved in the step, both bodies are told of the collision, and the body
that was at rest at 90 is left at 10. The root of the index holds the record
of the body 0 throughout both steps. -/
theorem step_to_current_time_acts :
    touching.time_seconds_ = 0 ∧
    touching.physicsList = [(1, ⟨80, 10, 10⟩), (0, ⟨90, 10, 0⟩)] ∧
    (Space.AdvanceTime (line fun _ _ _ => []) 10 0 touching).map
        (fun s => (s.observed, s.physicsList, s.tree_.reps.values)) =
      some ([Call.GetCollisionTime 1 0 0 0, Call.GetCollisionTime 0 1 0 0, Call.Update 1 0, Call.Update 0 0,
        Call.OnCollideWith 1 0 0, Call.OnCollideWith 0 1 0, Call.ElasticCollision1D 1 0 0,
        Call.GetCollisionTime 1 0 (-1) 0, Call.GetCollisionTime 0 1 (-1) 0,
        Call.Update 1 0, Call.Update 0 0],
        [(1, ⟨80, 10, 0⟩), (0, ⟨90, 10, 10⟩)], [0]) ∧
    approaching.time_seconds_ = 0 ∧
    approaching.physicsList = [(1, ⟨0, 10, 10⟩), (0, ⟨90, 10, 0⟩)] ∧
    (Space.AdvanceTime (line fun _ _ _ => []) 10 0 approaching).map
        (fun s => (s.observed, s.physicsList, s.tree_.reps.values)) =
      some ([Call.GetCollisionTime 1 0 8000000 0, Call.GetCollisionTime 0 1 8000000 0,
        Call.Update 1 8000000, Call.Update 0 8000000,
        Call.OnCollideWith 1 0 8000000, Call.OnCollideWith 0 1 8000000, Call.ElasticCollision1D 1 0 0,
        Call.GetCollisionTime 1 0 (-1) 0,
        Call.Update 1 (-8000000), Call.Update 0 (-8000000)],
        [(1, ⟨80, 10, 0⟩), (0, ⟨10, 10, 10⟩)], [0]) := by
  decide

namespace Space

variable {N : Nat} {Phys Obj : Type}

/-! ### The phases of a step -/

theorem AdvanceTime_phases (c : Collaborators N Phys Obj) (fuel : Nat) (new_time_seconds : Time)
    (s advanced : Space N Phys Obj) (h : AdvanceTime c fuel new_time_seconds s = some advanced) :
    ∃ predicted queue seeded resolved flushed committed,
      predict c new_time_seconds s.addresses
        { s with advance_time_call_depth_ := s.advance_time_call_depth_ + 1 } = some predicted ∧
      seed c predicted.addresses [] predicted = some (queue, seeded) ∧
      resolveLoop c new_time_seconds fuel queue seeded = some resolved ∧
      flush resolved.addresses { resolved with time_seconds_ := new_time_seconds } = some flushed ∧
      commit c new_time_seconds flushed.addresses flushed = some committed ∧
      advanced = { committed with advance_time_call_depth_ := committed.advance_time_call_depth_ - 1 } := by
  simp only [AdvanceTime] at h
  cases hp : predict c new_time_seconds s.addresses
      { s with advance_time_call_depth_ := s.advance_time_call_depth_ + 1 } with
  | none =>
    have hp1 : predict c new_time_seconds
        ({ s with advance_time_call_depth_ := s.advance_time_call_depth_ + 1 } : Space N Phys Obj).addresses
        { s with advance_time_call_depth_ := s.advance_time_call_depth_ + 1 } = none := hp
    rw [hp1] at h; cases h
  | some predicted =>
  have hp1 : predict c new_time_seconds
      ({ s with advance_time_call_depth_ := s.advance_time_call_depth_ + 1 } : Space N Phys Obj).addresses
      { s with advance_time_call_depth_ := s.advance_time_call_depth_ + 1 } = some predicted := hp
  rw [hp1] at h; simp only at h
  cases hs : seed c predicted.addresses [] predicted with
  | none => rw [hs] at h; cases h
  | some seeded_pair =>
  obtain ⟨queue, seeded⟩ := seeded_pair
  rw [hs] at h; simp only at h
  cases hr : resolveLoop c new_time_seconds fuel queue seeded with
  | none => rw [hr] at h; cases h
  | some resolved =>
  rw [hr] at h; simp only at h
  cases hf : flush resolved.addresses { resolved with time_seconds_ := new_time_seconds } with
  | none =>
    have hf1 : flush ({ resolved with time_seconds_ := new_time_seconds } : Space N Phys Obj).addresses
        { resolved with time_seconds_ := new_time_seconds } = none := hf
    rw [hf1] at h; cases h
  | some flushed =>
  have hf1 : flush ({ resolved with time_seconds_ := new_time_seconds } : Space N Phys Obj).addresses
      { resolved with time_seconds_ := new_time_seconds } = some flushed := hf
  rw [hf1] at h; simp only at h
  cases hcm : commit c new_time_seconds flushed.addresses flushed with
  | none => rw [hcm] at h; cases h
  | some committed =>
  rw [hcm] at h
  simp only [Option.some.injEq] at h
  exact ⟨predicted, queue, seeded, resolved, flushed, committed, rfl, hs, hr, hf, hcm, h.symm⟩

theorem predict_all (c : Collaborators N Phys Obj) (new_time_seconds : Time)
    (s predicted : Space N Phys Obj) (hc : s.Consistent)
    (h : predict c new_time_seconds s.addresses
      { s with advance_time_call_depth_ := s.advance_time_call_depth_ + 1 } = some predicted) :
    predicted.Consistent ∧
    predicted.addresses = s.addresses.filter (fun b => !s.flagged b) ∧
    (∀ b m1, predicted.motion b = some m1 → ∃ m, s.motion b = some m ∧ m1.object = m.object ∧
      m1.physics = m.physics ∧ m.marked_for_removal = false ∧ m1.marked_for_removal = false ∧
      m1.enclosing_rect = Motion.sweptRect c m.physics s.time_seconds_ new_time_seconds) ∧
    predicted.observed = s.observed ∧
    predicted.advance_time_call_depth_ = s.advance_time_call_depth_ + 1 ∧
    predicted.time_seconds_ = s.time_seconds_ := by
  have hc0 : ({ s with advance_time_call_depth_ := s.advance_time_call_depth_ + 1 } :
      Space N Phys Obj).Consistent := hc
  obtain ⟨pc, paddr, pmotion, pobs, pdepth, ptime⟩ := predict_spec c new_time_seconds _ _ _ hc0 h
  have paddr : predicted.addresses =
      s.addresses.filter (fun b => !(decide (b ∈ s.addresses) && s.flagged b)) := paddr
  have pmotion : ∀ b m1, predicted.motion b = some m1 → ∃ m, s.motion b = some m ∧
      m1.object = m.object ∧ m1.physics = m.physics ∧ m1.marked_for_removal = m.marked_for_removal ∧
      (b ∈ s.addresses →
        m1.enclosing_rect = Motion.sweptRect c m.physics s.time_seconds_ new_time_seconds) ∧
      (b ∉ s.addresses → m1.enclosing_rect = m.enclosing_rect) := pmotion
  have paddr1 : predicted.addresses = s.addresses.filter (fun b => !s.flagged b) := by
    rw [paddr]
    apply List.filter_congr
    intro b hb
    simp [hb]
  refine ⟨pc, paddr1, ?_, pobs, pdepth, ptime⟩
  intro b m1 hb
  obtain ⟨m, hm, ho, hp, hf, hin, _⟩ := pmotion b m1 hb
  have hmem : b ∈ predicted.addresses := motion_mem hb
  rw [paddr1] at hmem
  have hnot : s.flagged b = false := by simpa using (List.mem_filter.1 hmem).2
  rw [flagged_of_motion hm] at hnot
  exact ⟨m, hm, ho, hp, hnot, hf.trans hnot, hin (motion_mem hm)⟩

theorem resolveLoop_nil (c : Collaborators N Phys Obj) (new_time_seconds : Time) (fuel : Nat)
    (s s1 : Space N Phys Obj) (h : resolveLoop c new_time_seconds fuel [] s = some s1) : s1 = s := by
  cases fuel with
  | zero => simp [resolveLoop] at h
  | succ fuel =>
    simp only [resolveLoop, Option.some.injEq] at h
    exact h.symm

theorem pushedEvents_negative (calls : List Call)
    (h : ∀ a b time dimension, Call.GetCollisionTime a b time dimension ∈ calls → time < 0) :
    pushedEvents calls = [] := by
  induction calls with
  | nil => rfl
  | cons call rest ih =>
    have hrest := ih fun a b time dimension hm => h a b time dimension (List.mem_cons_of_mem _ hm)
    cases call with
    | GetCollisionTime a b time dimension =>
      simp only [pushedEvents, if_pos (h a b time dimension (List.mem_cons_self _ _))]
      exact hrest
    | _ => simp only [pushedEvents]; exact hrest

theorem sweptRect_Time (c : Collaborators N Phys Obj) (physics : Phys) (start_time finish_time : Time) :
    (Motion.sweptRect c physics start_time finish_time).pos (Fin.last N) = toMillis start_time := by
  simp [Motion.sweptRect]

theorem toMillis_ofMillis (millis : Int) : toMillis (ofMillis millis) = millis := by
  simp [toMillis, ofMillis]

theorem updatePhysics_motion (c : Collaborators N Phys Obj) (s s1 : Space N Phys Obj) (a : Nat)
    (dt : Time) (h : s.updatePhysics c a dt = some s1) :
    ∃ m, s.motion a = some m ∧ s1.motion a = some { m with physics := c.Update m.physics dt } ∧
      ∀ b, b ≠ a → s1.motion b = s.motion b := by
  simp only [updatePhysics] at h
  cases hm : s.motion a with
  | none => rw [hm] at h; cases h
  | some m =>
    rw [hm] at h
    simp only [Option.some.injEq] at h
    subst h
    refine ⟨m, rfl, ?_, ?_⟩
    · show (s.setMotion a _).motion a = _
      rw [motion_setMotion, if_pos rfl, hm]; rfl
    · intro b hb
      show (s.setMotion a _).motion b = _
      rw [motion_setMotion, if_neg hb]

theorem commit_still (c : Collaborators N Phys Obj) (new_time_seconds : Time) (addresses : List Nat) :
    ∀ s s1 : Space N Phys Obj, addresses.Nodup →
      (∀ a ∈ addresses, ∀ m, s.motion a = some m → m.Time = new_time_seconds) →
      commit c new_time_seconds addresses s = some s1 →
      Evolves (addresses.map fun a => Call.Update a 0) s s1 ∧
      ∀ b m1, s1.motion b = some m1 → ∃ m, s.motion b = some m ∧
        m1.physics = if b ∈ addresses then c.Update m.physics 0 else m.physics := by
  induction addresses with
  | nil =>
    intro s s1 _ _ h
    simp only [commit, Option.some.injEq] at h
    subst h
    exact ⟨Evolves.refl s, fun b m1 hb => ⟨m1, hb, by simp⟩⟩
  | cons a rest ih =>
    intro s s1 hnodup htime h
    simp only [commit] at h
    cases hu : s.updatePositionToTime c a new_time_seconds with
    | none => rw [hu] at h; cases h
    | some s2 =>
      rw [hu] at h
      obtain ⟨m, hm, e1⟩ := updatePositionToTime_evolves c _ _ _ _ hu
      have hdt : new_time_seconds - m.Time = 0 := by
        rw [htime a (List.mem_cons_self _ _) m hm]; exact sub_self _
      rw [hdt] at e1
      have hu1 : s.updatePhysics c a 0 = some s2 := by
        simp only [updatePositionToTime, hm, hdt] at hu
        exact hu
      obtain ⟨m0, hm0, hma, hmb⟩ := updatePhysics_motion c s s2 a 0 hu1
      rw [hm, Option.some.injEq] at hm0
      subst hm0
      have hnot : a ∉ rest := (List.nodup_cons.1 hnodup).1
      obtain ⟨e2, hphys⟩ := ih s2 s1 (List.nodup_cons.1 hnodup).2
        (by
          intro b hb mb hmb1
          have hba : b ≠ a := fun e => hnot (e ▸ hb)
          rw [hmb b hba] at hmb1
          exact htime b (List.mem_cons_of_mem _ hb) mb hmb1) h
      refine ⟨e1.trans e2, ?_⟩
      intro b m1 hb
      obtain ⟨m2, hm2, hp2⟩ := hphys b m1 hb
      by_cases hba : b = a
      · subst hba
        rw [hma, Option.some.injEq] at hm2
        subst hm2
        exact ⟨m, hm, by rw [hp2]; simp [hnot]⟩
      · rw [hmb b hba] at hm2
        exact ⟨m2, hm2, by rw [hp2]; simp [hba]⟩

end Space

namespace Space

variable {N : Nat} {Phys Obj : Type}

/-- What a returning step to the current time observes, when the current time
is a whole number of milliseconds and no answer of `GetCollisionTime` during
the step reports a contact. -/
theorem current_time_step_trace (c : Collaborators N Phys Obj) (fuel : Nat) (millis : Int)
    (s advanced : Space N Phys Obj) (calls : List Call) (hc : s.Consistent)
    (hdepth : 0 ≤ s.advance_time_call_depth_) (hms : s.time_seconds_ = ofMillis millis)
    (h : AdvanceTime c fuel s.time_seconds_ s = some advanced)
    (hcalls : advanced.observed = s.observed ++ calls)
    (hquiet : ∀ a b time dimension, Call.GetCollisionTime a b time dimension ∈ calls → time < 0) :
    (∃ finds, calls = finds ++ advanced.addresses.map (fun a => Call.Update a 0) ∧
      ∀ call ∈ finds, ∃ a b time dimension, call = Call.GetCollisionTime a b time dimension) ∧
    advanced.addresses = s.addresses.filter (fun a => !s.flagged a) ∧
    ∀ a m1, advanced.motion a = some m1 →
      ∃ m, s.motion a = some m ∧ m1.physics = c.Update m.physics 0 := by
  obtain ⟨predicted, queue, seeded, resolved, flushed, committed, hp, hs, hr, hf, hcm, hadv⟩ :=
    AdvanceTime_phases c fuel _ s advanced h
  obtain ⟨pc, paddr, pmotion, pobs, pdepth, ptime⟩ := predict_all c _ s predicted hc hp
  obtain ⟨calls1, e1, hm1, _, hcalls1, hq1⟩ := seed_spec c _ _ _ _ _ hs
  have hd1 : 0 < seeded.advance_time_call_depth_ := by rw [e1.depth, pdepth]; omega
  obtain ⟨calls2, e2⟩ := resolveLoop_evolves c _ fuel _ _ _ (e1.consistent pc) hd1 hr
  have hct : ({ resolved with time_seconds_ := s.time_seconds_ } : Space N Phys Obj).Consistent :=
    e2.consistent (e1.consistent pc)
  obtain ⟨fc, faddr, fmotion, fobs, _, _⟩ := flush_spec _ _ _ hct hf
  have faddr : flushed.addresses =
      resolved.addresses.filter (fun b => !(decide (b ∈ resolved.addresses) && resolved.flagged b)) := faddr
  have fmotion : ∀ b, flushed.motion b =
      if (decide (b ∈ resolved.addresses) && resolved.flagged b) = true then none else resolved.motion b :=
    fmotion
  have fobs : flushed.observed = resolved.observed := fobs
  obtain ⟨calls3, e3, _⟩ := commit_evolves c _ _ _ _ hcm
  have hobs : advanced.observed = s.observed ++ (calls1 ++ calls2 ++ calls3) := by
    rw [hadv]
    show committed.observed = _
    rw [e3.observed, fobs, e2.observed, e1.observed, pobs]
    simp only [List.append_assoc]
  have hcalls_eq : calls = calls1 ++ calls2 ++ calls3 := by
    rw [hcalls] at hobs
    exact List.append_cancel_left hobs
  have hquiet1 : ∀ a b time dimension, Call.GetCollisionTime a b time dimension ∈ calls1 → time < 0 := by
    intro a b time dimension hmem
    apply hquiet a b time dimension
    rw [hcalls_eq]
    exact List.mem_append_left _ (List.mem_append_left _ hmem)
  have hqueue : queue = [] := by
    rw [hq1, pushedEvents_negative calls1 hquiet1]; rfl
  rw [hqueue] at hr
  have hres : resolved = seeded := resolveLoop_nil c _ fuel _ _ hr
  have hcalls2 : calls2 = [] := by
    have h2 := e2.observed
    rw [hres] at h2
    exact List.append_cancel_left (h2.symm.trans (List.append_nil _).symm) |>.symm |>.symm
  have hmotion : ∀ b, resolved.motion b = predicted.motion b := by
    intro b; rw [hres]; unfold Space.motion; rw [hm1]
  have hraddr : resolved.addresses = predicted.addresses := by
    rw [hres]; exact e1.addresses
  have hrflag : ∀ b, b ∈ predicted.addresses → resolved.flagged b = false := by
    intro b hb
    obtain ⟨m1, hm1b⟩ := motion_of_mem hb
    obtain ⟨m, _, _, _, _, hfl, _⟩ := pmotion b m1 hm1b
    unfold Space.flagged
    rw [hmotion b, hm1b]
    exact hfl
  have hfaddr : flushed.addresses = predicted.addresses := by
    rw [faddr, hraddr]
    apply List.filter_eq_self.2
    intro b hb
    simp [hrflag b hb]
  have hfmotion : ∀ b, flushed.motion b = predicted.motion b := by
    intro b
    rw [fmotion b, hraddr, ← hmotion b]
    by_cases hb : b ∈ predicted.addresses
    · simp [hrflag b hb]
    · simp [hb]
  have htime : ∀ a ∈ flushed.addresses, ∀ m, flushed.motion a = some m → m.Time = s.time_seconds_ := by
    intro a _ m hm
    rw [hfmotion a] at hm
    obtain ⟨m0, _, _, _, _, _, hrect⟩ := pmotion a m hm
    unfold Motion.Time
    rw [hrect, sweptRect_Time, hms, toMillis_ofMillis]
  obtain ⟨e3still, hphys⟩ := commit_still c _ flushed.addresses flushed committed
    (addresses_nodup flushed) htime hcm
  have hcalls3 : calls3 = flushed.addresses.map (fun a => Call.Update a 0) := by
    have h3 := e3.observed
    rw [e3still.observed] at h3
    exact (List.append_cancel_left h3).symm
  have haddr : advanced.addresses = flushed.addresses := by
    rw [hadv]; exact e3.addresses
  refine ⟨⟨calls1, ?_, hcalls1⟩, ?_, ?_⟩
  · rw [hcalls_eq, hcalls2, hcalls3, haddr, List.append_nil]
  · rw [haddr, hfaddr, paddr]
  · intro a m1 hm
    rw [hadv] at hm
    have hm : committed.motion a = some m1 := hm
    obtain ⟨m2, hm2, hp2⟩ := hphys a m1 hm
    have hmem : a ∈ flushed.addresses := motion_mem hm2
    rw [hfmotion a] at hm2
    obtain ⟨m0, hm0, _, hp0, _⟩ := pmotion a m2 hm2
    exact ⟨m0, hm0, by rw [hp2, if_pos hmem, hp0]⟩

end Space

/-! ### The order of the queue and of the notifications -/

theorem push_mem (queue : CollisionQueue) (collision e : Collision) :
    e ∈ queue.push collision ↔ e = collision ∨ e ∈ queue := by
  induction queue with
  | nil => simp [CollisionQueue.push]
  | cons x rest ih =>
    simp only [CollisionQueue.push]
    split
    · simp
    · simp only [List.mem_cons, ih]
      tauto

theorem pushAll_mem (events : List Collision) :
    ∀ (queue : CollisionQueue) (e : Collision),
      e ∈ Space.pushAll queue events ↔ e ∈ events ∨ e ∈ queue := by
  induction events with
  | nil => intro queue e; simp [Space.pushAll]
  | cons x rest ih =>
    intro queue e
    simp only [Space.pushAll, List.foldl_cons]
    have := ih (queue.push x) e
    simp only [Space.pushAll] at this
    rw [this, push_mem, List.mem_cons]
    tauto

theorem notifiedTimes_append (calls1 calls2 : List Call) :
    notifiedTimes (calls1 ++ calls2) = notifiedTimes calls1 ++ notifiedTimes calls2 := by
  induction calls1 with
  | nil => rfl
  | cons call rest ih =>
    cases call <;> (rw [List.cons_append]; simp only [notifiedTimes]; rw [ih]; try rfl)

theorem reseededLater_append (calls1 calls2 : List Call) :
    ∀ latest, reseededLater latest (calls1 ++ calls2) =
      (reseededLater latest calls1 && reseededLater (latestNotified latest calls1) calls2) := by
  induction calls1 with
  | nil => intro latest; simp [reseededLater, latestNotified]
  | cons call rest ih =>
    intro latest
    cases call <;>
      (rw [List.cons_append]; simp only [reseededLater, latestNotified]; rw [ih]; try simp only [Bool.and_assoc])

theorem latestNotified_append (calls1 calls2 : List Call) :
    ∀ latest, latestNotified latest (calls1 ++ calls2) =
      latestNotified (latestNotified latest calls1) calls2 := by
  induction calls1 with
  | nil => intro latest; rfl
  | cons call rest ih =>
    intro latest
    cases call <;> (rw [List.cons_append]; simp only [latestNotified]; rw [ih])

theorem finds_trace (finds : List Call)
    (h : ∀ call ∈ finds, ∃ a b time dimension, call = Call.GetCollisionTime a b time dimension) :
    notifiedTimes finds = [] ∧ (∀ latest, latestNotified latest finds = latest) ∧
      ∀ t, reseededLater (some t) finds = true → ∀ e ∈ Space.pushedEvents finds, t ≤ e.time := by
  induction finds with
  | nil => exact ⟨rfl, fun _ => rfl, fun _ _ e he => by simp [Space.pushedEvents] at he⟩
  | cons call rest ih =>
    obtain ⟨h1, h2, h3⟩ := ih fun call hc => h call (List.mem_cons_of_mem _ hc)
    obtain ⟨a, b, time, dimension, rfl⟩ := h call (List.mem_cons_self _ _)
    refine ⟨by simp only [notifiedTimes, h1], fun latest => by simp only [latestNotified, h2], ?_⟩
    intro t ht e he
    simp only [reseededLater, Bool.and_eq_true, Bool.or_eq_true, decide_eq_true_eq] at ht
    simp only [Space.pushedEvents] at he
    by_cases hneg : time < 0
    · rw [if_pos hneg] at he
      exact h3 t ht.2 e he
    · rw [if_neg hneg] at he
      rcases List.mem_cons.1 he with rfl | he
      · exact ht.1.resolve_left hneg
      · exact h3 t ht.2 e he

theorem removes_trace (iterators : List Nat) :
    notifiedTimes (iterators.map Call.Remove) = [] ∧
      (∀ latest, latestNotified latest (iterators.map Call.Remove) = latest) ∧
      ∀ latest, reseededLater latest (iterators.map Call.Remove) = true := by
  induction iterators with
  | nil => exact ⟨rfl, fun _ => rfl, fun _ => rfl⟩
  | cons a rest ih =>
    obtain ⟨h1, h2, h3⟩ := ih
    exact ⟨by simp only [List.map_cons, notifiedTimes, h1],
      fun latest => by simp only [List.map_cons, latestNotified, h2],
      fun latest => by simp only [List.map_cons, reseededLater, h3]⟩

theorem resolve_trace (a b : Nat) (dt_a dt_b time : Time) (dimension : Nat)
    (removed_a removed_b : List Nat) (finds rest : List Call)
    (hfinds : ∀ call ∈ finds, ∃ a b time dimension, call = Call.GetCollisionTime a b time dimension)
    (latest : Option Time) :
    notifiedTimes (([Call.Update a dt_a, Call.Update b dt_b, Call.OnCollideWith a b time] ++
        removed_a.map Call.Remove ++ [Call.OnCollideWith b a time] ++ removed_b.map Call.Remove ++
        [Call.ElasticCollision1D a b dimension] ++ finds) ++ rest) = time :: time :: notifiedTimes rest ∧
    reseededLater latest (([Call.Update a dt_a, Call.Update b dt_b, Call.OnCollideWith a b time] ++
        removed_a.map Call.Remove ++ [Call.OnCollideWith b a time] ++ removed_b.map Call.Remove ++
        [Call.ElasticCollision1D a b dimension] ++ finds) ++ rest) =
      (reseededLater (some time) finds && reseededLater (some time) rest) := by
  obtain ⟨f1, f2, _⟩ := finds_trace finds hfinds
  obtain ⟨a1, a2, a3⟩ := removes_trace removed_a
  obtain ⟨b1, b2, b3⟩ := removes_trace removed_b
  have n1 : notifiedTimes [Call.Update a dt_a, Call.Update b dt_b, Call.OnCollideWith a b time] =
      [time] := rfl
  have n2 : notifiedTimes [Call.OnCollideWith b a time] = [time] := rfl
  have n3 : notifiedTimes [Call.ElasticCollision1D a b dimension] = [] := rfl
  have l1 : ∀ latest, latestNotified latest
      [Call.Update a dt_a, Call.Update b dt_b, Call.OnCollideWith a b time] = some time := fun _ => rfl
  have l2 : ∀ latest, latestNotified latest [Call.OnCollideWith b a time] = some time := fun _ => rfl
  have l3 : ∀ latest, latestNotified latest [Call.ElasticCollision1D a b dimension] = latest :=
    fun _ => rfl
  have r1 : ∀ latest, reseededLater latest
      [Call.Update a dt_a, Call.Update b dt_b, Call.OnCollideWith a b time] = true := fun _ => rfl
  have r2 : ∀ latest, reseededLater latest [Call.OnCollideWith b a time] = true := fun _ => rfl
  have r3 : ∀ latest, reseededLater latest [Call.ElasticCollision1D a b dimension] = true :=
    fun _ => rfl
  constructor
  · simp only [notifiedTimes_append, n1, n2, n3, a1, b1, f1]
    rfl
  · simp only [reseededLater_append, latestNotified_append, l1, l2, l3, r1, r2, r3, a2, b2, f2, a3, b3,
      Bool.true_and]

namespace Space
variable {N : Nat} {Phys Obj : Type}

end Space

theorem map_eq_cases {α β : Type} {f : α → β} {x y : Option α} (h : x.map f = y.map f) :
    (x = none ∧ y = none) ∨ ∃ a b, x = some a ∧ y = some b ∧ f a = f b := by
  cases x with
  | none =>
    cases y with
    | none => exact Or.inl ⟨rfl, rfl⟩
    | some b => cases h
  | some a =>
    cases y with
    | none => cases h
    | some b => exact Or.inr ⟨a, b, rfl, rfl, Option.some.inj h⟩

theorem lookup_mapCells {Rep : Type} (f : Rep → Rep) (a : Nat) (cells : List (Nat × Rep)) :
    (cells.map fun c => (c.1, f c.2)).lookup a = (cells.lookup a).map f := by
  induction cells with
  | nil => rfl
  | cons x rest ih =>
    obtain ⟨x1, x2⟩ := x
    simp only [List.map_cons, List.lookup_cons]
    by_cases hx : a = x1
    · subst hx; simp
    · have hbeq : (a == x1) = false := by simpa using hx
      simp only [hbeq]
      exact ih

namespace Space
variable {N : Nat} {Phys Obj : Type}

theorem unflagged_motion (s : Space N Phys Obj) (a : Nat) :
    s.unflagged.motion a = (s.motion a).map Motion.unflagged := by
  simp only [motion, unflagged, StdList.deref, Option.some_bind]
  exact lookup_mapCells Motion.unflagged a s.motions_.cells

theorem unflagged_setMotion (s : Space N Phys Obj) (a : Nat) (m : Motion N Phys Obj) :
    (s.setMotion a m).unflagged = s.unflagged.setMotion a m.unflagged := by
  have hcells : (s.setMotion a m).unflagged.motions_.cells =
      (s.unflagged.setMotion a m.unflagged).motions_.cells := by
    simp only [setMotion, unflagged, StdList.set, List.map_map]
    apply List.map_congr_left
    intro x _
    by_cases hx : x.1 = a <;> simp [hx]
  have hlist : (s.setMotion a m).unflagged.motions_ = (s.unflagged.setMotion a m.unflagged).motions_ :=
    RectSearchTree.StdList.ext_cells hcells
  show ({ (s.setMotion a m) with motions_ := (s.setMotion a m).unflagged.motions_ } : Space N Phys Obj) =
    { s.unflagged with motions_ := (s.unflagged.setMotion a m.unflagged).motions_ }
  rw [hlist]
  rfl

theorem same_motion {s t : Space N Phys Obj} (h : s.unflagged = t.unflagged) (a : Nat) :
    (s.motion a = none ∧ t.motion a = none) ∨
      ∃ m m1, s.motion a = some m ∧ t.motion a = some m1 ∧ m.unflagged = m1.unflagged := by
  have h1 : (s.motion a).map Motion.unflagged = (t.motion a).map Motion.unflagged := by
    rw [← unflagged_motion, ← unflagged_motion, h]
  exact map_eq_cases h1

theorem same_fields {s t : Space N Phys Obj} (h : s.unflagged = t.unflagged) :
    s.tree_ = t.tree_ ∧ s.advance_time_call_depth_ = t.advance_time_call_depth_ ∧
      s.time_seconds_ = t.time_seconds_ ∧ s.observed = t.observed := by
  have h1 := congrArg Space.tree_ h
  have h2 := congrArg Space.advance_time_call_depth_ h
  have h3 := congrArg Space.time_seconds_ h
  have h4 := congrArg Space.observed h
  exact ⟨h1, h2, h3, h4⟩

theorem same_record {m m1 : Motion N Phys Obj} (h : m.unflagged = m1.unflagged) :
    m.object = m1.object ∧ m.physics = m1.physics ∧ m.enclosing_rect = m1.enclosing_rect ∧
      m.tree_iterator = m1.tree_iterator := by
  have h1 := congrArg Motion.object h
  have h2 := congrArg Motion.physics h
  have h3 := congrArg Motion.enclosing_rect h
  have h4 := congrArg Motion.tree_iterator h
  exact ⟨h1, h2, h3, h4⟩

theorem same_with_physics {m m1 : Motion N Phys Obj} (h : m.unflagged = m1.unflagged) (p : Phys) :
    ({ m with physics := p } : Motion N Phys Obj).unflagged =
      ({ m1 with physics := p } : Motion N Phys Obj).unflagged := by
  obtain ⟨ho, _, hr, hi⟩ := same_record h
  simp only [Motion.unflagged, Motion.mk.injEq]
  exact ⟨ho, trivial, hr, hi, trivial⟩

theorem same_with_flag {m m1 : Motion N Phys Obj} (h : m.unflagged = m1.unflagged) :
    ({ m with marked_for_removal := true } : Motion N Phys Obj).unflagged =
      ({ m1 with marked_for_removal := true } : Motion N Phys Obj).unflagged := by
  obtain ⟨ho, hp, hr, hi⟩ := same_record h
  simp only [Motion.unflagged, Motion.mk.injEq]
  exact ⟨ho, hp, hr, hi, trivial⟩

theorem same_setMotion {s t : Space N Phys Obj} (h : s.unflagged = t.unflagged) (a : Nat)
    {m m1 : Motion N Phys Obj} (hm : m.unflagged = m1.unflagged) :
    (s.setMotion a m).unflagged = (t.setMotion a m1).unflagged := by
  rw [unflagged_setMotion, unflagged_setMotion, h, hm]

theorem same_observe {s t : Space N Phys Obj} (h : s.unflagged = t.unflagged) (call : Call) :
    (s.observe call).unflagged = (t.observe call).unflagged := by
  have h1 : ∀ u : Space N Phys Obj, (u.observe call).unflagged = u.unflagged.observe call := fun _ => rfl
  rw [h1, h1, h]

theorem same_tree {s t : Space N Phys Obj} (h : s.unflagged = t.unflagged)
    (tree : RectSearchTree (N + 1) Nat) :
    ({ s with tree_ := tree } : Space N Phys Obj).unflagged =
      ({ t with tree_ := tree } : Space N Phys Obj).unflagged := by
  have h1 : ∀ u : Space N Phys Obj, ({ u with tree_ := tree } : Space N Phys Obj).unflagged =
      { u.unflagged with tree_ := tree } := fun _ => rfl
  rw [h1, h1, h]

theorem updatePhysics_same (c : Collaborators N Phys Obj) {s t : Space N Phys Obj}
    (h : s.unflagged = t.unflagged) (a : Nat) (dt : Time) :
    (s.updatePhysics c a dt).map unflagged = (t.updatePhysics c a dt).map unflagged := by
  rcases same_motion h a with ⟨hs, ht⟩ | ⟨m, m1, hs, ht, hm⟩
  · simp only [updatePhysics, hs, ht]
  · simp only [updatePhysics, hs, ht, Option.map_some']
    obtain ⟨_, hp, _, _⟩ := same_record hm
    congr 1
    apply same_observe
    rw [hp]
    exact same_setMotion h a (same_with_physics hm _)

theorem updatePositionToTime_same (c : Collaborators N Phys Obj) {s t : Space N Phys Obj}
    (h : s.unflagged = t.unflagged) (a : Nat) (time : Time) :
    (s.updatePositionToTime c a time).map unflagged = (t.updatePositionToTime c a time).map unflagged := by
  rcases same_motion h a with ⟨hs, ht⟩ | ⟨m, m1, hs, ht, hm⟩
  · simp only [updatePositionToTime, hs, ht]
  · simp only [updatePositionToTime, hs, ht]
    obtain ⟨_, _, hr, _⟩ := same_record hm
    have htime : m.Time = m1.Time := by unfold Motion.Time; rw [hr]
    rw [htime]
    exact updatePhysics_same c h a _

theorem Remove_same {s t : Space N Phys Obj} (h : s.unflagged = t.unflagged)
    (hdepth : 0 < s.advance_time_call_depth_) (a : Nat) :
    (s.Remove a).map unflagged = (t.Remove a).map unflagged := by
  have hdepth1 : 0 < t.advance_time_call_depth_ := by rw [← (same_fields h).2.1]; exact hdepth
  rcases same_motion h a with ⟨hs, ht⟩ | ⟨m, m1, hs, ht, hm⟩
  · simp only [Remove, hdepth, hdepth1, gt_iff_lt, if_true, hs, ht]
  · rw [Remove_deferred s a m hs hdepth, Remove_deferred t a m1 ht hdepth1]
    simp only [Option.map_some']
    congr 1
    apply same_observe
    exact same_setMotion h a (same_with_flag hm)

theorem removeAll_same (iterators : List Nat) :
    ∀ {s t : Space N Phys Obj}, s.unflagged = t.unflagged → 0 < s.advance_time_call_depth_ →
      (s.removeAll iterators).map unflagged = (t.removeAll iterators).map unflagged := by
  induction iterators with
  | nil =>
    intro s t h _
    simp only [removeAll, Option.map_some', h]
  | cons a rest ih =>
    intro s t h hdepth
    simp only [removeAll]
    rcases map_eq_cases (Remove_same h hdepth a) with ⟨hs, ht⟩ | ⟨s1, t1, hs, ht, h1⟩
    · rw [hs, ht]
    · rw [hs, ht]
      exact ih h1 (by rw [(Remove_evolves s s1 a hdepth hs).depth]; exact hdepth)

theorem notify_same (c : Collaborators N Phys Obj) {s t : Space N Phys Obj}
    (h : s.unflagged = t.unflagged) (hdepth : 0 < s.advance_time_call_depth_) (self other : Nat)
    (time : Time) :
    (s.notify c self other time).map unflagged = (t.notify c self other time).map unflagged := by
  rcases same_motion h self with ⟨hs, ht⟩ | ⟨a, a1, hs, ht, ha⟩
  · simp only [notify, hs, ht]
  · rcases same_motion h other with ⟨hs2, ht2⟩ | ⟨b, b1, hs2, ht2, hb⟩
    · simp only [notify, hs, ht, hs2, ht2]
    · simp only [notify, hs, ht, hs2, ht2]
      rw [(same_record ha).1, (same_record hb).1]
      exact removeAll_same _ (same_observe h _) hdepth

theorem elasticCollision_same (c : Collaborators N Phys Obj) {s t : Space N Phys Obj}
    (h : s.unflagged = t.unflagged) (motion_a motion_b : Nat) (dimension : Nat) :
    (s.elasticCollision c motion_a motion_b dimension).map unflagged =
      (t.elasticCollision c motion_a motion_b dimension).map unflagged := by
  rcases same_motion h motion_a with ⟨hs, ht⟩ | ⟨a, a1, hs, ht, ha⟩
  · simp only [elasticCollision, hs, ht]
  · rcases same_motion h motion_b with ⟨hs2, ht2⟩ | ⟨b, b1, hs2, ht2, hb⟩
    · simp only [elasticCollision, hs, ht, hs2, ht2]
    · simp only [elasticCollision, hs, ht, hs2, ht2]
      rw [(same_record ha).2.1, (same_record hb).2.1]
      have hset : (s.setMotion motion_a
          { a with physics := (c.ElasticCollision1D a1.physics b1.physics dimension).1 }).unflagged =
          (t.setMotion motion_a
          { a1 with physics := (c.ElasticCollision1D a1.physics b1.physics dimension).1 }).unflagged := by
        exact same_setMotion h motion_a (same_with_physics ha _)
      rcases same_motion hset motion_b with ⟨hs3, ht3⟩ | ⟨b2, b3, hs3, ht3, hb2⟩
      · rw [hs3, ht3]
      · rw [hs3, ht3]
        simp only [Option.map_some']
        congr 1
        apply same_observe
        exact same_setMotion hset motion_b (same_with_physics hb2 _)

theorem updateEnclosingRect_same (c : Collaborators N Phys Obj) {s t : Space N Phys Obj}
    (h : s.unflagged = t.unflagged) (a : Nat) (start_time finish_time : Time) :
    (s.updateEnclosingRect c a start_time finish_time).map unflagged =
      (t.updateEnclosingRect c a start_time finish_time).map unflagged := by
  rcases same_motion h a with ⟨hs, ht⟩ | ⟨m, m1, hs, ht, hm⟩
  · simp only [updateEnclosingRect, hs, ht]
  · obtain ⟨_, hp, _, hi⟩ := same_record hm
    simp only [updateEnclosingRect, hs, ht, Motion.UpdateEnclosingRect]
    rw [(same_fields h).1, hp, hi]
    cases hmove : RectSearchTree.Move t.tree_ m1.tree_iterator
        (Motion.sweptRect c m1.physics start_time finish_time) with
    | none => rfl
    | some moved =>
      obtain ⟨tree, handle⟩ := moved
      simp only [Option.map_some']
      congr 1
      refine same_setMotion (same_tree h tree) a ?_
      simp only [Motion.unflagged, Motion.mk.injEq]
      exact ⟨(same_record hm).1, trivial, trivial, trivial, trivial⟩

end Space

namespace Space

variable {N : Nat} {Phys Obj : Type}

theorem findLoop_same (c : Collaborators N Phys Obj) (motion_a : Nat) {a a1 : Motion N Phys Obj}
    (ha : a.unflagged = a1.unflagged) (candidates : List Nat) :
    ∀ (queue : CollisionQueue) {s t : Space N Phys Obj}, s.unflagged = t.unflagged →
      (findLoop c motion_a a candidates queue s).map unflaggedResult =
        (findLoop c motion_a a1 candidates queue t).map unflaggedResult := by
  obtain ⟨_, hp, hr, _⟩ := same_record ha
  have htime : a.Time = a1.Time := by unfold Motion.Time; rw [hr]
  induction candidates with
  | nil =>
    intro queue s t h
    simp only [findLoop, Option.map_some', unflaggedResult, h]
  | cons motion_b rest ih =>
    intro queue s t h
    simp only [findLoop]
    by_cases hab : motion_a = motion_b
    · rw [if_pos hab, if_pos hab]
      exact ih queue h
    · rw [if_neg hab, if_neg hab]
      rcases same_motion h motion_b with ⟨hs, ht⟩ | ⟨b, b1, hs, ht, hb⟩
      · rw [hs, ht]
      · rw [hs, ht]
        obtain ⟨_, hpb, hrb, _⟩ := same_record hb
        have htimeb : b.Time = b1.Time := by unfold Motion.Time; rw [hrb]
        simp only [hp, hpb, htime, htimeb]
        split
        · exact ih _ (same_observe h _)
        · exact ih _ (same_observe h _)

theorem FindCollisions_same (c : Collaborators N Phys Obj) {s t : Space N Phys Obj}
    (h : s.unflagged = t.unflagged) (queue : CollisionQueue) (motion_a : Nat) :
    (FindCollisions c s queue motion_a).map unflaggedResult =
      (FindCollisions c t queue motion_a).map unflaggedResult := by
  simp only [FindCollisions]
  rcases same_motion h motion_a with ⟨hs, ht⟩ | ⟨a, a1, hs, ht, ha⟩
  · rw [hs, ht]
  · rw [hs, ht]
    simp only [(same_fields h).1, (same_record ha).2.2.1]
    cases nearEntries t.tree_ a1.enclosing_rect with
    | none => rfl
    | some candidates => exact findLoop_same c motion_a ha candidates queue h

theorem resolve_same (c : Collaborators N Phys Obj) (new_time_seconds : Time) (collision : Collision)
    (queue : CollisionQueue) {s t : Space N Phys Obj} (h : s.unflagged = t.unflagged)
    (hdepth : 0 < s.advance_time_call_depth_) :
    (resolve c new_time_seconds collision queue s).map unflaggedResult =
      (resolve c new_time_seconds collision queue t).map unflaggedResult := by
  simp only [resolve]
  rcases map_eq_cases (updatePositionToTime_same c h collision.motion_a collision.time) with
    ⟨hs, ht⟩ | ⟨s1, t1, hs, ht, h1⟩
  · rw [hs, ht]
  rw [hs, ht]; simp only
  obtain ⟨_, _, e1⟩ := updatePositionToTime_evolves c _ _ _ _ hs
  have hd1 : 0 < s1.advance_time_call_depth_ := by rw [e1.depth]; exact hdepth
  rcases map_eq_cases (updatePositionToTime_same c h1 collision.motion_b collision.time) with
    ⟨hs, ht⟩ | ⟨s2, t2, hs, ht, h2⟩
  · rw [hs, ht]
  rw [hs, ht]; simp only
  obtain ⟨_, _, e2⟩ := updatePositionToTime_evolves c _ _ _ _ hs
  have hd2 : 0 < s2.advance_time_call_depth_ := by rw [e2.depth]; exact hd1
  rcases map_eq_cases (notify_same c h2 hd2 collision.motion_a collision.motion_b collision.time) with
    ⟨hs, ht⟩ | ⟨s3, t3, hs, ht, h3⟩
  · rw [hs, ht]
  rw [hs, ht]; simp only
  obtain ⟨_, _, _, _, e3⟩ := notify_evolves c _ _ _ _ _ hd2 hs
  have hd3 : 0 < s3.advance_time_call_depth_ := by rw [e3.depth]; exact hd2
  rcases map_eq_cases (notify_same c h3 hd3 collision.motion_b collision.motion_a collision.time) with
    ⟨hs, ht⟩ | ⟨s4, t4, hs, ht, h4⟩
  · rw [hs, ht]
  rw [hs, ht]; simp only
  rcases map_eq_cases (elasticCollision_same c h4 collision.motion_a collision.motion_b
    collision.dimension) with ⟨hs, ht⟩ | ⟨s5, t5, hs, ht, h5⟩
  · rw [hs, ht]
  rw [hs, ht]; simp only
  rcases map_eq_cases (updateEnclosingRect_same c h5 collision.motion_a collision.time
    new_time_seconds) with ⟨hs, ht⟩ | ⟨s6, t6, hs, ht, h6⟩
  · rw [hs, ht]
  rw [hs, ht]; simp only
  rcases map_eq_cases (updateEnclosingRect_same c h6 collision.motion_b collision.time
    new_time_seconds) with ⟨hs, ht⟩ | ⟨s7, t7, hs, ht, h7⟩
  · rw [hs, ht]
  rw [hs, ht]; simp only
  rcases map_eq_cases (FindCollisions_same c h7 queue collision.motion_a) with
    ⟨hs, ht⟩ | ⟨r8, u8, hs, ht, h8⟩
  · rw [hs, ht]
  obtain ⟨queue8, s8⟩ := r8
  obtain ⟨queue9, t8⟩ := u8
  rw [hs, ht]; simp only
  simp only [unflaggedResult, Prod.mk.injEq] at h8
  rw [h8.1]
  exact FindCollisions_same c h8.2 queue9 collision.motion_b

/-- C14 (amended): the resolve loop does not read the removal flags. Started
inside a step (call depth above 0) on two spaces that differ at most in the
flags of their records, with the same queue, it returns on both or on
neither, and the two results differ at most in the flags: the same calls are
observed, so the same events are enqueued and resolved, and the records, the
physical states, the swept boxes and the index are the same. A removal
requested by a notification sets a flag and nothing else (C12), so it does not
change which events the rest of the loop enqueues and resolves. -/
theorem resolveLoop_ignores_flags (c : Collaborators N Phys Obj) (new_time_seconds : Time) (fuel : Nat)
    (queue : CollisionQueue) (s t : Space N Phys Obj) (h : s.unflagged = t.unflagged)
    (hc : s.Consistent) (hdepth : 0 < s.advance_time_call_depth_) :
    (resolveLoop c new_time_seconds fuel queue s).map unflagged =
      (resolveLoop c new_time_seconds fuel queue t).map unflagged := by
  induction fuel generalizing queue s t with
  | zero => rfl
  | succ fuel ih =>
    cases queue with
    | nil => simp only [resolveLoop, Option.map_some', h]
    | cons collision rest =>
      simp only [resolveLoop]
      rcases same_motion h collision.motion_a with ⟨hs, ht⟩ | ⟨a, a1, hs, ht, ha⟩
      · rw [hs, ht]
      rcases same_motion h collision.motion_b with ⟨hs2, ht2⟩ | ⟨b, b1, hs2, ht2, hb⟩
      · rw [hs, ht, hs2, ht2]
      rw [hs, ht, hs2, ht2]
      simp only
      have hvalid : collision.IsValid c a b = collision.IsValid c a1 b1 := by
        obtain ⟨_, hpa, hra, _⟩ := same_record ha
        obtain ⟨_, hpb, hrb, _⟩ := same_record hb
        unfold Collision.IsValid Motion.Time
        rw [hpa, hra, hpb, hrb]
      rw [hvalid]
      by_cases hv : collision.IsValid c a1 b1 = true
      · simp only [hv, Bool.not_true, Bool.false_eq_true, if_false]
        rcases map_eq_cases (resolve_same c new_time_seconds collision (collision :: rest) h hdepth) with
          ⟨hr, hr1⟩ | ⟨r, u, hr, hr1, hru⟩
        · rw [hr, hr1]
        · obtain ⟨queue1, s1⟩ := r
          obtain ⟨queue2, t1⟩ := u
          rw [hr, hr1]
          simp only [unflaggedResult, Prod.mk.injEq] at hru
          simp only
          rw [hru.1]
          obtain ⟨_, _, _, _, _, e, _, _⟩ := resolve_spec c _ _ _ _ _ _ hc hdepth hr
          exact ih _ s1 t1 hru.2 (e.consistent hc) (by rw [e.depth]; exact hdepth)
      · simp only [hv, Bool.not_false, if_true]
        exact ih _ s t h hc hdepth

end Space

/-- Witness of C14 (amended): the sample scene of three bodies inside a step,
with the body 1 flagged by a call of `Remove` and without the flag, and the
event of the bodies 2 and 1 at 4 s in the queue. -/
theorem resolveLoop_ignores_flags_witness :
    threeBodiesFlagged.flagged 1 = true ∧
    (threeBodiesInStep.observe (Call.Remove 1)).flagged 1 = false ∧
    threeBodiesFlagged.unflagged = (threeBodiesInStep.observe (Call.Remove 1)).unflagged ∧
    threeBodiesFlagged.Consistent ∧ 0 < threeBodiesFlagged.advance_time_call_depth_ ∧
    (Space.resolveLoop (line fun _ _ _ => []) 10000000 5 [⟨2, 1, 4000000, 0⟩] threeBodiesFlagged).map
        Space.unflagged =
      (Space.resolveLoop (line fun _ _ _ => []) 10000000 5 [⟨2, 1, 4000000, 0⟩]
        (threeBodiesInStep.observe (Call.Remove 1))).map Space.unflagged := by
  have hremove : threeBodiesInStep.Remove 1 = some threeBodiesFlagged := rfl
  have hc0 : threeBodiesInStep.Consistent :=
    Space.Consistent_withBody _ _ _ (Space.Consistent_withBody _ _ _
      (Space.Consistent_withBody _ _ _ (Space.Consistent_create _)))
  have hc : threeBodiesFlagged.Consistent :=
    (Space.Remove_evolves threeBodiesInStep threeBodiesFlagged 1 (by decide) hremove).consistent hc0
  exact ⟨by decide, by decide, rfl, hc, by decide,
    Space.resolveLoop_ignores_flags _ 10000000 5 [⟨2, 1, 4000000, 0⟩] threeBodiesFlagged
      (threeBodiesInStep.observe (Call.Remove 1)) rfl hc (by decide)⟩

namespace RectSearchTree

variable {N : Nat} {Rep : Type}

/-! ### What a near query yields -/

theorem near_yielded (tree : RectSearchTree N Rep) (A : Rect N) (hroot : tree.isNull = false) :
    ∃ out, tree.nearTraversal A (tree.allEntries.length + tree.size + 3) = some out ∧
      (yielded out).Perm ((visited (NearIterator.ShouldIncludeSubtree A) tree []).map Prod.snd) ∧
      ((visited (NearIterator.ShouldIncludeSubtree A) tree []).map Prod.snd).Sublist tree.allEntries := by
  obtain ⟨out, hout, hperm⟩ := yielded_traverse_begin (NearIterator.ShouldIncludeSubtree A) tree
    (near_should_isNull A) hroot _ (le_refl _)
  refine ⟨out, hout, hperm, ?_⟩
  rw [← visited_all tree []]
  exact (visited_sublist _ (near_should_isNull A) tree []).map _

theorem near_dereferenced (tree : RectSearchTree N Rep) (A : Rect N) (hroot : tree.isNull = false)
    (hne : tree.reps.empty = false) :
    ∃ out, tree.nearTraversal A (tree.allEntries.length + tree.size + 3) = some out ∧
      dereferenced out = some (yielded out) := by
  obtain ⟨out, hout, hd, _⟩ := dereferenced_traverse_begin (NearIterator.ShouldIncludeSubtree A) tree
    (near_should_isNull A) hroot hne _ (le_refl _)
  exact ⟨out, hout, hd⟩

theorem near_past_end (tree : RectSearchTree N Rep) (A : Rect N) (hroot : tree.isNull = false)
    (hempty : tree.reps.empty = true) :
    (tree.nearTraversal A (tree.allEntries.length + tree.size + 3)).bind dereferenced = none := by
  obtain ⟨out, hout, hd⟩ := dereferenced_empty_root (NearIterator.ShouldIncludeSubtree A) tree
    (near_should_isNull A) hroot hempty _ (le_refl _)
  exact (congrArg (fun o => Option.bind o dereferenced) hout).trans hd

theorem near_visits (tree : RectSearchTree N Rep) (A B : Rect N) (payload : Rep)
    (hentry : payload ∈ tree.entriesAt ((FindInternal tree B.grow).getD []))
    (hAB : A.Overlaps B ∨ A.Touches B) :
    payload ∈ (visited (NearIterator.ShouldIncludeSubtree A) tree []).map Prod.snd := by
  have hpath : ∀ k, k < ((FindInternal tree B.grow).getD []).length →
      NearIterator.ShouldIncludeSubtree A
        (tree.nodeAt (((FindInternal tree B.grow).getD []).take (k + 1))) = true := by
    intro k hk
    cases hf : FindInternal tree B.grow with
    | none => simp [hf] at hk
    | some p =>
      simp only [hf, Option.getD_some] at hk ⊢
      obtain ⟨rk, hrk, hck⟩ := (FindInternal_some tree B.grow p hf).2 (k + 1) (by omega)
      exact (near_should_iff A _).2 ⟨rk, hrk, Rect.near_of_contains A B rk hAB hck⟩
  have hmem := visited_mem (NearIterator.ShouldIncludeSubtree A) _ tree [] payload hpath hentry
  exact List.mem_map.2 ⟨_, hmem, rfl⟩

theorem Move_node (root moved : RectSearchTree N Rep) (handle moved_handle : Iterator) (rect : Rect N)
    (h : Move root handle rect = some (moved, moved_handle)) :
    moved_handle.node_queue_ = [(FindInternal root rect.grow).getD []] ∧
      ∀ r, FindInternal moved r = FindInternal root r := by
  simp only [Move] at h
  cases hd : handle.deref root with
  | none => rw [hd] at h; cases h
  | some v =>
    obtain ⟨removed, hrem, _, hnull, hfind, _⟩ := Remove_handles root handle v hd
    rw [hd, hrem] at h
    simp only at h
    have hroot := deref_isNull root handle v hd
    have hnull1 : removed.isNull = false := by rw [hnull]; exact hroot
    obtain ⟨p, l, _, _, hp, _, hins⟩ := Insert_eq removed rect v hnull1
    rw [hins, Option.some.injEq, Prod.mk.injEq] at h
    obtain ⟨rfl, rfl⟩ := h
    refine ⟨?_, fun r => (FindInternal_setReps _ _ _ r).trans (hfind r)⟩
    rw [← hfind]
    rcases hp with hp | ⟨hp, rfl⟩ <;> simp [hp]

theorem deref_entriesAt (root : RectSearchTree N Rep) (handle : Iterator) (v : Rep) (p : NodePtr)
    (h : handle.deref root = some v) (hp : handle.node_queue_ = [p]) : v ∈ root.entriesAt p := by
  obtain ⟨q, rest, c, rfl, hl, _, _⟩ := deref_eq_some root handle v h
  simp only [List.cons.injEq] at hp
  obtain ⟨rfl, _⟩ := hp
  simp only [entriesAt, StdList.values, List.mem_map]
  refine ⟨(c, v), ?_, rfl⟩
  generalize (root.nodeAt q).reps.cells = cells at hl
  induction cells with
  | nil => simp at hl
  | cons x xs ih =>
    obtain ⟨x1, x2⟩ := x
    by_cases hx : c = x1
    · subst hx
      simp only [List.lookup_cons, beq_self_eq_true, Option.some.injEq] at hl
      subst hl
      exact List.mem_cons_self _ _
    · have hbeq : (c == x1) = false := by simpa using hx
      simp only [List.lookup_cons, hbeq] at hl
      exact List.mem_cons_of_mem _ (ih hl)

end RectSearchTree

namespace Space

variable {N : Nat} {Phys Obj : Type}

/-! ### Steps that return -/

theorem bodyAt_of_motion {s : Space N Phys Obj} {a : Nat} {m : Motion N Phys Obj}
    (h : s.motion a = some m) : s.bodyAt a = some (m.object, m.physics, m.enclosing_rect) := by
  simp only [bodyAt, h, Option.map_some']

theorem motion_of_bodyAt {s : Space N Phys Obj} {a : Nat} {o : Obj} {p : Phys} {e : Rect (N + 1)}
    (h : s.bodyAt a = some (o, p, e)) :
    ∃ m, s.motion a = some m ∧ m.object = o ∧ m.physics = p ∧ m.enclosing_rect = e := by
  simp only [bodyAt] at h
  cases hm : s.motion a with
  | none => rw [hm] at h; cases h
  | some m =>
    rw [hm] at h
    simp only [Option.map_some', Option.some.injEq, Prod.mk.injEq] at h
    exact ⟨m, rfl, h.1, h.2.1, h.2.2⟩

theorem bodyAt_congr {s s1 : Space N Phys Obj} (h : s1.motions_ = s.motions_) (b : Nat) :
    s1.bodyAt b = s.bodyAt b := by
  unfold bodyAt motion; rw [h]

theorem updatePhysics_total (c : Collaborators N Phys Obj) (s : Space N Phys Obj) (a : Nat) (dt : Time)
    {o : Obj} {p : Phys} {e : Rect (N + 1)} (h : s.bodyAt a = some (o, p, e)) :
    ∃ s1, s.updatePhysics c a dt = some s1 ∧ s1.bodyAt a = some (o, c.Update p dt, e) ∧
      ∀ b, b ≠ a → s1.bodyAt b = s.bodyAt b := by
  obtain ⟨m, hm, rfl, rfl, rfl⟩ := motion_of_bodyAt h
  have hsome : ∃ s1, s.updatePhysics c a dt = some s1 := by
    simp only [updatePhysics, hm]; exact ⟨_, rfl⟩
  obtain ⟨s1, hs1⟩ := hsome
  obtain ⟨m0, hm0, hma, hmb⟩ := updatePhysics_motion c s s1 a dt hs1
  rw [hm, Option.some.injEq] at hm0
  subst hm0
  refine ⟨s1, hs1, bodyAt_of_motion hma, ?_⟩
  intro b hb
  unfold bodyAt; rw [hmb b hb]

theorem updatePositionToTime_total (c : Collaborators N Phys Obj) (s : Space N Phys Obj) (a : Nat)
    (time : Time) {o : Obj} {p : Phys} {e : Rect (N + 1)} (h : s.bodyAt a = some (o, p, e)) :
    ∃ s1, s.updatePositionToTime c a time = some s1 ∧
      s1.bodyAt a = some (o, c.Update p (time - ofMillis (e.pos (Fin.last N))), e) ∧
      ∀ b, b ≠ a → s1.bodyAt b = s.bodyAt b := by
  obtain ⟨m, hm, _, _, he⟩ := motion_of_bodyAt h
  obtain ⟨s1, hs1, h1, h2⟩ := updatePhysics_total c s a (time - m.Time) h
  refine ⟨s1, by simp only [updatePositionToTime, hm]; exact hs1, ?_, h2⟩
  rw [h1]; unfold Motion.Time; rw [he]

theorem Remove_total (s : Space N Phys Obj) (a : Nat) (hdepth : 0 < s.advance_time_call_depth_)
    (ha : a ∈ s.addresses) :
    ∃ s1, s.Remove a = some s1 ∧ ∀ b, s1.bodyAt b = s.bodyAt b := by
  obtain ⟨m, hm⟩ := motion_of_mem ha
  refine ⟨_, Remove_deferred s a m hm hdepth, ?_⟩
  intro b
  show (s.setMotion a _).bodyAt b = _
  unfold bodyAt
  rw [motion_setMotion]
  by_cases hb : b = a
  · subst hb; simp [hm]
  · simp [hb]

theorem removeAll_total (iterators : List Nat) :
    ∀ s : Space N Phys Obj, 0 < s.advance_time_call_depth_ → (∀ a ∈ iterators, a ∈ s.addresses) →
      ∃ s1, s.removeAll iterators = some s1 ∧ ∀ b, s1.bodyAt b = s.bodyAt b := by
  induction iterators with
  | nil => intro s _ _; exact ⟨s, rfl, fun _ => rfl⟩
  | cons a rest ih =>
    intro s hdepth hvalid
    obtain ⟨s1, hs1, hb1⟩ := Remove_total s a hdepth (hvalid a (List.mem_cons_self _ _))
    have e := Remove_evolves s s1 a hdepth hs1
    obtain ⟨s2, hs2, hb2⟩ := ih s1 (by rw [e.depth]; exact hdepth)
      (fun b hb => by rw [e.addresses]; exact hvalid b (List.mem_cons_of_mem _ hb))
    exact ⟨s2, by simp only [removeAll, hs1]; exact hs2, fun b => (hb2 b).trans (hb1 b)⟩

theorem notify_total (c : Collaborators N Phys Obj) (s : Space N Phys Obj) (self other : Nat)
    (time : Time) (hdepth : 0 < s.advance_time_call_depth_)
    {o1 o2 : Obj} {p1 p2 : Phys} {e1 e2 : Rect (N + 1)}
    (h1 : s.bodyAt self = some (o1, p1, e1)) (h2 : s.bodyAt other = some (o2, p2, e2))
    (hvalid : ∀ a ∈ c.OnCollideWith o1 o2 time, a ∈ s.addresses) :
    ∃ s1, s.notify c self other time = some s1 ∧ (∀ b, s1.bodyAt b = s.bodyAt b) ∧
      Evolves (Call.OnCollideWith self other time :: (c.OnCollideWith o1 o2 time).map Call.Remove)
        s s1 := by
  obtain ⟨a, ha, rfl, _, _⟩ := motion_of_bodyAt h1
  obtain ⟨b, hb, rfl, _, _⟩ := motion_of_bodyAt h2
  obtain ⟨s1, hs1, hbody⟩ := removeAll_total (c.OnCollideWith a.object b.object time)
    (s.observe (Call.OnCollideWith self other time)) hdepth hvalid
  have hn : s.notify c self other time = some s1 := by
    simp only [notify, ha, hb]; exact hs1
  obtain ⟨a1, b1, ha1, hb1, e⟩ := notify_evolves c s s1 self other time hdepth hn
  rw [ha, Option.some.injEq] at ha1
  rw [hb, Option.some.injEq] at hb1
  subst ha1; subst hb1
  exact ⟨s1, hn, hbody, e⟩

theorem elasticCollision_total (c : Collaborators N Phys Obj) (s : Space N Phys Obj)
    (motion_a motion_b : Nat) (dimension : Nat) (hne : motion_a ≠ motion_b)
    {o1 o2 : Obj} {p1 p2 : Phys} {e1 e2 : Rect (N + 1)}
    (h1 : s.bodyAt motion_a = some (o1, p1, e1)) (h2 : s.bodyAt motion_b = some (o2, p2, e2)) :
    ∃ s1, s.elasticCollision c motion_a motion_b dimension = some s1 ∧
      s1.bodyAt motion_a = some (o1, (c.ElasticCollision1D p1 p2 dimension).1, e1) ∧
      s1.bodyAt motion_b = some (o2, (c.ElasticCollision1D p1 p2 dimension).2, e2) ∧
      ∀ b, b ≠ motion_a → b ≠ motion_b → s1.bodyAt b = s.bodyAt b := by
  obtain ⟨a, ha, rfl, rfl, rfl⟩ := motion_of_bodyAt h1
  obtain ⟨b, hb, rfl, rfl, rfl⟩ := motion_of_bodyAt h2
  have hb1 : (s.setMotion motion_a
      { a with physics := (c.ElasticCollision1D a.physics b.physics dimension).1 }).motion motion_b =
      some b := by
    rw [motion_setMotion, if_neg (Ne.symm hne), hb]
  refine ⟨((s.setMotion motion_a
      { a with physics := (c.ElasticCollision1D a.physics b.physics dimension).1 }).setMotion motion_b
      { b with physics := (c.ElasticCollision1D a.physics b.physics dimension).2 }).observe
      (Call.ElasticCollision1D motion_a motion_b dimension),
    by simp only [elasticCollision, ha, hb, hb1], ?_, ?_, ?_⟩
  · show ((s.setMotion motion_a _).setMotion motion_b _).bodyAt motion_a = _
    unfold bodyAt
    rw [motion_setMotion, if_neg hne, motion_setMotion, if_pos rfl, ha]
    rfl
  · show ((s.setMotion motion_a _).setMotion motion_b _).bodyAt motion_b = _
    unfold bodyAt
    rw [motion_setMotion, if_pos rfl, hb1]
    rfl
  · intro x hxa hxb
    show ((s.setMotion motion_a _).setMotion motion_b _).bodyAt x = _
    unfold bodyAt
    rw [motion_setMotion, if_neg hxb, motion_setMotion, if_neg hxa]

theorem updateEnclosingRect_total (c : Collaborators N Phys Obj) (s : Space N Phys Obj) (a : Nat)
    (start_time finish_time : Time) (hc : s.Consistent)
    {o : Obj} {p : Phys} {e : Rect (N + 1)} (h : s.bodyAt a = some (o, p, e)) :
    ∃ s1, s.updateEnclosingRect c a start_time finish_time = some s1 ∧
      s1.bodyAt a = some (o, p, Motion.sweptRect c p start_time finish_time) ∧
      (∀ b, b ≠ a → s1.bodyAt b = s.bodyAt b) ∧ s1.LocatedAt a ∧
      (∀ b, b ≠ a → s.LocatedAt b → s1.LocatedAt b) ∧ Evolves [] s s1 := by
  obtain ⟨m, hm, rfl, rfl, rfl⟩ := motion_of_bodyAt h
  obtain ⟨updated, moved_handle, hupd, hma, hmb, _, _, _⟩ :=
    updateEnclosingRect_spec c s a m start_time finish_time hm (hc.1 a m hm)
  have hmove : ∃ moved, RectSearchTree.Move s.tree_ m.tree_iterator
      (Motion.sweptRect c m.physics start_time finish_time) = some (moved, moved_handle) ∧
      updated.tree_ = moved := by
    simp only [updateEnclosingRect, hm, Motion.UpdateEnclosingRect] at hupd
    cases hmv : RectSearchTree.Move s.tree_ m.tree_iterator
        (Motion.sweptRect c m.physics start_time finish_time) with
    | none => rw [hmv] at hupd; cases hupd
    | some r =>
      obtain ⟨moved, handle⟩ := r
      rw [hmv] at hupd
      simp only [Option.some.injEq] at hupd
      subst hupd
      have hma1 : (({ s with tree_ := moved } : Space N Phys Obj).setMotion a
          { m with enclosing_rect := Motion.sweptRect c m.physics start_time finish_time,
                   tree_iterator := handle }).motion a = _ := hma
      rw [motion_setMotion, if_pos rfl] at hma1
      have hm1 : ({ s with tree_ := moved } : Space N Phys Obj).motion a = some m := hm
      rw [hm1] at hma1
      simp only [Option.map_some', Option.some.injEq, Motion.mk.injEq, true_and, and_true] at hma1
      rw [hma1]
      exact ⟨moved, rfl, rfl⟩
  obtain ⟨moved, hmv, htree⟩ := hmove
  obtain ⟨hnode, hfind⟩ := RectSearchTree.Move_node _ _ _ _ _ hmv
  refine ⟨updated, hupd, bodyAt_of_motion hma, ?_, ?_, ?_,
    updateEnclosingRect_evolves c s updated a _ _ hc hupd⟩
  · intro b hb
    unfold bodyAt; rw [hmb b hb]
  · refine ⟨_, hma, ?_⟩
    simp only [htree, hfind]
    exact hnode
  · rintro b hb ⟨mb, hmb1, hloc⟩
    refine ⟨mb, by rw [hmb b hb]; exact hmb1, ?_⟩
    rw [htree, hfind]
    exact hloc

end Space

namespace Space

variable {N : Nat} {Phys Obj : Type}

theorem nearEntries_past_end (s : Space N Phys Obj) (rect : Rect (N + 1))
    (hroot : s.tree_.isNull = false) (hempty : s.tree_.reps.empty = true) :
    nearEntries s.tree_ rect = none :=
  RectSearchTree.near_past_end s.tree_ rect hroot hempty

theorem nearEntries_total (s : Space N Phys Obj) (rect : Rect (N + 1)) (hc : s.Consistent)
    (hroot : s.tree_.isNull = false) (hne : s.tree_.reps.empty = false) :
    ∃ candidates, nearEntries s.tree_ rect = some candidates ∧ candidates.Nodup ∧
      (∀ b ∈ candidates, b ∈ s.addresses) ∧
      ∀ y m, s.motion y = some m → s.LocatedAt y →
        (rect.Overlaps m.enclosing_rect ∨ rect.Touches m.enclosing_rect) → y ∈ candidates := by
  obtain ⟨out, hout, hperm, hsub⟩ := RectSearchTree.near_yielded s.tree_ rect hroot
  obtain ⟨out1, hout1, hderef⟩ := RectSearchTree.near_dereferenced s.tree_ rect hroot hne
  obtain rfl : out = out1 := Option.some.inj (hout.symm.trans hout1)
  have hnodup : s.tree_.allEntries.Nodup := hc.2.nodup_iff.2 (addresses_nodup s)
  refine ⟨RectSearchTree.yielded out,
    (congrArg (fun o => Option.bind o RectSearchTree.dereferenced) hout).trans hderef,
    hperm.nodup_iff.2 (hsub.nodup hnodup), ?_, ?_⟩
  · intro b hb
    exact hc.2.subset (hsub.subset (hperm.subset hb))
  · rintro y m hm ⟨m1, hm1, hloc⟩ hnear
    rw [hm, Option.some.injEq] at hm1
    subst hm1
    have hentry := RectSearchTree.deref_entriesAt s.tree_ m.tree_iterator y _ (hc.1 y m hm) hloc
    exact hperm.symm.subset (RectSearchTree.near_visits s.tree_ rect m.enclosing_rect y hentry hnear)

theorem findLoop_total (c : Collaborators N Phys Obj) (motion_a : Nat) (a : Motion N Phys Obj)
    (candidates : List Nat) :
    ∀ (queue : CollisionQueue) (s : Space N Phys Obj), (∀ b ∈ candidates, b ∈ s.addresses) →
      ∃ calls s1, findLoop c motion_a a candidates queue s =
          some (pushAll queue (pushedEvents calls), s1) ∧
        s1.motions_ = s.motions_ ∧ Evolves calls s s1 ∧
        List.Forall₂ (fun b call => ∃ o p e, s.bodyAt b = some (o, p, e) ∧
            call = Call.GetCollisionTime motion_a b
              (c.GetCollisionTime a.physics a.Time p (ofMillis (e.pos (Fin.last N)))).1
              (c.GetCollisionTime a.physics a.Time p (ofMillis (e.pos (Fin.last N)))).2)
          (candidates.filter fun b => decide (b ≠ motion_a)) calls := by
  induction candidates with
  | nil =>
    intro queue s _
    exact ⟨[], s, rfl, rfl, Evolves.refl s, List.Forall₂.nil⟩
  | cons motion_b rest ih =>
    intro queue s hcand
    have hrest : ∀ b ∈ rest, b ∈ s.addresses := fun b hb => hcand b (List.mem_cons_of_mem _ hb)
    by_cases hab : motion_a = motion_b
    · obtain ⟨calls, s1, h1, h2, h3, h4⟩ := ih queue s hrest
      refine ⟨calls, s1, by simp only [findLoop, if_pos hab]; exact h1, h2, h3, ?_⟩
      have hf : (List.filter (fun b => decide (b ≠ motion_a)) (motion_b :: rest)) =
          List.filter (fun b => decide (b ≠ motion_a)) rest := by
        rw [List.filter_cons_of_neg (by simp [hab])]
      rw [hf]; exact h4
    · obtain ⟨b, hb⟩ := motion_of_mem (hcand motion_b (List.mem_cons_self _ _))
      have hobs := Evolves.observe s
        (Call.GetCollisionTime motion_a motion_b (c.GetCollisionTime a.physics a.Time b.physics b.Time).1
          (c.GetCollisionTime a.physics a.Time b.physics b.Time).2) (by intro x; simp)
      have hf : (List.filter (fun b => decide (b ≠ motion_a)) (motion_b :: rest)) =
          motion_b :: List.filter (fun b => decide (b ≠ motion_a)) rest := by
        rw [List.filter_cons_of_pos (by simpa using Ne.symm hab)]
      have hfirst : ∃ o p e, s.bodyAt motion_b = some (o, p, e) ∧
          Call.GetCollisionTime motion_a motion_b (c.GetCollisionTime a.physics a.Time b.physics b.Time).1
            (c.GetCollisionTime a.physics a.Time b.physics b.Time).2 =
          Call.GetCollisionTime motion_a motion_b
            (c.GetCollisionTime a.physics a.Time p (ofMillis (e.pos (Fin.last N)))).1
            (c.GetCollisionTime a.physics a.Time p (ofMillis (e.pos (Fin.last N)))).2 :=
        ⟨_, _, _, bodyAt_of_motion hb, rfl⟩
      by_cases hneg : (c.GetCollisionTime a.physics a.Time b.physics b.Time).1 < 0
      · obtain ⟨calls, s1, h1, h2, h3, h4⟩ := ih queue (s.observe
          (Call.GetCollisionTime motion_a motion_b (c.GetCollisionTime a.physics a.Time b.physics b.Time).1
            (c.GetCollisionTime a.physics a.Time b.physics b.Time).2)) hrest
        refine ⟨_ :: calls, s1, ?_, h2, hobs.trans h3, ?_⟩
        · simp only [findLoop, if_neg hab, hb, if_pos hneg, pushedEvents]
          exact h1
        · rw [hf]; exact List.Forall₂.cons hfirst h4
      · obtain ⟨calls, s1, h1, h2, h3, h4⟩ := ih (queue.push ⟨motion_a, motion_b,
            (c.GetCollisionTime a.physics a.Time b.physics b.Time).1,
            (c.GetCollisionTime a.physics a.Time b.physics b.Time).2⟩) (s.observe
          (Call.GetCollisionTime motion_a motion_b (c.GetCollisionTime a.physics a.Time b.physics b.Time).1
            (c.GetCollisionTime a.physics a.Time b.physics b.Time).2)) hrest
        refine ⟨_ :: calls, s1, ?_, h2, hobs.trans h3, ?_⟩
        · simp only [findLoop, if_neg hab, hb, if_neg hneg, pushedEvents, pushAll, List.foldl_cons]
          exact h1
        · rw [hf]; exact List.Forall₂.cons hfirst h4

theorem FindCollisions_total (c : Collaborators N Phys Obj) (s : Space N Phys Obj)
    (queue : CollisionQueue) (motion_a : Nat) (hc : s.Consistent)
    (hne : s.tree_.reps.empty = false)
    {o : Obj} {p : Phys} {e : Rect (N + 1)} (ha : s.bodyAt motion_a = some (o, p, e)) :
    ∃ (candidates : List Nat) (calls : List Call) (s1 : Space N Phys Obj),
      FindCollisions c s queue motion_a =
        some (pushAll queue (pushedEvents calls), s1) ∧
      s1.motions_ = s.motions_ ∧ s1.tree_ = s.tree_ ∧ Evolves calls s s1 ∧
      candidates.Nodup ∧ (∀ b ∈ candidates, b ∈ s.addresses) ∧
      (∀ y m, s.motion y = some m → s.LocatedAt y →
        (e.Overlaps m.enclosing_rect ∨ e.Touches m.enclosing_rect) → y ∈ candidates) ∧
      List.Forall₂ (fun b call => ∃ o2 p2 e2, s.bodyAt b = some (o2, p2, e2) ∧
          call = Call.GetCollisionTime motion_a b
            (c.GetCollisionTime p (ofMillis (e.pos (Fin.last N))) p2 (ofMillis (e2.pos (Fin.last N)))).1
            (c.GetCollisionTime p (ofMillis (e.pos (Fin.last N))) p2 (ofMillis (e2.pos (Fin.last N)))).2)
        (candidates.filter fun b => decide (b ≠ motion_a)) calls := by
  obtain ⟨a, hma, rfl, rfl, rfl⟩ := motion_of_bodyAt ha
  have hroot := RectSearchTree.deref_isNull _ _ _ (hc.1 motion_a a hma)
  obtain ⟨candidates, hnear, hnodup, hsub, hfound⟩ := nearEntries_total s a.enclosing_rect hc hroot hne
  obtain ⟨calls, s1, h1, h2, h3, h4⟩ := findLoop_total c motion_a a candidates queue s hsub
  have hfc : FindCollisions c s queue motion_a = some (pushAll queue (pushedEvents calls), s1) := by
    simp only [FindCollisions, hma, hnear]; exact h1
  obtain ⟨_, _, _, htree, _, _⟩ := FindCollisions_spec c s s1 queue _ motion_a hfc
  exact ⟨candidates, calls, s1, hfc, h2, htree, h3, hnodup, hsub, hfound, h4⟩

/-- A search on an index whose root holds no entry is undefined: its first step
is past the end of the entry list of the root. -/
theorem FindCollisions_past_end (c : Collaborators N Phys Obj) (s : Space N Phys Obj)
    (queue : CollisionQueue) (motion_a : Nat) (hc : s.Consistent)
    (hempty : s.tree_.reps.empty = true) : FindCollisions c s queue motion_a = none := by
  simp only [FindCollisions]
  cases hm : s.motion motion_a with
  | none => rfl
  | some a =>
    have hroot := RectSearchTree.deref_isNull _ _ _ (hc.1 motion_a a hm)
    simp only [nearEntries_past_end s a.enclosing_rect hroot hempty]

/-- A search that returns has found an entry in the root of the index. -/
theorem FindCollisions_defined (c : Collaborators N Phys Obj) (s : Space N Phys Obj)
    (queue : CollisionQueue) (motion_a : Nat) (hc : s.Consistent)
    (h : FindCollisions c s queue motion_a ≠ none) : s.tree_.reps.empty = false := by
  cases hempty : s.tree_.reps.empty with
  | false => rfl
  | true => exact absurd (FindCollisions_past_end c s queue motion_a hc hempty) h

end Space

theorem forall₂_mem_right {α β : Type} {R : α → β → Prop} {l1 : List α} {l2 : List β}
    (h : List.Forall₂ R l1 l2) : ∀ y ∈ l2, ∃ x ∈ l1, R x y := by
  induction h with
  | nil => intro y hy; cases hy
  | cons hxy _ ih =>
    intro y hy
    rcases List.mem_cons.1 hy with rfl | hy
    · exact ⟨_, List.mem_cons_self _ _, hxy⟩
    · obtain ⟨x, hx, hr⟩ := ih y hy
      exact ⟨x, List.mem_cons_of_mem _ hx, hr⟩

namespace Space

variable {N : Nat} {Phys Obj : Type}

theorem RemoveInternal_located (s removed : Space N Phys Obj) (a : Nat) (following : Option Nat)
    (hc : s.Consistent) (h : s.RemoveInternal a = some (removed, following)) :
    ∀ b, b ≠ a → s.LocatedAt b → removed.LocatedAt b := by
  cases hm : s.motion a with
  | none => simp [RemoveInternal, hm] at h
  | some m =>
    obtain ⟨removed1, following1, tree, hrem, htree, htree1, _, hmotion, _⟩ :=
      RemoveInternal_spec s a m hm (hc.1 a m hm)
    rw [h, Option.some.injEq, Prod.mk.injEq] at hrem
    obtain ⟨rfl, _⟩ := hrem
    obtain ⟨tree2, htree2, _, _, hfind, _⟩ :=
      RectSearchTree.Remove_handles s.tree_ m.tree_iterator a (hc.1 a m hm)
    rw [htree, Option.some.injEq] at htree2
    subst htree2
    rintro b hb ⟨mb, hmb, hloc⟩
    refine ⟨mb, by rw [hmotion b, if_neg hb]; exact hmb, ?_⟩
    rw [htree1, hfind]
    exact hloc

theorem predict_total (c : Collaborators N Phys Obj) (new_time_seconds : Time) (addresses : List Nat) :
    ∀ s : Space N Phys Obj, s.Consistent → addresses.Nodup → (∀ a ∈ addresses, a ∈ s.addresses) →
      ∃ s1, predict c new_time_seconds addresses s = some s1 ∧
        ∀ b, b ∈ s1.addresses → (b ∈ addresses ∨ s.LocatedAt b) → s1.LocatedAt b := by
  induction addresses with
  | nil =>
    intro s _ _ _
    refine ⟨s, rfl, ?_⟩
    intro b _ hb
    rcases hb with hb | hb
    · cases hb
    · exact hb
  | cons a rest ih =>
    intro s hc hnodup hsub
    obtain ⟨hnot, hnodup1⟩ := List.nodup_cons.1 hnodup
    obtain ⟨m, hm⟩ := motion_of_mem (hsub a (List.mem_cons_self _ _))
    by_cases hflag : m.marked_for_removal = true
    · obtain ⟨removed, following, tree, hrem, _, _, haddr, _, _, _, _, _, _, hcons⟩ :=
        RemoveInternal_spec s a m hm (hc.1 a m hm)
      have hsub1 : ∀ b ∈ rest, b ∈ removed.addresses := by
        intro b hb
        rw [haddr]
        exact List.mem_filter.2 ⟨hsub b (List.mem_cons_of_mem _ hb),
          by simpa using fun e : b = a => hnot (e ▸ hb)⟩
      obtain ⟨s1, hs1, hloc⟩ := ih removed (hcons hc) hnodup1 hsub1
      have hp : predict c new_time_seconds (a :: rest) s = some s1 := by
        simp only [predict, hm, if_pos hflag, hrem]; exact hs1
      refine ⟨s1, hp, ?_⟩
      intro b hb1 hb
      obtain ⟨_, haddr1, _⟩ := predict_spec c new_time_seconds rest removed s1 (hcons hc) hs1
      have hba : b ≠ a := by
        rw [haddr1, haddr] at hb1
        simpa using (List.mem_filter.1 (List.mem_filter.1 hb1).1).2
      apply hloc b hb1
      rcases hb with hb | hb
      · exact Or.inl ((List.mem_cons.1 hb).resolve_left hba)
      · exact Or.inr (RemoveInternal_located s removed a following hc hrem b hba hb)
    · obtain ⟨updated, hupd, _, _, hloca, hlocb, e⟩ := updateEnclosingRect_total c s a s.time_seconds_
        new_time_seconds hc (bodyAt_of_motion hm)
      obtain ⟨s1, hs1, hloc⟩ := ih updated (e.consistent hc) hnodup1
        (fun b hb => by rw [e.addresses]; exact hsub b (List.mem_cons_of_mem _ hb))
      have hp : predict c new_time_seconds (a :: rest) s = some s1 := by
        simp only [predict, hm, if_neg hflag, hupd]; exact hs1
      refine ⟨s1, hp, ?_⟩
      intro b hb1 hb
      apply hloc b hb1
      by_cases hba : b = a
      · subst hba; exact Or.inr hloca
      · rcases hb with hb | hb
        · exact Or.inl ((List.mem_cons.1 hb).resolve_left hba)
        · exact Or.inr (hlocb b hba hb)

theorem flush_total (addresses : List Nat) :
    ∀ s : Space N Phys Obj, s.Consistent → addresses.Nodup → (∀ a ∈ addresses, a ∈ s.addresses) →
      ∃ s1, flush addresses s = some s1 := by
  induction addresses with
  | nil => intro s _ _ _; exact ⟨s, rfl⟩
  | cons a rest ih =>
    intro s hc hnodup hsub
    obtain ⟨hnot, hnodup1⟩ := List.nodup_cons.1 hnodup
    obtain ⟨m, hm⟩ := motion_of_mem (hsub a (List.mem_cons_self _ _))
    by_cases hflag : m.marked_for_removal = true
    · obtain ⟨removed, following, tree, hrem, _, _, haddr, _, _, _, _, _, _, hcons⟩ :=
        RemoveInternal_spec s a m hm (hc.1 a m hm)
      have hsub1 : ∀ b ∈ rest, b ∈ removed.addresses := by
        intro b hb
        rw [haddr]
        exact List.mem_filter.2 ⟨hsub b (List.mem_cons_of_mem _ hb),
          by simpa using fun e : b = a => hnot (e ▸ hb)⟩
      obtain ⟨s1, hs1⟩ := ih removed (hcons hc) hnodup1 hsub1
      exact ⟨s1, by simp only [flush, hm, if_pos hflag, hrem]; exact hs1⟩
    · obtain ⟨s1, hs1⟩ := ih s hc hnodup1 (fun b hb => hsub b (List.mem_cons_of_mem _ hb))
      exact ⟨s1, by simp only [flush, hm, if_neg hflag]; exact hs1⟩

theorem commit_total (c : Collaborators N Phys Obj) (new_time_seconds : Time) (addresses : List Nat) :
    ∀ s : Space N Phys Obj, (∀ a ∈ addresses, a ∈ s.addresses) →
      ∃ s1, commit c new_time_seconds addresses s = some s1 := by
  induction addresses with
  | nil => intro s _; exact ⟨s, rfl⟩
  | cons a rest ih =>
    intro s hsub
    obtain ⟨m, hm⟩ := motion_of_mem (hsub a (List.mem_cons_self _ _))
    obtain ⟨s1, hs1, _, _⟩ := updatePositionToTime_total c s a new_time_seconds (bodyAt_of_motion hm)
    obtain ⟨_, _, e⟩ := updatePositionToTime_evolves c _ _ _ _ hs1
    obtain ⟨s2, hs2⟩ := ih s1 (fun b hb => by rw [e.addresses]; exact hsub b (List.mem_cons_of_mem _ hb))
    exact ⟨s2, by simp only [commit, hs1]; exact hs2⟩

end Space

/-! ### The notifications and responses among the calls of a step -/

theorem filter_isResolution_removes (iterators : List Nat) :
    (iterators.map Call.Remove).filter Call.isResolution = [] := by
  induction iterators with
  | nil => rfl
  | cons a rest ih => simp only [List.map_cons, List.filter_cons, Call.isResolution]; exact ih

theorem filter_isResolution_finds (finds : List Call)
    (h : ∀ call ∈ finds, ∃ a b time dimension, call = Call.GetCollisionTime a b time dimension) :
    finds.filter Call.isResolution = [] := by
  apply List.filter_eq_nil_iff.2
  intro call hcall
  obtain ⟨a, b, time, dimension, rfl⟩ := h call hcall
  simp [Call.isResolution]

namespace Space

variable {N : Nat} {Phys Obj : Type}

/-! ### A step to the current time returns -/

theorem seed_total (c : Collaborators N Phys Obj) (addresses : List Nat) :
    ∀ (queue : CollisionQueue) (s : Space N Phys Obj), s.Consistent →
      s.tree_.reps.empty = false → (∀ a ∈ addresses, a ∈ s.addresses) →
      ∃ calls s1, seed c addresses queue s = some (pushAll queue (pushedEvents calls), s1) ∧
        s1.motions_ = s.motions_ ∧ Evolves calls s s1 ∧
        ∀ call ∈ calls, ∃ a b o1 p1 e1 o2 p2 e2, a ≠ b ∧ s.bodyAt a = some (o1, p1, e1) ∧
          s.bodyAt b = some (o2, p2, e2) ∧
          call = Call.GetCollisionTime a b
            (c.GetCollisionTime p1 (ofMillis (e1.pos (Fin.last N))) p2 (ofMillis (e2.pos (Fin.last N)))).1
            (c.GetCollisionTime p1 (ofMillis (e1.pos (Fin.last N))) p2 (ofMillis (e2.pos (Fin.last N)))).2 := by
  induction addresses with
  | nil =>
    intro queue s _ _ _
    exact ⟨[], s, rfl, rfl, Evolves.refl s, fun call hcall => by cases hcall⟩
  | cons a rest ih =>
    intro queue s hc hne hsub
    obtain ⟨m, hm⟩ := motion_of_mem (hsub a (List.mem_cons_self _ _))
    obtain ⟨candidates, calls1, s1, h1, hm1, htree, e1, _, _, _, hf1⟩ :=
      FindCollisions_total c s queue a hc hne (bodyAt_of_motion hm)
    obtain ⟨calls2, s2, h2, hm2, e2, hf2⟩ := ih (pushAll queue (pushedEvents calls1)) s1
      (e1.consistent hc) (by rw [htree]; exact hne)
      (fun b hb => by rw [e1.addresses]; exact hsub b (List.mem_cons_of_mem _ hb))
    refine ⟨calls1 ++ calls2, s2, ?_, hm2.trans hm1, e1.trans e2, ?_⟩
    · simp only [seed, h1, pushedEvents_append, pushAll_append]
      exact h2
    · intro call hcall
      rcases List.mem_append.1 hcall with hmem | hmem
      · obtain ⟨b, hb, o2, p2, e2, hbody, heq⟩ := forall₂_mem_right hf1 call hmem
        have hba : b ≠ a := by simpa using (List.mem_filter.1 hb).2
        exact ⟨a, b, _, _, _, o2, p2, e2, Ne.symm hba, bodyAt_of_motion hm, hbody, heq⟩
      · obtain ⟨r1, r2, o1, p1, e1, o2, p2, e2, hr, hb1, hb2, heq⟩ := hf2 call hmem
        exact ⟨r1, r2, o1, p1, e1, o2, p2, e2, hr, (bodyAt_congr hm1 r1).symm.trans hb1,
          (bodyAt_congr hm1 r2).symm.trans hb2, heq⟩

/-- C17 (amended): a step to the current time, when the current time is a
whole number of seconds, of at most 1 000 000 000 in magnitude, the root of the
index holds an entry once the first loop of the step has placed the swept
boxes, and the collision-time function reports no contact for any two bodies
of the scene at that time.
`AdvanceTime`, with fuel for one round of its loop, returns; the calls it
makes are requests for collision times followed by `Update(0)` on every record
that was not flagged, in list order, so no notification; the records left are
those that were not flagged; and the physical state of every record left is
the result of `Update(0)` on its state before the step. -/
theorem AdvanceTime_to_current_time (c : Collaborators N Phys Obj) (fuel : Nat) (seconds : Int)
    (s : Space N Phys Obj) (hc : s.Consistent) (hdepth : 0 ≤ s.advance_time_call_depth_)
    (hwhole : s.time_seconds_ = seconds * 1000000) (hrange : seconds.natAbs ≤ 1000000000)
    (hroot : ∀ predicted, predict c s.time_seconds_ s.addresses
        { s with advance_time_call_depth_ := s.advance_time_call_depth_ + 1 } = some predicted →
      predicted.tree_.reps.empty = false)
    (hquiet : ∀ a b o1 p1 e1 o2 p2 e2, a ≠ b → s.bodyAt a = some (o1, p1, e1) →
      s.bodyAt b = some (o2, p2, e2) →
      (c.GetCollisionTime p1 s.time_seconds_ p2 s.time_seconds_).1 < 0)
    (hfuel : 1 ≤ fuel) :
    ∃ advanced finds, AdvanceTime c fuel s.time_seconds_ s = some advanced ∧
      advanced.observed = s.observed ++ (finds ++ advanced.addresses.map (fun a => Call.Update a 0)) ∧
      (∀ call ∈ finds, ∃ a b time dimension, call = Call.GetCollisionTime a b time dimension) ∧
      advanced.addresses = s.addresses.filter (fun a => !s.flagged a) ∧
      ∀ a m1, advanced.motion a = some m1 →
        ∃ m, s.motion a = some m ∧ m1.physics = c.Update m.physics 0 := by
  have _ := hrange
  have hms : s.time_seconds_ = ofMillis (seconds * 1000) := by
    rw [hwhole, ofMillis, mul_assoc]; rfl
  generalize seconds * 1000 = millis at hms
  obtain ⟨fuel, rfl⟩ : ∃ f, fuel = f + 1 := ⟨fuel - 1, by omega⟩
  -- the predict phase
  have hc0 : ({ s with advance_time_call_depth_ := s.advance_time_call_depth_ + 1 } :
      Space N Phys Obj).Consistent := hc
  obtain ⟨predicted, hp, _⟩ := predict_total c s.time_seconds_ s.addresses
    { s with advance_time_call_depth_ := s.advance_time_call_depth_ + 1 } hc0 (addresses_nodup s)
    (fun a ha => ha)
  obtain ⟨pc, _, pmotion, pobs, pdepth, _⟩ := predict_all c s.time_seconds_ s predicted hc hp
  -- the seed phase
  obtain ⟨calls1, seeded, hs, hm1, e1, hcalls1⟩ := seed_total c predicted.addresses [] predicted pc
    (hroot predicted hp) (fun a ha => ha)
  have hneg : ∀ a b time dimension, Call.GetCollisionTime a b time dimension ∈ calls1 → time < 0 := by
    intro a b time dimension hmem
    obtain ⟨r1, r2, o1, p1, e1, o2, p2, e2, hr, hb1, hb2, heq⟩ := hcalls1 _ hmem
    simp only [Call.GetCollisionTime.injEq] at heq
    obtain ⟨rfl, rfl, rfl, _⟩ := heq
    obtain ⟨m1, hm1, ho1, hp1, he1⟩ := motion_of_bodyAt hb1
    obtain ⟨m2, hm2, ho2, hp2, he2⟩ := motion_of_bodyAt hb2
    obtain ⟨n1, hn1, _, hq1, _, _, hrect1⟩ := pmotion a m1 hm1
    obtain ⟨n2, hn2, _, hq2, _, _, hrect2⟩ := pmotion b m2 hm2
    have h := hquiet a b _ _ _ _ _ _ hr (bodyAt_of_motion hn1) (bodyAt_of_motion hn2)
    rw [← he1, ← he2, hrect1, hrect2, sweptRect_Time, sweptRect_Time, ← hp1, ← hp2, hq1, hq2, hms,
      toMillis_ofMillis, ← hms]
    exact h
  rw [pushedEvents_negative calls1 hneg] at hs
  have hr : resolveLoop c s.time_seconds_ (fuel + 1) [] seeded = some seeded := rfl
  -- the flush and the commit
  have hct : ({ seeded with time_seconds_ := s.time_seconds_ } : Space N Phys Obj).Consistent :=
    e1.consistent pc
  obtain ⟨flushed, hf⟩ := flush_total seeded.addresses
    { seeded with time_seconds_ := s.time_seconds_ } hct (addresses_nodup seeded) (fun a ha => ha)
  obtain ⟨committed, hcm⟩ := commit_total c s.time_seconds_ flushed.addresses flushed (fun a ha => ha)
  have hp1 : predict c s.time_seconds_
      ({ s with advance_time_call_depth_ := s.advance_time_call_depth_ + 1 } : Space N Phys Obj).addresses
      { s with advance_time_call_depth_ := s.advance_time_call_depth_ + 1 } = some predicted := hp
  have hf1 : flush ({ seeded with time_seconds_ := s.time_seconds_ } : Space N Phys Obj).addresses
      { seeded with time_seconds_ := s.time_seconds_ } = some flushed := hf
  have hrun : AdvanceTime c (fuel + 1) s.time_seconds_ s =
      some { committed with advance_time_call_depth_ := committed.advance_time_call_depth_ - 1 } := by
    simp only [AdvanceTime]
    rw [hp1]
    simp only [pushAll, List.foldl_nil] at hs
    simp only [hs, hr]
    rw [hf1]
    simp only [hcm]
  -- what the step observes
  obtain ⟨_, _, _, fobs, _, _⟩ := flush_spec _ _ _ hct hf
  have fobs : flushed.observed = seeded.observed := fobs
  obtain ⟨calls3, e3, hcalls3⟩ := commit_evolves c s.time_seconds_ _ _ _ hcm
  have hobs : ({ committed with advance_time_call_depth_ := committed.advance_time_call_depth_ - 1 } :
      Space N Phys Obj).observed = s.observed ++ (calls1 ++ calls3) := by
    show committed.observed = _
    rw [e3.observed, fobs, e1.observed, pobs, List.append_assoc]
  have hquiet1 : ∀ a b time dimension,
      Call.GetCollisionTime a b time dimension ∈ calls1 ++ calls3 → time < 0 := by
    intro a b time dimension hmem
    rcases List.mem_append.1 hmem with hmem | hmem
    · exact hneg a b time dimension hmem
    · obtain ⟨_, _, heq⟩ := hcalls3 _ hmem
      cases heq
  obtain ⟨⟨finds, hfinds, hall⟩, haddr, hphys⟩ := current_time_step_trace c (fuel + 1) millis s _
    (calls1 ++ calls3) hc hdepth hms hrun hobs hquiet1
  exact ⟨_, finds, hrun, hobs.trans (congrArg (fun l => s.observed ++ l) hfinds), hall, haddr, hphys⟩

end Space

/-- Witness of C17 (amended): a step of the sample scene of two bodies that
move apart to its current time 0; the record of the body at the edge of the
line is in the root of the index. -/
theorem AdvanceTime_to_current_time_witness :
    (Space.predict (line fun _ _ _ => []) 0 parting.addresses
        { parting with advance_time_call_depth_ := parting.advance_time_call_depth_ + 1 }).map
      (fun predicted => predicted.tree_.reps.values) = some [0] ∧
    (Space.AdvanceTime (line fun _ _ _ => []) 1 0 parting).map (fun s => (s.observed, s.physicsList)) =
      some ([Call.GetCollisionTime 1 0 (-1) 0, Call.GetCollisionTime 0 1 (-1) 0, Call.Update 1 0,
        Call.Update 0 0], [(1, ⟨0, 10, 0⟩), (0, ⟨90, 10, 10⟩)]) ∧
    ∃ advanced finds,
      Space.AdvanceTime (line fun _ _ _ => []) 1 parting.time_seconds_ parting = some advanced ∧
      advanced.observed =
        parting.observed ++ (finds ++ advanced.addresses.map (fun a => Call.Update a 0)) ∧
      (∀ call ∈ finds, ∃ a b time dimension, call = Call.GetCollisionTime a b time dimension) ∧
      advanced.addresses = parting.addresses.filter (fun a => !parting.flagged a) ∧
      ∀ a m1, advanced.motion a = some m1 →
        ∃ m, parting.motion a = some m ∧ m1.physics = (line fun _ _ _ => []).Update m.physics 0 := by
  have hc : Space.Consistent parting :=
    Space.Consistent_withBody _ _ _ (Space.Consistent_withBody _ _ _ (Space.Consistent_create _))
  have hbody : ∀ a o p e, parting.bodyAt a = some (o, p, e) →
      (a = 1 ∧ p = ⟨0, 10, 0⟩) ∨ (a = 0 ∧ p = ⟨90, 10, 10⟩) := by
    intro a o p e h
    obtain ⟨m, hm, _, hp, _⟩ := Space.motion_of_bodyAt h
    have hmem : a ∈ parting.addresses := Space.motion_mem hm
    have haddr : parting.addresses = [1, 0] := by decide
    rw [haddr] at hmem
    simp only [List.mem_cons, List.mem_singleton, List.not_mem_nil, or_false] at hmem
    rcases hmem with rfl | rfl
    · left
      have h1 : parting.bodyAt 1 = some (1, ⟨0, 10, 0⟩, ⟨fun _ => 0, fun _ => 0⟩) := rfl
      rw [h, Option.some.injEq, Prod.mk.injEq, Prod.mk.injEq] at h1
      exact ⟨rfl, h1.2.1⟩
    · right
      have h0 : parting.bodyAt 0 = some (0, ⟨90, 10, 10⟩, ⟨fun _ => 0, fun _ => 0⟩) := rfl
      rw [h, Option.some.injEq, Prod.mk.injEq, Prod.mk.injEq] at h0
      exact ⟨rfl, h0.2.1⟩
  have hvalues : (Space.predict (line fun _ _ _ => []) 0 parting.addresses
        { parting with advance_time_call_depth_ := parting.advance_time_call_depth_ + 1 }).map
      (fun predicted => predicted.tree_.reps.values) = some [0] := by decide
  refine ⟨hvalues, by decide, ?_⟩
  exact Space.AdvanceTime_to_current_time (line fun _ _ _ => []) 1 0 parting hc (by decide) (by decide)
    (by decide)
    (by
      intro predicted hp
      have hp1 : Space.predict (line fun _ _ _ => []) 0 parting.addresses
          { parting with advance_time_call_depth_ := parting.advance_time_call_depth_ + 1 } =
            some predicted := hp
      rw [hp1] at hvalues
      simp only [Option.map_some', Option.some.injEq] at hvalues
      cases hcells : predicted.tree_.reps.cells with
      | nil => simp [StdList.values, hcells] at hvalues
      | cons x xs => simp only [StdList.empty, hcells, List.isEmpty_cons])
    (by
      intro a b o1 p1 e1 o2 p2 e2 hne h1 h2
      rcases hbody a o1 p1 e1 h1 with ⟨rfl, rfl⟩ | ⟨rfl, rfl⟩ <;>
        rcases hbody b o2 p2 e2 h2 with ⟨rfl, rfl⟩ | ⟨rfl, rfl⟩
      · exact absurd rfl hne
      · decide
      · decide
      · exact absurd rfl hne)
    (by decide)

namespace RectSearchTree

variable {N : Nat} {Rep : Type}

/-! ### The split of a domain -/

theorem longestDimension_foldl (size : Fin N → Int) :
    ∀ (rest done : List (Fin N)) (acc : Nat × Int),
      (∀ i ∈ done, ∀ j ∈ rest, i < j) → rest.Pairwise (fun i j => i < j) →
      ((acc = (0, 0) ∧ ∀ i ∈ done, size i ≤ 0) ∨
        ∃ k ∈ done, acc = (k.val, size k) ∧ 0 < size k ∧ (∀ i ∈ done, size i ≤ size k) ∧
          ∀ i ∈ done, i < k → size i < size k) →
      ((rest.foldl (fun acc i => if size i > acc.2 then (i.val, size i) else acc) acc = (0, 0) ∧
          ∀ i ∈ done ++ rest, size i ≤ 0) ∨
        ∃ k ∈ done ++ rest,
          rest.foldl (fun acc i => if size i > acc.2 then (i.val, size i) else acc) acc = (k.val, size k) ∧
          0 < size k ∧ (∀ i ∈ done ++ rest, size i ≤ size k) ∧
          ∀ i ∈ done ++ rest, i < k → size i < size k) := by
  intro rest
  induction rest with
  | nil =>
    intro done acc _ _ h
    simpa using h
  | cons j rest ih =>
    intro done acc hlt hsorted h
    have hstep := ih (done ++ [j]) (if size j > acc.2 then (j.val, size j) else acc)
      (by
        intro i hi x hx
        rcases List.mem_append.1 hi with hi | hi
        · exact hlt i hi x (List.mem_cons_of_mem _ hx)
        · rw [List.mem_singleton] at hi
          rw [hi]
          exact List.rel_of_pairwise_cons hsorted hx)
      (List.Pairwise.of_cons hsorted)
      (by
        rcases h with ⟨hacc, hall⟩ | ⟨k, hk, hacc, hpos, hmax, hfirst⟩
        · rw [hacc]
          by_cases hj : size j > 0
          · right
            refine ⟨j, List.mem_append_right _ (List.mem_singleton.2 rfl), by simp [hj], hj, ?_, ?_⟩
            · intro i hi
              rcases List.mem_append.1 hi with hi | hi
              · exact le_trans (hall i hi) (le_of_lt hj)
              · rw [List.mem_singleton.1 hi]
            · intro i hi hij
              rcases List.mem_append.1 hi with hi | hi
              · exact lt_of_le_of_lt (hall i hi) hj
              · rw [List.mem_singleton.1 hi] at hij
                exact absurd hij (lt_irrefl _)
          · left
            refine ⟨by simp [hj], ?_⟩
            intro i hi
            rcases List.mem_append.1 hi with hi | hi
            · exact hall i hi
            · rw [List.mem_singleton.1 hi]
              exact not_lt.1 hj
        · rw [hacc]
          by_cases hj : size j > size k
          · right
            refine ⟨j, List.mem_append_right _ (List.mem_singleton.2 rfl), by simp [hj],
              lt_trans hpos hj, ?_, ?_⟩
            · intro i hi
              rcases List.mem_append.1 hi with hi | hi
              · exact le_trans (hmax i hi) (le_of_lt hj)
              · rw [List.mem_singleton.1 hi]
            · intro i hi hij
              rcases List.mem_append.1 hi with hi | hi
              · exact lt_of_le_of_lt (hmax i hi) hj
              · rw [List.mem_singleton.1 hi] at hij
                exact absurd hij (lt_irrefl _)
          · right
            refine ⟨k, List.mem_append_left _ hk, by simp [hj], hpos, ?_, ?_⟩
            · intro i hi
              rcases List.mem_append.1 hi with hi | hi
              · exact hmax i hi
              · rw [List.mem_singleton.1 hi]
                exact not_lt.1 hj
            · intro i hi hik
              rcases List.mem_append.1 hi with hi | hi
              · exact hfirst i hi hik
              · rw [List.mem_singleton.1 hi] at hik
                exact absurd (hlt k hk j (List.mem_cons_self _ _)) (not_lt.2 (le_of_lt hik)))
    simpa [List.append_assoc] using hstep

theorem longestDimension_spec (size : Fin N → Int) (hpos : ∃ i, 0 < size i) :
    ∃ k : Fin N, longestDimension size = (k.val, size k) ∧ 0 < size k ∧
      (∀ i, size i ≤ size k) ∧ ∀ i, i < k → size i < size k := by
  have h := longestDimension_foldl size (List.finRange N) [] (0, 0) (fun i hi => by cases hi)
    (List.pairwise_lt_finRange N) (Or.inl ⟨rfl, fun i hi => by cases hi⟩)
  simp only [List.nil_append, List.mem_finRange, true_and, forall_true_left] at h
  rcases h with ⟨_, hall⟩ | ⟨k, hk, hkpos, hmax, hfirst⟩
  · obtain ⟨i, hi⟩ := hpos
    exact absurd hi (not_lt.2 (hall i))
  · exact ⟨k, hk, hkpos, hmax, hfirst⟩

theorem Create_GetRect (rect : Rect N) (d : Nat) :
    (Create rect (d + 1) : RectSearchTree N Rep).GetRect = some rect := rfl

/-- C21: the split rule of `Create`. Every node that `Create` builds with
children, and whose domain has a positive size on some axis, is split along the
axis `k` of lowest index among those of the largest size `L`: the domain of
child A has the origin of the node and the size `⌊L / 2⌋` on the axis `k`, the
domain of child B has its origin shifted by `⌊L / 2⌋` on the axis `k` and the
size `L - ⌊L / 2⌋` there, and both have the origin and the size of the node
on every other axis. So the node's domain contains both, the two do not
overlap, and a point is in the node's domain exactly when it is in one of
the two. -/
theorem Create_split (domain : Rect N) (depth : Nat) (p : NodePtr) (r : Rect N)
    (a b : RectSearchTree N Rep) (reps_ : StdList Rep)
    (hnode : (Create domain depth : RectSearchTree N Rep).nodeAt p = node r a b reps_)
    (hchild : a.isNull = false) (hpos : ∃ i, 0 < r.size i) :
    ∃ (k : Fin N) (A B : Rect N), a.GetRect = some A ∧ b.GetRect = some B ∧
      (∀ i, r.size i ≤ r.size k) ∧ (∀ i, i < k → r.size i < r.size k) ∧
      A.pos = r.pos ∧ A.size k = r.size k / 2 ∧
      B.pos k = r.pos k + r.size k / 2 ∧ B.size k = r.size k - r.size k / 2 ∧
      (∀ i, i ≠ k → A.size i = r.size i ∧ B.pos i = r.pos i ∧ B.size i = r.size i) ∧
      r.Contains A ∧ r.Contains B ∧ ¬ A.Overlaps B ∧
      ∀ x, r.HasPoint x ↔ (A.HasPoint x ∨ B.HasPoint x) := by
  obtain ⟨r1, hr1⟩ := @Create_nodeAt N Rep domain depth p
  rw [hr1] at hnode
  cases hm : depth - p.length with
  | zero => rw [hm] at hnode; cases hnode
  | succ m =>
    rw [hm] at hnode
    simp only [Create, node.injEq] at hnode
    obtain ⟨rfl, ha, hb, _⟩ := hnode
    obtain ⟨k, hk, hkpos, hmax, hfirst⟩ := longestDimension_spec r1.size hpos
    have hm1 : m ≠ 0 := by
      intro h0
      rw [← ha, h0] at hchild
      cases hchild
    obtain ⟨m1, rfl⟩ : ∃ m1, m = m1 + 1 := ⟨m - 1, by omega⟩
    have hhalf : (r1.size k).tdiv 2 = r1.size k / 2 :=
      Int.tdiv_eq_ediv (le_of_lt hkpos) (by decide)
    have h0 : 0 ≤ r1.size k / 2 := Int.ediv_nonneg (le_of_lt hkpos) (by decide)
    have h1 : r1.size k / 2 ≤ r1.size k := Int.ediv_le_self _ (le_of_lt hkpos)
    have hval : ∀ i : Fin N, i.val = k.val → i = k := fun i h => Fin.ext h
    rw [hk] at ha hb
    simp only [hhalf] at ha hb
    refine ⟨k, ⟨r1.pos, fun i => if i.val = k.val then r1.size k / 2 else r1.size i⟩,
      ⟨fun i => if i.val = k.val then r1.pos i + r1.size k / 2 else r1.pos i,
        fun i => if i.val = k.val then r1.size k - r1.size k / 2 else r1.size i⟩,
      by rw [← ha]; rfl, by rw [← hb]; rfl, hmax, hfirst, rfl, ?_, ?_, ?_, ?_, ?_, ?_, ?_, ?_⟩
    · simp only [eq_self_iff_true, if_true]
    · simp only [eq_self_iff_true, if_true]
    · simp only [eq_self_iff_true, if_true]
    · intro i hik
      have : ¬ i.val = k.val := fun h => hik (hval i h)
      simp only [this, if_false, and_self]
    · intro i
      by_cases hik : i.val = k.val
      · have := hval i hik
        subst this
        simp only [eq_self_iff_true, if_true]
        omega
      · simp only [hik, if_false]
        omega
    · intro i
      by_cases hik : i.val = k.val
      · have := hval i hik
        subst this
        simp only [eq_self_iff_true, if_true]
        omega
      · simp only [hik, if_false]
        omega
    · intro hover
      have := hover k
      simp only [eq_self_iff_true, if_true] at this
      rw [max_eq_right (by omega), min_eq_left (by omega)] at this
      exact lt_irrefl _ this
    · intro x
      constructor
      · intro hx
        by_cases hside : x k < r1.pos k + r1.size k / 2
        · left
          intro i
          by_cases hik : i.val = k.val
          · have := hval i hik
            subst this
            simp only [eq_self_iff_true, if_true]
            exact ⟨(hx i).1, hside⟩
          · simp only [hik, if_false]
            exact hx i
        · right
          intro i
          by_cases hik : i.val = k.val
          · have := hval i hik
            subst this
            simp only [eq_self_iff_true, if_true]
            have := hx i
            omega
          · simp only [hik, if_false]
            exact hx i
      · rintro (hx | hx) <;> intro i <;> have hi := hx i <;> by_cases hik : i.val = k.val
        · have := hval i hik
          subst this
          simp only [eq_self_iff_true, if_true] at hi
          omega
        · simp only [hik, if_false] at hi
          exact hi
        · have := hval i hik
          subst this
          simp only [eq_self_iff_true, if_true] at hi
          omega
        · simp only [hik, if_false] at hi
          exact hi

/-- Witness of C21: the root of the tree of depth 2 over `[0, 8)`. -/
theorem Create_split_witness :
    ∃ (k : Fin 1) (A B : Rect 1),
      ((Create ⟨fun _ => 0, fun _ => 8⟩ 2 : RectSearchTree 1 Nat).child Side.a).GetRect = some A ∧
      ((Create ⟨fun _ => 0, fun _ => 8⟩ 2 : RectSearchTree 1 Nat).child Side.b).GetRect = some B ∧
      (∀ _ : Fin 1, (8 : Int) ≤ 8) ∧ (∀ i : Fin 1, i < k → (8 : Int) < 8) ∧
      A.pos = (fun _ => 0) ∧ A.size k = 8 / 2 ∧
      B.pos k = 0 + 8 / 2 ∧ B.size k = 8 - 8 / 2 ∧
      (∀ i, i ≠ k → A.size i = 8 ∧ B.pos i = 0 ∧ B.size i = 8) ∧
      (⟨fun _ => 0, fun _ => 8⟩ : Rect 1).Contains A ∧ (⟨fun _ => 0, fun _ => 8⟩ : Rect 1).Contains B ∧
      ¬ A.Overlaps B ∧
      ∀ x, (⟨fun _ => 0, fun _ => 8⟩ : Rect 1).HasPoint x ↔ (A.HasPoint x ∨ B.HasPoint x) :=
  Create_split ⟨fun _ => 0, fun _ => 8⟩ 2 [] ⟨fun _ => 0, fun _ => 8⟩ _ _ StdList.nil rfl rfl
    ⟨0, by decide⟩

end RectSearchTree

namespace RectSearchTree

variable {N : Nat} {Rep : Type}

/-! ### The nodes a traversal enters -/

theorem entersFrom_null (should : RectSearchTree N Rep → Bool) (p : NodePtr) :
    entersFrom should (null : RectSearchTree N Rep) p = false := by
  cases p <;> rfl

theorem entersFrom_snoc (should : RectSearchTree N Rep → Bool)
    (hshould : ∀ t, should t = true → t.isNull = false) :
    ∀ (p : NodePtr) (t : RectSearchTree N Rep) (side : Side),
      entersFrom should t (p ++ [side]) = (entersFrom should t p && should ((t.nodeAt p).child side)) := by
  intro p
  induction p with
  | nil =>
    intro t side
    simp only [List.nil_append, entersFrom, nodeAt]
    cases hs : should (t.child side) with
    | false => simp
    | true => simp [hshould _ hs]
  | cons s p ih =>
    intro t side
    rw [List.cons_append]
    simp only [entersFrom, nodeAt]
    rw [ih]
    simp only [Bool.and_assoc]

theorem visited_iff (should : RectSearchTree N Rep → Bool) :
    ∀ (t : RectSearchTree N Rep) (base p : NodePtr) (v : Rep),
      (p, v) ∈ visited should t base ↔
        ∃ q, p = base ++ q ∧ entersFrom should t q = true ∧ v ∈ (t.nodeAt q).reps.values := by
  intro t
  induction t with
  | null =>
    intro base p v
    simp only [visited, List.not_mem_nil, false_iff]
    rintro ⟨q, _, h, _⟩
    rw [entersFrom_null] at h
    cases h
  | node r a b reps_ iha ihb =>
    intro base p v
    simp only [visited, List.mem_append, List.mem_map, Prod.mk.injEq]
    constructor
    · rintro (⟨w, hw, rfl, rfl⟩ | h | h)
      · exact ⟨[], (List.append_nil _).symm, rfl, hw⟩
      · cases hs : should a with
        | false => simp [hs] at h
        | true =>
          simp only [hs, if_true] at h
          obtain ⟨q, rfl, hq, hv⟩ := (iha _ _ _).1 h
          exact ⟨Side.a :: q, by simp, by simp [entersFrom, child, isNull, hs, hq], hv⟩
      · cases hs : should b with
        | false => simp [hs] at h
        | true =>
          simp only [hs, if_true] at h
          obtain ⟨q, rfl, hq, hv⟩ := (ihb _ _ _).1 h
          exact ⟨Side.b :: q, by simp, by simp [entersFrom, child, isNull, hs, hq], hv⟩
    · rintro ⟨q, rfl, hq, hv⟩
      cases q with
      | nil => exact Or.inl ⟨v, hv, (List.append_nil _).symm, rfl⟩
      | cons s q =>
        cases s with
        | a =>
          simp only [entersFrom, child, isNull, Bool.not_false, Bool.true_and, Bool.and_eq_true] at hq
          refine Or.inr (Or.inl ?_)
          rw [if_pos hq.1]
          exact (iha _ _ _).2 ⟨q, by simp, hq.2, hv⟩
        | b =>
          simp only [entersFrom, child, isNull, Bool.not_false, Bool.true_and, Bool.and_eq_true] at hq
          refine Or.inr (Or.inr ?_)
          rw [if_pos hq.1]
          exact (ihb _ _ _).2 ⟨q, by simp, hq.2, hv⟩

/-- C24: the near traversal filters child nodes only. On every tree, and for
every query box, the traversal of `Near(box)` enters the root, whether or not
the box overlaps or touches the domain of the root; it enters a child node
exactly when it has entered the parent and the box overlaps or touches the
domain of the child; every step of the traversal is on a node it has entered,
and the entries it yields are exactly the entries of those nodes. -/
theorem Near_filters_children (tree : RectSearchTree N Rep) (box : Rect N)
    (hroot : tree.isNull = false) :
    entersFrom (NearIterator.ShouldIncludeSubtree box) tree [] = true ∧
    (∀ p side, entersFrom (NearIterator.ShouldIncludeSubtree box) tree (p ++ [side]) = true ↔
      entersFrom (NearIterator.ShouldIncludeSubtree box) tree p = true ∧
        ∃ r, (tree.nodeAt (p ++ [side])).GetRect = some r ∧ (box.Overlaps r ∨ box.Touches r)) ∧
    ∀ fuel, tree.allEntries.length + tree.size + 3 ≤ fuel →
      ∃ out, tree.nearTraversal box fuel = some out ∧
        (∀ p x, (p, x) ∈ out → entersFrom (NearIterator.ShouldIncludeSubtree box) tree p = true) ∧
        ∀ p v, (p, some v) ∈ out ↔
          entersFrom (NearIterator.ShouldIncludeSubtree box) tree p = true ∧ v ∈ tree.entriesAt p := by
  have hstart : entersFrom (NearIterator.ShouldIncludeSubtree box) tree [] = true := by
    simp [entersFrom, hroot]
  refine ⟨hstart, ?_, ?_⟩
  · intro p side
    rw [entersFrom_snoc _ (near_should_isNull box), Bool.and_eq_true, nodeAt_snoc, near_should_iff]
  · intro fuel hfuel
    have hlen := visited_length_le (NearIterator.ShouldIncludeSubtree box) (near_should_isNull box) tree
    obtain ⟨out, hout, hperm⟩ := traverse_begin (NearIterator.ShouldIncludeSubtree box) tree
      (near_should_isNull box) hroot fuel (by omega)
    have hmem : ∀ p v, (p, some v) ∈ out ↔
        entersFrom (NearIterator.ShouldIncludeSubtree box) tree p = true ∧ v ∈ tree.entriesAt p := by
      intro p v
      rw [hperm.mem_iff, List.mem_append]
      constructor
      · rintro (h | h)
        · split at h
          · simp at h
          · cases h
        · obtain ⟨e, he, heq⟩ := List.mem_map.1 h
          simp only [Prod.mk.injEq, Option.some.injEq] at heq
          obtain ⟨rfl, rfl⟩ := heq
          obtain ⟨q, hq, henter, hv⟩ := (visited_iff _ tree [] e.1 e.2).1 he
          rw [List.nil_append] at hq
          rw [hq]
          exact ⟨henter, hv⟩
      · rintro ⟨henter, hv⟩
        exact Or.inr (List.mem_map.2 ⟨(p, v), (visited_iff _ tree [] p v).2 ⟨p, rfl, henter, hv⟩, rfl⟩)
    refine ⟨out, hout, ?_, hmem⟩
    intro p x hx
    cases x with
    | some v => exact ((hmem p v).1 hx).1
    | none =>
      rw [hperm.mem_iff, List.mem_append] at hx
      rcases hx with h | h
      · split at h
        · simp only [List.mem_singleton, Prod.mk.injEq, and_true] at h
          rw [h]
          exact hstart
        · cases h
      · obtain ⟨e, _, heq⟩ := List.mem_map.1 h
        cases heq

/-- Witness of C24: a single node over `[0, 8)` with two entries, and the query
box `[100, 101)`, which is far from the domain of the root. -/
theorem Near_filters_children_witness :
    entersFrom (NearIterator.ShouldIncludeSubtree (⟨fun _ => 100, fun _ => 1⟩ : Rect 1)) twoEntries [] =
      true ∧
    (∀ p side, entersFrom (NearIterator.ShouldIncludeSubtree (⟨fun _ => 100, fun _ => 1⟩ : Rect 1))
        twoEntries (p ++ [side]) = true ↔
      entersFrom (NearIterator.ShouldIncludeSubtree (⟨fun _ => 100, fun _ => 1⟩ : Rect 1)) twoEntries p =
          true ∧
        ∃ r, (twoEntries.nodeAt (p ++ [side])).GetRect = some r ∧
          ((⟨fun _ => 100, fun _ => 1⟩ : Rect 1).Overlaps r ∨
            (⟨fun _ => 100, fun _ => 1⟩ : Rect 1).Touches r)) ∧
    ∀ fuel, twoEntries.allEntries.length + twoEntries.size + 3 ≤ fuel →
      ∃ out, twoEntries.nearTraversal (⟨fun _ => 100, fun _ => 1⟩ : Rect 1) fuel = some out ∧
        (∀ p x, (p, x) ∈ out →
          entersFrom (NearIterator.ShouldIncludeSubtree (⟨fun _ => 100, fun _ => 1⟩ : Rect 1))
            twoEntries p = true) ∧
        ∀ p v, (p, some v) ∈ out ↔
          entersFrom (NearIterator.ShouldIncludeSubtree (⟨fun _ => 100, fun _ => 1⟩ : Rect 1))
            twoEntries p = true ∧ v ∈ twoEntries.entriesAt p :=
  Near_filters_children twoEntries ⟨fun _ => 100, fun _ => 1⟩ rfl

end RectSearchTree

/-! ### The validity of an event and the order of its pair -/

theorem Rect.Touches_comm {N : Nat} (A B : Rect N) : A.Touches B ↔ B.Touches A := by
  unfold Rect.Touches
  constructor <;> rintro ⟨h, i, hi⟩ <;> refine ⟨fun j => ?_, i, ?_⟩
  · rw [max_comm, min_comm]; exact h j
  · rw [max_comm, min_comm]; exact hi
  · rw [max_comm, min_comm]; exact h j
  · rw [max_comm, min_comm]; exact hi

/-- C27, as stated, fails. Two unit squares side by side, in contact along the
first axis and at the same position 0 along the second, the first at rest and
the second with the velocity 1 along the second axis: at the time 0 the event
of the pair along the second axis is valid with the square at rest first and
is not valid with the pair in the other order. -/
theorem IsValid_depends_on_order :
    Collision.IsValid plane (Square.record 0 ⟨0, 0, 0, 0⟩) (Square.record 1 ⟨1, 0, 0, 1⟩)
        ⟨0, 1, 0, 1⟩ = true ∧
      Collision.IsValid plane (Square.record 1 ⟨1, 0, 0, 1⟩) (Square.record 0 ⟨0, 0, 0, 0⟩)
        ⟨1, 0, 0, 1⟩ = false := by
  decide

/-- C27 (amended): the validity of an event does not depend on the order of
the pair when the two bodies have different positions along the axis of the
event: for two records `a` and `b` at the addresses `x` and `y`, every time
and every axis `k` along which the positions differ, `IsValid` gives the same
answer for the event of `a` and `b` and for the event of `b` and `a`. -/
theorem IsValid_order {N : Nat} {Phys Obj : Type} (c : Collaborators N Phys Obj) (a b : Motion N Phys Obj) (x y : Nat)
    (time : Time) (dimension : Nat)
    (hne : c.position a.physics dimension ≠ c.position b.physics dimension) :
    Collision.IsValid c a b ⟨x, y, time, dimension⟩ =
      Collision.IsValid c b a ⟨y, x, time, dimension⟩ := by
  have hcomm := Rect.Touches_comm (c.GetRectAfterTime a.physics (time - a.Time))
    (c.GetRectAfterTime b.physics (time - b.Time))
  simp only [Collision.IsValid]
  by_cases htouch : (c.GetRectAfterTime a.physics (time - a.Time)).Touches
      (c.GetRectAfterTime b.physics (time - b.Time))
  · rw [if_neg (not_not.2 htouch), if_neg (not_not.2 (hcomm.1 htouch))]
    rcases lt_or_gt_of_ne hne with hlt | hgt
    · rw [if_pos hlt, if_neg (not_lt.2 (le_of_lt hlt))]
    · rw [if_neg (not_lt.2 (le_of_lt hgt)), if_pos hgt]
  · rw [if_pos htouch, if_pos (fun h => htouch (hcomm.2 h))]

/-- Witness of C27 (amended): a body at 0 that moves at 10 units per second
and a body at rest at 50. -/
theorem IsValid_order_witness :
    Collision.IsValid (line fun _ _ _ => []) (Body.record 1 ⟨0, 10, 10⟩) (Body.record 0 ⟨50, 10, 0⟩)
        ⟨1, 0, 4000000, 0⟩ =
      Collision.IsValid (line fun _ _ _ => []) (Body.record 0 ⟨50, 10, 0⟩) (Body.record 1 ⟨0, 10, 10⟩)
        ⟨0, 1, 4000000, 0⟩ :=
  IsValid_order (line fun _ _ _ => []) (Body.record 1 ⟨0, 10, 10⟩) (Body.record 0 ⟨50, 10, 0⟩) 1 0
    4000000 0 (by decide)

namespace Space

variable {N : Nat} {Phys Obj : Type}

/-! ### The records and the index between two steps -/

theorem Insert_result_isNull {Rep : Type} {M : Nat} (root inserted : RectSearchTree M Rep)
    (box : Rect M) (obj : Rep) (handle : RectSearchTree.Iterator)
    (h : RectSearchTree.Insert root box obj = some (inserted, handle)) : inserted.isNull = false := by
  have hroot := RectSearchTree.Insert_isNull root inserted box obj handle h
  obtain ⟨p, l, _, _, _, _, hins⟩ := RectSearchTree.Insert_eq root box obj hroot
  rw [h, Option.some.injEq, Prod.mk.injEq] at hins
  rw [hins.1, RectSearchTree.setReps_isNull]
  exact hroot

theorem Erase_result_isNull {Rep : Type} {M : Nat} (root erased : RectSearchTree M Rep)
    (it : RectSearchTree.Iterator) (h : RectSearchTree.Erase root it = some erased) :
    erased.isNull = root.isNull := by
  unfold RectSearchTree.Erase at h
  cases hq : it.node_queue_ with
  | nil => rw [hq] at h; cases h
  | cons subtree rest =>
    rw [hq] at h
    simp only at h
    cases hn : root.nodeAt subtree with
    | null => rw [hn] at h; cases h
    | node r a b reps_ =>
      rw [hn] at h
      simp only at h
      cases he : reps_.erase it.list_iterator_ with
      | none => rw [he] at h; cases h
      | some l =>
        simp only [he, Option.map_some', Option.some.injEq] at h
        rw [← h]
        exact RectSearchTree.setReps_isNull _ _ _

theorem Add_idle (s added : Space N Phys Obj) (object : Obj) (physics : Phys) (a : Nat)
    (hc : s.Consistent) (hdepth : s.advance_time_call_depth_ = 0) (hroot : s.tree_.isNull = false)
    (hflags : ∀ b m, s.motion b = some m → m.marked_for_removal = false)
    (h : s.Add object physics = some (added, a)) :
    added.Consistent ∧ added.advance_time_call_depth_ = 0 ∧ added.tree_.isNull = false ∧
      ∀ b m, added.motion b = some m → m.marked_for_removal = false := by
  obtain ⟨added1, tree, handle, hadd, hins, htree, hcells, hd, _, _, hcons⟩ :=
    Add_spec s object physics hroot
  rw [h, Option.some.injEq, Prod.mk.injEq] at hadd
  obtain ⟨rfl, rfl⟩ := hadd
  refine ⟨hcons hc, hd.trans hdepth, ?_, ?_⟩
  · rw [htree]
    exact Insert_result_isNull _ _ _ _ _ hins
  · intro b m hb
    have hb1 : added.motions_.cells.lookup b = some m := by
      simpa [motion, StdList.deref] using hb
    rw [hcells] at hb1
    by_cases hba : b = freshAddr s.motions_.cells
    · subst hba
      simp only [List.lookup_cons, beq_self_eq_true, Option.some.injEq] at hb1
      rw [← hb1]
    · have hbeq : (b == freshAddr s.motions_.cells) = false := by simpa using hba
      simp only [List.lookup_cons, hbeq] at hb1
      exact hflags b m (by simpa [motion, StdList.deref] using hb1)

theorem Remove_idle (s removed : Space N Phys Obj) (a : Nat)
    (hc : s.Consistent) (hdepth : s.advance_time_call_depth_ = 0) (hroot : s.tree_.isNull = false)
    (hflags : ∀ b m, s.motion b = some m → m.marked_for_removal = false)
    (h : s.Remove a = some removed) :
    removed.Consistent ∧ removed.advance_time_call_depth_ = 0 ∧ removed.tree_.isNull = false ∧
      ∀ b m, removed.motion b = some m → m.marked_for_removal = false := by
  have hnot : ¬ s.advance_time_call_depth_ > 0 := by omega
  simp only [Remove, hnot, if_false] at h
  cases hr : s.RemoveInternal a with
  | none => rw [hr] at h; cases h
  | some r =>
  obtain ⟨r1, following⟩ := r
  simp only [hr, Option.map_some', Option.some.injEq] at h
  subst h
  cases hm : s.motion a with
  | none => simp [RemoveInternal, hm] at hr
  | some m =>
    obtain ⟨r2, f2, tree, hr2, hrem, htree, _, hmotion, _, _, _, hd, _, hcons⟩ :=
      RemoveInternal_spec s a m hm (hc.1 a m hm)
    rw [hr, Option.some.injEq, Prod.mk.injEq] at hr2
    obtain ⟨rfl, rfl⟩ := hr2
    refine ⟨hcons hc, hd.trans hdepth, ?_, ?_⟩
    · show r1.tree_.isNull = false
      rw [htree, Erase_result_isNull _ _ _ hrem]
      exact hroot
    · intro b mb hb
      have hb1 : r1.motion b = some mb := hb
      rw [hmotion b] at hb1
      by_cases hba : b = a
      · simp [hba] at hb1
      · simp only [hba, if_false] at hb1
        exact hflags b mb hb1

theorem run_idle (ops : List (Op Phys Obj)) :
    ∀ s reached : Space N Phys Obj, s.Consistent → s.advance_time_call_depth_ = 0 →
      s.tree_.isNull = false → (∀ b m, s.motion b = some m → m.marked_for_removal = false) →
      run s ops = some reached →
      reached.Consistent ∧ reached.advance_time_call_depth_ = 0 ∧ reached.tree_.isNull = false ∧
        ∀ b m, reached.motion b = some m → m.marked_for_removal = false := by
  induction ops with
  | nil =>
    intro s reached hc hd hroot hflags h
    simp only [run, Option.some.injEq] at h
    subst h
    exact ⟨hc, hd, hroot, hflags⟩
  | cons op ops ih =>
    intro s reached hc hd hroot hflags h
    cases op with
    | Add object physics =>
      simp only [run] at h
      cases hadd : s.Add object physics with
      | none => rw [hadd] at h; cases h
      | some r =>
        obtain ⟨added, a⟩ := r
        rw [hadd] at h
        obtain ⟨h1, h2, h3, h4⟩ := Add_idle s added object physics a hc hd hroot hflags hadd
        exact ih added reached h1 h2 h3 h4 h
    | Remove iterator =>
      simp only [run] at h
      cases hrem : s.Remove iterator with
      | none => rw [hrem] at h; cases h
      | some removed =>
        rw [hrem] at h
        obtain ⟨h1, h2, h3, h4⟩ := Remove_idle s removed iterator hc hd hroot hflags hrem
        exact ih removed reached h1 h2 h3 h4 h

end Space

namespace Space

variable {N : Nat} {Phys Obj : Type}

/-- C28: the index and the records agree in every state that `Add` and
`Remove` calls reach from a new space, the dimension being at least 1. In
such a state the call depth is 0; the index handle of every record designates
an entry whose payload is the record, and no record is flagged; the index
holds one entry per record and no other, the records being distinct. `Add`
then returns: it inserts one entry, with the zero box and the new record as
payload, and puts the new record, not flagged and with the handle of that
entry, at the front of the list. `Remove` on a record of the list returns:
the entry that the handle of the record designates is erased from the index
first, which leaves the index without an entry for the record, and then the
record is erased from the list. -/
theorem run_consistent (rect : Rect N) (ops : List (Op Phys Obj)) (s : Space N Phys Obj)
    (hN : 1 ≤ N) (h : run (create rect) ops = some s) :
    s.advance_time_call_depth_ = 0 ∧
    (∀ a m, s.motion a = some m →
      m.tree_iterator.deref s.tree_ = some a ∧ m.marked_for_removal = false) ∧
    s.tree_.allEntries.Perm s.addresses ∧ s.addresses.Nodup ∧
    (∀ object physics, ∃ added tree handle,
      s.Add object physics = some (added, freshAddr s.motions_.cells) ∧
      RectSearchTree.Insert s.tree_ { pos := fun _ => 0, size := fun _ => 0 } (freshAddr s.motions_.cells) =
        some (tree, handle) ∧
      added.tree_ = tree ∧ tree.allEntries.Perm (freshAddr s.motions_.cells :: s.tree_.allEntries) ∧
      added.motions_.cells = (freshAddr s.motions_.cells,
        { object := object, physics := physics, enclosing_rect := { pos := fun _ => 0, size := fun _ => 0 },
          tree_iterator := handle, marked_for_removal := false }) :: s.motions_.cells) ∧
    ∀ a m, s.motion a = some m → ∃ tree motions,
      RectSearchTree.Erase s.tree_ m.tree_iterator = some tree ∧
      s.tree_.allEntries.Perm (a :: tree.allEntries) ∧ a ∉ tree.allEntries ∧
      ({ s with tree_ := tree } : Space N Phys Obj).motion a = some m ∧
      ({ s with tree_ := tree } : Space N Phys Obj).motions_.erase (some a) = some motions ∧
      motions.cells.map Prod.fst = s.addresses.filter (fun b => decide (b ≠ a)) ∧
      s.Remove a =
        some (({ s with tree_ := tree, motions_ := motions } : Space N Phys Obj).observe (Call.Remove a)) := by
  have hroot0 : (create rect : Space N Phys Obj).tree_.isNull = false := by
    simp only [create, RectSearchTree.Create_isNull, decide_eq_false_iff_not]
    omega
  obtain ⟨hc, hdepth, hroot, hflags⟩ := run_idle ops (create rect) s (Consistent_create rect) rfl hroot0
    (fun b m hb => by simp [motion, create, StdList.deref, StdList.nil] at hb) h
  refine ⟨hdepth, fun a m hm => ⟨hc.1 a m hm, hflags a m hm⟩, hc.2, addresses_nodup s, ?_, ?_⟩
  · intro object physics
    obtain ⟨added, tree, handle, hadd, hins, htree, hcells, _, _, _, hcons⟩ :=
      Add_spec s object physics hroot
    refine ⟨added, tree, handle, hadd, hins, htree, ?_, hcells⟩
    have hperm := (hcons hc).2
    have haddr : added.addresses = freshAddr s.motions_.cells :: s.addresses := by
      simp only [addresses, hcells, List.map_cons]
    rw [htree, haddr] at hperm
    exact hperm.trans (List.Perm.cons _ hc.2.symm)
  · intro a m hm
    obtain ⟨removed, following, tree, hrem, herase, htree, haddr, _, hperm, _, _, _, _, _⟩ :=
      RemoveInternal_spec s a m hm (hc.1 a m hm)
    have herase1 : RectSearchTree.Erase s.tree_ m.tree_iterator = some tree := herase
    have hnodup : (a :: tree.allEntries).Nodup := by
      rw [← htree]
      exact (hperm.nodup_iff).1 ((hc.2.nodup_iff).2 (addresses_nodup s))
    cases hl : s.motions_.erase (some a) with
    | none => simp [RemoveInternal, hm, herase1, hl] at hrem
    | some motions =>
      cases hn : nextCell s.motions_.cells a with
      | none => simp [RemoveInternal, hm, herase1, hl, hn] at hrem
      | some next =>
        simp only [RemoveInternal, hm, herase1, hl, hn, Option.some.injEq, Prod.mk.injEq] at hrem
        have hnot : ¬ s.advance_time_call_depth_ > 0 := by omega
        refine ⟨tree, motions, herase1, by rw [← htree]; exact hperm, (List.nodup_cons.1 hnodup).1, hm, hl,
          ?_, ?_⟩
        · rw [← haddr, ← hrem.1]
          rfl
        · simp only [Remove, hnot, if_false, RemoveInternal, hm, herase1, hl, hn, Option.map_some']

/-- Witness of C28: the sample scene of two bodies, reached by two `Add`
calls. -/
theorem run_consistent_witness :
    twoBodies.advance_time_call_depth_ = 0 ∧
    (∀ a m, twoBodies.motion a = some m →
      m.tree_iterator.deref twoBodies.tree_ = some a ∧ m.marked_for_removal = false) ∧
    twoBodies.tree_.allEntries.Perm twoBodies.addresses ∧ twoBodies.addresses.Nodup ∧
    (∀ object physics, ∃ added tree handle,
      twoBodies.Add object physics = some (added, freshAddr twoBodies.motions_.cells) ∧
      RectSearchTree.Insert twoBodies.tree_ { pos := fun _ => 0, size := fun _ => 0 }
          (freshAddr twoBodies.motions_.cells) = some (tree, handle) ∧
      added.tree_ = tree ∧
      tree.allEntries.Perm (freshAddr twoBodies.motions_.cells :: twoBodies.tree_.allEntries) ∧
      added.motions_.cells = (freshAddr twoBodies.motions_.cells,
        { object := object, physics := physics, enclosing_rect := { pos := fun _ => 0, size := fun _ => 0 },
          tree_iterator := handle, marked_for_removal := false }) :: twoBodies.motions_.cells) ∧
    ∀ a m, twoBodies.motion a = some m → ∃ tree motions,
      RectSearchTree.Erase twoBodies.tree_ m.tree_iterator = some tree ∧
      twoBodies.tree_.allEntries.Perm (a :: tree.allEntries) ∧ a ∉ tree.allEntries ∧
      ({ twoBodies with tree_ := tree } : Space 1 Body Nat).motion a = some m ∧
      ({ twoBodies with tree_ := tree } : Space 1 Body Nat).motions_.erase (some a) = some motions ∧
      motions.cells.map Prod.fst = twoBodies.addresses.filter (fun b => decide (b ≠ a)) ∧
      twoBodies.Remove a =
        some (({ twoBodies with tree_ := tree, motions_ := motions } : Space 1 Body Nat).observe
          (Call.Remove a)) :=
  run_consistent ⟨fun _ => 0, fun _ => 100⟩
    ([Op.Add 0 ⟨50, 10, 0⟩, Op.Add 1 ⟨0, 10, 10⟩] : List (Op Body Nat)) twoBodies (by decide) rfl

end Space

/-! ### The loop of a step, one iteration at a time -/

theorem forall₂_mem_left {α β : Type} {R : α → β → Prop} {l1 : List α} {l2 : List β}
    (h : List.Forall₂ R l1 l2) : ∀ x ∈ l1, ∃ y ∈ l2, R x y := by
  induction h with
  | nil => intro x hx; cases hx
  | cons hxy _ ih =>
    intro x hx
    rcases List.mem_cons.1 hx with rfl | hx
    · exact ⟨_, List.mem_cons_self _ _, hxy⟩
    · obtain ⟨y, hy, hr⟩ := ih x hx
      exact ⟨y, List.mem_cons_of_mem _ hy, hr⟩

theorem pushedEvents_mem (calls : List Call) (e : Collision) :
    e ∈ Space.pushedEvents calls ↔
      Call.GetCollisionTime e.motion_a e.motion_b e.time e.dimension ∈ calls ∧ 0 ≤ e.time := by
  induction calls with
  | nil => simp [Space.pushedEvents]
  | cons call calls ih =>
    cases call with
    | GetCollisionTime a b time dimension =>
      by_cases ht : time < 0
      · simp only [Space.pushedEvents, ht, if_true, ih, List.mem_cons, Call.GetCollisionTime.injEq]
        constructor
        · rintro ⟨h1, h2⟩
          exact ⟨Or.inr h1, h2⟩
        · rintro ⟨(⟨_, _, h3, _⟩ | h1), h2⟩
          · rw [h3] at h2
            exact absurd ht (not_lt.2 h2)
          · exact ⟨h1, h2⟩
      · simp only [Space.pushedEvents, ht, if_false, ih, List.mem_cons, Call.GetCollisionTime.injEq]
        constructor
        · rintro (rfl | ⟨h1, h2⟩)
          · exact ⟨Or.inl ⟨rfl, rfl, rfl, rfl⟩, by simpa using ht⟩
          · exact ⟨Or.inr h1, h2⟩
        · rintro ⟨(⟨h1, h2, h3, h4⟩ | h1), h5⟩
          · left
            cases e
            simp only at h1 h2 h3 h4
            subst h1 h2 h3 h4
            rfl
          · exact Or.inr ⟨h1, h5⟩
    | Update r dt => simp [Space.pushedEvents, ih]
    | OnCollideWith x y t => simp [Space.pushedEvents, ih]
    | ElasticCollision1D x y k => simp [Space.pushedEvents, ih]
    | Remove it => simp [Space.pushedEvents, ih]

namespace Space
variable {N : Nat} {Phys Obj : Type}

theorem resolveLoop_succ (c : Collaborators N Phys Obj) (new_time_seconds : Time) (fuel : Nat)
    (collision : Collision) (rest : CollisionQueue) (s : Space N Phys Obj) :
    resolveLoop c new_time_seconds (fuel + 1) (collision :: rest) s =
      match resolveStep c new_time_seconds (collision :: rest) s with
      | none => none
      | some (queue, s1) => resolveLoop c new_time_seconds fuel queue s1 := by
  simp only [resolveLoop, resolveStep]
  cases s.motion collision.motion_a with
  | none => rfl
  | some a =>
    cases s.motion collision.motion_b with
    | none => rfl
    | some b =>
      simp only
      split
      · rfl
      · cases resolve c new_time_seconds collision (collision :: rest) s with
        | none => rfl
        | some r => rfl

theorem AdvanceTime_enterLoop (c : Collaborators N Phys Obj) (fuel : Nat) (new_time_seconds : Time)
    (s : Space N Phys Obj) :
    AdvanceTime c fuel new_time_seconds s =
      match enterLoop c new_time_seconds s with
      | none => none
      | some (queue, seeded) =>
        match resolveLoop c new_time_seconds fuel queue seeded with
        | none => none
        | some resolved =>
          match flush ({ resolved with time_seconds_ := new_time_seconds } : Space N Phys Obj).addresses
              { resolved with time_seconds_ := new_time_seconds } with
          | none => none
          | some flushed =>
            match commit c new_time_seconds flushed.addresses flushed with
            | none => none
            | some committed =>
              some { committed with advance_time_call_depth_ := committed.advance_time_call_depth_ - 1 } := by
  simp only [AdvanceTime, enterLoop]
  all_goals
    cases predict c new_time_seconds
        ({ s with advance_time_call_depth_ := s.advance_time_call_depth_ + 1 } : Space N Phys Obj).addresses
        { s with advance_time_call_depth_ := s.advance_time_call_depth_ + 1 } with
    | none => rfl
    | some predicted =>
      simp only

end Space

namespace Space

variable {N : Nat} {Phys Obj : Type}

theorem resolve_calls (c : Collaborators N Phys Obj) (new_time_seconds : Time) (x y : Nat)
    (time : Time) (dimension : Nat) (queue : CollisionQueue) (s : Space N Phys Obj)
    (hc : s.Consistent) (hdepth : 0 < s.advance_time_call_depth_) (hne : x ≠ y)
    {ox oy : Obj} {px py : Phys} {ex ey : Rect (N + 1)}
    (hx : s.bodyAt x = some (ox, px, ex)) (hy : s.bodyAt y = some (oy, py, ey))
    (hvalid_x : ∀ a ∈ c.OnCollideWith ox oy time, a ∈ s.addresses)
    (hvalid_y : ∀ a ∈ c.OnCollideWith oy ox time, a ∈ s.addresses)
    (hdef : resolve c new_time_seconds ⟨x, y, time, dimension⟩ queue s ≠ none) :
    ∃ (finds : List Call) (s1 : Space N Phys Obj),
      resolve c new_time_seconds ⟨x, y, time, dimension⟩ queue s =
        some (pushAll queue (pushedEvents finds), s1) ∧
      Evolves ([Call.Update x (time - ofMillis (ex.pos (Fin.last N))),
          Call.Update y (time - ofMillis (ey.pos (Fin.last N))), Call.OnCollideWith x y time] ++
        (c.OnCollideWith ox oy time).map Call.Remove ++ [Call.OnCollideWith y x time] ++
        (c.OnCollideWith oy ox time).map Call.Remove ++
        [Call.ElasticCollision1D x y dimension] ++ finds) s s1 ∧
      s1.bodyAt x = some (ox,
        (c.ElasticCollision1D (c.Update px (time - ofMillis (ex.pos (Fin.last N))))
          (c.Update py (time - ofMillis (ey.pos (Fin.last N)))) dimension).1,
        Motion.sweptRect c (c.ElasticCollision1D (c.Update px (time - ofMillis (ex.pos (Fin.last N))))
          (c.Update py (time - ofMillis (ey.pos (Fin.last N)))) dimension).1 time new_time_seconds) ∧
      s1.bodyAt y = some (oy,
        (c.ElasticCollision1D (c.Update px (time - ofMillis (ex.pos (Fin.last N))))
          (c.Update py (time - ofMillis (ey.pos (Fin.last N)))) dimension).2,
        Motion.sweptRect c (c.ElasticCollision1D (c.Update px (time - ofMillis (ex.pos (Fin.last N))))
          (c.Update py (time - ofMillis (ey.pos (Fin.last N)))) dimension).2 time new_time_seconds) ∧
      (∀ b, b ≠ x → b ≠ y → s1.bodyAt b = s.bodyAt b) ∧
      (∀ call ∈ finds, ∃ r1 r2 o1 p1 e1 o2 p2 e2, (r1 = x ∨ r1 = y) ∧ r1 ≠ r2 ∧
        s1.bodyAt r1 = some (o1, p1, e1) ∧ s1.bodyAt r2 = some (o2, p2, e2) ∧
        call = Call.GetCollisionTime r1 r2
          (c.GetCollisionTime p1 (ofMillis (e1.pos (Fin.last N))) p2 (ofMillis (e2.pos (Fin.last N)))).1
          (c.GetCollisionTime p1 (ofMillis (e1.pos (Fin.last N))) p2 (ofMillis (e2.pos (Fin.last N)))).2) ∧
      ∀ o1 p1 e1 o2 p2 e2, s1.bodyAt x = some (o1, p1, e1) → s1.bodyAt y = some (o2, p2, e2) →
        (e1.Overlaps e2 ∨ e1.Touches e2) →
        Call.GetCollisionTime x y
          (c.GetCollisionTime p1 (ofMillis (e1.pos (Fin.last N))) p2 (ofMillis (e2.pos (Fin.last N)))).1
          (c.GetCollisionTime p1 (ofMillis (e1.pos (Fin.last N))) p2 (ofMillis (e2.pos (Fin.last N)))).2 ∈
            finds := by
  have hxy : y ≠ x := Ne.symm hne
  -- 1. positions
  obtain ⟨s1, h1, hx1, ho1⟩ := updatePositionToTime_total c s x time hx
  obtain ⟨m1, hm1, e1⟩ := updatePositionToTime_evolves c _ _ _ _ h1
  have hy1 : s1.bodyAt y = some (oy, py, ey) := by rw [ho1 y hxy]; exact hy
  obtain ⟨s2, h2, hy2, ho2⟩ := updatePositionToTime_total c s1 y time hy1
  obtain ⟨m2, hm2, e2⟩ := updatePositionToTime_evolves c _ _ _ _ h2
  have hx2 := (ho2 x hne).trans hx1
  have e12 := e1.trans e2
  have ht1 : m1.Time = ofMillis (ex.pos (Fin.last N)) := by
    have := bodyAt_of_motion hm1
    rw [hx, Option.some.injEq, Prod.mk.injEq, Prod.mk.injEq] at this
    unfold Motion.Time
    rw [← this.2.2]
  have ht2 : m2.Time = ofMillis (ey.pos (Fin.last N)) := by
    have := bodyAt_of_motion hm2
    rw [hy1, Option.some.injEq, Prod.mk.injEq, Prod.mk.injEq] at this
    unfold Motion.Time
    rw [← this.2.2]
  rw [ht1, ht2] at e12
  -- 2. notifications
  have hd2 : 0 < s2.advance_time_call_depth_ := by rw [e12.depth]; exact hdepth
  obtain ⟨s3, h3, hb3, e3⟩ := notify_total c s2 x y time hd2 hx2 hy2
    (fun a ha => by rw [e12.addresses]; exact hvalid_x a ha)
  have e13 := e12.trans e3
  have hd3 : 0 < s3.advance_time_call_depth_ := by rw [e13.depth]; exact hdepth
  obtain ⟨s4, h4, hb4, e4⟩ := notify_total c s3 y x time hd3 ((hb3 y).trans hy2) ((hb3 x).trans hx2)
    (fun a ha => by rw [e13.addresses]; exact hvalid_y a ha)
  have e14 := e13.trans e4
  have hx4 := ((hb4 x).trans (hb3 x)).trans hx2
  have hy4 := ((hb4 y).trans (hb3 y)).trans hy2
  -- 3. response and swept boxes
  obtain ⟨s5, h5, hx5, hy5, ho5⟩ := elasticCollision_total c s4 x y dimension hne hx4 hy4
  have e15 := e14.trans (elasticCollision_evolves c _ _ _ _ _ h5)
  obtain ⟨s6, h6, hx6, ho6, _, _, e6⟩ := updateEnclosingRect_total c s5 x time new_time_seconds
    (e15.consistent hc) hx5
  have e16 := e15.trans e6
  have hy6 := (ho6 y hxy).trans hy5
  obtain ⟨s7, h7, hy7, ho7, hlocy, _, e7⟩ := updateEnclosingRect_total c s6 y time new_time_seconds
    (e16.consistent hc) hy6
  have e17 := e16.trans e7
  have hx7 := (ho7 x hne).trans hx6
  -- 4. new collisions
  have hdef7 : FindCollisions c s7 queue x ≠ none := by
    intro h8
    apply hdef
    simp only [resolve, h1, h2, h3, h4, h5, h6, h7, h8]
  have hne7 := FindCollisions_defined c s7 queue x (e17.consistent hc) hdef7
  obtain ⟨cand8, calls8, s8, h8, hm8, htree8, e8, _, _, hnear8, hf8⟩ :=
    FindCollisions_total c s7 queue x (e17.consistent hc) hne7 hx7
  have e18 := e17.trans e8
  have hb8 : ∀ b, s8.bodyAt b = s7.bodyAt b := bodyAt_congr hm8
  obtain ⟨cand9, calls9, s9, h9, hm9, _, e9, _, _, _, hf9⟩ :=
    FindCollisions_total c s8 (pushAll queue (pushedEvents calls8)) y (e18.consistent hc)
      (by rw [htree8]; exact hne7) ((hb8 y).trans hy7)
  have hb9 : ∀ b, s9.bodyAt b = s7.bodyAt b := fun b => (bodyAt_congr hm9 b).trans (hb8 b)
  refine ⟨calls8 ++ calls9, s9, ?_, ((e18.trans e9).cast (by simp)), (hb9 x).trans hx7,
    (hb9 y).trans hy7, ?_, ?_, ?_⟩
  · simp only [resolve, h1, h2, h3, h4, h5, h6, h7, h8, h9, pushedEvents_append, pushAll_append]
  · intro b hbx hby
    rw [hb9 b, ho7 b hby, ho6 b hbx, ho5 b hbx hby, hb4 b, hb3 b, ho2 b hby, ho1 b hbx]
  · intro call hcall
    rcases List.mem_append.1 hcall with hm | hm
    · obtain ⟨b, hb, o2, p2, e2, hbody, heq⟩ := forall₂_mem_right hf8 call hm
      have hbx : b ≠ x := by simpa using (List.mem_filter.1 hb).2
      exact ⟨x, b, _, _, _, o2, p2, e2, Or.inl rfl, Ne.symm hbx, (hb9 x).trans hx7,
        (hb9 b).trans hbody, heq⟩
    · obtain ⟨b, hb, o2, p2, e2, hbody, heq⟩ := forall₂_mem_right hf9 call hm
      have hby : b ≠ y := by simpa using (List.mem_filter.1 hb).2
      exact ⟨y, b, _, _, _, o2, p2, e2, Or.inr rfl, Ne.symm hby, (hb9 y).trans hy7,
        (hb9 b).trans ((hb8 b).symm.trans hbody), heq⟩
  · intro o1 p1 r1 o2 p2 r2 hbx hby hnear
    rw [(hb9 x).trans hx7, Option.some.injEq, Prod.mk.injEq, Prod.mk.injEq] at hbx
    rw [(hb9 y).trans hy7, Option.some.injEq, Prod.mk.injEq, Prod.mk.injEq] at hby
    obtain ⟨_, hp1, hr1⟩ := hbx
    obtain ⟨_, hp2, hr2⟩ := hby
    obtain ⟨my, hmy, _, _, hey⟩ := motion_of_bodyAt hy7
    rw [← hr1, ← hr2] at hnear
    have hcand : y ∈ cand8 := hnear8 y my hmy hlocy (by rw [hey]; exact hnear)
    have hfilter : y ∈ cand8.filter fun b => decide (b ≠ x) :=
      List.mem_filter.2 ⟨hcand, by simpa using hxy⟩
    obtain ⟨call, hcall, o3, p3, e3, hbody, heq⟩ := forall₂_mem_left hf8 y hfilter
    rw [hy7, Option.some.injEq, Prod.mk.injEq, Prod.mk.injEq] at hbody
    obtain ⟨_, hp3, hr3⟩ := hbody
    rw [← hp3, ← hr3] at heq
    rw [← hp1, ← hr1, ← hp2, ← hr2, ← heq]
    exact List.mem_append_left _ hcall

end Space

namespace Space

variable {N : Nat} {Phys Obj : Type}

/-! ### The notifications of an event -/

/-- C22: the notifications of one iteration of the loop of `AdvanceTime`, on a
queue whose top is the event of two distinct records `a` and `b` with the time
`t`, inside a step, the notifications calling `Remove` on records of the list
only, and the iteration being defined (the searches that end it find an entry
in the root of the index). When `IsValid()` holds the calls of the iteration
are, in order: the two calls `UpdatePositionToTime(t)`, that is `Update(t - Time())`
on `a` and on `b`; the notification of `a` about `b` with the time `t`, with
the `Remove` calls it makes; the notification of `b` about `a` with the time
`t`, with the `Remove` calls it makes; the elastic response; and the requests
for collision times of the two searches. So the notifications and responses
among them are exactly these two notifications and the response after them.
When `IsValid()` fails the iteration pops the event and makes no call: the
space is unchanged. -/
theorem resolveStep_notifies (c : Collaborators N Phys Obj) (new_time_seconds : Time)
    (collision : Collision) (rest : CollisionQueue) (s : Space N Phys Obj) (a b : Motion N Phys Obj)
    (hc : s.Consistent) (hdepth : 0 < s.advance_time_call_depth_)
    (hne : collision.motion_a ≠ collision.motion_b)
    (ha : s.motion collision.motion_a = some a) (hb : s.motion collision.motion_b = some b)
    (hremove_a : ∀ r ∈ c.OnCollideWith a.object b.object collision.time, r ∈ s.addresses)
    (hremove_b : ∀ r ∈ c.OnCollideWith b.object a.object collision.time, r ∈ s.addresses)
    (hdefined : (resolveStep c new_time_seconds (collision :: rest) s).isSome = true) :
    (collision.IsValid c a b = true →
      ∃ (finds : List Call) (s1 : Space N Phys Obj),
        resolveStep c new_time_seconds (collision :: rest) s =
          some ((pushAll (collision :: rest) (pushedEvents finds)).pop, s1) ∧
        s1.observed = s.observed ++
          ([Call.Update collision.motion_a (collision.time - a.Time),
              Call.Update collision.motion_b (collision.time - b.Time),
              Call.OnCollideWith collision.motion_a collision.motion_b collision.time] ++
            (c.OnCollideWith a.object b.object collision.time).map Call.Remove ++
            [Call.OnCollideWith collision.motion_b collision.motion_a collision.time] ++
            (c.OnCollideWith b.object a.object collision.time).map Call.Remove ++
            [Call.ElasticCollision1D collision.motion_a collision.motion_b collision.dimension] ++
            finds) ∧
        (∀ call ∈ finds, ∃ r1 r2 time dimension, call = Call.GetCollisionTime r1 r2 time dimension) ∧
        ([Call.Update collision.motion_a (collision.time - a.Time),
              Call.Update collision.motion_b (collision.time - b.Time),
              Call.OnCollideWith collision.motion_a collision.motion_b collision.time] ++
            (c.OnCollideWith a.object b.object collision.time).map Call.Remove ++
            [Call.OnCollideWith collision.motion_b collision.motion_a collision.time] ++
            (c.OnCollideWith b.object a.object collision.time).map Call.Remove ++
            [Call.ElasticCollision1D collision.motion_a collision.motion_b collision.dimension] ++
            finds).filter Call.isResolution =
          [Call.OnCollideWith collision.motion_a collision.motion_b collision.time,
            Call.OnCollideWith collision.motion_b collision.motion_a collision.time,
            Call.ElasticCollision1D collision.motion_a collision.motion_b collision.dimension]) ∧
    (collision.IsValid c a b = false →
      resolveStep c new_time_seconds (collision :: rest) s = some (rest, s)) := by
  constructor
  · intro hvalid
    obtain ⟨x, y, time, dimension⟩ := collision
    have hdef : resolve c new_time_seconds ⟨x, y, time, dimension⟩ (⟨x, y, time, dimension⟩ :: rest) s ≠
        none := by
      intro hnone
      simp only [resolveStep, ha, hb, hvalid, Bool.not_true, Bool.false_eq_true, if_false, hnone,
        Option.isSome_none] at hdefined
    obtain ⟨finds, s1, hres, e, _, _, _, hfinds, _⟩ := resolve_calls c new_time_seconds x y time dimension
      (⟨x, y, time, dimension⟩ :: rest) s hc hdepth hne (bodyAt_of_motion ha) (bodyAt_of_motion hb)
      hremove_a hremove_b hdef
    have hfinds1 : ∀ call ∈ finds, ∃ r1 r2 time dimension,
        call = Call.GetCollisionTime r1 r2 time dimension := by
      intro call hcall
      obtain ⟨r1, r2, _, _, _, _, _, _, _, _, _, _, heq⟩ := hfinds call hcall
      exact ⟨r1, r2, _, _, heq⟩
    refine ⟨finds, s1, ?_, e.observed, hfinds1, ?_⟩
    · simp only [resolveStep, ha, hb, hvalid, Bool.not_true, Bool.false_eq_true, if_false, hres]
    · simp only [List.filter_append, filter_isResolution_removes, filter_isResolution_finds finds hfinds1,
        List.append_nil]
      rfl
  · intro hinvalid
    simp only [resolveStep, ha, hb, hinvalid, Bool.not_false, if_true, CollisionQueue.pop, List.tail_cons]

end Space

/-- Witness of C22: the sample scene of three bodies inside a step, and the
event of the bodies 2 and 1 at 4 s. The iteration is defined: after the
response the swept box of the body 1 passes the edge of the line, and the
root of the index holds its record when the searches run. -/
theorem resolveStep_notifies_witness :
    (Space.resolveStep (line fun _ _ _ => []) 10000000 [⟨2, 1, 4000000, 0⟩] threeBodiesInStep).map
        (fun r => (r.1, r.2.observed, r.2.tree_.reps.values)) =
      some ([⟨1, 0, 6000000, 0⟩],
        [Call.Update 2 4000000, Call.Update 1 4000000, Call.OnCollideWith 2 1 4000000,
          Call.OnCollideWith 1 2 4000000, Call.ElasticCollision1D 2 1 0,
          Call.GetCollisionTime 2 1 (-1) 0, Call.GetCollisionTime 2 0 (-1) 0,
          Call.GetCollisionTime 1 2 (-1) 0, Call.GetCollisionTime 1 0 6000000 0], [1]) ∧
    ∃ a b : Motion 1 Body Nat,
      threeBodiesInStep.Consistent ∧ 0 < threeBodiesInStep.advance_time_call_depth_ ∧
      threeBodiesInStep.motion 2 = some a ∧ threeBodiesInStep.motion 1 = some b ∧
      ((⟨2, 1, 4000000, 0⟩ : Collision).IsValid (line fun _ _ _ => []) a b = true →
        ∃ (finds : List Call) (s1 : Space 1 Body Nat),
          Space.resolveStep (line fun _ _ _ => []) 10000000 [⟨2, 1, 4000000, 0⟩] threeBodiesInStep =
            some ((Space.pushAll [⟨2, 1, 4000000, 0⟩] (Space.pushedEvents finds)).pop, s1) ∧
          s1.observed = threeBodiesInStep.observed ++
            ([Call.Update 2 (4000000 - a.Time), Call.Update 1 (4000000 - b.Time),
                Call.OnCollideWith 2 1 4000000] ++
              ([] : List Nat).map Call.Remove ++ [Call.OnCollideWith 1 2 4000000] ++
              ([] : List Nat).map Call.Remove ++ [Call.ElasticCollision1D 2 1 0] ++ finds) ∧
          (∀ call ∈ finds, ∃ r1 r2 time dimension, call = Call.GetCollisionTime r1 r2 time dimension) ∧
          ([Call.Update 2 (4000000 - a.Time), Call.Update 1 (4000000 - b.Time),
                Call.OnCollideWith 2 1 4000000] ++
              ([] : List Nat).map Call.Remove ++ [Call.OnCollideWith 1 2 4000000] ++
              ([] : List Nat).map Call.Remove ++ [Call.ElasticCollision1D 2 1 0] ++ finds).filter
              Call.isResolution =
            [Call.OnCollideWith 2 1 4000000, Call.OnCollideWith 1 2 4000000,
              Call.ElasticCollision1D 2 1 0]) ∧
      ((⟨2, 1, 4000000, 0⟩ : Collision).IsValid (line fun _ _ _ => []) a b = false →
        Space.resolveStep (line fun _ _ _ => []) 10000000 [⟨2, 1, 4000000, 0⟩] threeBodiesInStep =
          some ([], threeBodiesInStep)) := by
  have hc : threeBodiesInStep.Consistent :=
    Space.Consistent_withBody _ _ _ (Space.Consistent_withBody _ _ _
      (Space.Consistent_withBody _ _ _ (Space.Consistent_create _)))
  obtain ⟨a, ha⟩ := Space.motion_of_mem (show 2 ∈ threeBodiesInStep.addresses by decide)
  obtain ⟨b, hb⟩ := Space.motion_of_mem (show 1 ∈ threeBodiesInStep.addresses by decide)
  exact ⟨by decide, a, b, hc, by decide, ha, hb,
    Space.resolveStep_notifies (line fun _ _ _ => []) 10000000 ⟨2, 1, 4000000, 0⟩ []
      threeBodiesInStep a b hc (by decide) (by decide) ha hb (fun r hr => by cases hr)
      (fun r hr => by cases hr) (by decide)⟩

/-! ### The event that `queue.pop()` removes -/

/-- C25 does not hold of the code. With the sample collaborators `staged`, the
loop of the step of `stagedScene` to 10 s starts with the events of the bodies
1 and 0 and of the bodies 0 and 1 at 5 s in the queue, and with the record of
the body 0 in the root of the index, where it stays. The first iteration reads
the event of 1 and 0 at 5 s from the top and resolves it; the two searches
push the events of 1 and 0 and of 0 and 1 at 3 s, which come before it in the
queue; `queue.pop()` then removes the event of 1 and 0 at 3 s, which no
iteration has examined, and the event that was resolved stays in the queue. -/
theorem pop_removes_new_event :
    (Space.enterLoop staged 10000000 stagedScene).map (fun r => (r.1, r.2.tree_.reps.values)) =
      some ([⟨1, 0, 5000000, 0⟩, ⟨0, 1, 5000000, 0⟩], [0]) ∧
    ((Space.enterLoop staged 10000000 stagedScene).bind fun r =>
        (Space.resolve staged 10000000 ⟨1, 0, 5000000, 0⟩ r.1 r.2).map
          (fun r => (r.1, r.2.tree_.reps.values))) =
      some ([⟨1, 0, 3000000, 0⟩, ⟨0, 1, 3000000, 0⟩, ⟨1, 0, 5000000, 0⟩, ⟨0, 1, 5000000, 0⟩], [0]) ∧
    ((Space.enterLoop staged 10000000 stagedScene).bind fun r =>
        (Space.resolveStep staged 10000000 r.1 r.2).map Prod.fst) =
      some [⟨0, 1, 3000000, 0⟩, ⟨1, 0, 5000000, 0⟩, ⟨0, 1, 5000000, 0⟩] := by
  decide

/-! ### The times of the collisions of a step -/

/-- C26, as stated, fails. In the sample scene of a body that approaches a
body at rest at the edge of the line, the contact is at 8 s; the step to 1 s
resolves it all the same: both bodies are notified with the time 8 s and
advanced by 8 s, and the last loop then calls `Update(-7 s)` on both, which
leaves the body 1 at 80 and takes the body 0, which has its velocity now, back
to 20. The root of the index holds the record of the body 0 throughout. -/
theorem collision_after_target :
    (Space.enterLoop (line fun _ _ _ => []) 1000000 approaching).map
        (fun r => (r.1, r.2.tree_.reps.values)) =
      some ([⟨1, 0, 8000000, 0⟩, ⟨0, 1, 8000000, 0⟩], [0]) ∧
    (Space.AdvanceTime (line fun _ _ _ => []) 10 1000000 approaching).map
        (fun s => (s.observed, s.physicsList, s.time_seconds_, s.tree_.reps.values)) =
      some ([Call.GetCollisionTime 1 0 8000000 0, Call.GetCollisionTime 0 1 8000000 0,
          Call.Update 1 8000000, Call.Update 0 8000000,
          Call.OnCollideWith 1 0 8000000, Call.OnCollideWith 0 1 8000000, Call.ElasticCollision1D 1 0 0,
          Call.GetCollisionTime 1 0 (-1) 0,
          Call.Update 1 (-7000000), Call.Update 0 (-7000000)],
        [(1, ⟨80, 10, 0⟩), (0, ⟨20, 10, 10⟩)], 1000000, [0]) := by
  decide

theorem notifiedTimes_mem (calls : List Call) (a b : Nat) (time : Time)
    (h : Call.OnCollideWith a b time ∈ calls) : time ∈ notifiedTimes calls := by
  induction calls with
  | nil => cases h
  | cons call calls ih =>
    rcases List.mem_cons.1 h with heq | hmem
    · rw [← heq]
      exact List.mem_cons_self _ _
    · cases call with
      | OnCollideWith x y t => exact List.mem_cons_of_mem _ (ih hmem)
      | Update r dt => exact ih hmem
      | ElasticCollision1D x y k => exact ih hmem
      | GetCollisionTime x y t k => exact ih hmem
      | Remove it => exact ih hmem

namespace Space
variable {N : Nat} {Phys Obj : Type}

theorem resolveLoop_times (c : Collaborators N Phys Obj) (new_time_seconds : Time) (fuel : Nat) :
    ∀ (queue : CollisionQueue) (s s1 : Space N Phys Obj), s.Consistent →
      0 < s.advance_time_call_depth_ → resolveLoop c new_time_seconds fuel queue s = some s1 →
      ∃ calls, Evolves calls s s1 ∧
        ∀ a b time, Call.OnCollideWith a b time ∈ calls →
          (∃ e ∈ queue, e.time = time) ∨ ∃ x y dimension, Call.GetCollisionTime x y time dimension ∈ calls := by
  induction fuel with
  | zero => intro queue s s1 _ _ h; simp [resolveLoop] at h
  | succ fuel ih =>
    intro queue s s1 hc hdepth h
    cases queue with
    | nil =>
      simp only [resolveLoop, Option.some.injEq] at h
      subst h
      exact ⟨[], Evolves.refl s, fun _ _ _ hmem => by cases hmem⟩
    | cons collision rest =>
      rw [resolveLoop_succ] at h
      cases hstep : resolveStep c new_time_seconds (collision :: rest) s with
      | none => rw [hstep] at h; cases h
      | some r =>
        obtain ⟨queue1, s2⟩ := r
        rw [hstep] at h
        simp only at h
        simp only [resolveStep] at hstep
        cases hma : s.motion collision.motion_a with
        | none => rw [hma] at hstep; cases hstep
        | some a =>
          cases hmb : s.motion collision.motion_b with
          | none => rw [hma, hmb] at hstep; cases hstep
          | some b =>
            rw [hma, hmb] at hstep
            simp only at hstep
            by_cases hvalid : collision.IsValid c a b = true
            · simp only [hvalid, Bool.not_true, Bool.false_eq_true, if_false] at hstep
              cases hr : resolve c new_time_seconds collision (collision :: rest) s with
              | none => rw [hr] at hstep; cases hstep
              | some resolved =>
                obtain ⟨queue2, s3⟩ := resolved
                rw [hr] at hstep
                simp only [Option.some.injEq, Prod.mk.injEq] at hstep
                obtain ⟨hq, hs⟩ := hstep
                subst hq hs
                obtain ⟨dt_a, dt_b, removed_a, removed_b, finds, e, hfinds, hq2⟩ :=
                  resolve_spec c _ _ _ _ _ _ hc hdepth hr
                obtain ⟨calls, e2, hcalls⟩ := ih _ _ _ (e.consistent hc)
                  (by rw [e.depth]; exact hdepth) h
                refine ⟨_, e.trans e2, ?_⟩
                intro x y time hmem
                rcases List.mem_append.1 hmem with hmem | hmem
                · left
                  refine ⟨collision, List.mem_cons_self _ _, ?_⟩
                  have hn := notifiedTimes_mem _ x y time hmem
                  have htrace := (resolve_trace collision.motion_a collision.motion_b dt_a dt_b
                    collision.time collision.dimension removed_a removed_b finds [] hfinds none).1
                  rw [List.append_nil] at htrace
                  rw [htrace] at hn
                  simp only [notifiedTimes, List.mem_cons, List.not_mem_nil, or_false, or_self] at hn
                  exact hn.symm
                · rcases hcalls x y time hmem with ⟨ev, hev, ht⟩ | ⟨p, q, k, hfound⟩
                  · have hev1 : ev ∈ queue2 := List.mem_of_mem_tail hev
                    rw [hq2] at hev1
                    rcases (pushAll_mem _ _ _).1 hev1 with hev2 | hev2
                    · right
                      refine ⟨ev.motion_a, ev.motion_b, ev.dimension, ?_⟩
                      rw [← ht]
                      exact List.mem_append_left _
                        (List.mem_append_right _ ((pushedEvents_mem finds ev).1 hev2).1)
                    · exact Or.inl ⟨ev, hev2, ht⟩
                  · exact Or.inr ⟨p, q, k, List.mem_append_right _ hfound⟩
            · simp only [hvalid, Bool.not_false, if_true, Option.some.injEq, Prod.mk.injEq] at hstep
              obtain ⟨hq, hs⟩ := hstep
              subst hq hs
              obtain ⟨calls, e2, hcalls⟩ := ih _ _ _ hc hdepth h
              refine ⟨calls, e2, ?_⟩
              intro x y time hmem
              rcases hcalls x y time hmem with ⟨ev, hev, ht⟩ | hfound
              · exact Or.inl ⟨ev, List.mem_of_mem_tail hev, ht⟩
              · exact Or.inr hfound

end Space

namespace Space

variable {N : Nat} {Phys Obj : Type}

/-- C26 (amended): the time of every collision that a step resolves is a time
that `GetCollisionTime` reported during that step: every notification among
the calls of a returning `AdvanceTime` carries a time that a request for a
collision time of the same step returned. `AdvanceTime` does not compare it
with the target time; so when every time that `GetCollisionTime` reports
during the step is no later than the target time, every notification of the
step has a time no later than the target time. -/
theorem AdvanceTime_event_times (c : Collaborators N Phys Obj) (fuel : Nat) (new_time_seconds : Time)
    (s advanced : Space N Phys Obj) (calls : List Call) (hc : s.Consistent)
    (hdepth : 0 ≤ s.advance_time_call_depth_)
    (h : AdvanceTime c fuel new_time_seconds s = some advanced)
    (hcalls : advanced.observed = s.observed ++ calls) :
    (∀ a b time, Call.OnCollideWith a b time ∈ calls →
      ∃ x y dimension, Call.GetCollisionTime x y time dimension ∈ calls) ∧
    ((∀ x y time dimension, Call.GetCollisionTime x y time dimension ∈ calls →
        time ≤ new_time_seconds) →
      ∀ a b time, Call.OnCollideWith a b time ∈ calls → time ≤ new_time_seconds) := by
  obtain ⟨predicted, queue, seeded, resolved, flushed, committed, hp, hs, hr, hf, hcm, hadv⟩ :=
    AdvanceTime_phases c fuel _ s advanced h
  obtain ⟨pc, _, _, pobs, pdepth, _⟩ := predict_all c _ s predicted hc hp
  obtain ⟨calls1, e1, _, _, hcalls1, hq1⟩ := seed_spec c _ _ _ _ _ hs
  have hd1 : 0 < seeded.advance_time_call_depth_ := by rw [e1.depth, pdepth]; omega
  obtain ⟨calls2, e2, htimes⟩ := resolveLoop_times c _ fuel _ _ _ (e1.consistent pc) hd1 hr
  have hct : ({ resolved with time_seconds_ := new_time_seconds } : Space N Phys Obj).Consistent :=
    e2.consistent (e1.consistent pc)
  obtain ⟨_, _, _, fobs, _, _⟩ := flush_spec _ _ _ hct hf
  have fobs : flushed.observed = resolved.observed := fobs
  obtain ⟨calls3, e3, hcalls3⟩ := commit_evolves c _ _ _ _ hcm
  have hobs : advanced.observed = s.observed ++ (calls1 ++ calls2 ++ calls3) := by
    rw [hadv]
    show committed.observed = _
    rw [e3.observed, fobs, e2.observed, e1.observed, pobs]
    simp only [List.append_assoc]
  have hcalls_eq : calls = calls1 ++ calls2 ++ calls3 := by
    rw [hcalls] at hobs
    exact List.append_cancel_left hobs
  have hfirst : ∀ a b time, Call.OnCollideWith a b time ∈ calls →
      ∃ x y dimension, Call.GetCollisionTime x y time dimension ∈ calls := by
    intro a b time hmem
    rw [hcalls_eq] at hmem ⊢
    rcases List.mem_append.1 hmem with hmem | hmem
    · rcases List.mem_append.1 hmem with hmem | hmem
      · obtain ⟨_, _, _, _, heq⟩ := hcalls1 _ hmem
        cases heq
      · rcases htimes a b time hmem with ⟨ev, hev, ht⟩ | ⟨x, y, k, hfound⟩
        · rw [hq1] at hev
          rcases (pushAll_mem _ _ _).1 hev with hev | hev
          · refine ⟨ev.motion_a, ev.motion_b, ev.dimension, ?_⟩
            rw [← ht]
            exact List.mem_append_left _ (List.mem_append_left _ ((pushedEvents_mem calls1 ev).1 hev).1)
          · cases hev
        · exact ⟨x, y, k, List.mem_append_left _ (List.mem_append_right _ hfound)⟩
    · obtain ⟨_, _, heq⟩ := hcalls3 _ hmem
      cases heq
  refine ⟨hfirst, ?_⟩
  intro hbound a b time hmem
  obtain ⟨x, y, k, hfound⟩ := hfirst a b time hmem
  exact hbound x y time k hfound

end Space

/-- Witness of C26 (amended): the step of the sample scene of two bodies to
10 s, with the collision at 4 s. -/
theorem AdvanceTime_event_times_witness :
    ∃ advanced calls, twoBodies.Consistent ∧ 0 ≤ twoBodies.advance_time_call_depth_ ∧
      Space.AdvanceTime (line fun _ _ _ => []) 10 10000000 twoBodies = some advanced ∧
      advanced.observed = twoBodies.observed ++ calls ∧
      (∀ a b time, Call.OnCollideWith a b time ∈ calls →
        ∃ x y dimension, Call.GetCollisionTime x y time dimension ∈ calls) ∧
      ((∀ x y time dimension, Call.GetCollisionTime x y time dimension ∈ calls →
          time ≤ 10000000) →
        ∀ a b time, Call.OnCollideWith a b time ∈ calls → time ≤ 10000000) := by
  obtain ⟨advanced, h⟩ := Option.isSome_iff_exists.1
    (show (Space.AdvanceTime (line fun _ _ _ => []) 10 10000000 twoBodies).isSome = true by decide)
  have hobs : advanced.observed = twoBodies.observed ++
      [Call.GetCollisionTime 1 0 4000000 0, Call.GetCollisionTime 0 1 4000000 0,
        Call.Update 1 4000000, Call.Update 0 4000000,
        Call.OnCollideWith 1 0 4000000, Call.OnCollideWith 0 1 4000000, Call.ElasticCollision1D 1 0 0,
        Call.GetCollisionTime 1 0 (-1) 0, Call.GetCollisionTime 0 1 (-1) 0,
        Call.Update 1 6000000, Call.Update 0 6000000] := by
    have h1 : (Space.AdvanceTime (line fun _ _ _ => []) 10 10000000 twoBodies).map
        (fun s => s.observed) = some (twoBodies.observed ++
          [Call.GetCollisionTime 1 0 4000000 0, Call.GetCollisionTime 0 1 4000000 0,
            Call.Update 1 4000000, Call.Update 0 4000000,
            Call.OnCollideWith 1 0 4000000, Call.OnCollideWith 0 1 4000000, Call.ElasticCollision1D 1 0 0,
            Call.GetCollisionTime 1 0 (-1) 0, Call.GetCollisionTime 0 1 (-1) 0,
            Call.Update 1 6000000, Call.Update 0 6000000]) := by decide
    rw [h] at h1
    exact Option.some.inj h1
  exact ⟨advanced, _, twoBodies_Consistent, by decide, h, hobs,
    Space.AdvanceTime_event_times _ 10 10000000 twoBodies advanced _ twoBodies_Consistent (by decide)
      h hobs⟩

/-! ### Steps whose searches start on a root without entries -/

/-- C16 does not hold of the code. In the sample scene of two bodies the
collision-time function reports the first contact at 4 s on the axis 0. The
step to 5 s places both swept boxes in child A of the index and leaves the
root without an entry; the near query of the first search then starts with a
step past the end of the empty entry list of the root, which the loop
dereferences, so that the step has no defined result, whatever the fuel. When
the same scene is stepped to 10 s the swept box of the moving body passes the
edge of the line, the root holds its record, and the step resolves exactly one
collision: one pair of notifications with the time 4 s and one response along
the axis 0. -/
theorem contact_search_past_end :
    twoBodies.time_seconds_ = 0 ∧
    twoBodies.physicsList = [(1, ⟨0, 10, 10⟩), (0, ⟨50, 10, 0⟩)] ∧
    Body.collisionTime ⟨0, 10, 10⟩ 0 ⟨50, 10, 0⟩ 0 = (4000000, 0) ∧
    (Space.predict (line fun _ _ _ => []) 5000000 twoBodies.addresses
        { twoBodies with advance_time_call_depth_ := twoBodies.advance_time_call_depth_ + 1 }).map
      (fun p => (p.tree_.reps.values, p.tree_.entriesAt [Side.a])) = some ([], [0, 1]) ∧
    ((Space.predict (line fun _ _ _ => []) 5000000 twoBodies.addresses
        { twoBodies with advance_time_call_depth_ := twoBodies.advance_time_call_depth_ + 1 }).bind
      fun p => (p.motion 1).bind fun m => p.tree_.nearTraversal m.enclosing_rect 10) =
        some [([], none), ([Side.a], some 0), ([Side.a], some 1)] ∧
    (∀ fuel, Space.AdvanceTime (line fun _ _ _ => []) fuel 5000000 twoBodies = none) ∧
    (Space.AdvanceTime (line fun _ _ _ => []) 10 10000000 twoBodies).map
        (fun s => s.observed.filter Call.isResolution) =
      some [Call.OnCollideWith 1 0 4000000, Call.OnCollideWith 0 1 4000000,
        Call.ElasticCollision1D 1 0 0] := by
  refine ⟨rfl, by decide, by decide, by decide, by decide, fun fuel => ?_, by decide⟩
  have h : (Space.enterLoop (line fun _ _ _ => []) 5000000 twoBodies).isSome = false := by decide
  rw [Space.AdvanceTime_enterLoop]
  cases hloop : Space.enterLoop (line fun _ _ _ => []) 5000000 twoBodies with
  | none => rfl
  | some r => rw [hloop] at h; cases h

end Engine2
